import Mathlib

/-! # Verification development for `butwhoistrace/strings`

A shallow embedding of the section parser (`internal/parser`), the string
scanner (`internal/scanner`), the XOR and Base64 recoverers, the classifier,
the entropy measure, the threat score and the only-list of the command line,
followed by theorems about them.

Conventions of the embedding

* a Go `[]byte` or `string` is a `List Byte` (`Byte = Fin 256`);
* Go `int` and `int64` are `Int` with an explicit two's-complement wrap
  (`wrap64`) wherever the source converts or adds; `uint16/32/64` are `Nat`
  with an explicit `% 2^w`;
* a function that can raise a run-time panic returns `Option`; `none` is the
  panic.  A slice expression `s[lo:hi]` is `slice arr lo hi`, where `arr` is
  the backing array of `s` up to its capacity, the bound that Go checks: it is
  `none` unless `0 ≤ lo ≤ hi ≤ len(arr)`.  The section parser is given the
  content of the file and what the backing array holds after it; in the
  scanners the bounds are positions of matches, which never pass the length
  of the buffer, and `arr` is the buffer;
* a Go map that the source ranges over is the list of its entries, and the
  function that ranges over it takes the order of the traversal as an
  argument (`CategorizeIn`, `GetSuspiciousGroupIn`, `scanner.ExtractIn`,
  `AssessIn`, `CompareIn`): Go leaves the order open and changes it from one
  call to the next; the function with the name of the source is the one for
  the order of the source;
* a `float64` that is only compared with constants is a rational number
  (`Label`); the value of `entropy.Calculate`, which needs `math.Log2`, is
  given by the relation `Calculate s H` over the real numbers, on top of the
  computable tables `runes`, `freq` and `probabilities`.
-/

set_option autoImplicit false

namespace Strings

/-! ## Bytes and machine integers -/

abbrev Byte := Fin 256

/-- Two's-complement reinterpretation of an integer as a Go `int64` / `int`
(64-bit platform). -/
def wrap64 (x : Int) : Int := (x + 2 ^ 63) % 2 ^ 64 - 2 ^ 63

/-- Go conversion `int(x)` / `int64(x)` of an unsigned 64-bit value. -/
def toInt64 (x : Nat) : Int := wrap64 (x : Int)

/-- Little-endian value of a byte slice: `binary.LittleEndian.UintN`. -/
def leNat : List Byte → Nat
  | [] => 0
  | b :: bs => b.val + 256 * leNat bs

/-- Big-endian value of a byte slice: `binary.BigEndian.UintN`. -/
def beNat (bs : List Byte) : Nat := leNat bs.reverse

/-- Value of a byte slice under a `binary.ByteOrder`; `little = true` is
`binary.LittleEndian`. -/
def orderUint (little : Bool) (bs : List Byte) : Nat :=
  if little then leNat bs else beNat bs

/-- Go slice expression `s[lo:hi]`, for `data` the backing array of `s` up to
its capacity, which is what bounds a slice expression; `none` is the run-time
panic for bounds outside it. -/
def slice (data : List Byte) (lo hi : Int) : Option (List Byte) :=
  if 0 ≤ lo ∧ lo ≤ hi ∧ hi ≤ (data.length : Int) then
    some ((data.drop lo.toNat).take (hi - lo).toNat)
  else none

/-- Bytes of an ASCII string literal of the source. -/
def str (s : String) : List Byte := s.toList.map (fun c => Fin.ofNat c.toNat)

/-! ## `internal/types.go` -/

structure SectionInfo where
  Name : List Byte
  Offset : Int
  Size : Int
  VirtualAddress : Nat
deriving DecidableEq, Repr

/-! ## `internal/parser/parser.go` -/

/-- The loop of `GetSectionForOffset`: `sec.Offset+sec.Size` is an `int64`
addition. -/
def GetSectionForOffset : List SectionInfo → Int → List Byte
  | [], _ => []
  | sec :: rest, offset =>
    if offset ≥ sec.Offset ∧ offset < wrap64 (sec.Offset + sec.Size) then sec.Name
    else GetSectionForOffset rest offset

/-- An open file: its contents and the current position. -/
structure File where
  data : List Byte
  pos : Nat
deriving Repr

/-- `f.Seek(off, 0)`. -/
def File.SeekSet (f : File) (off : Nat) : File := { f with pos := off }

/-- `f.Seek(d, 1)`. -/
def File.SeekCur (f : File) (d : Nat) : File := { f with pos := f.pos + d }

/-- `f.Read(buf)` on a fresh zeroed buffer of `n` bytes: the buffer after the
call, the number of bytes read, and the file advanced by that count.  A regular
file delivers every byte up to the end of the file. -/
def File.Read (f : File) (n : Nat) : List Byte × Nat × File :=
  let got := (f.data.drop f.pos).take n
  (got ++ List.replicate (n - got.length) 0, got.length, { f with pos := f.pos + got.length })

/-- `binary.Read(f, binary.LittleEndian, &x)` for an unsigned `x` of `n` bytes
whose value before the call is 0: `io.ReadFull` consumes what is there, and the
variable is assigned only when all `n` bytes arrived. -/
def File.binaryReadLE (f : File) (n : Nat) : Nat × File :=
  let r := f.Read n
  (if r.2.1 = n then leNat r.1 else 0, r.2.2)

/-- `bytes.TrimRight(b, "\x00")`. -/
def trimRightNul (b : List Byte) : List Byte :=
  (b.reverse.dropWhile (fun x => x = 0)).reverse

/-- The section loop of `parsePE`: `k` iterations remain. -/
def peLoop : Nat → File → List SectionInfo → List SectionInfo
  | 0, _, sections => sections
  | k + 1, f, sections =>
    let r := f.Read 40
    let header := r.1
    if r.2.1 < 40 then sections
    else
      let name := trimRightNul (header.take 8)
      let virtualAddr := leNat ((header.drop 12).take 4)
      let rawSize := leNat ((header.drop 16).take 4)
      let rawOffset := leNat ((header.drop 20).take 4)
      let sec : SectionInfo :=
        { Name := name, Offset := (rawOffset : Int), Size := (rawSize : Int), VirtualAddress := virtualAddr }
      peLoop k r.2.2 (sections ++ [sec])

/-- `parsePE` on a file that could be opened, given by its contents. -/
def parsePE (data : List Byte) : List SectionInfo :=
  let f : File := { data := data, pos := 0 }
  let r := f.Read 2
  let magic := r.1
  let f := r.2.2
  if magic.getD 0 0 ≠ 0x4D ∨ magic.getD 1 0 ≠ 0x5A then []
  else
    let f := f.SeekSet 0x3C
    let r := f.binaryReadLE 4
    let peOffset := r.1
    let f := r.2
    let f := f.SeekSet peOffset
    let r := f.Read 4
    let sig := r.1
    let f := r.2.2
    if sig ≠ [0x50, 0x45, 0, 0] then []
    else
      let f := f.SeekCur 2
      let r := f.binaryReadLE 2
      let numSections := r.1
      let f := r.2
      let f := f.SeekCur 12
      let r := f.binaryReadLE 2
      let optionalSize := r.1
      let f := r.2
      let f := f.SeekCur 2
      let f := f.SeekCur optionalSize
      peLoop numSections f []

/-- `bytes.IndexByte(b, 0)`; `none` is the result -1. -/
def indexNul : List Byte → Option Nat
  | [] => none
  | b :: bs => if b = 0 then some 0 else (indexNul bs).map (· + 1)

/-- `order.UintN(data[lo:hi])`: a field read through a slice expression. -/
def readUint (little : Bool) (data : List Byte) (lo hi : Int) : Option Nat :=
  (orderUint little) <$> slice data lo hi

/-- The name resolution of the loop body of `parseELF`: `strtab[shName:]` is
searched for a NUL and the name is `strtab[shName : shName+uint32(end)]`, a
`uint32` addition.  `rest` is what the backing array holds after `strtab`, up
to the capacity that bounds the second slice expression. -/
def elfName (strtab rest : List Byte) (shName : Nat) : Option (List Byte) :=
  if (shName : Int) < (strtab.length : Int) then do
    let tail ← slice strtab shName strtab.length
    match indexNul tail with
    | some e => slice (strtab ++ rest) shName (((shName + e % 2 ^ 32) % 2 ^ 32 : Nat) : Int)
    | none => some []
  else some []

/-- The body of the section loop of `parseELF` for the entry at `off`: `none`
is a run-time panic, `some none` an entry that is skipped, `some (some sec)` an
entry that is appended.  `data` is the backing array of the buffer, up to its
capacity. -/
def elfReadEntry (data strtab rest : List Byte) (is64 little : Bool) (off : Int) :
    Option (Option SectionInfo) := do
  let shName ← readUint little data off (wrap64 (off + 4))
  let shAddr ← if is64 then readUint little data (wrap64 (off + 16)) (wrap64 (off + 24))
    else readUint little data (wrap64 (off + 12)) (wrap64 (off + 16))
  let shOff ← if is64 then readUint little data (wrap64 (off + 24)) (wrap64 (off + 32))
    else readUint little data (wrap64 (off + 16)) (wrap64 (off + 20))
  let shSize ← if is64 then readUint little data (wrap64 (off + 32)) (wrap64 (off + 40))
    else readUint little data (wrap64 (off + 20)) (wrap64 (off + 24))
  let name ← elfName strtab rest shName
  let sec : SectionInfo :=
    { Name := name, Offset := toInt64 shOff, Size := toInt64 shSize, VirtualAddress := shAddr }
  if shSize > 0 ∧ name ≠ [] then some (some sec) else some none

/-- The section loop of `parseELF`: `k` iterations remain, `i` is the loop
variable.  `data` is the backing array of the buffer and `n` is `len(data)`,
which the guard of the loop compares with. -/
def elfLoop (data strtab rest : List Byte) (is64 little : Bool) (shoff shentsize n : Nat) :
    Nat → Nat → List SectionInfo → Option (List SectionInfo)
  | 0, _, sections => some sections
  | k + 1, i, sections =>
    let off := wrap64 (toInt64 shoff + (i : Int) * (shentsize : Int))
    if wrap64 (off + shentsize) > (n : Int) then some sections
    else do
      let r ← elfReadEntry data strtab rest is64 little off
      match r with
      | some sec =>
        elfLoop data strtab rest is64 little shoff shentsize n k (i + 1) (sections ++ [sec])
      | none => elfLoop data strtab rest is64 little shoff shentsize n k (i + 1) sections

/-- The part of `parseELF` that follows the header reads: the guards on the
header fields, the string-table lookup and the section loop.  `data` is the
backing array of the buffer and `n` is `len(data)`: the guards compare with
`n`, the slice expressions are bounded by the capacity. -/
def elfTable (data : List Byte) (n : Nat) (is64 little : Bool)
    (shoff shentsize shnum shstrndx : Nat) : Option (List SectionInfo) :=
  if shoff = 0 ∨ shnum = 0 ∨ toInt64 shoff ≥ (n : Int) then some []
  else
    let strIdx := wrap64 (toInt64 shoff + (shstrndx : Int) * (shentsize : Int))
    if wrap64 (strIdx + shentsize) > (n : Int) then some []
    else do
      let strtabOff ← if is64 then readUint little data (wrap64 (strIdx + 24)) (wrap64 (strIdx + 32))
        else readUint little data (wrap64 (strIdx + 16)) (wrap64 (strIdx + 20))
      let strtabSz ← if is64 then readUint little data (wrap64 (strIdx + 32)) (wrap64 (strIdx + 40))
        else readUint little data (wrap64 (strIdx + 20)) (wrap64 (strIdx + 24))
      if toInt64 ((strtabOff + strtabSz) % 2 ^ 64) > (n : Int) then some []
      else do
        let strtab ← slice data strtabOff (((strtabOff + strtabSz) % 2 ^ 64 : Nat) : Int)
        elfLoop data strtab (data.drop ((strtabOff + strtabSz) % 2 ^ 64)) is64 little
          shoff shentsize n shnum 0 []

/-- `parseELF` on a file that could be read; `none` is a run-time panic.
`data` is the content of the file, the slice that `os.ReadFile` returns, and
`spare` is what the backing array of that slice holds beyond its length, up to
its capacity: a slice expression on `data` reads in `data ++ spare`. -/
def parseELF (data spare : List Byte) : Option (List SectionInfo) :=
  if data.length < 64 then some []
  else if data.take 4 ≠ [0x7f, 0x45, 0x4c, 0x46] then some []
  else do
    let eiClass := data.getD 4 0
    let eiData := data.getD 5 0
    let is64 : Bool := eiClass = 2
    let little : Bool := eiData = 1
    let shoff ← if is64 then readUint little (data ++ spare) 0x28 0x30
      else readUint little (data ++ spare) 0x20 0x24
    let shentsize ← if is64 then readUint little (data ++ spare) 0x3A 0x3C
      else readUint little (data ++ spare) 0x2E 0x30
    let shnum ← if is64 then readUint little (data ++ spare) 0x3C 0x3E
      else readUint little (data ++ spare) 0x30 0x32
    let shstrndx ← if is64 then readUint little (data ++ spare) 0x3E 0x40
      else readUint little (data ++ spare) 0x32 0x34
    elfTable (data ++ spare) data.length is64 little shoff shentsize shnum shstrndx

/-- `ParseSections`: the PE attempt, and the ELF attempt when it found no
section.  `data` is the content of the file and `spare` the rest of the
backing array of the slice that `parseELF` reads it into. -/
def ParseSections (data spare : List Byte) : Option (List SectionInfo) :=
  let sections := parsePE data
  if sections.length = 0 then parseELF data spare else some sections

/-- What `os.ReadFile` leaves in the backing array after the bytes of a file
of the given size: it allocates one byte more than the size, and 512 bytes at
least, and a fresh allocation is zero. -/
def readFileSpare (size : Nat) : List Byte := List.replicate (max 512 (size + 1) - size) 0

/-! ## Specification-side readers for the parser theorems -/

/-- Little-endian unsigned value of the `w` bytes at position `p`. -/
def uLE (data : List Byte) (p w : Nat) : Nat := leNat ((data.drop p).take w)

/-- The section described by the 40-byte PE section-table entry at position
`p`, in the words of the specification. -/
def peEntryAt (data : List Byte) (p : Nat) : SectionInfo :=
  { Name := trimRightNul ((data.drop p).take 8)
    Offset := (uLE data (p + 20) 4 : Int)
    Size := (uLE data (p + 16) 4 : Int)
    VirtualAddress := uLE data (p + 12) 4 }

/-- The first `m` entries of the section table that starts at `t`. -/
def peTable (data : List Byte) (t m : Nat) : List SectionInfo :=
  (List.range m).map (fun i => peEntryAt data (t + 40 * i))

/-- Mathematical containment of an offset in the half-open range of a section. -/
def SectionInfo.Contains (sec : SectionInfo) (offset : Int) : Prop :=
  sec.Offset ≤ offset ∧ offset < sec.Offset + sec.Size

instance (sec : SectionInfo) (offset : Int) : Decidable (sec.Contains offset) := by
  unfold SectionInfo.Contains; infer_instance

/-- The single section `.text` at offset 512 of size 1024. -/
def textSection : SectionInfo :=
  { Name := str ".text", Offset := 512, Size := 1024, VirtualAddress := 0x1000 }

/-- A section whose end `Offset + Size` exceeds the `int64` range. -/
def wideSection : SectionInfo :=
  { Name := str ".data", Offset := 10, Size := 2 ^ 63 - 5, VirtualAddress := 0 }

/-- Unsigned value of the `w` bytes at position `p` in the given byte order. -/
def uAt (little : Bool) (data : List Byte) (p w : Nat) : Nat :=
  orderUint little ((data.drop p).take w)

/-- The ELF header fields the parser uses, at their offsets for each class. -/
structure ElfHeader where
  is64 : Bool
  little : Bool
  shoff : Nat
  shentsize : Nat
  shnum : Nat
  shstrndx : Nat
deriving DecidableEq, Repr

/-- The header of an image: class selector at byte 4 (2 is 64-bit), byte-order
selector at byte 5 (1 is little endian), `e_shoff`, `e_shentsize`, `e_shnum`,
`e_shstrndx` at 0x28 / 0x3A / 0x3C / 0x3E (64-bit) and 0x20 / 0x2E / 0x30 / 0x32
(32-bit). -/
def elfHeader (data : List Byte) : ElfHeader :=
  let is64 : Bool := data.getD 4 0 = 2
  let little : Bool := data.getD 5 0 = 1
  { is64 := is64
    little := little
    shoff := if is64 then uAt little data 0x28 8 else uAt little data 0x20 4
    shentsize := if is64 then uAt little data 0x3A 2 else uAt little data 0x2E 2
    shnum := if is64 then uAt little data 0x3C 2 else uAt little data 0x30 2
    shstrndx := if is64 then uAt little data 0x3E 2 else uAt little data 0x32 2 }

/-- Field `sh_name` of the section-header entry at position `p`. -/
def shNameAt (little : Bool) (data : List Byte) (p : Nat) : Nat := uAt little data p 4

/-- Field `sh_addr` of the section-header entry at position `p`. -/
def shAddrAt (is64 little : Bool) (data : List Byte) (p : Nat) : Nat :=
  if is64 then uAt little data (p + 16) 8 else uAt little data (p + 12) 4

/-- Field `sh_offset` of the section-header entry at position `p`. -/
def shOffsetAt (is64 little : Bool) (data : List Byte) (p : Nat) : Nat :=
  if is64 then uAt little data (p + 24) 8 else uAt little data (p + 16) 4

/-- Field `sh_size` of the section-header entry at position `p`. -/
def shSizeAt (is64 little : Bool) (data : List Byte) (p : Nat) : Nat :=
  if is64 then uAt little data (p + 32) 8 else uAt little data (p + 20) 4

/-- The name at index `i` of a string table, in the words of the
specification: the bytes from `i` up to the next NUL; empty when `i` is outside
the table or no NUL follows. -/
def nameAt (strtab : List Byte) (i : Nat) : List Byte :=
  if i < strtab.length ∧ (0 : Byte) ∈ strtab.drop i then (strtab.drop i).takeWhile (fun b => b ≠ 0)
  else []

/-- The section of the entry at position `p`, when it has a non-zero size and
a non-empty name. -/
def elfEntryAt (data strtab : List Byte) (is64 little : Bool) (p : Nat) : Option SectionInfo :=
  let name := nameAt strtab (shNameAt little data p)
  if 0 < shSizeAt is64 little data p ∧ name ≠ [] then
    some { Name := name
           Offset := (shOffsetAt is64 little data p : Int)
           Size := (shSizeAt is64 little data p : Int)
           VirtualAddress := shAddrAt is64 little data p }
  else none

/-- Position of the section-header entry `j`. -/
def elfEntryPos (h : ElfHeader) (j : Nat) : Nat := h.shoff + j * h.shentsize

/-- The section-name string table of an image: the bytes of the section whose
index is `e_shstrndx`. -/
def elfStrtab (data : List Byte) : List Byte :=
  let h := elfHeader data
  let p := elfEntryPos h h.shstrndx
  (data.drop (shOffsetAt h.is64 h.little data p)).take (shSizeAt h.is64 h.little data p)

/-- The section list of a well-formed image, in the words of the
specification: the entries of the table with non-empty name and non-zero size,
in table order. -/
def elfSectionsSpec (data : List Byte) : List SectionInfo :=
  let h := elfHeader data
  (List.range h.shnum).filterMap
    (fun j => elfEntryAt data (elfStrtab data) h.is64 h.little (elfEntryPos h j))

/-- A well-formed ELF image: magic, a non-empty section-header table of
entries of at least the standard field extent that lies inside the file, a
string-table index inside the table, a string table inside the file and
shorter than `2^32` bytes (`sh_name` is a 32-bit index), and section offsets
and sizes below `2^63`.  A Go slice never has `2^63` elements or more. -/
def WellFormedELF (data : List Byte) : Prop :=
  let h := elfHeader data
  let p := elfEntryPos h h.shstrndx
  64 ≤ data.length ∧ data.length < 2 ^ 63 ∧
  data.take 4 = [0x7f, 0x45, 0x4c, 0x46] ∧
  0 < h.shoff ∧ 0 < h.shnum ∧
  (if h.is64 then 40 else 24) ≤ h.shentsize ∧
  h.shoff + h.shnum * h.shentsize ≤ data.length ∧
  h.shstrndx < h.shnum ∧
  shOffsetAt h.is64 h.little data p + shSizeAt h.is64 h.little data p ≤ data.length ∧
  shSizeAt h.is64 h.little data p < 2 ^ 32 ∧
  ∀ j, j < h.shnum →
    shOffsetAt h.is64 h.little data (elfEntryPos h j) < 2 ^ 63 ∧
    shSizeAt h.is64 h.little data (elfEntryPos h j) < 2 ^ 63

instance (data : List Byte) : Decidable (WellFormedELF data) := by
  unfold WellFormedELF; infer_instance

/-- A 64-bit little-endian ELF header whose `e_shoff` is `2^63`, with
`e_shentsize = 64`, `e_shnum = 1`, `e_shstrndx = 0`. -/
def hostileELF : List Byte :=
  [0x7f, 0x45, 0x4c, 0x46, 2, 1] ++ List.replicate 34 0 ++ [0, 0, 0, 0, 0, 0, 0, 0x80] ++
  List.replicate 10 0 ++ [0x40, 0] ++ [1, 0] ++ [0, 0]

/-- A minimal well-formed PE image: DOS header with `e_lfanew = 0x40`, one
section `.text` with raw offset 0x200 and raw size 0x400, no optional header. -/
def minimalPE : List Byte :=
  [0x4D, 0x5A] ++ List.replicate 58 0 ++ [0x40, 0, 0, 0] ++
  [0x50, 0x45, 0, 0] ++ [0x4C, 0x01] ++ [1, 0] ++ List.replicate 12 0 ++ [0, 0] ++ [0x02, 0x01] ++
  (str ".text" ++ [0, 0, 0]) ++ [0, 0x04, 0, 0] ++ [0, 0x10, 0, 0] ++ [0, 0x04, 0, 0] ++
  [0, 0x02, 0, 0] ++ List.replicate 16 0

/-- A PE image whose header declares three sections and an optional header of
4 bytes, cut 10 bytes into the second section-table entry. -/
def truncatedPE : List Byte :=
  [0x4D, 0x5A] ++ List.replicate 58 0 ++ [0x40, 0, 0, 0] ++
  [0x50, 0x45, 0, 0] ++ [0x4C, 0x01] ++ [3, 0] ++ List.replicate 12 0 ++ [4, 0] ++ [0x02, 0x01] ++
  [9, 9, 9, 9] ++
  (str ".text" ++ [0, 0, 0]) ++ [0, 0x04, 0, 0] ++ [0, 0x10, 0, 0] ++ [0, 0x04, 0, 0] ++
  [0, 0x02, 0, 0] ++ List.replicate 16 0 ++
  (str ".data" ++ [0, 0, 0]) ++ [0, 0x04]

/-- The `w`-byte encoding of `x` in the given byte order. -/
def encUint (little : Bool) (w x : Nat) : List Byte :=
  let le := (List.range w).map (fun i => (Fin.ofNat (x / 256 ^ i % 256) : Byte))
  if little then le else le.reverse

/-- A section-header entry in the layout of the class. -/
def encShdr (is64 little : Bool) (name addr off size : Nat) : List Byte :=
  if is64 then
    encUint little 4 name ++ encUint little 4 1 ++ encUint little 8 0 ++ encUint little 8 addr ++
    encUint little 8 off ++ encUint little 8 size ++ List.replicate 24 0
  else
    encUint little 4 name ++ encUint little 4 1 ++ encUint little 4 0 ++ encUint little 4 addr ++
    encUint little 4 off ++ encUint little 4 size ++ List.replicate 16 0

/-- The section-name string table of the sample images. -/
def sampleStrtab : List Byte := [0] ++ str ".text" ++ [0] ++ str ".shstrtab" ++ [0]

/-- An image of the given class and byte order, built from a section-header
table at offset 64 (the null entry, `.text` with the given `sh_offset` and
`sh_size`, `.shstrtab`) and the string table that follows it. -/
def buildELF (is64 little : Bool) (textOff textSize : Nat) : List Byte :=
  let entsize := if is64 then 64 else 40
  let strpos := 64 + 3 * entsize
  let ident : List Byte := [0x7f, 0x45, 0x4c, 0x46, if is64 then 2 else 1, if little then 1 else 2]
  let header : List Byte :=
    if is64 then
      ident ++ List.replicate 34 0 ++ encUint little 8 64 ++ List.replicate 10 0 ++
      encUint little 2 entsize ++ encUint little 2 3 ++ encUint little 2 2
    else
      ident ++ List.replicate 26 0 ++ encUint little 4 64 ++ List.replicate 10 0 ++
      encUint little 2 entsize ++ encUint little 2 3 ++ encUint little 2 2 ++ List.replicate 12 0
  header ++ encShdr is64 little 0 0 0 0 ++ encShdr is64 little 1 0x401000 textOff textSize ++
    encShdr is64 little 7 0 strpos 17 ++ sampleStrtab

/-- A well-formed image of the given class and byte order whose `.text` has
`sh_offset = 0x200` and `sh_size = 0x400`. -/
def sampleELF (is64 little : Bool) : List Byte := buildELF is64 little 0x200 0x400

/-- A 64-bit little-endian image whose `.text` entry has `sh_offset = 2^63` and
`sh_size = 2^64 - 1`. -/
def signedELF : List Byte := buildELF true true (2 ^ 63) (2 ^ 64 - 1)

/-- The sections of the sample image: `.text` and `.shstrtab`. -/
def sampleSections (is64 : Bool) : List SectionInfo :=
  [{ Name := str ".text", Offset := 0x200, Size := 0x400, VirtualAddress := 0x401000 },
   { Name := str ".shstrtab", Offset := if is64 then 256 else 184, Size := 17, VirtualAddress := 0 }]

/-- The section that the loop body of `parseELF` makes of the entry at position
`p`, in the words of the specification: none unless `sh_size` is not zero and
the name, the bytes of the string table from index `sh_name` up to the next
NUL, is not empty; `Offset` and `Size` are `sh_offset` and `sh_size` taken as
signed 64-bit integers. -/
def elfSectionAt (data strtab : List Byte) (is64 little : Bool) (p : Nat) : Option SectionInfo :=
  let name := nameAt strtab (shNameAt little data p)
  if 0 < shSizeAt is64 little data p ∧ name ≠ [] then
    some { Name := name
           Offset := toInt64 (shOffsetAt is64 little data p)
           Size := toInt64 (shSizeAt is64 little data p)
           VirtualAddress := shAddrAt is64 little data p }
  else none

/-- A 32-bit little-endian image of 108 bytes whose entries have 22 bytes, less
than the 24 bytes that the loop body reads: the header with `e_shoff = 64`,
`e_shentsize = 22`, `e_shnum = 2`, `e_shstrndx = 0` and the string table
`.text` at offset 8, then two entries.  The field `sh_size` of the entry 0 ends
in the entry 1, and the one of the entry 1 ends two bytes after the file. -/
def shortEntryELF : List Byte :=
  [0x7f, 0x45, 0x4c, 0x46, 1, 1, 0, 0] ++ str ".text" ++ [0] ++ List.replicate 18 0 ++
  [64, 0, 0, 0] ++ List.replicate 10 0 ++ [22, 0] ++ [2, 0] ++ [0, 0] ++ List.replicate 12 0 ++
  [0, 0, 0, 0, 1, 0, 0, 0, 0, 0, 0, 0, 0, 0, 0, 0, 8, 0, 0, 0, 6, 0] ++
  [0, 0, 0, 0, 1, 0, 0, 0, 0, 0, 0, 0, 0, 0, 0, 0, 16, 0, 0, 0, 32, 0]

/-- The sections of `shortEntryELF`, for a backing array that holds zeros after
the file. -/
def shortEntrySections : List SectionInfo :=
  [{ Name := str ".text", Offset := 8, Size := 6, VirtualAddress := 0 },
   { Name := str ".text", Offset := 16, Size := 32, VirtualAddress := 0 }]

/-- The first 128 bytes of `hugeELF`: a 64-bit little-endian header with
`e_shoff = 64`, `e_shentsize = 64`, `e_shnum = 1`, `e_shstrndx = 0`, and the one
section-header entry with `sh_name = 0`, `sh_offset = 128`,
`sh_size = 2^32 + 2`. -/
def hugePrefix : List Byte :=
  [0x7f, 0x45, 0x4c, 0x46, 2, 1] ++ List.replicate 34 0 ++ encUint true 8 64 ++
  List.replicate 10 0 ++ encUint true 2 64 ++ encUint true 2 1 ++ encUint true 2 0 ++
  encShdr true true 0 0 128 (2 ^ 32 + 2)

/-- A string table of `n` bytes `A` followed by a NUL. -/
def longName (n : Nat) : List Byte := List.replicate n 0x41 ++ [0]

/-- An image of `2^32 + 130` bytes: `hugePrefix` followed by a string table that
holds the one name of `2^32 + 1` bytes `A` and its terminating NUL.  The entry
is both the string-table section and the only section. -/
def hugeELF : List Byte := hugePrefix ++ longName (2 ^ 32 + 1)

/-! ## Go `regexp`: the matching semantics the scanners rely on

Go's `regexp` reads its input as UTF-8 (an invalid byte is the rune `U+FFFD` of
width 1; `\xNN` in a pattern is the code point `U+00NN`), returns the leftmost
match and among the matches at that start the one a backtracking search finds
first, and its `FindAllIndex` yields successive non-overlapping matches. -/

/-- The accepted range of the second byte of a UTF-8 sequence with first byte
`c0` (`acceptRanges`). -/
def acceptLo (c0 : Nat) : Nat := if c0 = 0xE0 then 0xA0 else if c0 = 0xF0 then 0x90 else 0x80

/-- The upper end of the accepted range of the second byte. -/
def acceptHi (c0 : Nat) : Nat := if c0 = 0xED then 0x9F else if c0 = 0xF4 then 0x8F else 0xBF

/-- `utf8.DecodeRune` on a slice of `avail ≥ 1` bytes that starts with the
bytes `c0 c1 c2 c3`: the rune and its width. -/
def decodeRuneBytes (c0 c1 c2 c3 avail : Nat) : Nat × Nat :=
  if c0 < 0x80 then (c0, 1)
  else if 0xC2 ≤ c0 ∧ c0 ≤ 0xDF then
    if avail < 2 ∨ c1 < acceptLo c0 ∨ acceptHi c0 < c1 then (0xFFFD, 1)
    else (c0 % 32 * 64 + c1 % 64, 2)
  else if 0xE0 ≤ c0 ∧ c0 ≤ 0xEF then
    if avail < 3 ∨ c1 < acceptLo c0 ∨ acceptHi c0 < c1 then (0xFFFD, 1)
    else if c2 < 0x80 ∨ 0xBF < c2 then (0xFFFD, 1)
    else (c0 % 16 * 4096 + c1 % 64 * 64 + c2 % 64, 3)
  else if 0xF0 ≤ c0 ∧ c0 ≤ 0xF4 then
    if avail < 4 ∨ c1 < acceptLo c0 ∨ acceptHi c0 < c1 then (0xFFFD, 1)
    else if c2 < 0x80 ∨ 0xBF < c2 then (0xFFFD, 1)
    else if c3 < 0x80 ∨ 0xBF < c3 then (0xFFFD, 1)
    else (c0 % 8 * 262144 + c1 % 64 * 4096 + c2 % 64 * 64 + c3 % 64, 4)
  else (0xFFFD, 1)

/-- The rune at `pos` and its width in bytes (`inputBytes.step`, that is
`utf8.DecodeRune`); width 0 at the end of the input. -/
def decodeRune (data : List Byte) (pos : Nat) : Nat × Nat :=
  match data.drop pos with
  | [] => (0xFFFD, 0)
  | b0 :: rest =>
    decodeRuneBytes b0.val (rest.getD 0 0).val (rest.getD 1 0).val (rest.getD 2 0).val
      (rest.length + 1)

/-- The regular expressions of the source, after parsing: a class is a
predicate on runes, repetition is greedy. -/
inductive Re where
  | empty : Re
  | cls : (Nat → Bool) → Re
  | cat : Re → Re → Re
  | alt : Re → Re → Re
  | star : Re → Re
  | wordB : Re

/-- ASCII word characters, the ones `\b` looks at. -/
def isWordChar (c : Nat) : Bool :=
  (0x30 ≤ c && c ≤ 0x39) || (0x41 ≤ c && c ≤ 0x5A) || c = 0x5F || (0x61 ≤ c && c ≤ 0x7A)

/-- Whether the byte at index `i` exists and is an ASCII word character. -/
def wordAt (data : List Byte) (i : Nat) : Bool :=
  match data.get? i with
  | some b => isWordChar b.val
  | none => false

/-- The assertion `\b` at `pos`. -/
def atWordBoundary (data : List Byte) (pos : Nat) : Bool :=
  (if pos = 0 then false else wordAt data (pos - 1)) != wordAt data pos

/-- End positions of the greedy iteration of an expression whose end positions
from a start are `f`: more iterations are preferred, an iteration that consumes
nothing is not repeated.  Every iteration advances, so `fuel = len - pos`
iterations are all there can be. -/
def starEnds (f : Nat → List Nat) : Nat → Nat → List Nat
  | 0, pos => [pos]
  | fuel + 1, pos => ((f pos).filter (fun e => pos < e)).flatMap (starEnds f fuel) ++ [pos]

/-- All end positions of a match of the expression that starts at `pos`, in the
order of preference of a backtracking search. -/
def Re.ends (data : List Byte) : Re → Nat → List Nat
  | .empty, pos => [pos]
  | .cls p, pos =>
    let r := decodeRune data pos
    if r.2 ≠ 0 ∧ p r.1 = true then [pos + r.2] else []
  | .cat a b, pos => (a.ends data pos).flatMap (fun e => b.ends data e)
  | .alt a b, pos => a.ends data pos ++ b.ends data pos
  | .star a, pos => starEnds (fun q => a.ends data q) (data.length - pos) pos
  | .wordB, pos => if atWordBoundary data pos = true then [pos] else []

/-- The match a backtracking search finds first at `pos`. -/
def Re.matchAt (r : Re) (data : List Byte) (pos : Nat) : Option Nat := (r.ends data pos).head?

/-- The unanchored search from `pos`: start positions are tried in ascending
order, advancing by the width of the rune at the position; the empty string at
the end of the input is tried too. -/
def Re.findFrom (r : Re) (data : List Byte) : Nat → Nat → Option (Nat × Nat)
  | 0, _ => none
  | fuel + 1, pos =>
    match r.matchAt data pos with
    | some e => some (pos, e)
    | none =>
      let w := (decodeRune data pos).2
      if w = 0 then none else r.findFrom data fuel (pos + w)

/-- The leftmost match at or after `pos` (`doExecute`). -/
def Re.find (r : Re) (data : List Byte) (pos : Nat) : Option (Nat × Nat) :=
  r.findFrom data (data.length - pos + 1) pos

/-- `re.MatchString(s)`. -/
def Re.MatchString (r : Re) (s : List Byte) : Bool := (r.find s 0).isSome

/-- The loop of `allMatches`: `pos` is the search position and `prevEnd` the
end of the previous match; an empty match right after a match is skipped. -/
def Re.allMatchesLoop (r : Re) (data : List Byte) : Nat → Nat → Option Nat → List (Nat × Nat)
  | 0, _, _ => []
  | fuel + 1, pos, prevEnd =>
    if data.length < pos then []
    else
      match r.find data pos with
      | none => []
      | some (s, e) =>
        if e = pos then
          let w := (decodeRune data pos).2
          let next := if 0 < w then pos + w else data.length + 1
          if some s = prevEnd then r.allMatchesLoop data fuel next (some e)
          else (s, e) :: r.allMatchesLoop data fuel next (some e)
        else (s, e) :: r.allMatchesLoop data fuel e (some e)

/-- `re.FindAllIndex(data, -1)`: every iteration advances the position, so
`len + 2` iterations are all there can be. -/
def Re.FindAllIndex (r : Re) (data : List Byte) : List (Nat × Nat) :=
  r.allMatchesLoop data (data.length + 2) 0 none

/-- An expression repeated exactly `n` times. -/
def Re.rep (r : Re) : Nat → Re
  | 0 => .empty
  | n + 1 => .cat r (Re.rep r n)

/-- The repetition `r{n,}`. -/
def Re.atLeast (n : Nat) (r : Re) : Re := .cat (Re.rep r n) (.star r)

/-- The option `r?`. -/
def Re.opt (r : Re) : Re := .alt r .empty

/-- Up to `m` further copies of an expression, nested as `(r(r(r)?)?)?`. -/
def Re.upTo (r : Re) : Nat → Re
  | 0 => .empty
  | m + 1 => Re.opt (.cat r (Re.upTo r m))

/-- The repetition `r{n,m}`: `n` copies and up to `m - n` nested further ones. -/
def Re.between (n m : Nat) (r : Re) : Re := .cat (Re.rep r n) (Re.upTo r (m - n))

/-- The repetition `r+`. -/
def Re.plus (r : Re) : Re := .cat r (.star r)

/-- An alternation of several expressions, in order. -/
def Re.alts : List Re → Re
  | [] => .cls (fun _ => false)
  | [r] => r
  | r :: rs => .alt r (Re.alts rs)

/-- A sequence of several expressions. -/
def Re.seq : List Re → Re
  | [] => .empty
  | [r] => r
  | r :: rs => .cat r (Re.seq rs)

/-- The class of the runes from `lo` to `hi`. -/
def rng (lo hi : Nat) (r : Nat) : Bool := lo ≤ r && r ≤ hi

/-- The class of the characters of a string. -/
def oneOf (s : String) (r : Nat) : Bool := s.toList.any (fun c => c.toNat = r)

/-- A literal string. -/
def lit (s : String) : Re := Re.seq (s.toList.map (fun c => Re.cls (fun r => r = c.toNat)))

/-- The runes that `unicode.SimpleFold` identifies with a rune, for the runes
that fold to an ASCII letter: the letter in both cases, and in addition
`U+212A` for `k` and `U+017F` for `s`. -/
def foldOrbit (r : Nat) : List Nat :=
  if 0x41 ≤ r ∧ r ≤ 0x5A then
    [r, r + 32] ++ (if r = 0x4B then [0x212A] else []) ++ (if r = 0x53 then [0x17F] else [])
  else if 0x61 ≤ r ∧ r ≤ 0x7A then
    [r, r - 32] ++ (if r = 0x6B then [0x212A] else []) ++ (if r = 0x73 then [0x17F] else [])
  else if r = 0x212A then [r, 0x4B, 0x6B]
  else if r = 0x17F then [r, 0x53, 0x73]
  else [r]

/-- A class under the flag `(?i)`. -/
def foldCls (p : Nat → Bool) (r : Nat) : Bool := (foldOrbit r).any p

/-- A literal string under the flag `(?i)`. -/
def litI (s : String) : Re :=
  Re.seq (s.toList.map (fun c => Re.cls (foldCls (fun r => r = c.toNat))))

/-- The class `\s`. -/
def spaceCls (r : Nat) : Bool := r = 0x09 || r = 0x0A || r = 0x0C || r = 0x0D || r = 0x20

/-- The class `\d`. -/
def digitCls (r : Nat) : Bool := rng 0x30 0x39 r

/-- The class `[A-Za-z0-9]`. -/
def alnumCls (r : Nat) : Bool := rng 0x41 0x5A r || rng 0x61 0x7A r || rng 0x30 0x39 r

/-- The class `[a-fA-F0-9]`. -/
def hexCls (r : Nat) : Bool := rng 0x61 0x66 r || rng 0x41 0x46 r || rng 0x30 0x39 r

/-- The class `[A-Za-z0-9+/]`. -/
def b64Cls (r : Nat) : Bool := alnumCls r || r = 0x2B || r = 0x2F

/-! ## `internal/categorizer/categorizer.go` -/

/-- The class `[A-Za-z]`. -/
def alphaCls (r : Nat) : Bool := rng 0x41 0x5A r || rng 0x61 0x7A r

/-- The tail `[^\s<>"']+` of the URL detectors. -/
def urlTail : Re :=
  Re.plus (.cls (fun r => !(spaceCls r || r = 0x3C || r = 0x3E || r = 0x22 || r = 0x27)))

/-- An octet of the IPv4 detector: `25[0-5]|2[0-4]\d|[01]?\d\d?`. -/
def octetRe : Re :=
  Re.alts [Re.seq [lit "25", .cls (rng 0x30 0x35)],
    Re.seq [lit "2", .cls (rng 0x30 0x34), .cls digitCls],
    Re.seq [Re.opt (.cls (oneOf "01")), .cls digitCls, Re.opt (.cls digitCls)]]

/-- The class `[^\s\\/:*?"<>|]` of the Windows-path detector. -/
def winPathCls (r : Nat) : Bool :=
  !(spaceCls r || r = 0x5C || r = 0x2F || r = 0x3A || r = 0x2A || r = 0x3F || r = 0x22 ||
    r = 0x3C || r = 0x3E || r = 0x7C)

/-- The word class `[A-Za-z0-9_]` under `(?i)`. -/
def identCls (r : Nat) : Bool := foldCls (fun c => alnumCls c || c = 0x5F) r

/-- The table `patterns`, in the order of the source. -/
def patterns : List (String × Re) :=
  [("url", Re.alts [Re.seq [lit "http", Re.opt (lit "s"), lit "://", urlTail],
      Re.seq [lit "ftp://", urlTail], Re.seq [lit "www.", urlTail]]),
   ("email", Re.seq [Re.plus (.cls (fun r => alnumCls r || oneOf "._%+-" r)), lit "@",
      Re.plus (.cls (fun r => alnumCls r || oneOf ".-" r)), lit ".", Re.atLeast 2 (.cls alphaCls)]),
   ("ipv4", Re.seq [.wordB, Re.rep (Re.seq [octetRe, lit "."]) 3, octetRe, .wordB]),
   ("ipv6", Re.seq [.wordB, Re.rep (Re.seq [Re.between 1 4 (.cls hexCls), lit ":"]) 7,
      Re.between 1 4 (.cls hexCls), .wordB]),
   ("domain", Re.seq [.wordB,
      Re.plus (Re.seq [.cls alnumCls,
        Re.opt (Re.seq [Re.between 0 61 (.cls (fun r => alnumCls r || r = 0x2D)), .cls alnumCls]),
        lit "."]),
      Re.alts (["com", "net", "org", "io", "ru", "cn", "tk", "xyz", "top", "info", "biz", "cc",
        "pw", "onion", "edu", "gov", "mil", "co"].map lit),
      .wordB]),
   ("win_path", Re.seq [.cls alphaCls, lit ":", .cls (fun r => r = 0x5C),
      .star (Re.seq [Re.plus (.cls winPathCls), .cls (fun r => r = 0x5C)]),
      .star (.cls winPathCls)]),
   ("unix_path", Re.atLeast 2
      (Re.seq [lit "/", Re.plus (.cls (fun r => alnumCls r || oneOf "._-" r))])),
   ("registry", Re.seq [Re.alts [Re.seq [lit "HKEY_",
        Re.plus (.cls (fun r => rng 0x41 0x5A r || r = 0x5F))], lit "HKLM", lit "HKCU", lit "HKCR"],
      .cls (fun r => r = 0x5C), Re.plus (.cls (fun r => !spaceCls r))]),
   ("dll_api", .alt
      (Re.seq [.wordB, .cls (foldCls (fun c => alphaCls c || c = 0x5F)), .star (.cls identCls),
        lit ".", Re.alts (["dll", "sys", "ocx", "drv"].map litI), .wordB])
      (Re.seq [.wordB,
        Re.alts (["Create", "Open", "Read", "Write", "Close", "Delete", "Find", "Get", "Set",
          "Load", "Free", "Virtual", "Reg", "Crypt", "Http", "Internet", "Socket", "WSA", "Nt",
          "Zw"].map litI),
        .cls (foldCls (rng 0x41 0x5A)), .star (.cls identCls),
        Re.opt (Re.alts (["A", "W", "Ex", "ExA", "ExW"].map litI)), .wordB])),
   ("error", Re.seq [.wordB,
      Re.alts (["error", "fail", "exception", "warning", "assert", "debug", "fatal", "panic",
        "abort", "denied", "invalid", "corrupt"].map litI),
      .wordB]),
   ("crypto", .alt
      (Re.seq [.wordB,
        Re.alts [litI "AES", litI "RSA", Re.seq [litI "SHA", .star (.cls digitCls)], litI "MD5",
          litI "HMAC", litI "CBC", litI "ECB", litI "GCM", litI "PKCS",
          Re.seq [litI "BEGIN", Re.plus (.cls spaceCls),
            Re.alts (["RSA", "DSA", "EC", "PRIVATE", "PUBLIC", "CERTIFICATE"].map litI)]],
        .wordB])
      (Re.seq [litI "-----BEGIN", .cls spaceCls, Re.plus (.cls (fun r => !(r = 0x2D))),
        lit "-----"])),
   ("base64_blob", Re.seq [Re.atLeast 20 (.cls b64Cls), Re.between 0 2 (lit "=")]),
   ("hash_md5", Re.seq [.wordB, Re.rep (.cls hexCls) 32, .wordB]),
   ("hash_sha1", Re.seq [.wordB, Re.rep (.cls hexCls) 40, .wordB]),
   ("hash_sha256", Re.seq [.wordB, Re.rep (.cls hexCls) 64, .wordB]),
   ("credential", Re.seq [
      Re.alts [litI "password", litI "passwd", litI "pwd", litI "secret", litI "token",
        Re.seq [litI "api", Re.opt (.cls (oneOf "_-")), litI "key"],
        Re.seq [litI "access", Re.opt (.cls (oneOf "_-")), litI "key"],
        Re.seq [litI "auth", Re.opt (.cls (oneOf "_-")), litI "token"],
        litI "bearer", litI "credential", litI "AWS_SECRET", litI "AWS_ACCESS",
        Re.seq [litI "PRIVATE", Re.opt (.cls (oneOf "_-")), litI "KEY"],
        Re.seq [litI "client", Re.opt (.cls (oneOf "_-")), litI "secret"]],
      .star (.cls spaceCls), .cls (oneOf "=:"), .star (.cls spaceCls),
      Re.plus (.cls (fun r => !spaceCls r))]),
   ("basic_auth", Re.seq [litI "Basic", Re.plus (.cls spaceCls),
      Re.atLeast 10 (.cls (foldCls (fun c => b64Cls c || c = 0x3D)))]),
   ("bearer_token", Re.seq [litI "Bearer", Re.plus (.cls spaceCls),
      Re.atLeast 10 (.cls (foldCls (fun c => alnumCls c || oneOf "._~+/=-" c)))]),
   ("port", Re.seq [.wordB, Re.alts (["port", "listen", "bind"].map litI),
      .star (.cls spaceCls), .cls (oneOf "=:"), .star (.cls spaceCls),
      Re.between 1 5 (.cls digitCls), .wordB])]

/-- The table `suspiciousAPIs`, in the order of the source. -/
def suspiciousAPIs : List (String × List String) :=
  [("process", ["CreateProcess", "OpenProcess", "TerminateProcess", "CreateRemoteThread",
      "VirtualAllocEx", "WriteProcessMemory", "ReadProcessMemory", "NtCreateProcess",
      "CreateThread", "SuspendThread", "ResumeThread"]),
   ("injection", ["SetWindowsHookEx", "CreateRemoteThread", "QueueUserAPC", "NtQueueApcThread",
      "RtlCreateUserThread", "NtMapViewOfSection", "NtWriteVirtualMemory",
      "NtUnmapViewOfSection"]),
   ("registry", ["RegOpenKey", "RegSetValue", "RegCreateKey", "RegDeleteKey", "RegQueryValue",
      "RegEnumKey", "RegEnumValue"]),
   ("network", ["WSAStartup", "socket", "connect", "send", "recv", "bind", "listen",
      "InternetOpen", "HttpOpenRequest", "HttpSendRequest", "URLDownloadToFile", "WinHttpOpen",
      "WinHttpConnect", "WinHttpSendRequest", "getaddrinfo", "gethostbyname", "inet_addr"]),
   ("file", ["CreateFile", "WriteFile", "ReadFile", "DeleteFile", "CopyFile", "MoveFile",
      "FindFirstFile", "GetTempPath", "GetSystemDirectory", "CreateDirectory",
      "RemoveDirectory"]),
   ("crypto", ["CryptEncrypt", "CryptDecrypt", "CryptGenKey", "CryptAcquireContext",
      "BCryptEncrypt", "BCryptDecrypt", "CryptHashData", "CryptDeriveKey"]),
   ("evasion", ["IsDebuggerPresent", "CheckRemoteDebuggerPresent", "NtQueryInformationProcess",
      "GetTickCount", "Sleep", "VirtualProtect", "OutputDebugString", "NtSetInformationThread",
      "QueryPerformanceCounter", "GetSystemTime"]),
   ("privilege", ["AdjustTokenPrivileges", "OpenProcessToken", "LookupPrivilegeValue",
      "ImpersonateLoggedOnUser", "DuplicateToken", "SetThreadToken"]),
   ("service", ["OpenSCManager", "CreateService", "StartService", "ControlService",
      "DeleteService", "ChangeServiceConfig"])]

/-- `Categorize` for a traversal of the bank in the given order: Go ranges over
the map `patterns` in an unspecified order. -/
def CategorizeIn (bank : List (String × Re)) (s : List Byte) : List String :=
  let cats := (bank.filter (fun e => e.2.MatchString s)).map (fun e => e.1)
  if cats.length = 0 then ["general"] else cats

/-- `Categorize`, with the bank traversed in the order of the source. -/
def Categorize (s : List Byte) : List String := CategorizeIn patterns s

/-- `toLower`. -/
def toLower (s : List Byte) : List Byte :=
  s.map (fun c => if 0x41 ≤ c.val ∧ c.val ≤ 0x5A then (Fin.ofNat (c.val + 32) : Byte) else c)

/-- The loop of `containsLower`: `k` start positions remain, from `i`. -/
def containsLowerLoop (s substr : List Byte) : Nat → Nat → Bool
  | 0, _ => false
  | k + 1, i => if (s.drop i).take substr.length = substr then true
      else containsLowerLoop s substr k (i + 1)

/-- `containsLower`. -/
def containsLower (s substr : List Byte) : Bool :=
  if substr.length > s.length then false
  else containsLowerLoop s substr (s.length - substr.length + 1) 0

/-- `GetSuspiciousGroup` for a traversal of the table in the given order. -/
def GetSuspiciousGroupIn (table : List (String × List String)) (s : List Byte) : String :=
  match table.find? (fun g => g.2.any (fun api => containsLower (toLower s) (toLower (str api)))) with
  | some g => g.1
  | none => ""

/-- `GetSuspiciousGroup`, with the table traversed in the order of the source. -/
def GetSuspiciousGroup (s : List Byte) : String := GetSuspiciousGroupIn suspiciousAPIs s

/-! ## `internal/types.go`: `StringResult`

The fields `Entropy` and `EntropyLabel` are the `float64` result of
`entropy.Calculate`, a sum over a Go map, and its label.  They are not part of
this record, and no theorem of this development states that the records of two
calls agree in them. -/

structure StringResult where
  Value : List Byte
  Offset : Int
  Encoding : String
  Section : List Byte
  Categories : List String
  SuspiciousGroup : String
  Source : String
  XorKey : Nat
  HexBefore : List Byte
  HexAfter : List Byte
  Length : Nat

/-! ## `internal/scanner/scanner.go` -/

/-- The encodings for which `encodingPatterns` has an entry. -/
inductive Encoding where
  | ascii
  | utf8
  | utf16le
  | utf16be
deriving DecidableEq, Repr

/-- The name of an encoding. -/
def Encoding.name : Encoding → String
  | .ascii => "ascii"
  | .utf8 => "utf-8"
  | .utf16le => "utf-16-le"
  | .utf16be => "utf-16-be"

/-- The class `[\x20-\x7e\x09]`. -/
def printable (r : Nat) : Bool := rng 0x20 0x7e r || r = 0x09

/-- The expression that `encodingPatterns` repeats `{n,}` times. -/
def Encoding.unit : Encoding → Re
  | .ascii => .cls printable
  | .utf8 => Re.alts [.cls printable,
      Re.seq [.cls (rng 0xc2 0xdf), .cls (rng 0x80 0xbf)],
      Re.seq [.cls (fun r => r = 0xe0), .cls (rng 0xa0 0xbf), .cls (rng 0x80 0xbf)],
      Re.seq [.cls (rng 0xe1 0xec), Re.rep (.cls (rng 0x80 0xbf)) 2],
      Re.seq [.cls (fun r => r = 0xed), .cls (rng 0x80 0x9f), .cls (rng 0x80 0xbf)],
      Re.seq [.cls (rng 0xee 0xef), Re.rep (.cls (rng 0x80 0xbf)) 2]]
  | .utf16le => Re.seq [.cls printable, .cls (fun r => r = 0)]
  | .utf16be => Re.seq [.cls (fun r => r = 0), .cls printable]

/-- The largest repeat count the unit of an encoding contains (`{2}` in the
`utf-8` pattern). -/
def Encoding.innerRepeat : Encoding → Nat
  | .utf8 => 2
  | _ => 1

/-- `regexp.MustCompile(fmt.Sprintf(encodingPatterns[enc], minLen))`; `none` is
the panic of `MustCompile`.  A negative count does not make a repetition and
`{-n,}` is literal text; a count above 1000, or, from 2 on, a count whose
product with a nested count exceeds 1000, is rejected by `regexp/syntax`
(`ErrInvalidRepeatSize`). -/
def compileScan (enc : Encoding) (minLen : Int) : Option Re :=
  if minLen < 0 then
    some (.cat enc.unit (lit ("\x7b" ++ toString minLen ++ ",\x7d")))
  else if 1000 < minLen then none
  else if 2 ≤ minLen ∧ 1000 / minLen.toNat < enc.innerRepeat then none
  else some (Re.atLeast minLen.toNat enc.unit)

/-- The bytes at the even (`first = true`) or odd positions of the complete
pairs of a slice: the loops of `decodeBytes`. -/
def pairBytes (first : Bool) : List Byte → List Byte
  | a :: b :: rest => (if first then a else b) :: pairBytes first rest
  | _ => []

/-- `decodeBytes`. -/
def decodeBytes (raw : List Byte) : Encoding → List Byte
  | .ascii => raw
  | .utf8 => raw
  | .utf16le => pairBytes true raw
  | .utf16be => pairBytes false raw

/-- An uppercase hexadecimal digit. -/
def hexDigit (n : Nat) : Byte := if n < 10 then Fin.ofNat (0x30 + n) else Fin.ofNat (0x41 + n - 10)

/-- `formatHex`: each byte as `%02X`, joined by spaces. -/
def formatHex (b : List Byte) : List Byte :=
  List.intercalate [0x20] (b.map (fun v => [hexDigit (v.val / 16), hexDigit (v.val % 16)]))

/-- `hexContext`. -/
def hexContext (data : List Byte) (offset length ctx : Int) : Option (List Byte × List Byte) := do
  let start := if offset - ctx < 0 then 0 else offset - ctx
  let before ← slice data start offset
  let stop := if offset + length + ctx > (data.length : Int) then (data.length : Int)
    else offset + length + ctx
  let afterStart := if offset + length > (data.length : Int) then (data.length : Int)
    else offset + length
  let after ← slice data afterStart stop
  some (formatHex before, formatHex after)

/-- The orders in which one call of `categorizer.Categorize` and one call of
`categorizer.GetSuspiciousGroup` traverse their maps. -/
structure MapOrders where
  bank : List (String × Re)
  table : List (String × List String)

/-- The traversal of both maps in the order of the source. -/
def sourceOrders : MapOrders := { bank := patterns, table := suspiciousAPIs }

/-- The traversal of both maps in the reverse of the order of the source. -/
def reverseOrders : MapOrders := { bank := patterns.reverse, table := suspiciousAPIs.reverse }

/-- The loop of `Extract` over the matches.  `trav` gives, for each match, the
orders in which the calls of `Categorize` and `GetSuspiciousGroup` made for it
traverse their maps: Go leaves the order open and does not keep it from one
call to the next. -/
def extractLoop (trav : Nat × Nat → MapOrders) (data : List Byte) (enc : Encoding)
    (sections : List SectionInfo) (filterPat : Option Re) (showContext : Bool) :
    List (Nat × Nat) → Option (List StringResult)
  | [] => some []
  | loc :: rest => do
    let raw ← slice data loc.1 loc.2
    let s := decodeBytes raw enc
    let offset : Int := loc.1
    let skip : Bool := match filterPat with
      | some f => !f.MatchString s
      | none => false
    if skip then extractLoop trav data enc sections filterPat showContext rest
    else
      let hex ← if showContext then hexContext data loc.1 ((loc.2 : Int) - (loc.1 : Int)) 16
        else some ([], [])
      let r : StringResult :=
        { Value := s
          Offset := offset
          Encoding := enc.name
          Section := GetSectionForOffset sections offset
          Categories := CategorizeIn (trav loc).bank s
          SuspiciousGroup := GetSuspiciousGroupIn (trav loc).table s
          Source := "raw"
          XorKey := 0
          HexBefore := hex.1
          HexAfter := hex.2
          Length := s.length }
      let tail ← extractLoop trav data enc sections filterPat showContext rest
      some (r :: tail)

/-- `scanner.Extract` for given traversals of the maps of the classifier;
`none` is a run-time panic. -/
def scanner.ExtractIn (trav : Nat × Nat → MapOrders) (data : List Byte) (minLen : Int)
    (enc : Encoding) (sections : List SectionInfo) (filterPat : Option Re)
    (showContext : Bool) : Option (List StringResult) := do
  let pat ← compileScan enc minLen
  extractLoop trav data enc sections filterPat showContext (pat.FindAllIndex data)

/-- `scanner.Extract`, with the maps of the classifier traversed in the order
of the source at every call; `none` is a run-time panic. -/
def scanner.Extract (data : List Byte) (minLen : Int) (enc : Encoding) (sections : List SectionInfo)
    (filterPat : Option Re) (showContext : Bool) : Option (List StringResult) :=
  scanner.ExtractIn (fun _ => sourceOrders) data minLen enc sections filterPat showContext

/-! ## `internal/xor/xor.go` -/

/-- The expression `interestingPattern`, all of it under `(?i)`. -/
def interestingPattern : Re :=
  Re.alts [Re.seq [litI "http", Re.opt (litI "s"), lit "://"],
    Re.seq [litI ".exe", .wordB], Re.seq [litI ".dll", .wordB], Re.seq [litI ".bat", .wordB],
    Re.seq [litI ".cmd", .wordB], Re.seq [litI ".ps1", .wordB], litI "cmd.exe",
    litI "powershell",
    Re.seq [.cls (fun r => r = 0x5C), litI "windows", .cls (fun r => r = 0x5C)],
    litI "password", litI "username", litI "admin", litI "HKEY_",
    Re.seq [litI "BEGIN", Re.plus (.cls spaceCls),
      Re.alts [litI "RSA", litI "CERTIFICATE", litI "PRIVATE"]],
    Re.seq [litI "api", Re.opt (.cls (oneOf "_-")), litI "key"],
    litI "secret", litI "token", Re.seq [litI ".onion", .wordB], litI "socket", litI "connect"]

/-- The buffer `xored` for a key: every byte XOR-ed with `byte(key)`. -/
def xorBuffer (data : List Byte) (key : Nat) : List Byte :=
  data.map (fun b => (Fin.ofNat (b.val ^^^ (key % 256)) : Byte))

/-- The inner loop of `Bruteforce` over the matches of one key; the state is
the result list, whose values are the keys of the map `seen`. -/
def xorMatchLoop (xored : List Byte) (key : Nat) (sections : List SectionInfo) :
    List (Nat × Nat) → List StringResult → Option (List StringResult)
  | [], results => some results
  | loc :: rest, results => do
    let s ← slice xored loc.1 loc.2
    if !interestingPattern.MatchString s || results.any (fun r => r.Value = s) then
      xorMatchLoop xored key sections rest results
    else
      let offset : Int := loc.1
      let r : StringResult :=
        { Value := s
          Offset := offset
          Encoding := "ascii"
          Section := GetSectionForOffset sections offset
          Categories := Categorize s
          SuspiciousGroup := GetSuspiciousGroup s
          Source := "xor"
          XorKey := key % 256
          HexBefore := []
          HexAfter := []
          Length := s.length }
      xorMatchLoop xored key sections rest (results ++ [r])

/-- The loop of `Bruteforce` over the keys `key, key+1, ...`: `k` keys remain. -/
def xorKeyLoop (data : List Byte) (asciiPat : Re) (sections : List SectionInfo) :
    Nat → Nat → List StringResult → Option (List StringResult)
  | 0, _, results => some results
  | k + 1, key, results => do
    let xored := xorBuffer data key
    let results ← xorMatchLoop xored key sections (asciiPat.FindAllIndex xored) results
    xorKeyLoop data asciiPat sections k (key + 1) results

/-- `xor.Bruteforce`; `none` is a run-time panic. -/
def Bruteforce (data : List Byte) (minLen : Int) (sections : List SectionInfo) :
    Option (List StringResult) := do
  let asciiPat ← compileScan .ascii minLen
  xorKeyLoop data asciiPat sections 255 1 []

/-! ## `internal/base64dec/base64dec.go` -/

/-- The expression `b64Pattern`. -/
def b64Pattern : Re :=
  Re.seq [Re.atLeast 5 (Re.rep (.cls b64Cls) 4),
    Re.opt (.alt (Re.seq [Re.rep (.cls b64Cls) 2, lit "=="])
      (Re.seq [Re.rep (.cls b64Cls) 3, lit "="]))]

/-- The value of a character of the standard Base64 alphabet. -/
def b64Val (c : Byte) : Option Nat :=
  if 0x41 ≤ c.val ∧ c.val ≤ 0x5A then some (c.val - 0x41)
  else if 0x61 ≤ c.val ∧ c.val ≤ 0x7A then some (c.val - 0x61 + 26)
  else if 0x30 ≤ c.val ∧ c.val ≤ 0x39 then some (c.val - 0x30 + 52)
  else if c.val = 0x2B then some 62
  else if c.val = 0x2F then some 63
  else none

/-- `base64.StdEncoding.DecodeString` on text without line breaks; `none` is
the decoding error.  Padding is required and only allowed in the last quantum;
the bits that do not fill a byte are dropped. -/
def b64Decode : List Byte → Option (List Byte)
  | [] => some []
  | a :: b :: c :: d :: rest => do
    let x ← b64Val a
    let y ← b64Val b
    if c.val = 0x3D then
      if d.val = 0x3D ∧ rest = [] then some [(Fin.ofNat ((x * 4 + y / 16) % 256) : Byte)]
      else none
    else do
      let z ← b64Val c
      if d.val = 0x3D then
        if rest = [] then
          some [(Fin.ofNat ((x * 4 + y / 16) % 256) : Byte),
            (Fin.ofNat ((y * 16 + z / 4) % 256) : Byte)]
        else none
      else do
        let w ← b64Val d
        let tail ← b64Decode rest
        some ((Fin.ofNat ((x * 4 + y / 16) % 256) : Byte) ::
          (Fin.ofNat ((y * 16 + z / 4) % 256) : Byte) ::
          (Fin.ofNat ((z * 64 + w) % 256) : Byte) :: tail)
  | _ => none

/-- The number of bytes in the printable range (`0x20..0x7e`, tab, newline,
carriage return). -/
def printableCount (decoded : List Byte) : Nat :=
  (decoded.filter (fun b => (0x20 ≤ b.val ∧ b.val ≤ 0x7e) ∨ b.val = 0x09 ∨ b.val = 0x0a ∨
    b.val = 0x0d)).length

/-- The loop of `base64dec.Extract` over the matches.  The test
`float64(printable)/float64(len(decoded)) < 0.7` is the exact comparison
`10 * printable < 7 * len(decoded)` for every length below `2^49`. -/
def b64Loop (data : List Byte) (minLen : Int) (sections : List SectionInfo) :
    List (Nat × Nat) → Option (List StringResult)
  | [] => some []
  | loc :: rest => do
    let raw ← slice data loc.1 loc.2
    let padding := (4 - raw.length % 4) % 4
    let padded := raw ++ List.replicate padding 0x3D
    match b64Decode padded with
    | none => b64Loop data minLen sections rest
    | some decoded =>
      if (decoded.length : Int) < minLen then b64Loop data minLen sections rest
      else if 10 * printableCount decoded < 7 * decoded.length then
        b64Loop data minLen sections rest
      else
        let offset : Int := loc.1
        let r : StringResult :=
          { Value := decoded
            Offset := offset
            Encoding := "base64"
            Section := GetSectionForOffset sections offset
            Categories := Categorize decoded
            SuspiciousGroup := GetSuspiciousGroup decoded
            Source := "base64"
            XorKey := 0
            HexBefore := []
            HexAfter := []
            Length := decoded.length }
        let tail ← b64Loop data minLen sections rest
        some (r :: tail)

/-- `base64dec.Extract`; `none` is a run-time panic. -/
def base64dec.Extract (data : List Byte) (minLen : Int) (sections : List SectionInfo) :
    Option (List StringResult) :=
  b64Loop data minLen sections (b64Pattern.FindAllIndex data)

/-! ## Specification-side notions for the scanner theorems -/

/-- The number of consecutive bytes of the class `[\x20-\x7e\x09]` from `pos`. -/
def runLen (data : List Byte) (pos : Nat) : Nat :=
  ((data.drop pos).takeWhile (fun b => printable b.val)).length

/-- The bytes `[o, o + l)` of the buffer are a maximal run of bytes of the set
`{0x09, 0x20..0x7e}`: all of them are in the set, the byte before `o` and the
byte at `o + l`, when they exist, are not. -/
def MaximalRun (data : List Byte) (o l : Nat) : Prop :=
  o + l ≤ data.length ∧
  (∀ i, o ≤ i → i < o + l → ∃ b, data.get? i = some b ∧ printable b.val = true) ∧
  (o = 0 ∨ ∃ b, data.get? (o - 1) = some b ∧ printable b.val = false) ∧
  (o + l = data.length ∨ ∃ b, data.get? (o + l) = some b ∧ printable b.val = false)

/-- The 64-byte zero-filled buffer with `http://evil.test/a` at offset 16. -/
def evilBuf : List Byte :=
  List.replicate 16 0 ++ str "http://evil.test/a" ++ List.replicate 30 0

/-- The bytes shown before a match that starts at `o`: the 16 bytes that
precede it, or all bytes before it when there are fewer. -/
def contextBefore (data : List Byte) (o : Nat) : List Byte :=
  (data.drop (o - 16)).take (o - (o - 16))

/-- The bytes shown after a match that ends at `e`: the 16 bytes that follow
it, or all bytes after it when there are fewer. -/
def contextAfter (data : List Byte) (e : Nat) : List Byte := (data.drop e).take 16

/-- The Candidate of the match `m = (start, end)`, in the words of the
specification. -/
def candidateOf (data : List Byte) (enc : Encoding) (sections : List SectionInfo)
    (showContext : Bool) (m : Nat × Nat) : StringResult :=
  { Value := decodeBytes ((data.drop m.1).take (m.2 - m.1)) enc
    Offset := (m.1 : Int)
    Encoding := enc.name
    Section := GetSectionForOffset sections (m.1 : Int)
    Categories := Categorize (decodeBytes ((data.drop m.1).take (m.2 - m.1)) enc)
    SuspiciousGroup := GetSuspiciousGroup (decodeBytes ((data.drop m.1).take (m.2 - m.1)) enc)
    Source := "raw"
    XorKey := 0
    HexBefore := if showContext then formatHex (contextBefore data m.1) else []
    HexAfter := if showContext then formatHex (contextAfter data m.2) else []
    Length := (decodeBytes ((data.drop m.1).take (m.2 - m.1)) enc).length }

/-- The Candidate that `Extract` builds for a match, for given traversals of
the maps of the classifier. -/
def candidateOfIn (orders : MapOrders) (data : List Byte) (enc : Encoding)
    (sections : List SectionInfo) (showContext : Bool) (m : Nat × Nat) : StringResult :=
  { Value := decodeBytes ((data.drop m.1).take (m.2 - m.1)) enc
    Offset := (m.1 : Int)
    Encoding := enc.name
    Section := GetSectionForOffset sections (m.1 : Int)
    Categories := CategorizeIn orders.bank (decodeBytes ((data.drop m.1).take (m.2 - m.1)) enc)
    SuspiciousGroup :=
      GetSuspiciousGroupIn orders.table (decodeBytes ((data.drop m.1).take (m.2 - m.1)) enc)
    Source := "raw"
    XorKey := 0
    HexBefore := if showContext then formatHex (contextBefore data m.1) else []
    HexAfter := if showContext then formatHex (contextAfter data m.2) else []
    Length := (decodeBytes ((data.drop m.1).take (m.2 - m.1)) enc).length }

/-- Whether the optional filter keeps the match `m`. -/
def keptBy (filterPat : Option Re) (data : List Byte) (enc : Encoding) (m : Nat × Nat) : Bool :=
  match filterPat with
  | some f => f.MatchString (decodeBytes ((data.drop m.1).take (m.2 - m.1)) enc)
  | none => true

/-- The number of raw bytes behind one byte of a decoded value: 1 for ascii and
utf-8, 2 for the utf-16 encodings. -/
def Encoding.rawWidth : Encoding → Nat
  | .ascii => 1
  | .utf8 => 1
  | .utf16le => 2
  | .utf16be => 2

/-- The raw utf-16 bytes of the text `cs`: every byte paired with a zero byte,
which follows it (`first = true`, little endian) or precedes it. -/
def utf16Raw (first : Bool) (cs : List Byte) : List Byte :=
  cs.flatMap (fun c => if first then [c, 0] else [0, c])

/-- The fragment `api` occurs in `s` as a substring under ASCII
case-insensitive comparison: a substring of `s` and the fragment are the same
once the letters `A..Z` of both are replaced by `a..z`. -/
def OccursFold (api s : List Byte) : Prop :=
  ∃ pre frag suf : List Byte, s = pre ++ frag ++ suf ∧ toLower frag = toLower api

/-! ## `internal/entropy/entropy.go`: `Label` -/

/-- `Label`.  A finite `float64` is a rational number and the four bounds are
`float64` values, so the comparisons of the source are the comparisons of
rational numbers. -/
def Label (e : ℚ) : String :=
  if e < 5 / 2 then "low"
  else if e < 4 then "normal"
  else if e < 5 then "elevated"
  else if e < 11 / 2 then "high"
  else "very high"

/-- The place of a label in the order low < normal < elevated < high <
very high. -/
def labelRank (l : String) : Nat :=
  if l = "low" then 0
  else if l = "normal" then 1
  else if l = "elevated" then 2
  else if l = "high" then 3
  else 4

/-! ## `internal/categorizer/categorizer.go` and `cmd/strings/main.go`: the only-list -/

/-- The table `OnlyPresets`, in the order of the source. -/
def OnlyPresets : List (String × List String) :=
  [("urls", ["url"]),
   ("apis", ["dll_api"]),
   ("passwords", ["credential", "basic_auth", "bearer_token"]),
   ("network", ["url", "ipv4", "ipv6", "domain", "port"]),
   ("paths", ["win_path", "unix_path", "registry"]),
   ("crypto", ["crypto"]),
   ("hashes", ["hash_md5", "hash_sha1", "hash_sha256"]),
   ("emails", ["email"]),
   ("suspicious", ["dll_api", "credential", "basic_auth", "bearer_token", "crypto"])]

/-- The ASCII lower-case form of a character. -/
def asciiLower (c : Char) : Char :=
  if 0x41 ≤ c.toNat ∧ c.toNat ≤ 0x5A then Char.ofNat (c.toNat + 32) else c

/-- `strings.ToLower`: in a string of ASCII characters the letters `A..Z` are
replaced; any other string is mapped character by character with
`unicode.ToLower`, the library table `lowerRune`. -/
def ToLower (lowerRune : Char → Char) (s : String) : String :=
  if s.toList.all (fun c => c.toNat < 128) then String.mk (s.toList.map asciiLower)
  else String.mk (s.toList.map lowerRune)

/-- White space for `strings.TrimSpace`: tab, line feed, vertical tab, form
feed, carriage return and space among the ASCII characters, and
`unicode.IsSpace`, the library table `isSpace`, outside ASCII. -/
def spaceChar (isSpace : Char → Bool) (c : Char) : Bool :=
  if c.toNat < 128 then
    c.toNat = 0x09 || c.toNat = 0x0A || c.toNat = 0x0B || c.toNat = 0x0C || c.toNat = 0x0D ||
      c.toNat = 0x20
  else isSpace c

/-- `strings.TrimSpace`: leading and trailing white space removed. -/
def TrimSpace (isSpace : Char → Bool) (s : String) : String :=
  String.mk (((s.toList.dropWhile (spaceChar isSpace)).reverse.dropWhile
    (spaceChar isSpace)).reverse)

/-- The body of the loop of `processFile` over the names of the only-list: the
category names that one name adds to `onlyCats`. -/
def expandPreset (lowerRune : Char → Char) (isSpace : Char → Bool) (preset : String) :
    List String :=
  let preset := TrimSpace isSpace (ToLower lowerRune preset)
  match OnlyPresets.lookup preset with
  | some cats => cats
  | none => [preset]

/-- The keys of the map `onlyCats` after the loop over the names that
`strings.Split(*only, ",")` returns, in the order of insertion. -/
def onlyCats (lowerRune : Char → Char) (isSpace : Char → Bool) (names : List String) :
    List String :=
  names.flatMap (expandPreset lowerRune isSpace)

/-! ## `internal/entropy/entropy.go`: `Calculate` -/

/-- The runes of `for _, c := range s` from the byte `pos` on: the string is
decoded as UTF-8 and a byte that starts no valid encoding is the rune U+FFFD of
width 1.  Every rune has at least one byte, so `fuel = len(s)` is enough. -/
def runesFrom (s : List Byte) : Nat → Nat → List Nat
  | 0, _ => []
  | fuel + 1, pos =>
    let r := decodeRune s pos
    if r.2 = 0 then [] else r.1 :: runesFrom s fuel (pos + r.2)

/-- The runes of `for _, c := range s`. -/
def runes (s : List Byte) : List Nat := runesFrom s s.length 0

/-- The statement `freq[c]++` on a map held as the list of its entries. -/
def bump (c : Nat) : List (Nat × Nat) → List (Nat × Nat)
  | [] => [(c, 1)]
  | (k, n) :: rest => if k = c then (k, n + 1) :: rest else (k, n) :: bump c rest

/-- The map `freq` after the first loop of `Calculate`, its keys in the order
of their first occurrence. -/
def freq (s : List Byte) : List (Nat × Nat) := (runes s).foldl (fun m c => bump c m) []

/-- The values `p := float64(count) / length` of the second loop of
`Calculate`, as exact rational numbers; `length` is `len(s)`, the number of
bytes. -/
def probabilities (s : List Byte) : List ℚ :=
  (freq s).map (fun e => (e.2 : ℚ) / (s.length : ℚ))

/-- `Calculate`: `Calculate s H` says that `H` is the value returned for `s`
when the arithmetic of the source, `result -= p * math.Log2(p)` over the entries
of `freq`, is done in exact real numbers instead of `float64`. -/
def Calculate (s : List Byte) (H : ℝ) : Prop :=
  H = if s.length ≤ 1 then 0
    else (probabilities s).foldl
      (fun (result : ℝ) (p : ℚ) => result - (p : ℝ) * Real.logb 2 (p : ℝ)) 0

/-- The three bytes of the UTF-8 text `aé`. -/
def accented : List Byte := [0x61, 0xC3, 0xA9]

/-- The Candidate that `Bruteforce` makes of the match `m = (start, end)` of the
XOR-ed buffer `xored` for the key `key`. -/
def xorCandidateOf (xored : List Byte) (key : Nat) (sections : List SectionInfo)
    (m : Nat × Nat) : StringResult :=
  { Value := (xored.drop m.1).take (m.2 - m.1)
    Offset := (m.1 : Int)
    Encoding := "ascii"
    Section := GetSectionForOffset sections (m.1 : Int)
    Categories := Categorize ((xored.drop m.1).take (m.2 - m.1))
    SuspiciousGroup := GetSuspiciousGroup ((xored.drop m.1).take (m.2 - m.1))
    Source := "xor"
    XorKey := key % 256
    HexBefore := []
    HexAfter := []
    Length := ((xored.drop m.1).take (m.2 - m.1)).length }

/-- A region padded with `=` to a multiple of 4, as `base64dec.Extract` pads a
match before decoding. -/
def b64Padded (raw : List Byte) : List Byte :=
  raw ++ List.replicate ((4 - raw.length % 4) % 4) 0x3D

/-- The acceptance condition of the specification for a decoded region: its
length is at least the threshold and at least 70% of its bytes are in the
printable range. -/
def b64Accepts (minLen : Int) (decoded : List Byte) : Prop :=
  minLen ≤ (decoded.length : Int) ∧ 7 * decoded.length ≤ 10 * printableCount decoded

instance (minLen : Int) (decoded : List Byte) : Decidable (b64Accepts minLen decoded) := by
  unfold b64Accepts
  exact inferInstance

/-- The Candidate that `base64dec.Extract` makes of a region that starts at
`offset` and decodes to `decoded`. -/
def b64CandidateOf (sections : List SectionInfo) (offset : Nat) (decoded : List Byte) :
    StringResult :=
  { Value := decoded
    Offset := (offset : Int)
    Encoding := "base64"
    Section := GetSectionForOffset sections (offset : Int)
    Categories := Categorize decoded
    SuspiciousGroup := GetSuspiciousGroup decoded
    Source := "base64"
    XorKey := 0
    HexBefore := []
    HexAfter := []
    Length := decoded.length }

/-- The Candidate of the match `m`, when its padded region decodes and the
decoded bytes are accepted. -/
def b64Keep (data : List Byte) (minLen : Int) (sections : List SectionInfo) (m : Nat × Nat) :
    Option StringResult :=
  match b64Decode (b64Padded ((data.drop m.1).take (m.2 - m.1))) with
  | some decoded =>
    if b64Accepts minLen decoded then some (b64CandidateOf sections m.1 decoded) else none
  | none => none

/-- The XOR step of `processFile` (`cmd/strings/main.go`): `Bruteforce` is
called with the threshold `ml`, the caller's minimum length raised to 6. -/
def xorStage (data : List Byte) (minLength : Int) (sections : List SectionInfo) :
    Option (List StringResult) :=
  let ml := if minLength < 6 then 6 else minLength
  Bruteforce data ml sections

/-- The text of the XOR scenario. -/
def secretText : List Byte := str "password=admin123"

/-- The 17 bytes of `password=admin123` XOR-ed with the key 0x42. -/
def secretXored : List Byte := xorBuffer secretText 0x42

/-! ## `internal/threat/threat.go`

The counters and the score are Go `int`s.  They are bounded by five times the
number of Candidates, which a slice in memory keeps far below `2^63`, so they
are natural numbers here. -/

/-- `internal.StringResult` together with its field `Entropy`, which
`threat.Assess` reads; a `float64` that is only compared with the constant 5.0
is a rational number. -/
structure Candidate extends StringResult where
  Entropy : ℚ

/-- `internal.ThreatDetails`. -/
structure ThreatDetails where
  Count : Nat
  Weight : Nat
  Score : Nat
deriving DecidableEq, Repr

/-- `internal.ThreatResult`; the map `Details` is the list of its entries. -/
structure ThreatResult where
  Level : String
  Score : Nat
  Details : List (String × ThreatDetails)

/-- The table `weights`. -/
def weights : List (String × Nat) :=
  [("process", 2), ("injection", 5), ("registry", 1), ("network", 2), ("file", 1),
   ("crypto", 2), ("evasion", 4), ("privilege", 4), ("service", 3)]

/-- The weight `w` of a group in the loop over `apiCounts`: `weights[group]`,
which is 0 for a name that is no key of the table, replaced by 1 when it is
0. -/
def weightOf (group : String) : Nat :=
  let w := (weights.lookup group).getD 0
  if w = 0 then 1 else w

/-- The statement `apiCounts[g]++` on a map held as the list of its entries. -/
def bumpGroup (g : String) : List (String × Nat) → List (String × Nat)
  | [] => [(g, 1)]
  | (k, n) :: rest => if k = g then (k, n + 1) :: rest else (k, n) :: bumpGroup g rest

/-- The map `apiCounts` after the first loop of `Assess`, its keys in the order
of their first occurrence. -/
def apiCounts (results : List Candidate) : List (String × Nat) :=
  results.foldl
    (fun m r => if r.SuspiciousGroup ≠ "" then bumpGroup r.SuspiciousGroup m else m) []

/-- The statement `details[name] = d` on a map held as the list of its
entries. -/
def setDetail (name : String) (d : ThreatDetails) :
    List (String × ThreatDetails) → List (String × ThreatDetails)
  | [] => [(name, d)]
  | (k, v) :: rest => if k = name then (k, d) :: rest else (k, v) :: setDetail name d rest

/-- The loop of `Assess` over `apiCounts`, for the entries in the order of the
traversal: the state is `score` and `details`. -/
def apiLoop : List (String × Nat) → Nat × List (String × ThreatDetails) →
    Nat × List (String × ThreatDetails)
  | [], st => st
  | (group, count) :: rest, st =>
    let w := weightOf group
    let s := count * w
    apiLoop rest (st.1 + s, setDetail group { Count := count, Weight := w, Score := s } st.2)

/-- Whether a Candidate has one of the categories `credential`, `basic_auth`,
`bearer_token`: the inner loop of `Assess` with its `break`. -/
def hasCredential (r : Candidate) : Bool :=
  r.Categories.any (fun c => c = "credential" || c = "basic_auth" || c = "bearer_token")

/-- `Assess` for a traversal of the map `apiCounts` in the given order. -/
def AssessIn (order : List (String × Nat)) (results : List Candidate) : ThreatResult :=
  let st := apiLoop order (0, [])
  let highEntropy := results.countP (fun r => decide (5 ≤ r.Entropy))
  let st := if highEntropy > 0 then
      (st.1 + highEntropy * 2, setDetail "high_entropy_strings"
        { Count := highEntropy, Weight := 2, Score := highEntropy * 2 } st.2)
    else st
  let credCount := results.countP hasCredential
  let st := if credCount > 0 then
      (st.1 + credCount * 3, setDetail "credentials"
        { Count := credCount, Weight := 3, Score := credCount * 3 } st.2)
    else st
  let xorCount := results.countP (fun r => r.Source = "xor")
  let st := if xorCount > 0 then
      (st.1 + xorCount * 4, setDetail "xor_obfuscated"
        { Count := xorCount, Weight := 4, Score := xorCount * 4 } st.2)
    else st
  let b64Count := results.countP (fun r => r.Source = "base64")
  let st := if b64Count > 0 then
      (st.1 + b64Count, setDetail "base64_decoded"
        { Count := b64Count, Weight := 1, Score := b64Count } st.2)
    else st
  let score := st.1
  let level := if score ≥ 70 then "CRITICAL" else if score ≥ 30 then "HIGH"
    else if score ≥ 10 then "MEDIUM" else "LOW"
  { Level := level, Score := score, Details := st.2 }

/-- `Assess`, with `apiCounts` traversed in the order of first occurrence. -/
def Assess (results : List Candidate) : ThreatResult := AssessIn (apiCounts results) results

/-- A Candidate of the API group `injection` with no other indicator. -/
def injectionOnly : Candidate :=
  { Value := str "QueueUserAPC", Offset := 0, Encoding := "ascii", Section := [],
    Categories := ["general"], SuspiciousGroup := "injection", Source := "raw", XorKey := 0,
    HexBefore := [], HexAfter := [], Length := 12, Entropy := 3 }

/-- The number of consecutive bytes of the class `p` from `pos`. -/
def clsRun (p : Nat → Bool) (data : List Byte) (pos : Nat) : Nat :=
  ((data.drop pos).takeWhile (fun b => p b.val)).length

/-- The class of the character `=`. -/
def eqCls (r : Nat) : Bool := r = 0x3D

/-- Whether the `=` padding of a last group starts at `e`: two characters of
the Base64 alphabet followed by `==`, or three followed by `=`. -/
def b64PadAt (data : List Byte) (e : Nat) : Bool :=
  (decide (2 ≤ clsRun b64Cls data e) && decide (0 < clsRun eqCls data (e + 2)) &&
      decide (0 < clsRun eqCls data (e + 3))) ||
    (decide (3 ≤ clsRun b64Cls data e) && decide (0 < clsRun eqCls data (e + 3)))

/-- The end of the match of `b64Pattern` that starts at `pos`, where a run of
at least 20 characters of the alphabet starts: the whole groups of four of the
run, and the padded last group when it follows them. -/
def b64MatchEnd (data : List Byte) (pos : Nat) : Nat :=
  let e := pos + 4 * (clsRun b64Cls data pos / 4)
  if b64PadAt data e then e + 4 else e

/-- The bytes `[o, o + l)` of the buffer are a maximal run of characters of the
Base64 alphabet: all of them are in the alphabet, the byte before `o` and the
byte at `o + l`, when they exist, are not. -/
def B64Run (data : List Byte) (o l : Nat) : Prop :=
  o + l ≤ data.length ∧
  (∀ i, o ≤ i → i < o + l → ∃ b, data.get? i = some b ∧ b64Cls b.val = true) ∧
  (o = 0 ∨ ∃ b, data.get? (o - 1) = some b ∧ b64Cls b.val = false) ∧
  (o + l = data.length ∨ ∃ b, data.get? (o + l) = some b ∧ b64Cls b.val = false)

/-- The run of `l` characters of the alphabet from `o` ends in an incomplete
group that the `=` characters after it complete: two characters and `==`, or
three characters and `=`. -/
def B64PadFollows (data : List Byte) (o l : Nat) : Prop :=
  (l % 4 = 2 ∧ data.get? (o + l) = some 0x3D ∧ data.get? (o + l + 1) = some 0x3D) ∨
    (l % 4 = 3 ∧ data.get? (o + l) = some 0x3D)

/-- The character of the standard Base64 alphabet for a value below 64. -/
def b64Char (n : Nat) : Byte :=
  if n < 26 then Fin.ofNat (0x41 + n)
  else if n < 52 then Fin.ofNat (0x61 + (n - 26))
  else if n < 62 then Fin.ofNat (0x30 + (n - 52))
  else if n = 62 then 0x2B
  else 0x2F

/-- The standard Base64 encoding of a text, with padding (RFC 4648). -/
def b64Encode : List Byte → List Byte
  | a :: b :: c :: rest =>
    b64Char (a.val / 4) :: b64Char (a.val % 4 * 16 + b.val / 16) ::
      b64Char (b.val % 16 * 4 + c.val / 64) :: b64Char (c.val % 64) :: b64Encode rest
  | [a, b] =>
    [b64Char (a.val / 4), b64Char (a.val % 4 * 16 + b.val / 16), b64Char (b.val % 16 * 4), 0x3D]
  | [a] => [b64Char (a.val / 4), b64Char (a.val % 4 * 16), 0x3D, 0x3D]
  | [] => []

/-- The place of a level in the order LOW < MEDIUM < HIGH < CRITICAL. -/
def threatRank (l : String) : Nat :=
  if l = "LOW" then 0
  else if l = "MEDIUM" then 1
  else if l = "HIGH" then 2
  else 3

/-- The keys under which `Assess` files the four indicators that are not API
groups. -/
def indicatorKeys : List String :=
  ["high_entropy_strings", "credentials", "xor_obfuscated", "base64_decoded"]

/-- A Candidate found by the XOR scan whose API group bears the name of the
key of the XOR indicator. -/
def xorNamed : Candidate :=
  { Value := str "secret", Offset := 0, Encoding := "ascii", Section := [],
    Categories := ["general"], SuspiciousGroup := "xor_obfuscated", Source := "xor",
    XorKey := 1, HexBefore := [], HexAfter := [], Length := 6, Entropy := 2 }

/-- Every byte that a match of the expression spans is in the set
`{0x09, 0x20..0x7e}`. -/
def Re.SpansPrintable (data : List Byte) (r : Re) : Prop :=
  ∀ pos e, e ∈ r.ends data pos → ∀ i, pos ≤ i → i < e →
    ∀ b, data.get? i = some b → printable b.val = true

/-! ## `internal/diff/diff.go` -/

structure DiffResult where
  OnlyA : List (List Byte)
  OnlyB : List (List Byte)
  Common : Nat
deriving DecidableEq, Repr

/-- The order `<` of Go on strings: the bytes are compared from the left, and a
proper initial part of a string is below the string. -/
def strLess : List Byte → List Byte → Bool
  | [], [] => false
  | [], _ :: _ => true
  | _ :: _, [] => false
  | a :: as, b :: bs => decide (a.val < b.val) || (decide (a.val = b.val) && strLess as bs)

/-- `sort.Strings`: the strings in ascending order.  The order is total on
strings, so the sorted list does not depend on the sorting method; insertion
stands in for the one of the library. -/
def sortStrings (l : List (List Byte)) : List (List Byte) :=
  l.insertionSort (fun a b => strLess b a = false)

/-- The statement `set[v] = true` on a set held as the list of its keys. -/
def setKey (v : List Byte) (m : List (List Byte)) : List (List Byte) :=
  if v ∈ m then m else m ++ [v]

/-- The set of the values of a list of Candidates, its keys in the order of
their first occurrence. -/
def valueSet (rs : List StringResult) : List (List Byte) :=
  rs.foldl (fun m r => setKey r.Value m) []

/-- `Compare` after the two sets are built, for traversals of `setA` and of
`setB` in the given orders: a key of `setA` that is in `setB` is counted, one
that is not is appended to `onlyA`; a key of `setB` that is not in `setA` is
appended to `onlyB`; both lists are sorted. -/
def CompareIn (travA travB : List (List Byte)) : DiffResult :=
  { OnlyA := sortStrings (travA.filter (fun s => decide (s ∉ travB)))
    OnlyB := sortStrings (travB.filter (fun s => decide (s ∉ travA)))
    Common := travA.countP (fun s => decide (s ∈ travB)) }

/-- `diff.Compare`, with the sets traversed in the order of first occurrence. -/
def Compare (a b : List StringResult) : DiffResult := CompareIn (valueSet a) (valueSet b)

/-- A Candidate of the raw scan with the given value, at offset 0. -/
def rawResult (v : String) : StringResult :=
  { Value := str v, Offset := 0, Encoding := "ascii", Section := [], Categories := ["general"],
    SuspiciousGroup := "", Source := "raw", XorKey := 0, HexBefore := [], HexAfter := [],
    Length := (str v).length }

/-- The function `filepath.Base` for the separator `/`: `.` for the empty path;
the trailing separators are dropped, then everything up to the last separator;
`/` when nothing is left. -/
def Base (path : List Byte) : List Byte :=
  if path = [] then str "."
  else
    let stripped := (path.reverse.dropWhile (fun c => c.val = 0x2F)).reverse
    let last := (stripped.reverse.takeWhile (fun c => c.val ≠ 0x2F)).reverse
    if last = [] then str "/" else last

/-- The verb `%Nd` for a number that is not negative: decimal digits, with
spaces on the left up to the width. -/
def fmtWidthD (width n : Nat) : List Byte :=
  List.replicate (width - (str (toString n)).length) 0x20 ++ str (toString n)

/-- The verb `%-Ns`: the string, with spaces on the right up to the width, which
counts runes. -/
def fmtLeftS (width : Nat) (s : List Byte) : List Byte :=
  s ++ List.replicate (width - (runes s).length) 0x20

/-- `fmt.Fprintf(w, text)` for a text without verbs: the text is handed to
`w.Write`.  `w` is `none` for the nil interface value, on which the call of
the method is a nil dereference, a run-time panic (`none`); otherwise it is
what the writer has received so far. -/
def Fprintf (w : Option (List Byte)) (text : List Byte) : Option (List Byte) :=
  match w with
  | none => none
  | some written => some (written ++ text)

/-- What `Print` writes to the standard output after its call of
`fmt.Fprintf`. -/
def printBody (d : DiffResult) (nameA nameB : List Byte) (color : Bool) : List Byte :=
  let red := fun (s : List Byte) => if color then str "\x1b[91m" ++ s ++ str "\x1b[0m" else s
  let green := fun (s : List Byte) => if color then str "\x1b[92m" ++ s ++ str "\x1b[0m" else s
  let bold := fun (s : List Byte) => if color then str "\x1b[1m" ++ s ++ str "\x1b[0m" else s
  let rule := str "  ======================================================\n"
  let head := str "\n" ++ str "  " ++ bold (str "DIFF RESULTS") ++ str "\n" ++ rule ++
    str "  Common:               " ++ fmtWidthD 8 d.Common ++ str "\n" ++
    str "  Only in " ++ fmtLeftS 12 nameA ++ str ": " ++ fmtWidthD 6 d.OnlyA.length ++ str "\n" ++
    str "  Only in " ++ fmtLeftS 12 nameB ++ str ": " ++ fmtWidthD 6 d.OnlyB.length ++ str "\n" ++
    rule
  let partA := if d.OnlyA.length > 0 then
      str "\n  " ++ red (str "--- Only in " ++ nameA ++ str " ---") ++ str "\n" ++
        (d.OnlyA.map (fun s => str "  " ++ red (str "-") ++ str " " ++ s ++ str "\n")).flatten
    else []
  let partB := if d.OnlyB.length > 0 then
      str "\n  " ++ green (str "+++ Only in " ++ nameB ++ str " +++") ++ str "\n" ++
        (d.OnlyB.map (fun s => str "  " ++ green (str "+") ++ str " " ++ s ++ str "\n")).flatten
    else []
  head ++ partA ++ partB

/-- `diff.Print`: the text written to the standard output; `none` is a run-time
panic.  The call `fmt.Fprintf(nil, "")` comes before any output. -/
def Print (d : DiffResult) (fileA fileB : List Byte) (color : Bool) : Option (List Byte) := do
  let nameA := Base fileA
  let nameB := Base fileB
  let _ ← Fprintf none []
  some (printBody d nameA nameB color)

/-! ## `cmd/strings/main.go`: `processFile` -/

/-- What `processFile` has from the command line: `-n`; the encodings scanned
(the one of `-e`, or the four with `-a`); the compiled filter of `-f`; and
`-context`, `-d`, the map `onlyCats` as the list of its keys (`none` is the nil
map of an empty `-only`), `-base64`, `-xor`. -/
structure Options where
  minLength : Int
  encodings : List Encoding
  filterPat : Option Re
  context : Bool
  dedup : Bool
  onlyCats : Option (List String)
  base64Flag : Bool
  xorFlag : Bool

/-- `matchOnly`, for the keys of the map `onlyCats`. -/
def matchOnly (r : StringResult) (onlyCats : List String) : Bool :=
  r.Categories.any (fun c => decide (c ∈ onlyCats)) ||
    (decide ("dll_api" ∈ onlyCats) && decide (r.SuspiciousGroup ≠ ""))

/-- The loop of `processFile` over the results of the scan of one encoding; the
state is `allResults` and the keys of the map `seen`. -/
def mergeScan (dedup : Bool) (only : Option (List String)) :
    List StringResult → List StringResult × List (List Byte) →
    List StringResult × List (List Byte)
  | [], st => st
  | r :: rest, st =>
    if dedup = true ∧ r.Value ∈ st.2 then mergeScan dedup only rest st
    else
      let skip : Bool := match only with
        | some cats => !matchOnly r cats
        | none => false
      if skip then mergeScan dedup only rest st
      else mergeScan dedup only rest (st.1 ++ [r], setKey r.Value st.2)

/-- The loops of `processFile` over the results of the Base64 stage and of the
XOR stage: they have the test of `seen` and no test of `onlyCats`. -/
def mergeDecoded (dedup : Bool) :
    List StringResult → List StringResult × List (List Byte) →
    List StringResult × List (List Byte)
  | [], st => st
  | r :: rest, st =>
    if dedup = true ∧ r.Value ∈ st.2 then mergeDecoded dedup rest st
    else mergeDecoded dedup rest (st.1 ++ [r], setKey r.Value st.2)

/-- The loop of `processFile` over the encodings; `none` is a run-time panic. -/
def scanLoop (o : Options) (data : List Byte) (sections : List SectionInfo) :
    List Encoding → List StringResult × List (List Byte) →
    Option (List StringResult × List (List Byte))
  | [], st => some st
  | enc :: rest, st => do
    let results ← scanner.Extract data o.minLength enc sections o.filterPat o.context
    scanLoop o data sections rest (mergeScan o.dedup o.onlyCats results st)

/-- `processFile` from the point where the file is loaded: `data` is its
content and `sections` what `parser.ParseSections` returned for it.  The value
is `allResults`; `none` is a run-time panic. -/
def processFile (o : Options) (data : List Byte) (sections : List SectionInfo) :
    Option (List StringResult) := do
  let st ← scanLoop o data sections o.encodings ([], [])
  let st ← if o.base64Flag then do
      let results ← base64dec.Extract data o.minLength sections
      some (mergeDecoded o.dedup results st)
    else some st
  let st ← if o.xorFlag then do
      let results ← xorStage data o.minLength sections
      some (mergeDecoded o.dedup results st)
    else some st
  some st.1

/-- Whether a Candidate passes the test of `onlyCats`, which a nil map does not
make. -/
def accepted (only : Option (List String)) (r : StringResult) : Bool :=
  match only with
  | some cats => matchOnly r cats
  | none => true

/-- The Candidates of the scans of the encodings that pass the test of
`onlyCats`, scan after scan. -/
def rawAccepted (o : Options) (data : List Byte) (sections : List SectionInfo) :
    List Encoding → Option (List StringResult)
  | [] => some []
  | enc :: rest => do
    let results ← scanner.Extract data o.minLength enc sections o.filterPat o.context
    let tail ← rawAccepted o data sections rest
    some (results.filter (accepted o.onlyCats) ++ tail)

/-- The Candidates in pipeline order: the ones of the scans of the encodings
that pass the test of `onlyCats`, then the ones of the Base64 stage, then the
ones of the XOR stage, each stage when it is requested. -/
def pipelineOrder (o : Options) (data : List Byte) (sections : List SectionInfo) :
    Option (List StringResult) := do
  let raw ← rawAccepted o data sections o.encodings
  let b64 ← if o.base64Flag then base64dec.Extract data o.minLength sections else some []
  let xr ← if o.xorFlag then xorStage data o.minLength sections else some []
  some (raw ++ b64 ++ xr)

/-- The options `-n 4 -e ascii -only urls -base64`; the one key of the map
`onlyCats` is `url`. -/
def onlyUrlsBase64 : Options :=
  { minLength := 4, encodings := [.ascii], filterPat := none, context := false, dedup := false,
    onlyCats := some ["url"], base64Flag := true,
    xorFlag := false }

/-- The options `-n 4 -a`, with `-d` or without. -/
def allEncodings (dedup : Bool) : Options :=
  { minLength := 4, encodings := [.ascii, .utf8, .utf16le, .utf16be], filterPat := none,
    context := false, dedup := dedup, onlyCats := none, base64Flag := false, xorFlag := false }

/-! # Theorems -/

/-! ## Basic lemmas -/

theorem wrap64_of_range {x : Int} (h1 : -2 ^ 63 ≤ x) (h2 : x < 2 ^ 63) : wrap64 x = x := by
  unfold wrap64
  omega

theorem mem_GetSectionForOffset_aux (secs : List SectionInfo) (offset : Int)
    (hno : ∀ s ∈ secs, -2 ^ 63 ≤ s.Offset + s.Size ∧ s.Offset + s.Size < 2 ^ 63) :
    ((∀ s ∈ secs, ¬ s.Contains offset) ∧ GetSectionForOffset secs offset = []) ∨
    (∃ i, ∃ hi : i < secs.length, (secs.get ⟨i, hi⟩).Contains offset ∧
      (∀ j, ∀ hj : j < secs.length, j < i → ¬ (secs.get ⟨j, hj⟩).Contains offset) ∧
      GetSectionForOffset secs offset = (secs.get ⟨i, hi⟩).Name) := by
  induction secs with
  | nil => left; simp [GetSectionForOffset]
  | cons sec rest ih =>
    have hsec := hno sec (List.mem_cons_self _ _)
    have hw : wrap64 (sec.Offset + sec.Size) = sec.Offset + sec.Size :=
      wrap64_of_range hsec.1 hsec.2
    by_cases hc : sec.Contains offset
    · right
      refine ⟨0, by simp, by simpa using hc, ?_, ?_⟩
      · intro j _ hj; omega
      · have hc2 : offset ≥ sec.Offset ∧ offset < sec.Offset + sec.Size := hc
        simp [GetSectionForOffset, hw, hc2]
    · have hc2 : ¬ (offset ≥ sec.Offset ∧ offset < sec.Offset + sec.Size) := hc
      have hstep : GetSectionForOffset (sec :: rest) offset = GetSectionForOffset rest offset := by
        simp only [GetSectionForOffset, hw]
        rw [if_neg hc2]
      rcases ih (fun s hs => hno s (List.mem_cons_of_mem _ hs)) with ⟨hnone, hres⟩ | ⟨i, hi, hci, hfirst, hres⟩
      · left
        refine ⟨?_, by rw [hstep, hres]⟩
        intro s hs
        rcases List.mem_cons.1 hs with rfl | hs
        · exact hc
        · exact hnone s hs
      · right
        refine ⟨i + 1, by simpa using hi, by simpa using hci, ?_, by rw [hstep, hres]; simp⟩
        intro j hj hji
        cases j with
        | zero => simpa using hc
        | succ j =>
          simpa using hfirst j (by simpa using hj) (by omega)

/-! ## The PE path -/

theorem Read_full (data : List Byte) (pos n : Nat) (h : pos + n ≤ data.length) :
    File.Read ⟨data, pos⟩ n = ((data.drop pos).take n, n, ⟨data, pos + n⟩) := by
  have hl : ((data.drop pos).take n).length = n := by
    simp [List.length_take, List.length_drop]; omega
  simp [File.Read, hl]

theorem Read_short (data : List Byte) (pos n : Nat) (hn : 0 < n) (h : data.length < pos + n) :
    (File.Read ⟨data, pos⟩ n).2.1 < n := by
  simp [File.Read, List.length_take, List.length_drop]; omega

theorem binaryReadLE_full (data : List Byte) (pos n : Nat) (h : pos + n ≤ data.length) :
    File.binaryReadLE ⟨data, pos⟩ n = (uLE data pos n, ⟨data, pos + n⟩) := by
  simp [File.binaryReadLE, Read_full data pos n h, uLE]

theorem peTable_succ (data : List Byte) (t m : Nat) :
    peTable data t (m + 1) = peEntryAt data t :: peTable data (t + 40) m := by
  simp only [peTable, List.range_succ_eq_map, List.map_cons, List.map_map]
  congr 1
  apply List.map_congr_left
  intro i _
  simp only [Function.comp]
  congr 1
  omega

theorem peEntryAt_of_header (data : List Byte) (t : Nat) :
    ({ Name := trimRightNul (((data.drop t).take 40).take 8)
       Offset := (leNat ((((data.drop t).take 40).drop 20).take 4) : Int)
       Size := (leNat ((((data.drop t).take 40).drop 16).take 4) : Int)
       VirtualAddress := leNat ((((data.drop t).take 40).drop 12).take 4) } : SectionInfo)
      = peEntryAt data t := by
  simp only [peEntryAt, uLE, List.take_take, List.drop_take, List.drop_drop]
  simp [Nat.add_comm]

theorem peLoop_eq (data : List Byte) (k t : Nat) (acc : List SectionInfo) :
    peLoop k ⟨data, t⟩ acc = acc ++ peTable data t (min k ((data.length - t) / 40)) := by
  induction k generalizing t acc with
  | zero => simp [peLoop, peTable]
  | succ k ih =>
    by_cases h : t + 40 ≤ data.length
    · have hdiv : (data.length - t) / 40 = (data.length - (t + 40)) / 40 + 1 := by omega
      rw [peLoop, Read_full data t 40 h]
      simp only [lt_self_iff_false, if_false]
      rw [ih, hdiv, Nat.succ_min_succ, peTable_succ, peEntryAt_of_header data t]
      simp
    · have hdiv : (data.length - t) / 40 = 0 := by omega
      have hs := Read_short data t 40 (by omega) (by omega)
      rw [peLoop]
      simp [hs, hdiv, peTable]

theorem parsePE_eq (data : List Byte) (e n z : Nat)
    (hmz : data.take 2 = [0x4D, 0x5A]) (h3c : 0x40 ≤ data.length)
    (he : uLE data 0x3C 4 = e) (hsig : (data.drop e).take 4 = [0x50, 0x45, 0, 0])
    (hhdr : e + 22 ≤ data.length)
    (hn : uLE data (e + 6) 2 = n) (hz : uLE data (e + 20) 2 = z) :
    parsePE data = peTable data (e + 24 + z) (min n ((data.length - (e + 24 + z)) / 40)) := by
  have r1 := Read_full data 0 2 (by omega)
  have r2 := binaryReadLE_full data 0x3C 4 (by omega)
  have r3 := Read_full data e 4 (by omega)
  have r4 := binaryReadLE_full data (e + 4 + 2) 2 (by omega)
  have r5 := binaryReadLE_full data (e + 4 + 2 + 2 + 12) 2 (by omega)
  simp only [List.drop_zero] at r1
  unfold parsePE
  simp only [r1, hmz, File.SeekSet, File.SeekCur, r2, he, r3, hsig, r4, r5]
  have e1 : e + 4 + 2 = e + 6 := by omega
  have e2 : e + 4 + 2 + 2 + 12 = e + 20 := by omega
  rw [e1] at hn ⊢
  simp only [e2, hn, hz, peLoop_eq]
  have e3 : e + 4 + 2 + 2 + 12 + 2 + 2 + z = e + 24 + z := by omega
  simp [e3]

/-! ## Claims about the section parser -/

/-- C2 (amended): for every section list in which no section's `Offset + Size`
leaves the `int64` range, and every offset, `GetSectionForOffset` returns the
name of the first section in list order whose half-open range
`[Offset, Offset + Size)` contains the offset, and the empty name when no
section contains it; with the single section `.text` at offset 512 of size
1024, offset 600 resolves to `.text` and offset 2000 to none. -/
theorem GetSectionForOffset_first_containing (secs : List SectionInfo) (offset : Int)
    (hno : ∀ s ∈ secs, -2 ^ 63 ≤ s.Offset + s.Size ∧ s.Offset + s.Size < 2 ^ 63) :
    (((∀ s ∈ secs, ¬ s.Contains offset) ∧ GetSectionForOffset secs offset = []) ∨
      (∃ i, ∃ hi : i < secs.length, (secs.get ⟨i, hi⟩).Contains offset ∧
        (∀ j, ∀ hj : j < secs.length, j < i → ¬ (secs.get ⟨j, hj⟩).Contains offset) ∧
        GetSectionForOffset secs offset = (secs.get ⟨i, hi⟩).Name)) ∧
    GetSectionForOffset [textSection] 600 = str ".text" ∧
    GetSectionForOffset [textSection] 2000 = [] :=
  ⟨mem_GetSectionForOffset_aux secs offset hno, by decide, by decide⟩

/-- Witness for C2: the section list `[.text]` and offset 600 satisfy the
hypothesis. -/
theorem GetSectionForOffset_first_containing_witness :
    (((∀ s ∈ [textSection], ¬ s.Contains 600) ∧ GetSectionForOffset [textSection] 600 = []) ∨
      (∃ i, ∃ hi : i < [textSection].length, ([textSection].get ⟨i, hi⟩).Contains 600 ∧
        (∀ j, ∀ hj : j < [textSection].length, j < i →
          ¬ ([textSection].get ⟨j, hj⟩).Contains 600) ∧
        GetSectionForOffset [textSection] 600 = ([textSection].get ⟨i, hi⟩).Name)) ∧
    GetSectionForOffset [textSection] 600 = str ".text" ∧
    GetSectionForOffset [textSection] 2000 = [] :=
  GetSectionForOffset_first_containing [textSection] 600 (by decide)

/-- Counterexample to C2 as stated: offset 600 lies in the range
`[10, 10 + (2^63 - 5))` of the only section, yet the lookup returns the empty
name, because the `int64` sum `Offset + Size` wraps to a negative number. -/
theorem GetSectionForOffset_overflow_counterexample :
    wideSection.Contains 600 ∧ GetSectionForOffset [wideSection] 600 = [] ∧
      wideSection.Name ≠ [] := by
  decide

/-- C3: a file that starts with `MZ`, has `e` as little-endian u32 at 0x3C, the
signature `PE\0\0` at `e`, section count `n` (u16 at `e+6`), optional-header
size `z` (u16 at `e+20`) and `n` complete 40-byte entries from `e+24+z` yields
exactly the `n` sections of the table, in order, the i-th with the NUL-trimmed
first 8 bytes as name, the u32 at +12 as virtual address, at +16 as size and at
+20 as offset. -/
theorem parsePE_complete_table (data : List Byte) (e n z : Nat)
    (hmz : data.take 2 = [0x4D, 0x5A]) (h3c : 0x40 ≤ data.length)
    (he : uLE data 0x3C 4 = e) (hsig : (data.drop e).take 4 = [0x50, 0x45, 0, 0])
    (hn : uLE data (e + 6) 2 = n) (hz : uLE data (e + 20) 2 = z)
    (hfit : e + 24 + z + 40 * n ≤ data.length) :
    parsePE data = (List.range n).map (fun i =>
      ({ Name := trimRightNul ((data.drop (e + 24 + z + 40 * i)).take 8)
         Offset := (uLE data (e + 24 + z + 40 * i + 20) 4 : Int)
         Size := (uLE data (e + 24 + z + 40 * i + 16) 4 : Int)
         VirtualAddress := uLE data (e + 24 + z + 40 * i + 12) 4 } : SectionInfo)) := by
  rw [parsePE_eq data e n z hmz h3c he hsig (by omega) hn hz]
  have hmin : min n ((data.length - (e + 24 + z)) / 40) = n := by
    apply Nat.min_eq_left
    omega
  rw [hmin]
  rfl

set_option maxRecDepth 100000 in
/-- Witness for C3: the minimal PE with one entry `.text`, raw offset 0x200 and
raw size 0x400, yields exactly one section `.text` at 512 of size 1024. -/
theorem parsePE_complete_table_witness :
    parsePE minimalPE =
      [{ Name := str ".text", Offset := 512, Size := 1024, VirtualAddress := 0x1000 }] := by
  rw [parsePE_complete_table minimalPE 0x40 1 0 (by decide) (by decide) (by decide) (by decide)
    (by decide) (by decide) (by decide)]
  decide

/-- C4: with a valid MZ/PE header that declares `n` sections, the PE parser
returns exactly `min n k` sections, `k` being the number of complete 40-byte
entries between the start `e+24+z` of the section table and the end of the
file, and they are the first `min n k` entries of the table. -/
theorem parsePE_truncated_table (data : List Byte) (e n z : Nat)
    (hmz : data.take 2 = [0x4D, 0x5A]) (h3c : 0x40 ≤ data.length)
    (he : uLE data 0x3C 4 = e) (hsig : (data.drop e).take 4 = [0x50, 0x45, 0, 0])
    (hhdr : e + 22 ≤ data.length)
    (hn : uLE data (e + 6) 2 = n) (hz : uLE data (e + 20) 2 = z) :
    (parsePE data).length = min n ((data.length - (e + 24 + z)) / 40) ∧
    parsePE data = peTable data (e + 24 + z) (min n ((data.length - (e + 24 + z)) / 40)) := by
  have h := parsePE_eq data e n z hmz h3c he hsig hhdr hn hz
  refine ⟨?_, h⟩
  rw [h]
  simp [peTable]

set_option maxRecDepth 100000 in
/-- Witness for C4: the image that declares three sections and ends inside the
second entry yields one section. -/
theorem parsePE_truncated_table_witness :
    (parsePE truncatedPE).length = 1 ∧ parsePE truncatedPE = [textSection] := by
  have h := parsePE_truncated_table truncatedPE 0x40 3 4 (by decide) (by decide) (by decide)
    (by decide) (by decide) (by decide) (by decide)
  refine ⟨by rw [h.1]; decide, by rw [h.2]; decide⟩

/-! ## The ELF path -/

theorem slice_eq_some {data : List Byte} {lo hi : Int} {v : List Byte}
    (h : slice data lo hi = some v) :
    0 ≤ lo ∧ lo ≤ hi ∧ hi ≤ (data.length : Int) ∧
      v = (data.drop lo.toNat).take (hi - lo).toNat := by
  unfold slice at h
  split_ifs at h with hc
  exact ⟨hc.1, hc.2.1, hc.2.2, (Option.some.inj h).symm⟩

theorem slice_of_range (data : List Byte) (lo w : Nat) (h : lo + w ≤ data.length) :
    slice data (lo : Int) ((lo : Int) + (w : Int)) = some ((data.drop lo).take w) := by
  unfold slice
  rw [if_pos ⟨by omega, by omega, by omega⟩]
  simp

theorem readUint_eq_some {little : Bool} {data : List Byte} {lo hi : Int} {v : Nat}
    (h : readUint little data lo hi = some v) :
    0 ≤ lo ∧ lo ≤ hi ∧ hi ≤ (data.length : Int) ∧
      v = uAt little data lo.toNat (hi - lo).toNat := by
  unfold readUint at h
  cases hs : slice data lo hi with
  | none => simp [hs] at h
  | some x =>
    obtain ⟨h1, h2, h3, h4⟩ := slice_eq_some hs
    simp [hs] at h
    exact ⟨h1, h2, h3, by rw [← h, h4]; rfl⟩

theorem readUint_of_range (little : Bool) (data : List Byte) (lo w : Nat)
    (h : lo + w ≤ data.length) :
    readUint little data (lo : Int) ((lo : Int) + (w : Int)) = some (uAt little data lo w) := by
  simp [readUint, slice_of_range data lo w h, uAt]

theorem indexNul_none {l : List Byte} (h : indexNul l = none) : (0 : Byte) ∉ l := by
  induction l with
  | nil => simp
  | cons b bs ih =>
    unfold indexNul at h
    split_ifs at h with hb
    simp only [Option.map_eq_none'] at h
    simp only [List.mem_cons, not_or]
    exact ⟨fun h0 => hb h0.symm, ih h⟩

theorem indexNul_some {l : List Byte} {e : Nat} (h : indexNul l = some e) :
    e < l.length ∧ (0 : Byte) ∈ l ∧ l.take e = l.takeWhile (fun b => b ≠ 0) := by
  induction l generalizing e with
  | nil => simp [indexNul] at h
  | cons b bs ih =>
    unfold indexNul at h
    split_ifs at h with hb
    · cases h
      simp [hb]
    · simp only [Option.map_eq_some'] at h
      obtain ⟨e', he', rfl⟩ := h
      obtain ⟨h1, h2, h3⟩ := ih he'
      refine ⟨by simpa using h1, List.mem_cons_of_mem _ h2, ?_⟩
      simp [List.takeWhile_cons, hb, h3]

theorem wrap64_add_of_le {off : Int} {c : Int} (hc0 : 0 ≤ c) (hc : c < 2 ^ 62) (h0 : 0 ≤ off)
    (hoff : off < 2 ^ 63) (h : 0 ≤ wrap64 (off + c)) : wrap64 (off + c) = off + c := by
  unfold wrap64 at h ⊢
  omega

theorem wrap64_lt (x : Int) : wrap64 x < 2 ^ 63 := by
  unfold wrap64
  omega

theorem toInt64_of_lt {x : Nat} (h : x < 2 ^ 63) : toInt64 x = (x : Int) := by
  unfold toInt64
  exact wrap64_of_range (by omega) (by omega)

theorem toInt64_nonneg_of_lt {x : Nat} (h : x < 2 ^ 32) : 0 ≤ toInt64 x := by
  rw [toInt64_of_lt (by omega)]
  omega

/-- A field read at `off + a .. off + b` that succeeds lies inside the buffer
and yields the bytes at that position. -/
theorem readUint_wrap_some {little : Bool} {data : List Byte} {off : Int} {a b : Nat} {v : Nat}
    (hab : a ≤ b) (hb : b ≤ 64) (h0 : 0 ≤ off) (hoff : off < 2 ^ 63)
    (h : readUint little data (wrap64 (off + (a : Int))) (wrap64 (off + (b : Int))) = some v) :
    off + (b : Int) ≤ (data.length : Int) ∧ v = uAt little data (off.toNat + a) (b - a) := by
  obtain ⟨h1, h2, h3, h4⟩ := readUint_eq_some h
  have ea := wrap64_add_of_le (c := (a : Int)) (by omega) (by omega) h0 hoff h1
  have eb := wrap64_add_of_le (c := (b : Int)) (by omega) (by omega) h0 hoff (by omega)
  rw [ea, eb] at h4
  rw [eb] at h3
  refine ⟨h3, ?_⟩
  rw [h4]
  congr 1 <;> omega

theorem readUint_wrap_of_range (little : Bool) (data : List Byte) (p a b : Nat)
    (hab : a ≤ b) (h : p + b ≤ data.length) (hlen : data.length < 2 ^ 63) :
    readUint little data (wrap64 ((p : Int) + (a : Int))) (wrap64 ((p : Int) + (b : Int)))
      = some (uAt little data (p + a) (b - a)) := by
  rw [wrap64_of_range (by omega) (by omega), wrap64_of_range (by omega) (by omega)]
  have := readUint_of_range little data (p + a) (b - a) (by omega)
  have e : (((p + a : Nat) : Int) + ((b - a : Nat) : Int)) = (p : Int) + (b : Int) := by omega
  rw [e] at this
  rw [← this]
  push_cast
  rfl

theorem readUint_lit (little : Bool) (data : List Byte) (lo hi : Nat) (hlh : lo ≤ hi)
    (h : hi ≤ data.length) :
    readUint little data (lo : Int) (hi : Int) = some (uAt little data lo (hi - lo)) := by
  have := readUint_of_range little data lo (hi - lo) (by omega)
  have e : ((lo : Int) + ((hi - lo : Nat) : Int)) = (hi : Int) := by omega
  rw [e] at this
  exact this

theorem wrap64_natCast {n : Nat} (h : n < 2 ^ 63) : wrap64 (n : Int) = (n : Int) :=
  wrap64_of_range (by omega) (by omega)

theorem wrap64_entry_pos (shoff shentsize j bound : Nat) (hb : bound < 2 ^ 63)
    (h : shoff + j * shentsize + shentsize ≤ bound) :
    wrap64 (toInt64 shoff + (j : Int) * (shentsize : Int)) = ((shoff + j * shentsize : Nat) : Int) ∧
    wrap64 (((shoff + j * shentsize : Nat) : Int) + (shentsize : Int))
      = ((shoff + j * shentsize + shentsize : Nat) : Int) := by
  have h1 : shoff < 2 ^ 63 := by omega
  have h2 : shoff + j * shentsize < 2 ^ 63 := by omega
  have h3 : shoff + j * shentsize + shentsize < 2 ^ 63 := by omega
  refine ⟨?_, ?_⟩
  · rw [toInt64_of_lt h1]
    have := wrap64_natCast h2
    push_cast at this
    exact this
  · have := wrap64_natCast h3
    push_cast at this ⊢
    exact this

theorem elfTable_guard1 (shoff shnum shentsize len : Nat) (hlen : len < 2 ^ 63)
    (hshoff : 0 < shoff) (hshnum : 0 < shnum) (hent : 0 < shentsize)
    (htab : shoff + shnum * shentsize ≤ len) :
    ¬ (shoff = 0 ∨ shnum = 0 ∨ toInt64 shoff ≥ (len : Int)) := by
  have hpos : 0 < shnum * shentsize := Nat.mul_pos hshnum hent
  have hlt : shoff < len := by omega
  rw [toInt64_of_lt (lt_trans hlt hlen)]
  omega

theorem elfTable_fit (shoff shnum shentsize len j : Nat)
    (htab : shoff + shnum * shentsize ≤ len) (hj : j < shnum) :
    shoff + j * shentsize + shentsize ≤ len := by
  have : (j + 1) * shentsize ≤ shnum * shentsize := Nat.mul_le_mul_right _ (by omega)
  rw [Nat.add_mul, Nat.one_mul] at this
  omega

theorem leNat_lt (l : List Byte) : leNat l < 256 ^ l.length := by
  induction l with
  | nil => simp [leNat]
  | cons b bs ih =>
    have hb := b.isLt
    simp only [leNat, List.length_cons, pow_succ]
    omega

theorem uAt_lt (little : Bool) (data : List Byte) (p w : Nat) :
    uAt little data p w < 256 ^ w := by
  have hl : ((data.drop p).take w).length ≤ w := by
    rw [List.length_take]; exact Nat.min_le_left _ _
  have h1 : leNat ((data.drop p).take w) < 256 ^ w :=
    lt_of_lt_of_le (leNat_lt _) (Nat.pow_le_pow_right (by norm_num) hl)
  have h2 : leNat ((data.drop p).take w).reverse < 256 ^ w :=
    lt_of_lt_of_le (leNat_lt _) (Nat.pow_le_pow_right (by norm_num) (by simp [hl]))
  unfold uAt orderUint beNat
  split_ifs
  · exact h1
  · exact h2

theorem peLoop_forall (P : SectionInfo → Prop)
    (hP : ∀ (n : List Byte) (o z v : Nat),
      P { Name := n, Offset := (o : Int), Size := (z : Int), VirtualAddress := v }) :
    ∀ (k : Nat) (f : File) (acc : List SectionInfo),
      (∀ s ∈ acc, P s) → ∀ s ∈ peLoop k f acc, P s := by
  intro k
  induction k with
  | zero => intro f acc h; simpa [peLoop] using h
  | succ k ih =>
    intro f acc h
    rw [peLoop]
    dsimp only
    split_ifs
    · exact h
    · apply ih
      intro s hs
      rcases List.mem_append.1 hs with hs | hs
      · exact h s hs
      · rw [List.mem_singleton.1 hs]
        exact hP _ _ _ _

/-- Every section of the PE path has a non-negative offset and size. -/
theorem parsePE_nonneg (data : List Byte) :
    ∀ s ∈ parsePE data, 0 ≤ s.Offset ∧ 0 ≤ s.Size := by
  have hl := peLoop_forall (fun s => 0 ≤ s.Offset ∧ 0 ≤ s.Size)
    (fun _ o z _ => ⟨Int.ofNat_nonneg o, Int.ofNat_nonneg z⟩)
  unfold parsePE
  dsimp only
  split_ifs
  · intro s hs; cases hs
  · intro s hs; cases hs
  · exact hl _ _ _ (by intro s hs; cases hs)

theorem toInt64_nonneg_of_lt63 {x : Nat} (h : x < 2 ^ 63) : 0 ≤ toInt64 x := by
  rw [toInt64_of_lt h]
  exact Int.ofNat_nonneg x

theorem nameAt_ne_nil {strtab : List Byte} {i : Nat} (h : nameAt strtab i ≠ []) :
    i < strtab.length ∧ (0 : Byte) ∈ strtab.drop i ∧
      nameAt strtab i = (strtab.drop i).takeWhile (fun b => b ≠ 0) := by
  unfold nameAt at h ⊢
  split_ifs at h ⊢ with hc
  · exact ⟨hc.1, hc.2, rfl⟩
  · exact absurd rfl h

theorem toInt64_ne_zero {x : Nat} (h0 : 0 < x) (h : x < 2 ^ 64) : toInt64 x ≠ 0 := by
  unfold toInt64 wrap64
  omega

theorem uAt_append_left (little : Bool) (pre rest : List Byte) (p w : Nat)
    (h : p + w ≤ pre.length) : uAt little (pre ++ rest) p w = uAt little pre p w := by
  unfold uAt
  congr 1
  rw [List.drop_append_of_le_length (by omega), List.take_append_of_le_length]
  rw [List.length_drop]; omega

theorem getD_append_left (pre rest : List Byte) (i : Nat) (h : i < pre.length) :
    (pre ++ rest).getD i 0 = pre.getD i 0 := by
  simp [List.getD_eq_getElem?_getD, List.getElem?_append_left h]

theorem slice_append_le (data spare : List Byte) (lo hi : Int) (h : hi ≤ (data.length : Int)) :
    slice (data ++ spare) lo hi = slice data lo hi := by
  unfold slice
  by_cases hc : 0 ≤ lo ∧ lo ≤ hi
  · have h1 : 0 ≤ lo ∧ lo ≤ hi ∧ hi ≤ ((data ++ spare).length : Int) := by
      refine ⟨hc.1, hc.2, ?_⟩
      rw [List.length_append]; push_cast; omega
    rw [if_pos h1, if_pos ⟨hc.1, hc.2, h⟩]
    congr 1
    rw [List.drop_append_of_le_length (by omega), List.take_append_of_le_length]
    rw [List.length_drop]; omega
  · rw [if_neg (fun hx => hc ⟨hx.1, hx.2.1⟩), if_neg (fun hx => hc ⟨hx.1, hx.2.1⟩)]

theorem slice_append {data : List Byte} {lo hi : Int} {v : List Byte} (spare : List Byte)
    (h : slice data lo hi = some v) : slice (data ++ spare) lo hi = some v := by
  rw [slice_append_le data spare lo hi (slice_eq_some h).2.2.1]
  exact h

theorem readUint_append {little : Bool} {data : List Byte} {lo hi : Int} {v : Nat}
    (spare : List Byte) (h : readUint little data lo hi = some v) :
    readUint little (data ++ spare) lo hi = some v := by
  unfold readUint at h ⊢
  cases hs : slice data lo hi with
  | none => rw [hs] at h; cases h
  | some x => rw [slice_append spare hs]; rw [hs] at h; exact h

/-- The capacity plays no part in the name resolution: the upper bound of the
slice expression is inside the string table or below the lower bound. -/
theorem elfName_rest (strtab rest : List Byte) (shName : Nat) :
    elfName strtab rest shName = elfName strtab [] shName := by
  unfold elfName
  by_cases hlt : (shName : Int) < (strtab.length : Int)
  · rw [if_pos hlt, if_pos hlt]
    cases hs : slice strtab (shName : Int) (strtab.length : Int) with
    | none => rfl
    | some tail =>
      simp only [Option.bind_eq_bind, Option.some_bind]
      cases hi : indexNul tail with
      | none => rfl
      | some e =>
        simp only
        have htail := (slice_eq_some hs).2.2.2
        obtain ⟨h1, _, _⟩ := indexNul_some hi
        have hl : e < strtab.length - shName := by
          rw [htail] at h1
          simp at h1
          omega
        have hb : (shName + e % 2 ^ 32) % 2 ^ 32 ≤ strtab.length := by
          have a1 : (shName + e % 2 ^ 32) % 2 ^ 32 ≤ shName + e % 2 ^ 32 := Nat.mod_le _ _
          have a2 : e % 2 ^ 32 ≤ e := Nat.mod_le _ _
          omega
        rw [slice_append_le strtab rest _ _ (by exact_mod_cast hb),
          slice_append_le strtab [] _ _ (by exact_mod_cast hb)]
  · rw [if_neg hlt, if_neg hlt]

/-- Without wrap-around of the `uint32` index the name resolution is the name
of the specification. -/
theorem elfName_eq (strtab rest : List Byte) (shName : Nat) (hlen : strtab.length ≤ 2 ^ 32) :
    elfName strtab rest shName = some (nameAt strtab shName) := by
  rw [elfName_rest]
  unfold elfName nameAt
  rw [List.append_nil]
  by_cases hlt : shName < strtab.length
  · have hlt' : (shName : Int) < (strtab.length : Int) := by omega
    have hs : slice strtab (shName : Int) (strtab.length : Int) = some (strtab.drop shName) := by
      have := slice_of_range strtab shName (strtab.length - shName) (by omega)
      have e1 : ((shName : Int) + ((strtab.length - shName : Nat) : Int)) = (strtab.length : Int) := by
        omega
      rw [e1] at this
      rw [this]
      congr 1
      apply List.take_of_length_le
      simp
    rw [if_pos hlt']
    simp only [hs, Option.bind_eq_bind, Option.some_bind]
    cases hi : indexNul (strtab.drop shName) with
    | none =>
      have := indexNul_none hi
      simp [this]
    | some e =>
      obtain ⟨h1, h2, h3⟩ := indexNul_some hi
      have hl : e < strtab.length - shName := by simpa using h1
      have hmod : (shName + e % 2 ^ 32) % 2 ^ 32 = shName + e := by
        have : e % 2 ^ 32 = e := Nat.mod_eq_of_lt (by omega)
        rw [this]
        exact Nat.mod_eq_of_lt (by omega)
      simp only [hmod]
      have := slice_of_range strtab shName e (by omega)
      push_cast
      rw [this, h3]
      simp [hlt, h2]
  · have hlt' : ¬ (shName : Int) < (strtab.length : Int) := by omega
    rw [if_neg hlt']
    simp [hlt]

/-- The section the loop body builds from the fields of the entry at `p` and a
resolved name `nm`, with the conversions of the source. -/
theorem elfReadEntry_of_range (data strtab rest : List Byte) (is64 little : Bool) (p : Nat)
    (hp : p + (if is64 then 40 else 24) ≤ data.length) (hlen : data.length < 2 ^ 63)
    (hs : strtab.length ≤ 2 ^ 32)
    (ho : shOffsetAt is64 little data p < 2 ^ 63) (hz : shSizeAt is64 little data p < 2 ^ 63) :
    elfReadEntry data strtab rest is64 little (p : Int) = some (elfEntryAt data strtab is64 little p) := by
  have r0 := readUint_wrap_of_range little data p 0 4 (by omega) (by split_ifs at hp <;> omega) hlen
  simp only [Nat.cast_ofNat, Nat.cast_zero, add_zero] at r0
  rw [wrap64_of_range (by omega) (by omega)] at r0
  cases is64 with
  | true =>
    simp only [if_true] at hp
    have r1 := readUint_wrap_of_range little data p 16 24 (by omega) (by omega) hlen
    have r2 := readUint_wrap_of_range little data p 24 32 (by omega) (by omega) hlen
    have r3 := readUint_wrap_of_range little data p 32 40 (by omega) (by omega) hlen
    simp only [Nat.cast_ofNat] at r1 r2 r3
    simp only [shOffsetAt, shSizeAt, if_true] at ho hz
    simp only [elfReadEntry, r0, r1, r2, r3, if_true, Option.bind_eq_bind, Option.some_bind,
      elfName_eq strtab rest _ hs, toInt64_of_lt ho, toInt64_of_lt hz]
    simp only [elfEntryAt, shNameAt, shOffsetAt, shSizeAt, shAddrAt, if_true, Bool.false_eq_true,
      if_false, gt_iff_lt, ne_eq]
    split_ifs <;> rfl
  | false =>
    simp only [Bool.false_eq_true, if_false] at hp
    have r1 := readUint_wrap_of_range little data p 12 16 (by omega) (by omega) hlen
    have r2 := readUint_wrap_of_range little data p 16 20 (by omega) (by omega) hlen
    have r3 := readUint_wrap_of_range little data p 20 24 (by omega) (by omega) hlen
    simp only [Nat.cast_ofNat] at r1 r2 r3
    simp only [shOffsetAt, shSizeAt, Bool.false_eq_true, if_false] at ho hz
    simp only [elfReadEntry, r0, r1, r2, r3, Bool.false_eq_true, if_false, Option.bind_eq_bind,
      Option.some_bind, elfName_eq strtab rest _ hs, toInt64_of_lt ho, toInt64_of_lt hz]
    simp only [elfEntryAt, shNameAt, shOffsetAt, shSizeAt, shAddrAt, if_true, Bool.false_eq_true,
      if_false, gt_iff_lt, ne_eq]
    split_ifs <;> rfl

/-- Whenever the loop body returns, the entry lies inside the buffer and the
result is built from its fields with the conversions of the source. -/
theorem elfReadEntry_some {data strtab rest : List Byte} {is64 little : Bool} {off : Int}
    {r : Option SectionInfo} (h : elfReadEntry data strtab rest is64 little off = some r) :
    0 ≤ off ∧ off + ((if is64 then 40 else 24 : Nat) : Int) ≤ (data.length : Int) ∧
    ∃ nm, elfName strtab rest (shNameAt little data off.toNat) = some nm ∧
      r = if 0 < shSizeAt is64 little data off.toNat ∧ nm ≠ [] then
            some { Name := nm
                   Offset := toInt64 (shOffsetAt is64 little data off.toNat)
                   Size := toInt64 (shSizeAt is64 little data off.toNat)
                   VirtualAddress := shAddrAt is64 little data off.toNat }
          else none := by
  cases is64 with
  | true =>
    simp only [elfReadEntry, if_true, Option.bind_eq_bind, Option.bind_eq_some] at h
    obtain ⟨shName, h0, shAddr, h1, shOff, h2, shSize, h3, nm, hn, hr⟩ := h
    obtain ⟨g1, g2, g3, g4⟩ := readUint_eq_some h0
    have hlt : off < 2 ^ 63 := lt_of_le_of_lt g2 (wrap64_lt _)
    have e4 := wrap64_add_of_le (c := 4) (by omega) (by omega) g1 hlt (by omega)
    rw [e4] at g4
    have e4' : (off + 4 - off).toNat = 4 := by omega
    rw [e4'] at g4
    have q1 := readUint_wrap_some (a := 16) (b := 24) (by omega) (by omega) g1 hlt
      (by simpa only [Nat.cast_ofNat] using h1)
    have q2 := readUint_wrap_some (a := 24) (b := 32) (by omega) (by omega) g1 hlt
      (by simpa only [Nat.cast_ofNat] using h2)
    have q3 := readUint_wrap_some (a := 32) (b := 40) (by omega) (by omega) g1 hlt
      (by simpa only [Nat.cast_ofNat] using h3)
    refine ⟨g1, by simpa using q3.1, nm, ?_, ?_⟩
    · rw [shNameAt, ← g4]; exact hn
    · simp only [shSizeAt, shOffsetAt, shAddrAt, if_true]
      rw [← q1.2, ← q2.2, ← q3.2]
      split_ifs at hr ⊢ <;> simp_all
  | false =>
    simp only [elfReadEntry, Bool.false_eq_true, if_false, Option.bind_eq_bind,
      Option.bind_eq_some] at h
    obtain ⟨shName, h0, shAddr, h1, shOff, h2, shSize, h3, nm, hn, hr⟩ := h
    obtain ⟨g1, g2, g3, g4⟩ := readUint_eq_some h0
    have hlt : off < 2 ^ 63 := lt_of_le_of_lt g2 (wrap64_lt _)
    have e4 := wrap64_add_of_le (c := 4) (by omega) (by omega) g1 hlt (by omega)
    rw [e4] at g4
    have e4' : (off + 4 - off).toNat = 4 := by omega
    rw [e4'] at g4
    have q1 := readUint_wrap_some (a := 12) (b := 16) (by omega) (by omega) g1 hlt
      (by simpa only [Nat.cast_ofNat] using h1)
    have q2 := readUint_wrap_some (a := 16) (b := 20) (by omega) (by omega) g1 hlt
      (by simpa only [Nat.cast_ofNat] using h2)
    have q3 := readUint_wrap_some (a := 20) (b := 24) (by omega) (by omega) g1 hlt
      (by simpa only [Nat.cast_ofNat] using h3)
    refine ⟨g1, by simpa using q3.1, nm, ?_, ?_⟩
    · rw [shNameAt, ← g4]; exact hn
    · simp only [shSizeAt, shOffsetAt, shAddrAt, Bool.false_eq_true, if_false]
      rw [← q1.2, ← q2.2, ← q3.2]
      split_ifs at hr ⊢ <;> simp_all

/-- The loop body on an entry inside the buffer, for any outcome of the name
resolution. -/
theorem elfReadEntry_of_range_name (data strtab rest : List Byte) (is64 little : Bool) (p : Nat)
    (nm : List Byte)
    (hp : p + (if is64 then 40 else 24) ≤ data.length) (hlen : data.length < 2 ^ 63)
    (hname : elfName strtab rest (shNameAt little data p) = some nm) :
    elfReadEntry data strtab rest is64 little (p : Int) =
      some (if 0 < shSizeAt is64 little data p ∧ nm ≠ [] then
        some { Name := nm
               Offset := toInt64 (shOffsetAt is64 little data p)
               Size := toInt64 (shSizeAt is64 little data p)
               VirtualAddress := shAddrAt is64 little data p }
        else none) := by
  have r0 := readUint_wrap_of_range little data p 0 4 (by omega) (by split_ifs at hp <;> omega) hlen
  simp only [Nat.cast_ofNat, Nat.cast_zero, add_zero] at r0
  rw [wrap64_of_range (by omega) (by omega)] at r0
  unfold shNameAt at hname
  cases is64 with
  | true =>
    simp only [if_true] at hp
    have r1 := readUint_wrap_of_range little data p 16 24 (by omega) (by omega) hlen
    have r2 := readUint_wrap_of_range little data p 24 32 (by omega) (by omega) hlen
    have r3 := readUint_wrap_of_range little data p 32 40 (by omega) (by omega) hlen
    simp only [Nat.cast_ofNat] at r1 r2 r3
    simp only [elfReadEntry, r0, r1, r2, r3, if_true, Option.bind_eq_bind, Option.some_bind,
      hname]
    simp only [shOffsetAt, shSizeAt, shAddrAt, if_true, gt_iff_lt, ne_eq]
    split_ifs <;> rfl
  | false =>
    simp only [Bool.false_eq_true, if_false] at hp
    have r1 := readUint_wrap_of_range little data p 12 16 (by omega) (by omega) hlen
    have r2 := readUint_wrap_of_range little data p 16 20 (by omega) (by omega) hlen
    have r3 := readUint_wrap_of_range little data p 20 24 (by omega) (by omega) hlen
    simp only [Nat.cast_ofNat] at r1 r2 r3
    simp only [elfReadEntry, r0, r1, r2, r3, Bool.false_eq_true, if_false, Option.bind_eq_bind,
      Option.some_bind, hname]
    simp only [shOffsetAt, shSizeAt, shAddrAt, Bool.false_eq_true, if_false, gt_iff_lt, ne_eq]
    split_ifs <;> rfl

/-- A run of the loop body that returns is the same on a longer backing
array. -/
theorem elfReadEntry_append {data strtab rest : List Byte} {is64 little : Bool} {off : Int}
    {r : Option SectionInfo} (spare rest' : List Byte)
    (h : elfReadEntry data strtab rest is64 little off = some r) :
    elfReadEntry (data ++ spare) strtab rest' is64 little off = some r := by
  cases is64 with
  | true =>
    simp only [elfReadEntry, if_true, Option.bind_eq_bind, Option.bind_eq_some] at h
    obtain ⟨shName, h0, shAddr, h1, shOff, h2, shSize, h3, nm, hn, hr⟩ := h
    rw [elfName_rest] at hn
    simp only [elfReadEntry, if_true, Option.bind_eq_bind, readUint_append spare h0,
      readUint_append spare h1, readUint_append spare h2, readUint_append spare h3,
      Option.some_bind, elfName_rest strtab rest', hn]
    exact hr
  | false =>
    simp only [elfReadEntry, Bool.false_eq_true, if_false, Option.bind_eq_bind,
      Option.bind_eq_some] at h
    obtain ⟨shName, h0, shAddr, h1, shOff, h2, shSize, h3, nm, hn, hr⟩ := h
    rw [elfName_rest] at hn
    simp only [elfReadEntry, Bool.false_eq_true, if_false, Option.bind_eq_bind,
      readUint_append spare h0, readUint_append spare h1, readUint_append spare h2,
      readUint_append spare h3, Option.some_bind, elfName_rest strtab rest', hn]
    exact hr

theorem elfLoop_append {data strtab rest : List Byte} {is64 little : Bool}
    {shoff shentsize n : Nat} (spare rest' : List Byte) :
    ∀ (k i : Nat) (acc secs : List SectionInfo),
      elfLoop data strtab rest is64 little shoff shentsize n k i acc = some secs →
      elfLoop (data ++ spare) strtab rest' is64 little shoff shentsize n k i acc = some secs := by
  intro k
  induction k with
  | zero => intro i acc secs h; simpa [elfLoop] using h
  | succ k ih =>
    intro i acc secs h
    rw [elfLoop] at h ⊢
    split_ifs at h ⊢ with hc
    · exact h
    · simp only [Option.bind_eq_bind, Option.bind_eq_some] at h
      obtain ⟨r, hr, hrest⟩ := h
      rw [elfReadEntry_append spare rest' hr, Option.bind_eq_bind, Option.some_bind]
      cases r with
      | none => exact ih _ _ _ hrest
      | some sec => exact ih _ _ _ hrest

/-- On a table that lies inside the buffer the loop returns the sections of
its entries, in order. -/
theorem elfLoop_of_range (data strtab rest : List Byte) (is64 little : Bool) (shoff shentsize : Nat)
    (hlen : data.length < 2 ^ 63) (hs : strtab.length ≤ 2 ^ 32)
    (hent : (if is64 then 40 else 24) ≤ shentsize) :
    ∀ (k i : Nat) (acc : List SectionInfo),
      (∀ j, i ≤ j → j < i + k → shoff + j * shentsize + shentsize ≤ data.length ∧
        shOffsetAt is64 little data (shoff + j * shentsize) < 2 ^ 63 ∧
        shSizeAt is64 little data (shoff + j * shentsize) < 2 ^ 63) →
      elfLoop data strtab rest is64 little shoff shentsize data.length k i acc =
        some (acc ++ (List.range' i k).filterMap
          (fun j => elfEntryAt data strtab is64 little (shoff + j * shentsize))) := by
  intro k
  induction k with
  | zero => intro i acc _; simp [elfLoop]
  | succ k ih =>
    intro i acc hall
    obtain ⟨h1, h2, h3⟩ := hall i (le_refl _) (by omega)
    have hoff : wrap64 (toInt64 shoff + (i : Int) * (shentsize : Int))
        = ((shoff + i * shentsize : Nat) : Int) := by
      rw [toInt64_of_lt (by omega)]
      push_cast
      have hnn : (0 : Int) ≤ (shoff : Int) + (i : Int) * (shentsize : Int) := by positivity
      exact wrap64_of_range (by omega) (by
        have : ((shoff + i * shentsize : Nat) : Int) < 2 ^ 63 := by omega
        push_cast at this
        exact this)
    have hchk : ¬ wrap64 (((shoff + i * shentsize : Nat) : Int) + (shentsize : Int))
        > (data.length : Int) := by
      rw [wrap64_of_range (by omega) (by omega)]
      omega
    have hp : shoff + i * shentsize + (if is64 then 40 else 24) ≤ data.length := by omega
    rw [elfLoop]
    simp only [hoff, hchk, if_false,
      elfReadEntry_of_range data strtab rest is64 little _ hp hlen hs h2 h3,
      Option.bind_eq_bind, Option.some_bind]
    have hrest := fun acc' => ih (i + 1) acc' (fun j hj1 hj2 => hall j (by omega) (by omega))
    rw [List.range'_succ, List.filterMap_cons]
    cases he : elfEntryAt data strtab is64 little (shoff + i * shentsize) with
    | none => simp only [hrest]
    | some sec => simp only [hrest, List.append_assoc, List.singleton_append]

/-- On header fields that describe a table and a string table inside the
file, `elfTable` is the section loop run against that string table. -/
theorem elfTable_eq_elfLoop (data : List Byte) (is64 little : Bool)
    (shoff shentsize shnum shstrndx : Nat)
    (hlen : data.length < 2 ^ 63) (hshoff : 0 < shoff) (hshnum : 0 < shnum)
    (hent : (if is64 then 40 else 24) ≤ shentsize)
    (htab : shoff + shnum * shentsize ≤ data.length) (hidx : shstrndx < shnum)
    (hstr : shOffsetAt is64 little data (shoff + shstrndx * shentsize) +
      shSizeAt is64 little data (shoff + shstrndx * shentsize) ≤ data.length) :
    elfTable data data.length is64 little shoff shentsize shnum shstrndx =
      elfLoop data
        ((data.drop (shOffsetAt is64 little data (shoff + shstrndx * shentsize))).take
          (shSizeAt is64 little data (shoff + shstrndx * shentsize)))
        (data.drop (shOffsetAt is64 little data (shoff + shstrndx * shentsize) +
          shSizeAt is64 little data (shoff + shstrndx * shentsize)))
        is64 little shoff shentsize data.length shnum 0 [] := by
  have hent0 : 0 < shentsize :=
    lt_of_lt_of_le (by cases is64 <;> simp) hent
  have hs := elfTable_fit shoff shnum shentsize data.length shstrndx htab hidx
  obtain ⟨w1, w2⟩ := wrap64_entry_pos shoff shentsize shstrndx data.length hlen hs
  have hg1 := elfTable_guard1 shoff shnum shentsize data.length hlen hshoff hshnum hent0 htab
  have hg2 : ¬ (wrap64 (((shoff + shstrndx * shentsize : Nat) : Int) + (shentsize : Int))
      > (data.length : Int)) := by
    rw [w2]
    exact not_lt.2 (Int.ofNat_le.2 hs)
  have hp40 : shoff + shstrndx * shentsize + (if is64 then 40 else 24) ≤ data.length :=
    le_trans (Nat.add_le_add_left hent _) hs
  have hsum : shOffsetAt is64 little data (shoff + shstrndx * shentsize) +
      shSizeAt is64 little data (shoff + shstrndx * shentsize) < 2 ^ 63 :=
    lt_of_le_of_lt hstr hlen
  have hmod : (shOffsetAt is64 little data (shoff + shstrndx * shentsize) +
      shSizeAt is64 little data (shoff + shstrndx * shentsize)) % 2 ^ 64 =
      shOffsetAt is64 little data (shoff + shstrndx * shentsize) +
      shSizeAt is64 little data (shoff + shstrndx * shentsize) :=
    Nat.mod_eq_of_lt (lt_trans hsum (by norm_num))
  have hg3 : ¬ (toInt64 (shOffsetAt is64 little data (shoff + shstrndx * shentsize) +
      shSizeAt is64 little data (shoff + shstrndx * shentsize)) > (data.length : Int)) := by
    rw [toInt64_of_lt hsum]
    exact not_lt.2 (Int.ofNat_le.2 hstr)
  have hsl := slice_of_range data (shOffsetAt is64 little data (shoff + shstrndx * shentsize))
    (shSizeAt is64 little data (shoff + shstrndx * shentsize)) hstr
  unfold elfTable
  rw [if_neg hg1]
  simp only [w1]
  rw [if_neg hg2]
  cases is64 with
  | true =>
    simp only [if_true] at hp40
    have r2 := readUint_wrap_of_range little data (shoff + shstrndx * shentsize) 24 32
      (by norm_num) (le_trans (Nat.add_le_add_left (by norm_num) _) hp40) hlen
    have r3 := readUint_wrap_of_range little data (shoff + shstrndx * shentsize) 32 40
      (by norm_num) hp40 hlen
    simp only [Nat.cast_ofNat, Nat.reduceSub] at r2 r3
    simp only [shOffsetAt, shSizeAt, if_true] at hmod hg3 hsl ⊢
    rw [r2]
    rw [Option.bind_eq_bind, Option.some_bind]
    rw [r3]
    rw [Option.bind_eq_bind, Option.some_bind]
    rw [hmod, if_neg hg3]
    rw [Nat.cast_add, hsl, Option.some_bind]
  | false =>
    simp only [Bool.false_eq_true, if_false] at hp40
    have r2 := readUint_wrap_of_range little data (shoff + shstrndx * shentsize) 16 20
      (by norm_num) (le_trans (Nat.add_le_add_left (by norm_num) _) hp40) hlen
    have r3 := readUint_wrap_of_range little data (shoff + shstrndx * shentsize) 20 24
      (by norm_num) hp40 hlen
    simp only [Nat.cast_ofNat, Nat.reduceSub] at r2 r3
    simp only [shOffsetAt, shSizeAt, Bool.false_eq_true, if_false] at hmod hg3 hsl ⊢
    rw [r2]
    rw [Option.bind_eq_bind, Option.some_bind]
    rw [r3]
    rw [Option.bind_eq_bind, Option.some_bind]
    rw [hmod, if_neg hg3]
    rw [Nat.cast_add, hsl, Option.some_bind]

/-- On well-formed header fields `elfTable` returns the sections of the table
entries, read against the string table of the entry `shstrndx`. -/
theorem elfTable_of_range (data : List Byte) (is64 little : Bool)
    (shoff shentsize shnum shstrndx : Nat)
    (hlen : data.length < 2 ^ 63) (hshoff : 0 < shoff) (hshnum : 0 < shnum)
    (hent : (if is64 then 40 else 24) ≤ shentsize)
    (htab : shoff + shnum * shentsize ≤ data.length) (hidx : shstrndx < shnum)
    (hstr : shOffsetAt is64 little data (shoff + shstrndx * shentsize) +
      shSizeAt is64 little data (shoff + shstrndx * shentsize) ≤ data.length)
    (hstrsz : shSizeAt is64 little data (shoff + shstrndx * shentsize) < 2 ^ 32)
    (hall : ∀ j, j < shnum →
      shOffsetAt is64 little data (shoff + j * shentsize) < 2 ^ 63 ∧
      shSizeAt is64 little data (shoff + j * shentsize) < 2 ^ 63) :
    elfTable data data.length is64 little shoff shentsize shnum shstrndx =
      some ((List.range shnum).filterMap (fun j =>
        elfEntryAt data
          ((data.drop (shOffsetAt is64 little data (shoff + shstrndx * shentsize))).take
            (shSizeAt is64 little data (shoff + shstrndx * shentsize)))
          is64 little (shoff + j * shentsize))) := by
  have hfit := fun j hj => elfTable_fit shoff shnum shentsize data.length j htab hj
  have hstl : ((data.drop (shOffsetAt is64 little data (shoff + shstrndx * shentsize))).take
      (shSizeAt is64 little data (shoff + shstrndx * shentsize))).length ≤ 2 ^ 32 := by
    rw [List.length_take]
    exact le_trans (Nat.min_le_left _ _) (le_of_lt hstrsz)
  have hloop := elfLoop_of_range data
    ((data.drop (shOffsetAt is64 little data (shoff + shstrndx * shentsize))).take
      (shSizeAt is64 little data (shoff + shstrndx * shentsize)))
    (data.drop (shOffsetAt is64 little data (shoff + shstrndx * shentsize) +
      shSizeAt is64 little data (shoff + shstrndx * shentsize)))
    is64 little shoff shentsize hlen hstl hent shnum 0 []
    (fun j _ hj => ⟨hfit j (by simpa using hj), hall j (by simpa using hj)⟩)
  rw [List.nil_append, ← List.range_eq_range'] at hloop
  rw [elfTable_eq_elfLoop data is64 little shoff shentsize shnum shstrndx hlen hshoff hshnum hent
    htab hidx hstr]
  exact hloop

theorem elfHeader_append (data spare : List Byte) (h64 : 64 ≤ data.length) :
    elfHeader (data ++ spare) = elfHeader data := by
  have g4 := getD_append_left data spare 4 (by omega)
  have g5 := getD_append_left data spare 5 (by omega)
  unfold elfHeader
  simp only [g4, g5, uAt_append_left _ data spare 0x28 8 (by omega),
    uAt_append_left _ data spare 0x3A 2 (by omega), uAt_append_left _ data spare 0x3C 2 (by omega),
    uAt_append_left _ data spare 0x3E 2 (by omega), uAt_append_left _ data spare 0x20 4 (by omega),
    uAt_append_left _ data spare 0x2E 2 (by omega), uAt_append_left _ data spare 0x30 2 (by omega),
    uAt_append_left _ data spare 0x32 2 (by omega)]

/-- With at least 64 bytes and the ELF magic, `parseELF` is `elfTable` on the
header fields. -/
theorem parseELF_eq_elfTable (data spare : List Byte) (h64 : 64 ≤ data.length)
    (hmagic : data.take 4 = [0x7f, 0x45, 0x4c, 0x46]) :
    parseELF data spare = elfTable (data ++ spare) data.length (elfHeader data).is64
      (elfHeader data).little (elfHeader data).shoff (elfHeader data).shentsize
      (elfHeader data).shnum (elfHeader data).shstrndx := by
  have hl : data.length ≤ (data ++ spare).length := by rw [List.length_append]; omega
  have a1 := readUint_lit (decide (data.getD 5 0 = 1)) (data ++ spare) 0x28 0x30 (by omega)
    (by omega)
  have a2 := readUint_lit (decide (data.getD 5 0 = 1)) (data ++ spare) 0x3A 0x3C (by omega)
    (by omega)
  have a3 := readUint_lit (decide (data.getD 5 0 = 1)) (data ++ spare) 0x3C 0x3E (by omega)
    (by omega)
  have a4 := readUint_lit (decide (data.getD 5 0 = 1)) (data ++ spare) 0x3E 0x40 (by omega)
    (by omega)
  have b1 := readUint_lit (decide (data.getD 5 0 = 1)) (data ++ spare) 0x20 0x24 (by omega)
    (by omega)
  have b2 := readUint_lit (decide (data.getD 5 0 = 1)) (data ++ spare) 0x2E 0x30 (by omega)
    (by omega)
  have b3 := readUint_lit (decide (data.getD 5 0 = 1)) (data ++ spare) 0x30 0x32 (by omega)
    (by omega)
  have b4 := readUint_lit (decide (data.getD 5 0 = 1)) (data ++ spare) 0x32 0x34 (by omega)
    (by omega)
  simp only [Nat.cast_ofNat, Nat.reduceSub] at a1 a2 a3 a4 b1 b2 b3 b4
  rw [uAt_append_left _ data spare _ _ (by omega)] at a1 a2 a3 a4 b1 b2 b3 b4
  unfold parseELF
  rw [if_neg (by omega), if_neg (by simp [hmagic])]
  by_cases hc : data.getD 4 0 = 2
  · simp only [elfHeader, hc, decide_True, if_true, a1, a2, a3, a4, Option.bind_eq_bind,
      Option.some_bind]
  · simp only [elfHeader, hc, decide_False, Bool.false_eq_true, if_false, b1, b2, b3, b4,
      Option.bind_eq_bind, Option.some_bind]

/-- When `parseELF` does not go through `elfTable` it returns no section. -/
theorem parseELF_short (data spare : List Byte)
    (h : data.length < 64 ∨ data.take 4 ≠ [0x7f, 0x45, 0x4c, 0x46]) :
    parseELF data spare = some [] := by
  unfold parseELF
  by_cases h1 : data.length < 64
  · rw [if_pos h1]
  · rw [if_neg h1, if_pos (h.resolve_left h1)]

theorem elfTable_tail_append {data : List Byte} {n : Nat} {is64 little : Bool}
    {shoff shentsize shnum : Nat} {secs : List SectionInfo} {o z : Nat} (spare : List Byte)
    (h : (if toInt64 ((o + z) % 2 ^ 64) > (n : Int) then some []
          else (slice data o (((o + z) % 2 ^ 64 : Nat) : Int)).bind fun strtab =>
            elfLoop data strtab (data.drop ((o + z) % 2 ^ 64)) is64 little shoff shentsize n
              shnum 0 []) = some secs) :
    (if toInt64 ((o + z) % 2 ^ 64) > (n : Int) then some []
      else (slice (data ++ spare) o (((o + z) % 2 ^ 64 : Nat) : Int)).bind fun strtab =>
        elfLoop (data ++ spare) strtab ((data ++ spare).drop ((o + z) % 2 ^ 64)) is64 little
          shoff shentsize n shnum 0 []) = some secs := by
  by_cases h4 : toInt64 ((o + z) % 2 ^ 64) > (n : Int)
  · rw [if_pos h4] at h ⊢; exact h
  rw [if_neg h4] at h ⊢
  cases hs : slice data o (((o + z) % 2 ^ 64 : Nat) : Int) with
  | none => rw [hs, Option.none_bind] at h; cases h
  | some strtab =>
    rw [hs, Option.some_bind] at h
    rw [slice_append spare hs, Option.some_bind]
    exact elfLoop_append spare _ _ _ _ _ h

theorem elfTable_append {data : List Byte} {n : Nat} {is64 little : Bool}
    {shoff shentsize shnum shstrndx : Nat} {secs : List SectionInfo} (spare : List Byte)
    (h : elfTable data n is64 little shoff shentsize shnum shstrndx = some secs) :
    elfTable (data ++ spare) n is64 little shoff shentsize shnum shstrndx = some secs := by
  by_cases h1 : (shoff = 0 ∨ shnum = 0 ∨ toInt64 shoff ≥ (n : Int))
  · rw [elfTable, if_pos h1] at h ⊢; exact h
  rw [elfTable, if_neg h1] at h ⊢
  dsimp only at h ⊢
  by_cases h2 : wrap64 (wrap64 (toInt64 shoff + (shstrndx : Int) * (shentsize : Int)) +
      (shentsize : Int)) > (n : Int)
  · rw [if_pos h2] at h ⊢; exact h
  rw [if_neg h2] at h ⊢
  cases is64 with
  | true =>
    rw [if_pos rfl] at h ⊢
    cases hr1 : readUint little data
        (wrap64 (wrap64 (toInt64 shoff + (shstrndx : Int) * (shentsize : Int)) + 24))
        (wrap64 (wrap64 (toInt64 shoff + (shstrndx : Int) * (shentsize : Int)) + 32)) with
    | none => rw [hr1] at h; cases h
    | some o =>
      rw [hr1, Option.bind_eq_bind, Option.some_bind, if_pos rfl] at h
      rw [readUint_append spare hr1, Option.bind_eq_bind, Option.some_bind, if_pos rfl]
      cases hr2 : readUint little data
          (wrap64 (wrap64 (toInt64 shoff + (shstrndx : Int) * (shentsize : Int)) + 32))
          (wrap64 (wrap64 (toInt64 shoff + (shstrndx : Int) * (shentsize : Int)) + 40)) with
      | none => rw [hr2] at h; cases h
      | some z =>
        rw [hr2, Option.bind_eq_bind, Option.some_bind] at h
        rw [readUint_append spare hr2, Option.bind_eq_bind, Option.some_bind]
        exact elfTable_tail_append spare h
  | false =>
    rw [if_neg Bool.false_ne_true] at h ⊢
    cases hr1 : readUint little data
        (wrap64 (wrap64 (toInt64 shoff + (shstrndx : Int) * (shentsize : Int)) + 16))
        (wrap64 (wrap64 (toInt64 shoff + (shstrndx : Int) * (shentsize : Int)) + 20)) with
    | none => rw [hr1] at h; cases h
    | some o =>
      rw [hr1, Option.bind_eq_bind, Option.some_bind, if_neg Bool.false_ne_true] at h
      rw [readUint_append spare hr1, Option.bind_eq_bind, Option.some_bind,
        if_neg Bool.false_ne_true]
      cases hr2 : readUint little data
          (wrap64 (wrap64 (toInt64 shoff + (shstrndx : Int) * (shentsize : Int)) + 20))
          (wrap64 (wrap64 (toInt64 shoff + (shstrndx : Int) * (shentsize : Int)) + 24)) with
      | none => rw [hr2] at h; cases h
      | some z =>
        rw [hr2, Option.bind_eq_bind, Option.some_bind] at h
        rw [readUint_append spare hr2, Option.bind_eq_bind, Option.some_bind]
        exact elfTable_tail_append spare h

/-- A run of `parseELF` that returns without reading beyond the length of the
buffer is the same whatever the backing array holds there. -/
theorem parseELF_append {data : List Byte} {secs : List SectionInfo} (spare : List Byte)
    (h : parseELF data [] = some secs) : parseELF data spare = some secs := by
  by_cases hshort : data.length < 64 ∨ data.take 4 ≠ [0x7f, 0x45, 0x4c, 0x46]
  · rw [parseELF_short data _ hshort] at h ⊢
    exact h
  · have h64 : 64 ≤ data.length := by
      by_contra hc
      exact hshort (Or.inl (by omega))
    have hmagic : data.take 4 = [0x7f, 0x45, 0x4c, 0x46] := by
      by_contra hc
      exact hshort (Or.inr hc)
    rw [parseELF_eq_elfTable data _ h64 hmagic] at h ⊢
    rw [List.append_nil] at h
    exact elfTable_append spare h

/-- C5: for each class (32-bit / 64-bit) and byte order, parsing a well-formed
ELF image returns, in table order, exactly the entries with non-empty name and
non-zero size, each with `Offset = sh_offset`, `Size = sh_size`,
`VirtualAddress = sh_addr`; the header fields are read at 0x28 / 0x3A / 0x3C /
0x3E (64-bit) and 0x20 / 0x2E / 0x30 / 0x32 (32-bit) in the selected byte
order.  This holds whatever the backing array of the buffer holds beyond the
file. -/
theorem parseELF_wellFormed (data : List Byte) (hw : WellFormedELF data) (spare : List Byte) :
    parseELF data spare = some (elfSectionsSpec data) := by
  obtain ⟨h64, hlen, hmagic, hshoff, hshnum, hent, htab, hidx, hstr, hstrsz, hall⟩ := hw
  apply parseELF_append
  rw [parseELF_eq_elfTable data [] h64 hmagic, List.append_nil]
  exact elfTable_of_range data _ _ _ _ _ _ hlen hshoff hshnum hent htab hidx hstr hstrsz hall

set_option maxRecDepth 100000 in
/-- Witness for C5: the sample image of each class and byte order is
well-formed and parses to its two named sections, with the spare capacity that
`os.ReadFile` leaves. -/
theorem parseELF_wellFormed_witness :
    parseELF (sampleELF true true) (readFileSpare (sampleELF true true).length)
      = some (sampleSections true) ∧
    parseELF (sampleELF true false) (readFileSpare (sampleELF true false).length)
      = some (sampleSections true) ∧
    parseELF (sampleELF false true) (readFileSpare (sampleELF false true).length)
      = some (sampleSections false) ∧
    parseELF (sampleELF false false) (readFileSpare (sampleELF false false).length)
      = some (sampleSections false) :=
  ⟨(parseELF_wellFormed _ (by decide) _).trans (by decide),
   (parseELF_wellFormed _ (by decide) _).trans (by decide),
   (parseELF_wellFormed _ (by decide) _).trans (by decide),
   (parseELF_wellFormed _ (by decide) _).trans (by decide)⟩

theorem wrap64_ge (x : Int) : -2 ^ 63 ≤ wrap64 x := by
  unfold wrap64
  omega

theorem wrap64_wrap64 (x : Int) : wrap64 (wrap64 x) = wrap64 x :=
  wrap64_of_range (wrap64_ge x) (wrap64_lt x)

/-- A position that the source computes in `int` and then reads at did not
wrap. -/
theorem wrap64_nat_nonneg {x : Nat} (hx : x < 2 ^ 63 + 2 ^ 62) (h : 0 ≤ wrap64 (x : Int)) :
    x < 2 ^ 63 ∧ wrap64 (x : Int) = (x : Int) := by
  unfold wrap64 at h ⊢
  omega

theorem toInt64_nonneg {x : Nat} (hx : x < 2 ^ 64) (h : 0 ≤ toInt64 x) :
    x < 2 ^ 63 ∧ toInt64 x = (x : Int) := by
  unfold toInt64 wrap64 at h ⊢
  omega

theorem toInt64_nonneg_iff {x : Nat} (hx : x < 2 ^ 64) : 0 ≤ toInt64 x ↔ x < 2 ^ 63 := by
  unfold toInt64 wrap64
  omega

theorem readUint_neg (little : Bool) (data : List Byte) (lo hi : Int) (h : lo < 0) :
    readUint little data lo hi = none := by
  unfold readUint slice
  rw [if_neg (by omega)]
  rfl

/-- Every run of the loop that returns has made a number of iterations, each
with a loop body that returned, and has appended what they built. -/
theorem elfLoop_some {data strtab rest : List Byte} {is64 little : Bool}
    {shoff shentsize n : Nat} :
    ∀ (k i : Nat) (acc secs : List SectionInfo),
      elfLoop data strtab rest is64 little shoff shentsize n k i acc = some secs →
      ∃ m, m ≤ k ∧
        (∀ j, i ≤ j → j < i + m → ∃ r, elfReadEntry data strtab rest is64 little
            (wrap64 (toInt64 shoff + (j : Int) * (shentsize : Int))) = some r) ∧
        secs = acc ++ (List.range' i m).filterMap (fun (j : Nat) =>
          (elfReadEntry data strtab rest is64 little
            (wrap64 (toInt64 shoff + (j : Int) * (shentsize : Int)))).join) := by
  intro k
  induction k with
  | zero =>
    intro i acc secs h
    rw [elfLoop] at h
    refine ⟨0, le_refl _, fun j h1 h2 => by omega, ?_⟩
    rw [List.range'_zero, List.filterMap_nil, List.append_nil]
    exact (Option.some.inj h).symm
  | succ k ih =>
    intro i acc secs h
    rw [elfLoop] at h
    by_cases hc : wrap64 (wrap64 (toInt64 shoff + (i : Int) * (shentsize : Int)) +
        (shentsize : Int)) > (n : Int)
    · rw [if_pos hc] at h
      refine ⟨0, Nat.zero_le _, fun j h1 h2 => by omega, ?_⟩
      rw [List.range'_zero, List.filterMap_nil, List.append_nil]
      exact (Option.some.inj h).symm
    · rw [if_neg hc] at h
      cases hr : elfReadEntry data strtab rest is64 little
          (wrap64 (toInt64 shoff + (i : Int) * (shentsize : Int))) with
      | none => rw [hr] at h; cases h
      | some r =>
        rw [hr, Option.bind_eq_bind, Option.some_bind] at h
        cases r with
        | none =>
          obtain ⟨m, hm, hall, hsecs⟩ := ih (i + 1) acc secs h
          refine ⟨m + 1, by omega, ?_, ?_⟩
          · intro j h1 h2
            by_cases hj : j = i
            · rw [hj]; exact ⟨none, hr⟩
            · exact hall j (by omega) (by omega)
          · rw [List.range'_succ, List.filterMap_cons_none (by rw [hr]; rfl)]
            exact hsecs
        | some sec =>
          obtain ⟨m, hm, hall, hsecs⟩ := ih (i + 1) (acc ++ [sec]) secs h
          refine ⟨m + 1, by omega, ?_, ?_⟩
          · intro j h1 h2
            by_cases hj : j = i
            · rw [hj]; exact ⟨some sec, hr⟩
            · exact hall j (by omega) (by omega)
          · rw [List.range'_succ, List.filterMap_cons_some (by rw [hr]; rfl), hsecs,
              List.append_assoc]
            rfl

/-- The loop body on an entry that starts at a position of the table: when it
returns, the position did not wrap and the entry lies in the backing array. -/
theorem elfReadEntry_pos {data strtab rest : List Byte} {is64 little : Bool}
    {shoff shentsize j : Nat} {r : Option SectionInfo}
    (hshoff : shoff < 2 ^ 63) (hent : shentsize < 2 ^ 16) (hj : j < 2 ^ 16)
    (h : elfReadEntry data strtab rest is64 little
      (wrap64 (toInt64 shoff + (j : Int) * (shentsize : Int))) = some r) :
    wrap64 (toInt64 shoff + (j : Int) * (shentsize : Int)) = ((shoff + j * shentsize : Nat) : Int) ∧
    shoff + j * shentsize + (if is64 then 40 else 24) ≤ data.length ∧
    ∃ nm, elfName strtab rest (shNameAt little data (shoff + j * shentsize)) = some nm ∧
      r = if 0 < shSizeAt is64 little data (shoff + j * shentsize) ∧ nm ≠ [] then
            some { Name := nm
                   Offset := toInt64 (shOffsetAt is64 little data (shoff + j * shentsize))
                   Size := toInt64 (shSizeAt is64 little data (shoff + j * shentsize))
                   VirtualAddress := shAddrAt is64 little data (shoff + j * shentsize) }
          else none := by
  obtain ⟨h0, hfit, nm, hnm, hr⟩ := elfReadEntry_some h
  have hprod : j * shentsize < 2 ^ 32 := by
    have : j * shentsize ≤ 2 ^ 16 * 2 ^ 16 := Nat.mul_le_mul (le_of_lt hj) (le_of_lt hent)
    have e : (2 : Nat) ^ 16 * 2 ^ 16 = 2 ^ 32 := by norm_num
    by_contra hc
    have h1 : j * shentsize ≤ 2 ^ 16 * 2 ^ 16 := this
    have h2 : (j + 1) * (shentsize + 1) ≤ 2 ^ 16 * 2 ^ 16 :=
      Nat.mul_le_mul (by omega) (by omega)
    rw [e] at h2
    have h3 : (j + 1) * (shentsize + 1) = j * shentsize + j + shentsize + 1 := by ring
    omega
  have hcast : toInt64 shoff + (j : Int) * (shentsize : Int)
      = ((shoff + j * shentsize : Nat) : Int) := by
    rw [toInt64_of_lt hshoff]; push_cast; rfl
  rw [hcast] at h0 hfit hnm hr ⊢
  obtain ⟨_, hw⟩ := wrap64_nat_nonneg (x := shoff + j * shentsize) (by omega) h0
  rw [hw] at hfit hnm hr
  rw [Int.toNat_ofNat] at hnm hr
  refine ⟨hw, by exact_mod_cast hfit, nm, hnm, hr⟩

theorem prod_lt_of_lt16 {a b : Nat} (ha : a < 2 ^ 16) (hb : b < 2 ^ 16) : a * b < 2 ^ 32 := by
  have h2 : (a + 1) * (b + 1) ≤ 2 ^ 16 * 2 ^ 16 := Nat.mul_le_mul (by omega) (by omega)
  have e : (2 : Nat) ^ 16 * 2 ^ 16 = 2 ^ 32 := by norm_num
  rw [e] at h2
  have h3 : (a + 1) * (b + 1) = a * b + a + b + 1 := by ring
  omega

/-- Two field reads at a position that the source computed in `int`: when both
return, the position did not wrap and the fields lie in the backing array. -/
theorem elf_reads_at {little : Bool} {data : List Byte} {x a b c : Nat} {o z : Nat}
    (hx : x < 2 ^ 63 + 2 ^ 62) (hab : a ≤ b) (hbc : b ≤ c) (hc : c ≤ 64)
    (h1 : readUint little data (wrap64 (wrap64 (x : Int) + (a : Int)))
      (wrap64 (wrap64 (x : Int) + (b : Int))) = some o)
    (h2 : readUint little data (wrap64 (wrap64 (x : Int) + (b : Int)))
      (wrap64 (wrap64 (x : Int) + (c : Int))) = some z) :
    x < 2 ^ 63 ∧ wrap64 (x : Int) = (x : Int) ∧ x + c ≤ data.length ∧
      o = uAt little data (x + a) (b - a) ∧ z = uAt little data (x + b) (c - b) := by
  have hlo := (readUint_eq_some h1).1
  have hnn : 0 ≤ wrap64 (x : Int) := by
    by_contra hneg
    have hge := wrap64_ge (x : Int)
    have hw : wrap64 (x : Int) = (x : Int) - 2 ^ 64 := by
      unfold wrap64 at hneg ⊢
      omega
    have hr : wrap64 (wrap64 (x : Int) + (a : Int)) = wrap64 (x : Int) + (a : Int) :=
      wrap64_of_range (by omega) (by omega)
    rw [hr] at hlo
    omega
  obtain ⟨hx63, hw⟩ := wrap64_nat_nonneg hx hnn
  rw [hw] at h1 h2
  have q1 := readUint_wrap_some hab (by omega) (Int.ofNat_nonneg x) (by exact_mod_cast hx63) h1
  have q2 := readUint_wrap_some hbc hc (Int.ofNat_nonneg x) (by exact_mod_cast hx63) h2
  rw [Int.toNat_ofNat] at q1 q2
  exact ⟨hx63, hw, by exact_mod_cast q2.1, q1.2, q2.2⟩

theorem elf_strtab_slice {data : List Byte} {o z : Nat} {strtab : List Byte}
    (ho : o < 2 ^ 64) (hz : z < 2 ^ 64)
    (hs : slice data (o : Int) (((o + z) % 2 ^ 64 : Nat) : Int) = some strtab) :
    (o + z) % 2 ^ 64 = o + z ∧ o + z ≤ data.length ∧ strtab = (data.drop o).take z := by
  obtain ⟨_, g2, g3, g4⟩ := slice_eq_some hs
  have h1 : o ≤ (o + z) % 2 ^ 64 := Int.ofNat_le.1 g2
  have h2 : (o + z) % 2 ^ 64 ≤ data.length := Int.ofNat_le.1 g3
  have h3 : (o + z) % 2 ^ 64 = o + z := by omega
  refine ⟨h3, by omega, ?_⟩
  rw [g4, h3, Int.toNat_ofNat]
  congr 1
  omega

/-- What the guards and the reads of `elfTable` leave when it returns with a
loop run: the two fields of the string-table entry, the string table and the
run of the loop. -/
theorem elfTable_raw {data : List Byte} {n : Nat} {is64 little : Bool}
    {shoff shentsize shnum shstrndx : Nat} {secs : List SectionInfo}
    (h : elfTable data n is64 little shoff shentsize shnum shstrndx = some secs)
    (hne : secs ≠ []) :
    ∃ o z strtab,
      readUint little data
        (wrap64 (wrap64 (toInt64 shoff + (shstrndx : Int) * (shentsize : Int)) +
          ((if is64 then 24 else 16 : Nat) : Int)))
        (wrap64 (wrap64 (toInt64 shoff + (shstrndx : Int) * (shentsize : Int)) +
          ((if is64 then 32 else 20 : Nat) : Int))) = some o ∧
      readUint little data
        (wrap64 (wrap64 (toInt64 shoff + (shstrndx : Int) * (shentsize : Int)) +
          ((if is64 then 32 else 20 : Nat) : Int)))
        (wrap64 (wrap64 (toInt64 shoff + (shstrndx : Int) * (shentsize : Int)) +
          ((if is64 then 40 else 24 : Nat) : Int))) = some z ∧
      ¬ toInt64 ((o + z) % 2 ^ 64) > (n : Int) ∧
      slice data (o : Int) (((o + z) % 2 ^ 64 : Nat) : Int) = some strtab ∧
      elfLoop data strtab (data.drop ((o + z) % 2 ^ 64)) is64 little shoff shentsize n
        shnum 0 [] = some secs := by
  have tail : ∀ (o z : Nat),
      (if toInt64 ((o + z) % 2 ^ 64) > (n : Int) then some []
        else (slice data o (((o + z) % 2 ^ 64 : Nat) : Int)).bind fun strtab =>
          elfLoop data strtab (data.drop ((o + z) % 2 ^ 64)) is64 little shoff shentsize n
            shnum 0 []) = some secs →
      ∃ strtab, ¬ toInt64 ((o + z) % 2 ^ 64) > (n : Int) ∧
        slice data (o : Int) (((o + z) % 2 ^ 64 : Nat) : Int) = some strtab ∧
        elfLoop data strtab (data.drop ((o + z) % 2 ^ 64)) is64 little shoff shentsize n
          shnum 0 [] = some secs := by
    intro o z ht
    by_cases h3 : toInt64 ((o + z) % 2 ^ 64) > (n : Int)
    · rw [if_pos h3] at ht
      exact absurd (Option.some.inj ht).symm hne
    · rw [if_neg h3] at ht
      cases hs : slice data o (((o + z) % 2 ^ 64 : Nat) : Int) with
      | none => rw [hs, Option.none_bind] at ht; cases ht
      | some strtab =>
        rw [hs, Option.some_bind] at ht
        exact ⟨strtab, h3, rfl, ht⟩
  by_cases h1 : (shoff = 0 ∨ shnum = 0 ∨ toInt64 shoff ≥ (n : Int))
  · rw [elfTable, if_pos h1] at h
    exact absurd (Option.some.inj h).symm hne
  rw [elfTable, if_neg h1] at h
  dsimp only at h
  by_cases h2 : wrap64 (wrap64 (toInt64 shoff + (shstrndx : Int) * (shentsize : Int)) +
      (shentsize : Int)) > (n : Int)
  · rw [if_pos h2] at h
    exact absurd (Option.some.inj h).symm hne
  rw [if_neg h2] at h
  cases is64 with
  | true =>
    rw [if_pos rfl] at h
    cases hr1 : readUint little data
        (wrap64 (wrap64 (toInt64 shoff + (shstrndx : Int) * (shentsize : Int)) + 24))
        (wrap64 (wrap64 (toInt64 shoff + (shstrndx : Int) * (shentsize : Int)) + 32)) with
    | none => rw [hr1] at h; cases h
    | some o =>
      rw [hr1, Option.bind_eq_bind, Option.some_bind, if_pos rfl] at h
      cases hr2 : readUint little data
          (wrap64 (wrap64 (toInt64 shoff + (shstrndx : Int) * (shentsize : Int)) + 32))
          (wrap64 (wrap64 (toInt64 shoff + (shstrndx : Int) * (shentsize : Int)) + 40)) with
      | none => rw [hr2] at h; cases h
      | some z =>
        rw [hr2, Option.bind_eq_bind, Option.some_bind] at h
        obtain ⟨strtab, t1, t2, t3⟩ := tail o z h
        exact ⟨o, z, strtab, by simpa only [if_true, Nat.cast_ofNat] using hr1,
          by simpa only [if_true, Nat.cast_ofNat] using hr2, t1, t2, t3⟩
  | false =>
    rw [if_neg Bool.false_ne_true] at h
    cases hr1 : readUint little data
        (wrap64 (wrap64 (toInt64 shoff + (shstrndx : Int) * (shentsize : Int)) + 16))
        (wrap64 (wrap64 (toInt64 shoff + (shstrndx : Int) * (shentsize : Int)) + 20)) with
    | none => rw [hr1] at h; cases h
    | some o =>
      rw [hr1, Option.bind_eq_bind, Option.some_bind, if_neg Bool.false_ne_true] at h
      cases hr2 : readUint little data
          (wrap64 (wrap64 (toInt64 shoff + (shstrndx : Int) * (shentsize : Int)) + 20))
          (wrap64 (wrap64 (toInt64 shoff + (shstrndx : Int) * (shentsize : Int)) + 24)) with
      | none => rw [hr2] at h; cases h
      | some z =>
        rw [hr2, Option.bind_eq_bind, Option.some_bind] at h
        obtain ⟨strtab, t1, t2, t3⟩ := tail o z h
        exact ⟨o, z, strtab,
          by simpa only [Bool.false_eq_true, if_false, Nat.cast_ofNat] using hr1,
          by simpa only [Bool.false_eq_true, if_false, Nat.cast_ofNat] using hr2, t1, t2, t3⟩

theorem shOffsetAt_lt (is64 little : Bool) (data : List Byte) (p : Nat) :
    shOffsetAt is64 little data p < 2 ^ 64 := by
  unfold shOffsetAt
  split_ifs
  · exact lt_of_lt_of_le (uAt_lt _ _ _ 8) (by norm_num)
  · exact lt_trans (uAt_lt _ _ _ 4) (by norm_num)

theorem shSizeAt_lt (is64 little : Bool) (data : List Byte) (p : Nat) :
    shSizeAt is64 little data p < 2 ^ 64 := by
  unfold shSizeAt
  split_ifs
  · exact lt_of_lt_of_le (uAt_lt _ _ _ 8) (by norm_num)
  · exact lt_trans (uAt_lt _ _ _ 4) (by norm_num)

theorem elf_pos_lt {shoff a b : Nat} (h1 : shoff < 2 ^ 63) (h2 : a < 2 ^ 16) (h3 : b < 2 ^ 16) :
    shoff + a * b < 2 ^ 63 + 2 ^ 62 := by
  have := prod_lt_of_lt16 h2 h3
  omega

/-- What a run of `elfTable` that returns sections has done: the table offset
is below `2^63`, the string table is the part of the backing array that the
entry `shstrndx` describes, and the sections are what the loop body built from
the first `m` entries of the table, each of which lies in the backing array. -/
theorem elfTable_some {data : List Byte} {n : Nat} {is64 little : Bool}
    {shoff shentsize shnum shstrndx : Nat} {secs : List SectionInfo}
    (hshoff : shoff < 2 ^ 64) (hent : shentsize < 2 ^ 16) (hnum : shnum < 2 ^ 16)
    (hidx : shstrndx < 2 ^ 16)
    (h : elfTable data n is64 little shoff shentsize shnum shstrndx = some secs)
    (hne : secs ≠ []) (o z : Nat)
    (ho : o = shOffsetAt is64 little data (shoff + shstrndx * shentsize))
    (hz : z = shSizeAt is64 little data (shoff + shstrndx * shentsize)) :
    shoff < 2 ^ 63 ∧ o + z ≤ data.length ∧ ¬ toInt64 (o + z) > (n : Int) ∧
    ∃ m, m ≤ shnum ∧
      (∀ j, j < m → ∃ r, elfReadEntry data ((data.drop o).take z) (data.drop (o + z)) is64 little
        ((shoff + j * shentsize : Nat) : Int) = some r) ∧
      secs = (List.range m).filterMap (fun (j : Nat) =>
        (elfReadEntry data ((data.drop o).take z) (data.drop (o + z)) is64 little
          ((shoff + j * shentsize : Nat) : Int)).join) := by
  obtain ⟨o', z', strtab, r1, r2, g3, hs, hloop⟩ := elfTable_raw h hne
  obtain ⟨m, hm, hall, hsecs⟩ := elfLoop_some shnum 0 [] secs hloop
  rw [List.nil_append] at hsecs
  have hm0 : 0 < m := by
    by_contra hc
    have : m = 0 := Nat.eq_zero_of_not_pos hc
    rw [this, List.range'_zero, List.filterMap_nil] at hsecs
    exact hne hsecs
  obtain ⟨r0, hr0⟩ := hall 0 (le_refl _) (by rw [Nat.zero_add]; exact hm0)
  have h0 := (elfReadEntry_some hr0).1
  have e0 : toInt64 shoff + ((0 : Nat) : Int) * (shentsize : Int) = toInt64 shoff := by
    rw [Nat.cast_zero, zero_mul, add_zero]
  rw [e0] at h0
  have h0' : 0 ≤ toInt64 shoff := by
    have : wrap64 (toInt64 shoff) = toInt64 shoff := wrap64_wrap64 _
    rw [this] at h0
    exact h0
  obtain ⟨hs63, _⟩ := toInt64_nonneg hshoff h0'
  have hx := elf_pos_lt hs63 hidx hent
  have hcast : toInt64 shoff + (shstrndx : Int) * (shentsize : Int)
      = ((shoff + shstrndx * shentsize : Nat) : Int) := by
    rw [toInt64_of_lt hs63]; push_cast; rfl
  rw [hcast] at r1 r2
  obtain ⟨_, _, _, ho', hz'⟩ := elf_reads_at (x := shoff + shstrndx * shentsize) hx
    (a := if is64 then 24 else 16) (b := if is64 then 32 else 20) (c := if is64 then 40 else 24)
    (by clear r1 r2; cases is64 <;> decide) (by clear r1 r2; cases is64 <;> decide)
    (by clear r1 r2; cases is64 <;> decide) r1 r2
  have eo : o' = o := by
    rw [ho, ho']
    cases is64 <;> rfl
  have ez : z' = z := by
    rw [hz, hz']
    cases is64 <;> rfl
  rw [eo, ez] at g3 hs hloop hall hsecs
  obtain ⟨hmod, hle, hst⟩ := elf_strtab_slice (by rw [ho]; exact shOffsetAt_lt _ _ _ _)
    (by rw [hz]; exact shSizeAt_lt _ _ _ _) hs
  rw [hmod] at g3 hall hsecs
  rw [hst] at hall hsecs
  have hpos : ∀ j, j < m →
      wrap64 (toInt64 shoff + (j : Int) * (shentsize : Int))
        = ((shoff + j * shentsize : Nat) : Int) := by
    intro j hj
    obtain ⟨r, hr⟩ := hall j (Nat.zero_le _) (by rw [Nat.zero_add]; exact hj)
    exact (elfReadEntry_pos hs63 hent (lt_of_lt_of_le hj (le_trans hm (le_of_lt hnum))) hr).1
  refine ⟨hs63, hle, g3, m, hm, ?_, ?_⟩
  · intro j hj
    obtain ⟨r, hr⟩ := hall j (Nat.zero_le _) (by rw [Nat.zero_add]; exact hj)
    rw [hpos j hj] at hr
    exact ⟨r, hr⟩
  · rw [hsecs, List.range_eq_range']
    apply List.filterMap_congr
    intro j hj
    have hjm : j < m := by
      have := (List.mem_range'_1.mp hj).2
      rw [Nat.zero_add] at this
      exact this
    rw [hpos j hjm]

theorem elfHeader_lt (data : List Byte) :
    (elfHeader data).shoff < 2 ^ 64 ∧ (elfHeader data).shentsize < 2 ^ 16 ∧
    (elfHeader data).shnum < 2 ^ 16 ∧ (elfHeader data).shstrndx < 2 ^ 16 := by
  unfold elfHeader
  dsimp only
  refine ⟨?_, ?_, ?_, ?_⟩
  · split_ifs
    · exact lt_of_lt_of_le (uAt_lt _ _ _ 8) (by norm_num)
    · exact lt_trans (uAt_lt _ _ _ 4) (by norm_num)
  · split_ifs <;> exact lt_of_lt_of_le (uAt_lt _ _ _ 2) (by norm_num)
  · split_ifs <;> exact lt_of_lt_of_le (uAt_lt _ _ _ 2) (by norm_num)
  · split_ifs <;> exact lt_of_lt_of_le (uAt_lt _ _ _ 2) (by norm_num)

/-- What a run of `parseELF` that returns sections has done. -/
theorem parseELF_some {data spare : List Byte} {secs : List SectionInfo}
    (h : parseELF data spare = some secs) (hne : secs ≠ []) (o z : Nat)
    (ho : o = shOffsetAt (elfHeader data).is64 (elfHeader data).little (data ++ spare)
      (elfEntryPos (elfHeader data) (elfHeader data).shstrndx))
    (hz : z = shSizeAt (elfHeader data).is64 (elfHeader data).little (data ++ spare)
      (elfEntryPos (elfHeader data) (elfHeader data).shstrndx)) :
    64 ≤ data.length ∧ (elfHeader data).shoff < 2 ^ 63 ∧ o + z ≤ (data ++ spare).length ∧
    ¬ toInt64 (o + z) > (data.length : Int) ∧
    ∃ m, m ≤ (elfHeader data).shnum ∧
      (∀ j, j < m → ∃ r, elfReadEntry (data ++ spare) (((data ++ spare).drop o).take z)
        ((data ++ spare).drop (o + z)) (elfHeader data).is64 (elfHeader data).little
        ((elfEntryPos (elfHeader data) j : Nat) : Int) = some r) ∧
      secs = (List.range m).filterMap (fun (j : Nat) =>
        (elfReadEntry (data ++ spare) (((data ++ spare).drop o).take z)
          ((data ++ spare).drop (o + z)) (elfHeader data).is64 (elfHeader data).little
          ((elfEntryPos (elfHeader data) j : Nat) : Int)).join) := by
  by_cases hshort : data.length < 64 ∨ data.take 4 ≠ [0x7f, 0x45, 0x4c, 0x46]
  · rw [parseELF_short data _ hshort] at h
    exact absurd (Option.some.inj h).symm hne
  · have h64 : 64 ≤ data.length := by
      by_contra hc
      exact hshort (Or.inl (by omega))
    have hmagic : data.take 4 = [0x7f, 0x45, 0x4c, 0x46] := by
      by_contra hc
      exact hshort (Or.inr hc)
    rw [parseELF_eq_elfTable data _ h64 hmagic] at h
    obtain ⟨b1, b2, b3, b4⟩ := elfHeader_lt data
    obtain ⟨c1, c2, c3, c4⟩ := elfTable_some b1 b2 b3 b4 h hne o z ho hz
    exact ⟨h64, c1, c2, c3, c4⟩

theorem forall2_filterMap {α β : Type} (f : α → Option β) :
    ∀ l : List α, List.Forall₂ (fun b a => a ∈ l ∧ f a = some b) (l.filterMap f)
      (l.filter (fun a => (f a).isSome)) := by
  intro l
  induction l with
  | nil => exact List.Forall₂.nil
  | cons x rest ih =>
    have ih' : List.Forall₂ (fun b a => a ∈ x :: rest ∧ f a = some b) (rest.filterMap f)
        (rest.filter (fun a => (f a).isSome)) :=
      ih.imp (fun b a hba => ⟨List.mem_cons_of_mem _ hba.1, hba.2⟩)
    cases hx : f x with
    | none =>
      rw [List.filterMap_cons_none hx, List.filter_cons_of_neg (by rw [hx]; simp)]
      exact ih'
    | some b =>
      rw [List.filterMap_cons_some hx, List.filter_cons_of_pos (by rw [hx]; rfl)]
      exact List.Forall₂.cons ⟨List.mem_cons_self _ _, hx⟩ ih'

theorem join_eq_some {α : Type} {x : Option (Option α)} {a : α} (h : x.join = some a) :
    x = some (some a) := by
  cases x with
  | none => cases h
  | some y =>
    cases y with
    | none => cases h
    | some b => cases h; rfl

/-- C1 (failing input): on the 64-byte image `hostileELF`, a 64-bit
little-endian ELF header with `e_shoff = 2^63`, the PE attempt finds nothing
and `parseELF` raises a run-time panic, whatever the capacity of the buffer
and the content of its backing array: `int(shoff)` is negative, passes both
guards, and the slice `data[strIdx+24 : strIdx+32]` has negative bounds. -/
theorem ParseSections_hostileELF_panics (spare : List Byte) :
    parsePE hostileELF = [] ∧ parseELF hostileELF spare = none ∧
      ParseSections hostileELF spare = none := by
  have hpe : parsePE hostileELF = [] := by decide
  have hhd : elfHeader hostileELF =
      { is64 := true, little := true, shoff := 2 ^ 63, shentsize := 64, shnum := 1,
        shstrndx := 0 } := by decide
  have hlen : hostileELF.length = 64 := by decide
  have helf : parseELF hostileELF spare = none := by
    rw [parseELF_eq_elfTable hostileELF spare (by rw [hlen]) (by decide), hhd, hlen]
    dsimp only
    rw [elfTable, if_neg (by decide)]
    dsimp only
    rw [if_neg (by decide), if_pos rfl, readUint_neg _ _ _ _ (by decide)]
    rfl
  refine ⟨hpe, helf, ?_⟩
  unfold ParseSections
  dsimp only
  rw [if_pos (by rw [hpe]; rfl)]
  exact helf

theorem elfReadEntry_fields {data strtab rest : List Byte} {is64 little : Bool} {p : Nat}
    {s : SectionInfo}
    (h : (elfReadEntry data strtab rest is64 little (p : Int)).join = some s) :
    p + (if is64 then 40 else 24) ≤ data.length ∧
    0 < shSizeAt is64 little data p ∧ s.Name ≠ [] ∧
    elfName strtab rest (shNameAt little data p) = some s.Name ∧
    s.Offset = toInt64 (shOffsetAt is64 little data p) ∧
    s.Size = toInt64 (shSizeAt is64 little data p) ∧
    s.VirtualAddress = shAddrAt is64 little data p := by
  obtain ⟨_, hfit, nm, hnm, hr⟩ := elfReadEntry_some (join_eq_some h)
  rw [Int.toNat_ofNat] at hnm hr
  split_ifs at hr with hc
  have hs := Option.some.inj hr
  subst hs
  exact ⟨by exact_mod_cast hfit, hc.1, hc.2, hnm, rfl, rfl, rfl⟩

/-- C7 (amended): every section produced by `ParseSections` on the PE path or
on the 32-bit ELF path has `Offset ≥ 0` and `Size ≥ 0`.  On the ELF path the
sections are made, in table order, from entries of the section-header table,
each with `Offset` and `Size` the `int64` reinterpretations of the `sh_offset`
and `sh_size` of its entry, which are not negative exactly when those fields
are below `2^63`. -/
theorem ParseSections_offset_size (data spare : List Byte) (secs : List SectionInfo)
    (h : ParseSections data spare = some secs) :
    ((parsePE data ≠ [] ∨ (elfHeader data).is64 = false) →
      ∀ s ∈ secs, 0 ≤ s.Offset ∧ 0 ≤ s.Size) ∧
    (parsePE data ≠ [] → secs = parsePE data) ∧
    (parsePE data = [] → ∃ js : List Nat, js.Pairwise (fun a b => a < b) ∧
      (∀ j ∈ js, j < (elfHeader data).shnum) ∧
      List.Forall₂ (fun (s : SectionInfo) (j : Nat) =>
        elfEntryPos (elfHeader data) j + (if (elfHeader data).is64 then 40 else 24)
          ≤ (data ++ spare).length ∧
        s.Offset = toInt64 (shOffsetAt (elfHeader data).is64 (elfHeader data).little
          (data ++ spare) (elfEntryPos (elfHeader data) j)) ∧
        s.Size = toInt64 (shSizeAt (elfHeader data).is64 (elfHeader data).little
          (data ++ spare) (elfEntryPos (elfHeader data) j)) ∧
        (0 ≤ s.Offset ↔ shOffsetAt (elfHeader data).is64 (elfHeader data).little
          (data ++ spare) (elfEntryPos (elfHeader data) j) < 2 ^ 63) ∧
        (0 ≤ s.Size ↔ shSizeAt (elfHeader data).is64 (elfHeader data).little
          (data ++ spare) (elfEntryPos (elfHeader data) j) < 2 ^ 63)) secs js) := by
  unfold ParseSections at h
  dsimp only at h
  by_cases hpe : parsePE data = []
  · rw [if_pos (by rw [hpe]; rfl)] at h
    have hmain : ∃ js : List Nat, js.Pairwise (fun a b => a < b) ∧
        (∀ j ∈ js, j < (elfHeader data).shnum) ∧
        List.Forall₂ (fun (s : SectionInfo) (j : Nat) =>
          elfEntryPos (elfHeader data) j + (if (elfHeader data).is64 then 40 else 24)
            ≤ (data ++ spare).length ∧
          s.Offset = toInt64 (shOffsetAt (elfHeader data).is64 (elfHeader data).little
            (data ++ spare) (elfEntryPos (elfHeader data) j)) ∧
          s.Size = toInt64 (shSizeAt (elfHeader data).is64 (elfHeader data).little
            (data ++ spare) (elfEntryPos (elfHeader data) j)) ∧
          (0 ≤ s.Offset ↔ shOffsetAt (elfHeader data).is64 (elfHeader data).little
            (data ++ spare) (elfEntryPos (elfHeader data) j) < 2 ^ 63) ∧
          (0 ≤ s.Size ↔ shSizeAt (elfHeader data).is64 (elfHeader data).little
            (data ++ spare) (elfEntryPos (elfHeader data) j) < 2 ^ 63)) secs js := by
      by_cases hne : secs = []
      · rw [hne]
        exact ⟨[], List.Pairwise.nil, fun j hj => (by cases hj), List.Forall₂.nil⟩
      · obtain ⟨_, _, _, _, m, hm, _, hsecs⟩ := parseELF_some h hne _ _ rfl rfl
        rw [hsecs]
        refine ⟨_, (List.pairwise_lt_range m).filter _, ?_, (forall2_filterMap _ _).imp ?_⟩
        · intro j hj
          have := List.mem_range.mp (List.mem_filter.mp hj).1
          omega
        · intro s j hsj
          obtain ⟨hfit, _, _, _, hoff, hsz, _⟩ := elfReadEntry_fields hsj.2
          refine ⟨hfit, hoff, hsz, ?_, ?_⟩
          · rw [hoff]; exact toInt64_nonneg_iff (shOffsetAt_lt _ _ _ _)
          · rw [hsz]; exact toInt64_nonneg_iff (shSizeAt_lt _ _ _ _)
    refine ⟨?_, fun hx => absurd hpe hx, fun _ => hmain⟩
    rintro (hx | h32)
    · exact absurd hpe hx
    · obtain ⟨js, hpw, hb, hf⟩ := hmain
      clear hpw hb
      intro s hs
      have hex : ∃ j, s.Offset = toInt64 (shOffsetAt (elfHeader data).is64
            (elfHeader data).little (data ++ spare) (elfEntryPos (elfHeader data) j)) ∧
          s.Size = toInt64 (shSizeAt (elfHeader data).is64 (elfHeader data).little
            (data ++ spare) (elfEntryPos (elfHeader data) j)) := by
        clear h
        induction hf with
        | nil => cases hs
        | cons hab _ ih =>
          rcases List.mem_cons.mp hs with e | e
          · rw [e]; exact ⟨_, hab.2.1, hab.2.2.1⟩
          · exact ih e
      obtain ⟨j, hoff, hsz⟩ := hex
      rw [h32] at hoff hsz
      simp only [shOffsetAt, shSizeAt, Bool.false_eq_true, if_false] at hoff hsz
      rw [hoff, hsz]
      exact ⟨toInt64_nonneg_of_lt63 (lt_trans (uAt_lt _ _ _ 4) (by norm_num)),
        toInt64_nonneg_of_lt63 (lt_trans (uAt_lt _ _ _ 4) (by norm_num))⟩
  · have hne : ¬ (parsePE data).length = 0 := by
      intro h0
      exact hpe (List.length_eq_zero.1 h0)
    rw [if_neg hne] at h
    have hsecs := Option.some.inj h
    subst hsecs
    exact ⟨fun _ => parsePE_nonneg data, fun _ => rfl, fun h0 => absurd h0 hpe⟩

set_option maxRecDepth 100000 in
/-- Witness for C7: the image `shortEntryELF`, whose last entry ends after the
file, is parsed to its two sections when the backing array is the one that
`os.ReadFile` leaves, and they, like the section of the minimal PE, have
offsets and sizes that are not negative. -/
theorem ParseSections_offset_size_witness :
    ParseSections shortEntryELF (readFileSpare shortEntryELF.length) = some shortEntrySections ∧
    (∀ s ∈ shortEntrySections, 0 ≤ s.Offset ∧ 0 ≤ s.Size) ∧
    (∀ s ∈ [textSection], 0 ≤ s.Offset ∧ 0 ≤ s.Size) :=
  ⟨by decide,
   (ParseSections_offset_size shortEntryELF (readFileSpare shortEntryELF.length)
      shortEntrySections (by decide)).1 (Or.inr (by decide)),
   (ParseSections_offset_size minimalPE (readFileSpare minimalPE.length) [textSection]
      (by decide)).1 (Or.inl (by decide))⟩

set_option maxRecDepth 100000 in
/-- Counterexample to C7 as stated: the 64-bit image `signedELF`, whose `.text`
entry has `sh_offset = 2^63` and `sh_size = 2^64 - 1`, yields a section with
`Offset = -2^63` and `Size = -1`. -/
theorem ParseSections_negative_counterexample :
    ∃ secs, ParseSections signedELF (readFileSpare signedELF.length) = some secs ∧
      ∃ s ∈ secs, s.Name = str ".text" ∧ s.Offset = -2 ^ 63 ∧ s.Size = -1 ∧
        ¬ (0 ≤ s.Offset) ∧ ¬ (0 ≤ s.Size) :=
  ⟨[{ Name := str ".text", Offset := -2 ^ 63, Size := -1, VirtualAddress := 0x401000 },
    { Name := str ".shstrtab", Offset := 256, Size := 17, VirtualAddress := 0 }],
    by decide,
    { Name := str ".text", Offset := -2 ^ 63, Size := -1, VirtualAddress := 0x401000 },
    List.mem_cons_self _ _, rfl, rfl, rfl, by decide, by decide⟩

theorem elfSectionAt_of_read {data strtab rest : List Byte} {is64 little : Bool} {p : Nat}
    {r : Option SectionInfo} (hs : strtab.length ≤ 2 ^ 32)
    (h : elfReadEntry data strtab rest is64 little (p : Int) = some r) :
    p + (if is64 then 40 else 24) ≤ data.length ∧ r = elfSectionAt data strtab is64 little p := by
  obtain ⟨_, hfit, nm, hnm, hr⟩ := elfReadEntry_some h
  rw [Int.toNat_ofNat] at hnm hr
  rw [elfName_eq strtab rest _ hs] at hnm
  have e := Option.some.inj hnm
  rw [← e] at hr
  exact ⟨by exact_mod_cast hfit, hr⟩

theorem elfSectionAt_some {data strtab : List Byte} {is64 little : Bool} {p : Nat}
    {s : SectionInfo} (h : elfSectionAt data strtab is64 little p = some s) :
    s.Name ≠ [] ∧ s.Size ≠ 0 := by
  unfold elfSectionAt at h
  dsimp only at h
  split_ifs at h with hc
  have e := Option.some.inj h
  subst e
  exact ⟨hc.2, toInt64_ne_zero hc.1 (shSizeAt_lt _ _ _ _)⟩

/-- C6 (amended): for every input of at most `2^32` bytes, the sections that
the ELF parser returns are, in table order, the ones of the first entries of
the section-header table, up to some entry: an entry gives a section when its
`sh_size` is not zero and its name is not empty, the name being the bytes of
the string table, the section with the index `e_shstrndx`, from the index
`sh_name` of the entry up to the next NUL, and empty when `sh_name` is outside
the string table or no NUL follows.  So every section returned has a
non-empty name and a size that is not zero.  The buffer, with its spare
capacity, has fewer than `2^63` bytes, as every Go slice has. -/
theorem parseELF_section_names (data spare : List Byte) (hlen : data.length ≤ 2 ^ 32)
    (hcap : (data ++ spare).length < 2 ^ 63)
    (secs : List SectionInfo) (h : parseELF data spare = some secs) :
    ∃ k, k ≤ (elfHeader data).shnum ∧
      (∀ j, j < k → elfEntryPos (elfHeader data) j +
        (if (elfHeader data).is64 then 40 else 24) ≤ (data ++ spare).length) ∧
      secs = (List.range k).filterMap (fun (j : Nat) =>
        elfSectionAt (data ++ spare) (elfStrtab (data ++ spare)) (elfHeader data).is64
          (elfHeader data).little (elfEntryPos (elfHeader data) j)) ∧
      ∀ s ∈ secs, s.Name ≠ [] ∧ s.Size ≠ 0 := by
  by_cases hne : secs = []
  · rw [hne]
    exact ⟨0, Nat.zero_le _, fun j hj => absurd hj (Nat.not_lt_zero j), rfl,
      fun s hs => (by cases hs)⟩
  · obtain ⟨h64, _, hoz, hg, m, hm, hall, hsecs⟩ := parseELF_some h hne _ _ rfl rfl
    have hstr : elfStrtab (data ++ spare) =
        ((data ++ spare).drop (shOffsetAt (elfHeader data).is64 (elfHeader data).little
          (data ++ spare) (elfEntryPos (elfHeader data) (elfHeader data).shstrndx))).take
          (shSizeAt (elfHeader data).is64 (elfHeader data).little (data ++ spare)
            (elfEntryPos (elfHeader data) (elfHeader data).shstrndx)) := by
      unfold elfStrtab
      rw [elfHeader_append data spare h64]
    have hsl : (elfStrtab (data ++ spare)).length ≤ 2 ^ 32 := by
      rw [hstr, List.length_take]
      have hsum := lt_of_le_of_lt hoz hcap
      rw [toInt64_of_lt hsum] at hg
      have h1 : shOffsetAt (elfHeader data).is64 (elfHeader data).little
          (data ++ spare) (elfEntryPos (elfHeader data) (elfHeader data).shstrndx) +
          shSizeAt (elfHeader data).is64 (elfHeader data).little (data ++ spare)
            (elfEntryPos (elfHeader data) (elfHeader data).shstrndx) ≤ data.length := by
        exact_mod_cast not_lt.mp hg
      exact le_trans (Nat.min_le_left _ _) (le_trans (Nat.le_add_left _ _) (le_trans h1 hlen))
    rw [← hstr] at hall hsecs
    have hfm : secs = (List.range m).filterMap (fun (j : Nat) =>
        elfSectionAt (data ++ spare) (elfStrtab (data ++ spare)) (elfHeader data).is64
          (elfHeader data).little (elfEntryPos (elfHeader data) j)) := by
      rw [hsecs]
      apply List.filterMap_congr
      intro j hj
      obtain ⟨r, hr⟩ := hall j (List.mem_range.mp hj)
      rw [hr, ← (elfSectionAt_of_read hsl hr).2]
      rfl
    refine ⟨m, hm, ?_, hfm, ?_⟩
    · intro j hj
      obtain ⟨r, hr⟩ := hall j hj
      exact (elfSectionAt_of_read hsl hr).1
    · intro s hs
      rw [hfm] at hs
      obtain ⟨j, _, hj⟩ := List.mem_filterMap.mp hs
      exact elfSectionAt_some hj

set_option maxRecDepth 100000 in
/-- Witness for C6: the image `shortEntryELF` has 108 bytes and is parsed to its
two sections, the ones of its two entries. -/
theorem parseELF_section_names_witness :
    parseELF shortEntryELF (readFileSpare shortEntryELF.length) = some shortEntrySections ∧
    ∃ k, k ≤ (elfHeader shortEntryELF).shnum ∧
      (∀ j, j < k → elfEntryPos (elfHeader shortEntryELF) j +
        (if (elfHeader shortEntryELF).is64 then 40 else 24)
          ≤ (shortEntryELF ++ readFileSpare shortEntryELF.length).length) ∧
      shortEntrySections = (List.range k).filterMap (fun (j : Nat) =>
        elfSectionAt (shortEntryELF ++ readFileSpare shortEntryELF.length)
          (elfStrtab (shortEntryELF ++ readFileSpare shortEntryELF.length))
          (elfHeader shortEntryELF).is64 (elfHeader shortEntryELF).little
          (elfEntryPos (elfHeader shortEntryELF) j)) ∧
      ∀ s ∈ shortEntrySections, s.Name ≠ [] ∧ s.Size ≠ 0 :=
  ⟨by decide,
    parseELF_section_names shortEntryELF (readFileSpare shortEntryELF.length) (by decide)
      (by decide) shortEntrySections (by decide)⟩

theorem indexNul_longName (n : Nat) : indexNul (longName n) = some n := by
  induction n with
  | zero => simp [longName, indexNul]
  | succ n ih =>
    have : longName (n + 1) = (0x41 : Byte) :: longName n := by
      simp [longName, List.replicate_succ]
    rw [this, indexNul, if_neg (by decide), ih]
    rfl

theorem longName_length (n : Nat) : (longName n).length = n + 1 := by
  simp [longName]

/-- On a name of `2^32 + 1` bytes the name resolution returns its first byte
only: the `uint32` conversion of the NUL position `2^32 + 1` is 1. -/
theorem elfName_longName (n : Nat) (hn : n = 2 ^ 32 + 1) (rest : List Byte) :
    elfName (longName n) rest 0 = some [0x41] := by
  rw [elfName_rest]
  have hl := longName_length n
  have hs : slice (longName n) ((0 : Nat) : Int) ((longName n).length : Int) = some (longName n) := by
    have := slice_of_range (longName n) 0 (longName n).length (by omega)
    rw [List.drop_zero, List.take_length] at this
    simpa using this
  have hmod : (0 + n % 2 ^ 32) % 2 ^ 32 = 1 := by omega
  have hcons : longName n = (0x41 : Byte) :: longName (n - 1) := by
    have : n = (n - 1) + 1 := by omega
    conv_lhs => rw [this]
    simp [longName, List.replicate_succ]
  have hs1 : slice (longName n) ((0 : Nat) : Int) ((1 : Nat) : Int) = some [0x41] := by
    have := slice_of_range (longName n) 0 1 (by omega)
    rw [List.drop_zero] at this
    rw [hcons] at this ⊢
    simpa using this
  unfold elfName
  rw [List.append_nil]
  rw [if_pos (by rw [hl]; omega), hs]
  simp only [Option.bind_eq_bind, Option.some_bind, indexNul_longName, hmod]
  exact hs1

set_option maxRecDepth 100000 in
theorem hugePrefix_facts :
    hugePrefix.length = 128 ∧ hugePrefix.take 4 = [0x7f, 0x45, 0x4c, 0x46] ∧
    hugePrefix.getD 4 0 = 2 ∧ hugePrefix.getD 5 0 = 1 ∧
    uAt true hugePrefix 0x28 8 = 64 ∧ uAt true hugePrefix 0x3A 2 = 64 ∧
    uAt true hugePrefix 0x3C 2 = 1 ∧ uAt true hugePrefix 0x3E 2 = 0 ∧
    uAt true hugePrefix 64 4 = 0 ∧ uAt true hugePrefix (64 + 16) 8 = 0 ∧
    uAt true hugePrefix (64 + 24) 8 = 128 ∧ uAt true hugePrefix (64 + 32) 8 = 2 ^ 32 + 2 := by
  decide

theorem elfHeader_huge (rest : List Byte) :
    elfHeader (hugePrefix ++ rest) =
      { is64 := true, little := true, shoff := 64, shentsize := 64, shnum := 1, shstrndx := 0 } := by
  obtain ⟨hl, _, h4, h5, a1, a2, a3, a4, _⟩ := hugePrefix_facts
  have g4 := getD_append_left hugePrefix rest 4 (by rw [hl]; norm_num)
  have g5 := getD_append_left hugePrefix rest 5 (by rw [hl]; norm_num)
  have u1 := uAt_append_left true hugePrefix rest 0x28 8 (by rw [hl]; norm_num)
  have u2 := uAt_append_left true hugePrefix rest 0x3A 2 (by rw [hl]; norm_num)
  have u3 := uAt_append_left true hugePrefix rest 0x3C 2 (by rw [hl]; norm_num)
  have u4 := uAt_append_left true hugePrefix rest 0x3E 2 (by rw [hl]; norm_num)
  unfold elfHeader
  simp only [g4, g5, h4, h5, decide_True, if_true, u1, u2, u3, u4, a1, a2, a3, a4]

/-- The ELF parser on a prefix `hugePrefix` followed by a string table whose
one name has `2^32 + 1` bytes. -/
theorem parseELF_huge (n : Nat) (hn : n = 2 ^ 32 + 1) (spare : List Byte) :
    parseELF (hugePrefix ++ longName n) spare =
      some [{ Name := [0x41], Offset := 128, Size := 2 ^ 32 + 2, VirtualAddress := 0 }] := by
  obtain ⟨hl, hmagic, _, _, _, _, _, _, b0, b1, b2, b3⟩ := hugePrefix_facts
  have hlen : (hugePrefix ++ longName n).length = 128 + (n + 1) := by
    rw [List.length_append, hl, longName_length]
  have hlen63 : (hugePrefix ++ longName n).length < 2 ^ 63 := by rw [hlen]; omega
  have hmagic' : (hugePrefix ++ longName n).take 4 = [0x7f, 0x45, 0x4c, 0x46] := by
    rw [List.take_append_of_le_length (by rw [hl]; norm_num)]; exact hmagic
  have v0 : shNameAt true (hugePrefix ++ longName n) 64 = 0 := by
    rw [shNameAt, uAt_append_left true hugePrefix _ 64 4 (by rw [hl]; norm_num), b0]
  have v1 : shAddrAt true true (hugePrefix ++ longName n) 64 = 0 := by
    rw [shAddrAt, if_pos rfl, uAt_append_left true hugePrefix _ (64 + 16) 8 (by rw [hl]; norm_num), b1]
  have v2 : shOffsetAt true true (hugePrefix ++ longName n) 64 = 128 := by
    rw [shOffsetAt, if_pos rfl, uAt_append_left true hugePrefix _ (64 + 24) 8 (by rw [hl]; norm_num), b2]
  have v3 : shSizeAt true true (hugePrefix ++ longName n) 64 = n + 1 := by
    rw [shSizeAt, if_pos rfl, uAt_append_left true hugePrefix _ (64 + 32) 8 (by rw [hl]; norm_num), b3, hn]
  have hstrtab : ((hugePrefix ++ longName n).drop 128).take (n + 1) = longName n := by
    rw [← hl, List.drop_left, ← longName_length n, List.take_length]
  apply parseELF_append
  rw [parseELF_eq_elfTable _ [] (by rw [hlen]; omega) hmagic', elfHeader_huge, List.append_nil]
  have e64 : 64 + 0 * 64 = 64 := by norm_num
  rw [elfTable_eq_elfLoop _ true true 64 64 1 0 hlen63 (by norm_num) (by norm_num) (by simp)
    (by rw [hlen]; omega) (by norm_num) (by rw [e64, v2, v3, hlen])]
  rw [e64, v2, v3, hstrtab]
  obtain ⟨w1, w2⟩ := wrap64_entry_pos 64 64 0 _ hlen63 (by rw [hlen]; omega)
  rw [e64] at w1 w2
  have hname : elfName (longName n) (List.drop (128 + (n + 1)) (hugePrefix ++ longName n))
      (shNameAt true (hugePrefix ++ longName n) 64) = some [0x41] := by
    rw [v0]; exact elfName_longName n hn _
  have hentry := elfReadEntry_of_range_name (hugePrefix ++ longName n) (longName n)
    (List.drop (128 + (n + 1)) (hugePrefix ++ longName n)) true true 64
    [0x41] (by rw [hlen, if_pos rfl]; omega) hlen63 hname
  rw [v1, v2, v3] at hentry
  rw [elfLoop]
  rw [Nat.cast_zero] at w1 ⊢
  rw [w1, w2, if_neg (by rw [hlen]; push_cast; omega), hentry]
  rw [if_pos ⟨by omega, by simp⟩]
  rw [Option.bind_eq_bind, Option.some_bind]
  dsimp only
  rw [elfLoop, List.nil_append]
  have t1 : toInt64 128 = 128 := toInt64_of_lt (by norm_num)
  have t2 : toInt64 (n + 1) = 2 ^ 32 + 2 := by
    rw [toInt64_of_lt (by omega), hn]; norm_num
  rw [t1, t2]

theorem takeWhile_longName (n : Nat) :
    (longName n).takeWhile (fun b => b ≠ 0) = List.replicate n 0x41 := by
  induction n with
  | zero => simp [longName]
  | succ n ih =>
    have : longName (n + 1) = (0x41 : Byte) :: longName n := by
      simp [longName, List.replicate_succ]
    rw [this, List.takeWhile_cons, List.replicate_succ, ih]
    simp

theorem elfStrtab_huge (n : Nat) (hn : n = 2 ^ 32 + 1) :
    shNameAt (elfHeader (hugePrefix ++ longName n)).little (hugePrefix ++ longName n)
      (elfEntryPos (elfHeader (hugePrefix ++ longName n)) 0) = 0 ∧
    elfStrtab (hugePrefix ++ longName n) = longName n := by
  obtain ⟨hl, _, _, _, _, _, _, _, b0, _, b2, b3⟩ := hugePrefix_facts
  have e64 : 64 + 0 * 64 = 64 := by norm_num
  have v0 : shNameAt true (hugePrefix ++ longName n) 64 = 0 := by
    rw [shNameAt, uAt_append_left true hugePrefix _ 64 4 (by rw [hl]; norm_num), b0]
  have v2 : shOffsetAt true true (hugePrefix ++ longName n) 64 = 128 := by
    rw [shOffsetAt, if_pos rfl,
      uAt_append_left true hugePrefix _ (64 + 24) 8 (by rw [hl]; norm_num), b2]
  have v3 : shSizeAt true true (hugePrefix ++ longName n) 64 = n + 1 := by
    rw [shSizeAt, if_pos rfl,
      uAt_append_left true hugePrefix _ (64 + 32) 8 (by rw [hl]; norm_num), b3, hn]
  have hstrtab : ((hugePrefix ++ longName n).drop 128).take (n + 1) = longName n := by
    rw [← hl, List.drop_left, ← longName_length n, List.take_length]
  unfold elfStrtab
  rw [elfHeader_huge]
  dsimp only [elfEntryPos]
  rw [e64, v0, v2, v3, hstrtab]
  exact ⟨rfl, rfl⟩

theorem parseELF_huge_facts (n : Nat) (hn : n = 2 ^ 32 + 1) (spare : List Byte) :
    parseELF (hugePrefix ++ longName n) spare =
      some [{ Name := [0x41], Offset := 128, Size := 2 ^ 32 + 2, VirtualAddress := 0 }] ∧
    shNameAt (elfHeader (hugePrefix ++ longName n)).little (hugePrefix ++ longName n)
      (elfEntryPos (elfHeader (hugePrefix ++ longName n)) 0) = 0 ∧
    ((elfStrtab (hugePrefix ++ longName n)).drop 0).takeWhile (fun b => b ≠ 0)
      = List.replicate n 0x41 ∧
    ([0x41] : List Byte) ≠ List.replicate n 0x41 := by
  obtain ⟨h1, h2⟩ := elfStrtab_huge n hn
  refine ⟨parseELF_huge n hn spare, h1, ?_, ?_⟩
  · rw [h2, List.drop_zero, takeWhile_longName]
  · intro h
    have := congrArg List.length h
    rw [List.length_replicate, List.length_singleton] at this
    omega

/-- Counterexample to C6 as stated: on the image `hugeELF` of `2^32 + 130`
bytes the parser returns a section named `A`, although the string table holds,
from index `sh_name = 0` up to the next NUL, `2^32 + 1` bytes `A`: the position
of the NUL is converted to `uint32` before it is added to `sh_name`. -/
theorem parseELF_truncated_name_counterexample :
    parseELF hugeELF (readFileSpare hugeELF.length) =
      some [{ Name := [0x41], Offset := 128, Size := 2 ^ 32 + 2, VirtualAddress := 0 }] ∧
    shNameAt (elfHeader hugeELF).little hugeELF (elfEntryPos (elfHeader hugeELF) 0) = 0 ∧
    ((elfStrtab hugeELF).drop 0).takeWhile (fun b => b ≠ 0)
      = List.replicate (2 ^ 32 + 1) 0x41 ∧
    ([0x41] : List Byte) ≠ List.replicate (2 ^ 32 + 1) 0x41 :=
  parseELF_huge_facts (2 ^ 32 + 1) rfl _

/-! ## The regular-expression engine on the scan patterns -/

theorem drop_eq_cons_of_lt {data : List Byte} {pos : Nat} (h : pos < data.length) :
    data.drop pos = data.get ⟨pos, h⟩ :: data.drop (pos + 1) := by
  rw [List.drop_eq_getElem_cons h]
  rfl

theorem runLen_of_ge (data : List Byte) (pos : Nat) (h : data.length ≤ pos) :
    runLen data pos = 0 := by
  simp [runLen, List.drop_eq_nil_of_le h]

theorem runLen_pos_step (data : List Byte) (pos : Nat) (h : pos < data.length)
    (hp : printable (data.get ⟨pos, h⟩).val = true) :
    runLen data pos = runLen data (pos + 1) + 1 := by
  unfold runLen
  rw [drop_eq_cons_of_lt h, List.takeWhile_cons, if_pos hp, List.length_cons]

theorem runLen_zero_step (data : List Byte) (pos : Nat) (h : pos < data.length)
    (hp : printable (data.get ⟨pos, h⟩).val = false) :
    runLen data pos = 0 := by
  unfold runLen
  rw [drop_eq_cons_of_lt h, List.takeWhile_cons, if_neg (by rw [hp]; decide), List.length_nil]

theorem runLen_add_le (data : List Byte) (pos : Nat) (h : pos ≤ data.length) :
    pos + runLen data pos ≤ data.length := by
  have h1 : runLen data pos ≤ (data.drop pos).length := by
    unfold runLen
    exact (List.takeWhile_sublist _).length_le
  rw [List.length_drop] at h1
  omega

/-- A positive run length means a byte of the class at the position. -/
theorem runLen_pos_iff (data : List Byte) (pos : Nat) :
    0 < runLen data pos ↔ ∃ h : pos < data.length, printable (data.get ⟨pos, h⟩).val = true := by
  constructor
  · intro h0
    by_cases hlt : pos < data.length
    · refine ⟨hlt, ?_⟩
      by_contra hp
      have := runLen_zero_step data pos hlt (by simpa using hp)
      omega
    · have := runLen_of_ge data pos (by omega)
      omega
  · rintro ⟨hlt, hp⟩
    rw [runLen_pos_step data pos hlt hp]
    omega

theorem printable_lt (r : Nat) (h : printable r = true) : r < 0x80 := by
  simp only [printable, rng, Bool.or_eq_true, Bool.and_eq_true, decide_eq_true_eq] at h
  omega

theorem decodeRune_of_ge (data : List Byte) (pos : Nat) (h : data.length ≤ pos) :
    decodeRune data pos = (0xFFFD, 0) := by
  unfold decodeRune
  rw [List.drop_eq_nil_of_le h]

theorem decodeRune_ascii (data : List Byte) (pos : Nat) (h : pos < data.length)
    (hb : (data.get ⟨pos, h⟩).val < 0x80) :
    decodeRune data pos = ((data.get ⟨pos, h⟩).val, 1) := by
  unfold decodeRune
  rw [drop_eq_cons_of_lt h]
  dsimp only
  rw [decodeRuneBytes, if_pos hb]

theorem getD_drop (data : List Byte) (p i : Nat) (h : p + i < data.length) :
    (data.drop p).getD i 0 = data.get ⟨p + i, h⟩ := by
  rw [List.getD_eq_getElem _ _ (by rw [List.length_drop]; omega)]
  simp [List.getElem_drop]

theorem runLen_zero_of_high (data : List Byte) (q : Nat) (h : q < data.length)
    (hb : 0x80 ≤ (data.get ⟨q, h⟩).val) : runLen data q = 0 := by
  apply runLen_zero_step data q h
  cases hp : printable (data.get ⟨q, h⟩).val with
  | false => rfl
  | true =>
    have := printable_lt _ hp
    omega

theorem acceptLo_ge (c0 : Nat) :
    0x80 ≤ acceptLo c0 ∧ (c0 = 0xE0 → acceptLo c0 = 0xA0) ∧ (c0 = 0xF0 → acceptLo c0 = 0x90) := by
  unfold acceptLo
  split_ifs <;> omega

theorem acceptHi_le (c0 : Nat) : acceptHi c0 ≤ 0xBF := by
  unfold acceptHi
  split_ifs <;> omega

/-- The result of `decodeRuneBytes` on a first byte from 0x80 on. -/
theorem decodeRuneBytes_high (c0 c1 c2 c3 avail : Nat) (h0 : 0x80 ≤ c0) (ha : 1 ≤ avail) :
    0x80 ≤ (decodeRuneBytes c0 c1 c2 c3 avail).1 ∧
    1 ≤ (decodeRuneBytes c0 c1 c2 c3 avail).2 ∧
    (decodeRuneBytes c0 c1 c2 c3 avail).2 ≤ avail ∧
    (2 ≤ (decodeRuneBytes c0 c1 c2 c3 avail).2 → 0x80 ≤ c1) ∧
    (3 ≤ (decodeRuneBytes c0 c1 c2 c3 avail).2 → 0x80 ≤ c2) ∧
    (4 ≤ (decodeRuneBytes c0 c1 c2 c3 avail).2 → 0x80 ≤ c3) := by
  have hn : ¬ c0 < 0x80 := by omega
  have hlo := acceptLo_ge c0
  unfold decodeRuneBytes
  rw [if_neg hn]
  have hhi := acceptHi_le c0
  generalize acceptLo c0 = lo at hlo ⊢
  generalize acceptHi c0 = hi at hhi ⊢
  by_cases h2 : 0xC2 ≤ c0 ∧ c0 ≤ 0xDF
  · rw [if_pos h2]
    by_cases hb : avail < 2 ∨ c1 < lo ∨ hi < c1
    · rw [if_pos hb]; dsimp only; omega
    · rw [if_neg hb]; dsimp only; omega
  rw [if_neg h2]
  by_cases h3 : 0xE0 ≤ c0 ∧ c0 ≤ 0xEF
  · rw [if_pos h3]
    by_cases hb : avail < 3 ∨ c1 < lo ∨ hi < c1
    · rw [if_pos hb]; dsimp only; omega
    rw [if_neg hb]
    by_cases hc : c2 < 0x80 ∨ 0xBF < c2
    · rw [if_pos hc]; dsimp only; omega
    · rw [if_neg hc]; dsimp only; omega
  rw [if_neg h3]
  by_cases h4 : 0xF0 ≤ c0 ∧ c0 ≤ 0xF4
  · rw [if_pos h4]
    by_cases hb : avail < 4 ∨ c1 < lo ∨ hi < c1
    · rw [if_pos hb]; dsimp only; omega
    rw [if_neg hb]
    by_cases hc : c2 < 0x80 ∨ 0xBF < c2
    · rw [if_pos hc]; dsimp only; omega
    rw [if_neg hc]
    by_cases hd : c3 < 0x80 ∨ 0xBF < c3
    · rw [if_pos hd]; dsimp only; omega
    · rw [if_neg hd]; dsimp only; omega
  rw [if_neg h4]
  dsimp only
  omega

/-- A byte from 0x80 on starts a rune that is not below 0x80, of width at least
1 inside the buffer, and the further bytes of the rune start no run. -/
theorem decodeRune_high (data : List Byte) (pos : Nat) (h : pos < data.length)
    (hb : 0x80 ≤ (data.get ⟨pos, h⟩).val) :
    0x80 ≤ (decodeRune data pos).1 ∧ 1 ≤ (decodeRune data pos).2 ∧
    pos + (decodeRune data pos).2 ≤ data.length ∧
    ∀ q, pos < q → q < pos + (decodeRune data pos).2 → runLen data q = 0 := by
  have hrest : (data.drop (pos + 1)).length + 1 = data.length - pos := by
    rw [List.length_drop]; omega
  have hd : decodeRune data pos =
      decodeRuneBytes (data.get ⟨pos, h⟩).val ((data.drop (pos + 1)).getD 0 0).val
        ((data.drop (pos + 1)).getD 1 0).val ((data.drop (pos + 1)).getD 2 0).val
        ((data.drop (pos + 1)).length + 1) := by
    unfold decodeRune
    rw [drop_eq_cons_of_lt h]
  obtain ⟨g1, g2, g3, g4, g5, g6⟩ := decodeRuneBytes_high (data.get ⟨pos, h⟩).val
    ((data.drop (pos + 1)).getD 0 0).val ((data.drop (pos + 1)).getD 1 0).val
    ((data.drop (pos + 1)).getD 2 0).val ((data.drop (pos + 1)).length + 1) hb (by omega)
  rw [← hd] at g1 g2 g3 g4 g5 g6
  rw [hrest] at g3
  refine ⟨g1, g2, by omega, ?_⟩
  intro q hq1 hq2
  have hq : q < data.length := by omega
  apply runLen_zero_of_high data q hq
  have hcase : q = pos + 1 + 0 ∨ q = pos + 1 + 1 ∨ q = pos + 1 + 2 ∨ pos + 4 ≤ q := by omega
  rcases hcase with rfl | rfl | rfl | h4
  · have := getD_drop data (pos + 1) 0 hq
    rw [this] at g4
    exact g4 (by omega)
  · have := getD_drop data (pos + 1) 1 hq
    rw [this] at g5
    exact g5 (by omega)
  · have := getD_drop data (pos + 1) 2 hq
    rw [this] at g6
    exact g6 (by omega)
  · have hw : (decodeRune data pos).2 ≤ 4 := by
      rw [hd]
      unfold decodeRuneBytes
      split_ifs <;> simp
    omega

/-- The width of the rune at a position never leads outside the buffer. -/
theorem decodeRune_width_le (data : List Byte) (pos : Nat) (h : pos ≤ data.length) :
    pos + (decodeRune data pos).2 ≤ data.length := by
  by_cases hlt : pos < data.length
  · by_cases hb : (data.get ⟨pos, hlt⟩).val < 0x80
    · rw [decodeRune_ascii data pos hlt hb]
      simp only
      omega
    · exact (decodeRune_high data pos hlt (by omega)).2.2.1
  · rw [decodeRune_of_ge data pos (by omega)]
    simp only
    omega

/-- The end positions of one byte of the class `[\x20-\x7e\x09]`. -/
theorem ends_printable (data : List Byte) (pos : Nat) :
    (Re.cls printable).ends data pos = if 0 < runLen data pos then [pos + 1] else [] := by
  unfold Re.ends
  dsimp only
  by_cases hlt : pos < data.length
  · by_cases hb : (data.get ⟨pos, hlt⟩).val < 0x80
    · rw [decodeRune_ascii data pos hlt hb]
      dsimp only
      cases hp : printable (data.get ⟨pos, hlt⟩).val with
      | true =>
        have : 0 < runLen data pos := (runLen_pos_iff data pos).2 ⟨hlt, hp⟩
        rw [if_pos this, if_pos ⟨by norm_num, rfl⟩]
      | false =>
        have : ¬ 0 < runLen data pos := by
          rw [runLen_zero_step data pos hlt hp]; omega
        rw [if_neg this, if_neg (by simp)]
    · obtain ⟨g1, _, _, _⟩ := decodeRune_high data pos hlt (by omega)
      have hnp : ¬ printable (decodeRune data pos).1 = true := by
        intro hp
        have := printable_lt _ hp
        omega
      have : ¬ 0 < runLen data pos := by
        rw [runLen_zero_of_high data pos hlt (by omega)]; omega
      rw [if_neg this, if_neg (fun hc => hnp hc.2)]
  · have : ¬ 0 < runLen data pos := by
      rw [runLen_of_ge data pos (by omega)]; omega
    rw [if_neg this, decodeRune_of_ge data pos (by omega), if_neg (by simp)]

theorem runLen_succ_of_pos (data : List Byte) (pos : Nat) (h : 0 < runLen data pos) :
    runLen data pos = runLen data (pos + 1) + 1 := by
  obtain ⟨hlt, hp⟩ := (runLen_pos_iff data pos).1 h
  exact runLen_pos_step data pos hlt hp

theorem runLen_add (data : List Byte) :
    ∀ (n pos : Nat), n ≤ runLen data pos → runLen data (pos + n) + n = runLen data pos := by
  intro n
  induction n with
  | zero => intro pos _; rfl
  | succ n ih =>
    intro pos h
    have h1 := runLen_succ_of_pos data pos (by omega)
    have h2 := ih (pos + 1) (by omega)
    have e : pos + (n + 1) = pos + 1 + n := by omega
    rw [e]
    omega

theorem runLen_le_sub (data : List Byte) (pos : Nat) : runLen data pos ≤ data.length - pos := by
  by_cases h : pos ≤ data.length
  · have := runLen_add_le data pos h
    omega
  · rw [runLen_of_ge data pos (by omega)]
    omega

/-- The greedy iteration of the class prefers the end of the run. -/
theorem starEnds_printable_head (data : List Byte) :
    ∀ (fuel pos : Nat),
      (starEnds (fun q => (Re.cls printable).ends data q) fuel pos).head?
        = some (pos + min fuel (runLen data pos)) := by
  intro fuel
  induction fuel with
  | zero => intro pos; simp [starEnds]
  | succ fuel ih =>
    intro pos
    unfold starEnds
    rw [ends_printable]
    by_cases h0 : 0 < runLen data pos
    · have h1 := runLen_succ_of_pos data pos h0
      rw [if_pos h0]
      have hf : [pos + 1].filter (fun e => decide (pos < e)) = [pos + 1] := by
        simp
      rw [hf, List.flatMap_cons, List.flatMap_nil, List.append_nil, List.head?_append, ih (pos + 1)]
      show some _ = some _
      congr 1
      omega
    · rw [if_neg h0]
      have : runLen data pos = 0 := by omega
      simp [this]

/-- Exactly `n` bytes of the class match when the run has at least `n` bytes. -/
theorem rep_printable_ends (data : List Byte) :
    ∀ (n pos : Nat), (Re.rep (Re.cls printable) n).ends data pos
      = if n ≤ runLen data pos then [pos + n] else [] := by
  intro n
  induction n with
  | zero => intro pos; simp [Re.rep, Re.ends]
  | succ n ih =>
    intro pos
    rw [Re.rep, Re.ends, ends_printable]
    by_cases h0 : 0 < runLen data pos
    · have h1 := runLen_succ_of_pos data pos h0
      rw [if_pos h0, List.flatMap_cons, List.flatMap_nil, List.append_nil, ih (pos + 1)]
      by_cases hn : n ≤ runLen data (pos + 1)
      · rw [if_pos hn, if_pos (by omega)]
        congr 1
        omega
      · rw [if_neg hn, if_neg (by omega)]
    · rw [if_neg h0, List.flatMap_nil, if_neg (by omega)]

/-- The match of `[\x20-\x7e\x09]{n,}` at a position is the whole run from it,
when the run has at least `n` bytes. -/
theorem atLeast_printable_matchAt (data : List Byte) (n pos : Nat) :
    (Re.atLeast n (Re.cls printable)).matchAt data pos
      = if n ≤ runLen data pos then some (pos + runLen data pos) else none := by
  unfold Re.matchAt Re.atLeast
  rw [Re.ends, rep_printable_ends]
  by_cases hn : n ≤ runLen data pos
  · rw [if_pos hn, if_pos hn, List.flatMap_cons, List.flatMap_nil, List.append_nil, Re.ends,
      starEnds_printable_head]
    have h1 := runLen_add data n pos hn
    have h2 := runLen_le_sub data (pos + n)
    congr 1
    omega
  · rw [if_neg hn, if_neg hn, List.flatMap_nil]
    rfl

theorem decodeRune_width_zero {data : List Byte} {pos : Nat}
    (h : (decodeRune data pos).2 = 0) : data.length ≤ pos := by
  by_contra hc
  have hlt : pos < data.length := by omega
  by_cases hb : (data.get ⟨pos, hlt⟩).val < 0x80
  · rw [decodeRune_ascii data pos hlt hb] at h
    simp at h
  · have := (decodeRune_high data pos hlt (by omega)).2.1
    omega

/-- The positions the search steps over inside a rune start no run. -/
theorem decodeRune_interior (data : List Byte) (pos q : Nat) (h1 : pos < q)
    (h2 : q < pos + (decodeRune data pos).2) : runLen data q = 0 := by
  by_cases hlt : pos < data.length
  · by_cases hb : (data.get ⟨pos, hlt⟩).val < 0x80
    · rw [decodeRune_ascii data pos hlt hb] at h2
      simp only at h2
      omega
    · exact (decodeRune_high data pos hlt (by omega)).2.2.2 q h1 h2
  · rw [decodeRune_of_ge data pos (by omega)] at h2
    simp only at h2
    omega

/-- A match found by the search for `[\x20-\x7e\x09]{n,}` is the first run of
at least `n` bytes at or after the start position, taken whole. -/
theorem findFrom_printable_some (data : List Byte) (n : Nat) :
    ∀ (fuel pos s e : Nat),
      (Re.atLeast n (Re.cls printable)).findFrom data fuel pos = some (s, e) →
      pos ≤ s ∧ n ≤ runLen data s ∧ e = s + runLen data s ∧
        ∀ q, pos ≤ q → q < s → runLen data q < n := by
  intro fuel
  induction fuel with
  | zero => intro pos s e h; simp [Re.findFrom] at h
  | succ fuel ih =>
    intro pos s e h
    rw [Re.findFrom, atLeast_printable_matchAt] at h
    by_cases hn : n ≤ runLen data pos
    · rw [if_pos hn] at h
      simp only [Option.some.injEq, Prod.mk.injEq] at h
      obtain ⟨rfl, rfl⟩ := h
      exact ⟨le_refl _, hn, rfl, fun q h1 h2 => by omega⟩
    · rw [if_neg hn] at h
      dsimp only at h
      by_cases hw : (decodeRune data pos).2 = 0
      · rw [if_pos hw] at h
        cases h
      · rw [if_neg hw] at h
        obtain ⟨g1, g2, g3, g4⟩ := ih _ s e h
        refine ⟨by omega, g2, g3, ?_⟩
        intro q hq1 hq2
        by_cases hq : q = pos
        · rw [hq]; omega
        · by_cases hq3 : q < pos + (decodeRune data pos).2
          · rw [decodeRune_interior data pos q (by omega) hq3]
            omega
          · exact g4 q (by omega) hq2

/-- When the search for `[\x20-\x7e\x09]{n,}` finds nothing, no run of at least
`n` bytes starts at or after the start position. -/
theorem findFrom_printable_none (data : List Byte) (n : Nat) (hn1 : 1 ≤ n) :
    ∀ (fuel pos : Nat), data.length - pos < fuel →
      (Re.atLeast n (Re.cls printable)).findFrom data fuel pos = none →
      ∀ q, pos ≤ q → runLen data q < n := by
  intro fuel
  induction fuel with
  | zero => intro pos hf; omega
  | succ fuel ih =>
    intro pos hf h q hq
    rw [Re.findFrom, atLeast_printable_matchAt] at h
    by_cases hn : n ≤ runLen data pos
    · rw [if_pos hn] at h
      cases h
    · rw [if_neg hn] at h
      dsimp only at h
      by_cases hw : (decodeRune data pos).2 = 0
      · have hlen := decodeRune_width_zero hw
        rw [runLen_of_ge data q (by omega)]
        omega
      · rw [if_neg hw] at h
        have hwl := decodeRune_width_le data pos (by
          by_contra hc
          exact hw (by rw [decodeRune_of_ge data pos (by omega)]))
        by_cases hq1 : q = pos
        · rw [hq1]; omega
        · by_cases hq3 : q < pos + (decodeRune data pos).2
          · rw [decodeRune_interior data pos q (by omega) hq3]
            omega
          · exact ih _ (by omega) h q (by omega)

theorem runLen_end (data : List Byte) (pos : Nat) :
    runLen data (pos + runLen data pos) = 0 := by
  have := runLen_add data (runLen data pos) pos (le_refl _)
  omega

/-- The matches of `[\x20-\x7e\x09]{n,}` from a position that is not inside a
run: each is a whole run of at least `n` bytes that cannot be extended to the
left, they are separated, and no such run is left out. -/
theorem allMatchesLoop_printable (data : List Byte) (n : Nat) (hn1 : 1 ≤ n) :
    ∀ (fuel pos : Nat) (prev : Option Nat), data.length + 1 < fuel + pos →
      (pos = 0 ∨ runLen data pos = 0) →
      (∀ m ∈ (Re.atLeast n (Re.cls printable)).allMatchesLoop data fuel pos prev,
        pos ≤ m.1 ∧ n ≤ runLen data m.1 ∧ m.2 = m.1 + runLen data m.1 ∧
        (m.1 = 0 ∨ runLen data (m.1 - 1) = 0)) ∧
      ((Re.atLeast n (Re.cls printable)).allMatchesLoop data fuel pos prev).Pairwise
        (fun a b => a.2 < b.1) ∧
      (∀ q, pos ≤ q → n ≤ runLen data q → (q = 0 ∨ runLen data (q - 1) = 0) →
        (q, q + runLen data q) ∈
          (Re.atLeast n (Re.cls printable)).allMatchesLoop data fuel pos prev) := by
  intro fuel
  induction fuel with
  | zero =>
    intro pos prev hf hinv
    have hge : data.length ≤ pos := by omega
    refine ⟨by simp [Re.allMatchesLoop], by simp [Re.allMatchesLoop], ?_⟩
    intro q hq hnq _
    rw [runLen_of_ge data q (by omega)] at hnq
    omega
  | succ fuel ih =>
    intro pos prev hf hinv
    rw [Re.allMatchesLoop]
    by_cases hlen : data.length < pos
    · rw [if_pos hlen]
      refine ⟨by simp, by simp, ?_⟩
      intro q hq hnq _
      rw [runLen_of_ge data q (by omega)] at hnq
      omega
    rw [if_neg hlen]
    cases hfind : (Re.atLeast n (Re.cls printable)).find data pos with
    | none =>
      dsimp only
      refine ⟨by simp, by simp, ?_⟩
      intro q hq hnq _
      have := findFrom_printable_none data n hn1 _ pos (by omega) hfind q hq
      omega
    | some m =>
      obtain ⟨s, e⟩ := m
      obtain ⟨g1, g2, g3, g4⟩ := findFrom_printable_some data n _ pos s e hfind
      have hne : ¬ e = pos := by omega
      dsimp only
      rw [if_neg hne]
      have hend : runLen data e = 0 := by rw [g3]; exact runLen_end data s
      obtain ⟨i1, i2, i3⟩ := ih e (some e) (by omega) (Or.inr hend)
      have hleft : s = 0 ∨ runLen data (s - 1) = 0 := by
        by_cases hs0 : s = 0
        · exact Or.inl hs0
        · right
          by_cases hsp : s = pos
          · rcases hinv with h0 | h0
            · omega
            · rw [hsp] at g2; omega
          · have hlt := g4 (s - 1) (by omega) (by omega)
            by_contra hc
            have hpos : 0 < runLen data (s - 1) := by omega
            have := runLen_succ_of_pos data (s - 1) hpos
            have e1 : s - 1 + 1 = s := by omega
            rw [e1] at this
            omega
      refine ⟨?_, ?_, ?_⟩
      · intro m hm
        rcases List.mem_cons.1 hm with rfl | hm
        · exact ⟨g1, g2, g3, hleft⟩
        · obtain ⟨j1, j2, j3, j4⟩ := i1 m hm
          exact ⟨by omega, j2, j3, j4⟩
      · rw [List.pairwise_cons]
        refine ⟨?_, i2⟩
        intro b hb
        obtain ⟨j1, j2, _, _⟩ := i1 b hb
        dsimp only
        by_contra hc
        have : b.1 = e := by omega
        rw [this] at j2
        omega
      · intro q hq hnq hql
        by_cases hqs : q = s
        · rw [hqs, ← g3]
          exact List.mem_cons_self _ _
        · have hqs2 : s < q := by
            by_contra hc
            have := g4 q hq (by omega)
            omega
          have hqe : e ≤ q := by
            by_contra hc
            have h1 := runLen_add data (q - 1 - s) s (by omega)
            have e1 : s + (q - 1 - s) = q - 1 := by omega
            rw [e1] at h1
            rcases hql with h0 | h0
            · omega
            · omega
          exact List.mem_cons_of_mem _ (i3 q hqe hnq hql)

/-! ## Bounds of matches, for every expression -/

theorem starEnds_bound (data : List Byte) (f : Nat → List Nat)
    (hf : ∀ pos e, pos ≤ data.length → e ∈ f pos → pos ≤ e ∧ e ≤ data.length) :
    ∀ (fuel pos e : Nat), pos ≤ data.length → e ∈ starEnds f fuel pos →
      pos ≤ e ∧ e ≤ data.length := by
  intro fuel
  induction fuel with
  | zero =>
    intro pos e hp he
    simp only [starEnds, List.mem_singleton] at he
    omega
  | succ fuel ih =>
    intro pos e hp he
    rw [starEnds, List.mem_append, List.mem_flatMap] at he
    rcases he with ⟨x, hx, hex⟩ | he
    · rw [List.mem_filter] at hx
      obtain ⟨g1, g2⟩ := hf pos x hp hx.1
      obtain ⟨g3, g4⟩ := ih x e g2 hex
      omega
    · rw [List.mem_singleton] at he
      omega

/-- Every end position of a match lies between the start and the end of the
buffer. -/
theorem ends_bound (data : List Byte) :
    ∀ (r : Re) (pos e : Nat), pos ≤ data.length → e ∈ r.ends data pos →
      pos ≤ e ∧ e ≤ data.length := by
  intro r
  induction r with
  | empty =>
    intro pos e hp he
    simp only [Re.ends, List.mem_singleton] at he
    omega
  | cls p =>
    intro pos e hp he
    rw [Re.ends] at he
    split_ifs at he with hc
    · rw [List.mem_singleton] at he
      have := decodeRune_width_le data pos hp
      omega
    · cases he
  | cat a b iha ihb =>
    intro pos e hp he
    rw [Re.ends, List.mem_flatMap] at he
    obtain ⟨x, hx, hex⟩ := he
    obtain ⟨g1, g2⟩ := iha pos x hp hx
    obtain ⟨g3, g4⟩ := ihb x e g2 hex
    omega
  | alt a b iha ihb =>
    intro pos e hp he
    rw [Re.ends, List.mem_append] at he
    rcases he with he | he
    · exact iha pos e hp he
    · exact ihb pos e hp he
  | star a iha =>
    intro pos e hp he
    rw [Re.ends] at he
    exact starEnds_bound data _ (fun p x hp' hx => iha p x hp' hx) _ pos e hp he
  | wordB =>
    intro pos e hp he
    rw [Re.ends] at he
    split_ifs at he
    · rw [List.mem_singleton] at he
      omega
    · cases he

theorem findFrom_bound (data : List Byte) (r : Re) :
    ∀ (fuel pos s e : Nat), pos ≤ data.length → r.findFrom data fuel pos = some (s, e) →
      pos ≤ s ∧ s ≤ e ∧ e ≤ data.length := by
  intro fuel
  induction fuel with
  | zero => intro pos s e _ h; simp [Re.findFrom] at h
  | succ fuel ih =>
    intro pos s e hp h
    rw [Re.findFrom] at h
    cases hm : r.matchAt data pos with
    | some x =>
      rw [hm] at h
      simp only [Option.some.injEq, Prod.mk.injEq] at h
      obtain ⟨rfl, rfl⟩ := h
      have hx : x ∈ r.ends data pos := by
        unfold Re.matchAt at hm
        exact List.mem_of_mem_head? hm
      obtain ⟨g1, g2⟩ := ends_bound data r pos x hp hx
      omega
    | none =>
      rw [hm] at h
      dsimp only at h
      split_ifs at h with hw
      have := decodeRune_width_le data pos hp
      obtain ⟨g1, g2, g3⟩ := ih _ s e this h
      omega

/-- Every match of `FindAllIndex` lies inside the buffer. -/
theorem allMatchesLoop_bound (data : List Byte) (r : Re) :
    ∀ (fuel pos : Nat) (prev : Option Nat),
      ∀ m ∈ r.allMatchesLoop data fuel pos prev, pos ≤ m.1 ∧ m.1 ≤ m.2 ∧ m.2 ≤ data.length := by
  intro fuel
  induction fuel with
  | zero => intro pos prev m hm; simp [Re.allMatchesLoop] at hm
  | succ fuel ih =>
    intro pos prev m hm
    rw [Re.allMatchesLoop] at hm
    split_ifs at hm with hlen
    · cases hm
    · cases hfind : r.find data pos with
      | none => rw [hfind] at hm; cases hm
      | some x =>
        obtain ⟨s, e⟩ := x
        rw [hfind] at hm
        dsimp only at hm
        obtain ⟨g1, g2, g3⟩ := findFrom_bound data r _ pos s e (by omega) hfind
        have hrec : ∀ (p : Nat) (q : Option Nat), pos ≤ p →
            ∀ m ∈ r.allMatchesLoop data fuel p q, pos ≤ m.1 ∧ m.1 ≤ m.2 ∧ m.2 ≤ data.length := by
          intro p q hp m hm
          obtain ⟨j1, j2, j3⟩ := ih p q m hm
          exact ⟨by omega, j2, j3⟩
        split_ifs at hm with h1 h2 h3
        · exact hrec _ _ (by omega) m hm
        · exact hrec _ _ (by omega) m hm
        · rcases List.mem_cons.1 hm with rfl | hm
          · exact ⟨g1, g2, g3⟩
          · exact hrec _ _ (by omega) m hm
        · rcases List.mem_cons.1 hm with rfl | hm
          · exact ⟨g1, g2, g3⟩
          · exact hrec _ _ (by omega) m hm
        · rcases List.mem_cons.1 hm with rfl | hm
          · exact ⟨g1, g2, g3⟩
          · exact hrec _ _ (by omega) m hm

theorem FindAllIndex_bound (data : List Byte) (r : Re) :
    ∀ m ∈ r.FindAllIndex data, m.1 ≤ m.2 ∧ m.2 ≤ data.length := by
  intro m hm
  exact (allMatchesLoop_bound data r _ 0 none m hm).2

theorem slice_nat (data : List Byte) (lo hi : Nat) (h1 : lo ≤ hi) (h2 : hi ≤ data.length) :
    slice data (lo : Int) (hi : Int) = some ((data.drop lo).take (hi - lo)) := by
  have := slice_of_range data lo (hi - lo) (by omega)
  have e : ((lo : Int) + ((hi - lo : Nat) : Int)) = (hi : Int) := by omega
  rw [e] at this
  exact this

/-- `hexContext` on a match inside the buffer never fails and shows the bytes
before and after the match. -/
theorem hexContext_eq (data : List Byte) (o e : Nat) (h1 : o ≤ e) (h2 : e ≤ data.length) :
    hexContext data (o : Int) ((e : Int) - (o : Int)) 16 =
      some (formatHex (contextBefore data o), formatHex (contextAfter data e)) := by
  have hstart : (if (o : Int) - 16 < 0 then (0 : Int) else (o : Int) - 16) = ((o - 16 : Nat) : Int) := by
    split_ifs <;> omega
  have hafter : (if (o : Int) + ((e : Int) - (o : Int)) > (data.length : Int) then
      (data.length : Int) else (o : Int) + ((e : Int) - (o : Int))) = (e : Int) := by
    split_ifs <;> omega
  have hstop : (if (o : Int) + ((e : Int) - (o : Int)) + 16 > (data.length : Int) then
      (data.length : Int) else (o : Int) + ((e : Int) - (o : Int)) + 16)
        = ((min (e + 16) data.length : Nat) : Int) := by
    split_ifs <;> omega
  have hb := slice_nat data (o - 16) o (by omega) (by omega)
  have ha := slice_nat data e (min (e + 16) data.length) (by omega) (by omega)
  have htake : (data.drop e).take (min (e + 16) data.length - e) = (data.drop e).take 16 := by
    by_cases hc : e + 16 ≤ data.length
    · congr 1; omega
    · rw [List.take_of_length_le (by rw [List.length_drop]; omega),
        List.take_of_length_le (by rw [List.length_drop]; omega)]
  unfold hexContext
  rw [hstart, hafter, hstop]
  dsimp only
  rw [hb, Option.bind_eq_bind, Option.some_bind, ha, Option.some_bind, htake]
  rfl

theorem extractLoop_eq (trav : Nat × Nat → MapOrders) (data : List Byte) (enc : Encoding)
    (sections : List SectionInfo) (filterPat : Option Re) (showContext : Bool) :
    ∀ (M : List (Nat × Nat)), (∀ m ∈ M, m.1 ≤ m.2 ∧ m.2 ≤ data.length) →
      extractLoop trav data enc sections filterPat showContext M =
        some ((M.filter (keptBy filterPat data enc)).map
          (fun m => candidateOfIn (trav m) data enc sections showContext m)) := by
  intro M
  induction M with
  | nil => intro _; rfl
  | cons m rest ih =>
    intro hM
    obtain ⟨h1, h2⟩ := hM m (List.mem_cons_self _ _)
    have ih' := ih (fun x hx => hM x (List.mem_cons_of_mem _ hx))
    have hs := slice_nat data m.1 m.2 h1 h2
    have hh := hexContext_eq data m.1 m.2 h1 h2
    rw [extractLoop, hs, Option.bind_eq_bind, Option.some_bind]
    dsimp only
    rw [ih']
    cases filterPat with
    | none =>
      dsimp only
      rw [if_neg (by simp)]
      have hk : keptBy none data enc m = true := rfl
      rw [List.filter_cons_of_pos hk, List.map_cons]
      cases showContext with
      | true =>
        rw [if_pos rfl, hh]
        rfl
      | false =>
        rw [if_neg (by simp)]
        rfl
    | some f =>
      dsimp only
      cases hf : f.MatchString (decodeBytes ((data.drop m.1).take (m.2 - m.1)) enc) with
      | true =>
        have hk : keptBy (some f) data enc m = true := hf
        rw [List.filter_cons_of_pos hk, List.map_cons]
        rw [if_neg (by simp)]
        cases showContext with
        | true =>
          rw [if_pos rfl, hh]
          rfl
        | false =>
          rw [if_neg (by simp)]
          rfl
      | false =>
        have hk : ¬ keptBy (some f) data enc m = true := by
          show ¬ f.MatchString _ = true
          rw [hf]; simp
        rw [List.filter_cons_of_neg hk]
        rw [if_pos (by simp)]

/-- `scanner.ExtractIn` is the compilation of the pattern followed by the
Candidates of the matches the filter keeps. -/
theorem ExtractIn_eq (trav : Nat × Nat → MapOrders) (data : List Byte) (minLen : Int)
    (enc : Encoding) (sections : List SectionInfo) (filterPat : Option Re)
    (showContext : Bool) :
    scanner.ExtractIn trav data minLen enc sections filterPat showContext =
      (compileScan enc minLen).map (fun pat =>
        ((pat.FindAllIndex data).filter (keptBy filterPat data enc)).map
          (fun m => candidateOfIn (trav m) data enc sections showContext m)) := by
  unfold scanner.ExtractIn
  cases hc : compileScan enc minLen with
  | none => rfl
  | some pat =>
    rw [Option.bind_eq_bind, Option.some_bind,
      extractLoop_eq trav data enc sections filterPat showContext _ (FindAllIndex_bound data pat)]
    rfl

/-- `scanner.Extract` is the compilation of the pattern followed by the
Candidates of the matches the filter keeps. -/
theorem Extract_eq (data : List Byte) (minLen : Int) (enc : Encoding)
    (sections : List SectionInfo) (filterPat : Option Re) (showContext : Bool) :
    scanner.Extract data minLen enc sections filterPat showContext =
      (compileScan enc minLen).map (fun pat =>
        ((pat.FindAllIndex data).filter (keptBy filterPat data enc)).map
          (candidateOf data enc sections showContext)) := by
  unfold scanner.Extract
  rw [ExtractIn_eq]
  rfl

/-! ## Maximal printable runs -/

theorem runLen_pos_of_get? (data : List Byte) (q : Nat) (b : Byte)
    (h : data.get? q = some b) (hp : printable b.val = true) : 0 < runLen data q := by
  rw [List.get?_eq_some] at h
  obtain ⟨hq, hb⟩ := h
  exact (runLen_pos_iff data q).2 ⟨hq, by rw [hb]; exact hp⟩

theorem runLen_zero_of_get? (data : List Byte) (q : Nat) (b : Byte)
    (h : data.get? q = some b) (hp : printable b.val = false) : runLen data q = 0 := by
  rw [List.get?_eq_some] at h
  obtain ⟨hq, hb⟩ := h
  exact runLen_zero_step data q hq (by rw [hb]; exact hp)

theorem get?_of_runLen_pos (data : List Byte) (q : Nat) (h : 0 < runLen data q) :
    ∃ b, data.get? q = some b ∧ printable b.val = true := by
  obtain ⟨hq, hp⟩ := (runLen_pos_iff data q).1 h
  exact ⟨data.get ⟨q, hq⟩, List.get?_eq_get hq, hp⟩

theorem get?_of_runLen_zero (data : List Byte) (q : Nat) (hq : q < data.length)
    (h : runLen data q = 0) : ∃ b, data.get? q = some b ∧ printable b.val = false := by
  refine ⟨data.get ⟨q, hq⟩, List.get?_eq_get hq, ?_⟩
  cases hp : printable (data.get ⟨q, hq⟩).val with
  | false => rfl
  | true =>
    have := (runLen_pos_iff data q).2 ⟨hq, hp⟩
    omega

theorem runLen_eq_of_run (data : List Byte) :
    ∀ (l o : Nat), (∀ i, i < l → 0 < runLen data (o + i)) → runLen data (o + l) = 0 →
      runLen data o = l := by
  intro l
  induction l with
  | zero => intro o _ h; exact h
  | succ k ih =>
    intro o hall hend
    have h0 : 0 < runLen data o := hall 0 (Nat.succ_pos k)
    have hk : runLen data (o + 1) = k := by
      apply ih (o + 1)
      · intro i hi
        have := hall (i + 1) (by omega)
        have e : o + 1 + i = o + (i + 1) := by omega
        rw [e]; exact this
      · have e : o + 1 + k = o + (k + 1) := by omega
        rw [e]; exact hend
    rw [runLen_succ_of_pos data o h0, hk]

/-- A non-empty maximal run starts where a run of that length starts, right
after a byte outside the set or at the start of the buffer. -/
theorem MaximalRun_iff (data : List Byte) (o l : Nat) (hl : 1 ≤ l) :
    MaximalRun data o l ↔ (l = runLen data o ∧ (o = 0 ∨ runLen data (o - 1) = 0)) := by
  constructor
  · rintro ⟨hlen, hin, hbefore, hafter⟩
    have hrun : runLen data o = l := by
      apply runLen_eq_of_run data l o
      · intro i hi
        obtain ⟨b, hb, hp⟩ := hin (o + i) (by omega) (by omega)
        exact runLen_pos_of_get? data _ b hb hp
      · rcases hafter with h | ⟨b, hb, hp⟩
        · exact runLen_of_ge data _ (by omega)
        · exact runLen_zero_of_get? data _ b hb hp
    refine ⟨hrun.symm, ?_⟩
    rcases hbefore with h | ⟨b, hb, hp⟩
    · left; exact h
    · right; exact runLen_zero_of_get? data _ b hb hp
  · rintro ⟨hrun, hbefore⟩
    have hpos : 0 < runLen data o := by omega
    obtain ⟨ho, _⟩ := (runLen_pos_iff data o).1 hpos
    have hle := runLen_add_le data o (by omega)
    refine ⟨by omega, ?_, ?_, ?_⟩
    · intro i hi1 hi2
      have hadd := runLen_add data (i - o) o (by omega)
      have e : o + (i - o) = i := by omega
      rw [e] at hadd
      exact get?_of_runLen_pos data i (by omega)
    · rcases hbefore with h | h
      · left; exact h
      · by_cases h0 : o = 0
        · left; exact h0
        · right; exact get?_of_runLen_zero data (o - 1) (by omega) h
    · by_cases he : o + l = data.length
      · left; exact he
      · right
        have hend := runLen_end data o
        rw [← hrun] at hend
        exact get?_of_runLen_zero data (o + l) (by omega) hend

theorem compileScan_ascii (n : Nat) (h2 : n ≤ 1000) :
    compileScan .ascii (n : Int) = some (Re.atLeast n (Re.cls printable)) := by
  unfold compileScan
  have a1 : ¬ ((n : Int) < 0) := by omega
  have a2 : ¬ ((1000 : Int) < (n : Int)) := by omega
  have a3 : ¬ ((2 : Int) ≤ (n : Int) ∧ 1000 / (n : Int).toNat < Encoding.ascii.innerRepeat) := by
    rintro ⟨h, h'⟩
    have e : (n : Int).toNat = n := Int.toNat_natCast n
    rw [e] at h'
    have : Encoding.ascii.innerRepeat = 1 := rfl
    rw [this, Nat.div_lt_iff_lt_mul (by omega)] at h'
    omega
  rw [if_neg a1, if_neg a2, if_neg a3, Int.toNat_natCast]
  rfl

/-- The ascii matches for a threshold `n ≥ 1`: the runs of length `≥ n` that
start at a run boundary, separated from one another. -/
theorem FindAllIndex_printable (data : List Byte) (n : Nat) (hn1 : 1 ≤ n) :
    (∀ m ∈ (Re.atLeast n (Re.cls printable)).FindAllIndex data,
      n ≤ runLen data m.1 ∧ m.2 = m.1 + runLen data m.1 ∧
        (m.1 = 0 ∨ runLen data (m.1 - 1) = 0)) ∧
    ((Re.atLeast n (Re.cls printable)).FindAllIndex data).Pairwise (fun a b => a.2 < b.1) ∧
    (∀ q, n ≤ runLen data q → (q = 0 ∨ runLen data (q - 1) = 0) →
      (q, q + runLen data q) ∈ (Re.atLeast n (Re.cls printable)).FindAllIndex data) := by
  obtain ⟨h1, h2, h3⟩ := allMatchesLoop_printable data n hn1 (data.length + 2) 0 none
    (by omega) (Or.inl rfl)
  refine ⟨fun m hm => (h1 m hm).2, h2, fun q hq hb => h3 q (Nat.zero_le q) hq hb⟩

theorem filter_keptBy_none (data : List Byte) (enc : Encoding) (M : List (Nat × Nat)) :
    M.filter (keptBy none data enc) = M :=
  List.filter_eq_self.2 (fun _ _ => rfl)

theorem length_take_drop_run (data : List Byte) (o : Nat) :
    ((data.drop o).take (runLen data o)).length = runLen data o := by
  rw [List.length_take, List.length_drop]
  exact Nat.min_eq_left (runLen_le_sub data o)

/-- C8: for encoding ascii and every threshold `1 ≤ n ≤ 1000`, `scanner.Extract`
with no filter returns, whatever the buffer, the Candidates of the maximal runs
of bytes from `{0x09, 0x20..0x7e}` of length `≥ n`: offsets strictly increase,
each Candidate ends before the next one starts, each one is a maximal run of
length `≥ n` whose value is the bytes of the run, and every maximal run of
length `≥ n` has its Candidate. -/
theorem Extract_ascii_maximal_runs (data : List Byte) (n : Nat) (sections : List SectionInfo)
    (showContext : Bool) (h1 : 1 ≤ n) (h2 : n ≤ 1000) :
    ∃ res, scanner.Extract data (n : Int) .ascii sections none showContext = some res ∧
      res.Pairwise (fun a b => a.Offset < b.Offset) ∧
      res.Pairwise (fun a b => a.Offset + (a.Length : Int) < b.Offset) ∧
      (∀ r ∈ res, ∃ o : Nat, r.Offset = (o : Int) ∧ n ≤ r.Length ∧
        MaximalRun data o r.Length ∧ r.Value = (data.drop o).take r.Length) ∧
      (∀ o l, MaximalRun data o l → n ≤ l →
        ∃ r ∈ res, r.Offset = (o : Int) ∧ r.Length = l) := by
  obtain ⟨hm, hpw, hall⟩ := FindAllIndex_printable data n h1
  have hlen : ∀ m ∈ (Re.atLeast n (Re.cls printable)).FindAllIndex data,
      (candidateOf data .ascii sections showContext m).Length = runLen data m.1 := by
    intro m hmem
    obtain ⟨_, he, _⟩ := hm m hmem
    show ((data.drop m.1).take (m.2 - m.1)).length = _
    have e : m.2 - m.1 = runLen data m.1 := by omega
    rw [e]
    exact length_take_drop_run data m.1
  refine ⟨((Re.atLeast n (Re.cls printable)).FindAllIndex data).map
    (candidateOf data .ascii sections showContext), ?_, ?_, ?_, ?_, ?_⟩
  · rw [Extract_eq, compileScan_ascii n h2, Option.map_some', filter_keptBy_none]
  · rw [List.pairwise_map]
    refine (List.Pairwise.and_mem.1 hpw).imp ?_
    rintro a b ⟨ha, _, hab⟩
    obtain ⟨_, he, _⟩ := hm a ha
    show (a.1 : Int) < (b.1 : Int)
    omega
  · rw [List.pairwise_map]
    refine (List.Pairwise.and_mem.1 hpw).imp ?_
    rintro a b ⟨ha, _, hab⟩
    obtain ⟨_, he, _⟩ := hm a ha
    rw [hlen a ha]
    show (a.1 : Int) + _ < (b.1 : Int)
    omega
  · intro r hr
    rw [List.mem_map] at hr
    obtain ⟨m, hmem, rfl⟩ := hr
    obtain ⟨hn, he, hb⟩ := hm m hmem
    have hl := hlen m hmem
    refine ⟨m.1, rfl, ?_, ?_, ?_⟩
    · rw [hl]; exact hn
    · rw [hl]
      exact (MaximalRun_iff data m.1 _ (by omega)).2 ⟨rfl, hb⟩
    · rw [hl]
      show (data.drop m.1).take (m.2 - m.1) = _
      have e : m.2 - m.1 = runLen data m.1 := by omega
      rw [e]
  · intro o l hrun hnl
    obtain ⟨hl, hb⟩ := (MaximalRun_iff data o l (by omega)).1 hrun
    have hmem := hall o (by omega) hb
    refine ⟨_, List.mem_map.2 ⟨_, hmem, rfl⟩, rfl, ?_⟩
    rw [hlen _ hmem]
    exact hl.symm

/-- C8, an instance: the two runs of length at least 2 in `ab.cde`. -/
theorem Extract_ascii_maximal_runs_witness :
    ∃ res, scanner.Extract [0x61, 0x62, 0, 0x63, 0x64, 0x65] ((2 : Nat) : Int) .ascii [] none
        false = some res ∧
      res.Pairwise (fun a b => a.Offset < b.Offset) ∧
      res.Pairwise (fun a b => a.Offset + (a.Length : Int) < b.Offset) ∧
      (∀ r ∈ res, ∃ o : Nat, r.Offset = (o : Int) ∧ 2 ≤ r.Length ∧
        MaximalRun [0x61, 0x62, 0, 0x63, 0x64, 0x65] o r.Length ∧
        r.Value = (([0x61, 0x62, 0, 0x63, 0x64, 0x65] : List Byte).drop o).take r.Length) ∧
      (∀ o l, MaximalRun [0x61, 0x62, 0, 0x63, 0x64, 0x65] o l → 2 ≤ l →
        ∃ r ∈ res, r.Offset = (o : Int) ∧ r.Length = l) :=
  Extract_ascii_maximal_runs [0x61, 0x62, 0, 0x63, 0x64, 0x65] 2 [] false (by decide) (by decide)

/-- C8, counterexample: with threshold 1001 the pattern does not compile and
`Extract` panics on a buffer that is one run of 1001 printable bytes, instead of
returning the Candidate of that run. -/
theorem Extract_ascii_threshold_counterexample :
    scanner.Extract (List.replicate 1001 0x41) 1001 .ascii [] none false = none ∧
      1 ≤ (1001 : Int) := by
  constructor
  · rfl
  · decide

/-! ## Offsets of Candidates -/

theorem pairBytes_length (first : Bool) :
    ∀ (n : Nat) (l : List Byte), l.length ≤ n → (pairBytes first l).length = l.length / 2 := by
  intro n
  induction n using Nat.strong_induction_on with
  | _ n ih =>
    intro l hl
    match l, hl with
    | [], _ => rfl
    | [_], _ => simp [pairBytes]
    | a :: b :: rest, hl =>
      have hl' : rest.length + 2 ≤ n := hl
      have := ih rest.length (by omega) rest (le_refl _)
      show (pairBytes first rest).length + 1 = (rest.length + 2) / 2
      rw [this]
      omega

theorem decodeBytes_length (raw : List Byte) (enc : Encoding) :
    enc.rawWidth * (decodeBytes raw enc).length ≤ raw.length := by
  cases enc with
  | ascii => show 1 * raw.length ≤ _; omega
  | utf8 => show 1 * raw.length ≤ _; omega
  | utf16le =>
    show 2 * (pairBytes true raw).length ≤ _
    rw [pairBytes_length true raw.length raw (le_refl _)]
    omega
  | utf16be =>
    show 2 * (pairBytes false raw).length ≤ _
    rw [pairBytes_length false raw.length raw (le_refl _)]
    omega

theorem length_take_drop (data : List Byte) (o e : Nat) (h1 : o ≤ e) (h2 : e ≤ data.length) :
    ((data.drop o).take (e - o)).length = e - o := by
  rw [List.length_take, List.length_drop]
  omega

theorem xorBuffer_length (data : List Byte) (key : Nat) :
    (xorBuffer data key).length = data.length := by
  unfold xorBuffer
  rw [List.length_map]

theorem xorMatchLoop_bound (xored : List Byte) (key : Nat) (sections : List SectionInfo) :
    ∀ (M : List (Nat × Nat)) (results out : List StringResult),
      (∀ m ∈ M, m.1 ≤ m.2 ∧ m.2 ≤ xored.length) →
      (∀ r ∈ results, 0 ≤ r.Offset ∧ r.Offset + (r.Length : Int) ≤ (xored.length : Int)) →
      xorMatchLoop xored key sections M results = some out →
      ∀ r ∈ out, 0 ≤ r.Offset ∧ r.Offset + (r.Length : Int) ≤ (xored.length : Int) := by
  intro M
  induction M with
  | nil =>
    intro results out _ hres h
    rw [xorMatchLoop] at h
    cases h
    exact hres
  | cons m rest ih =>
    intro results out hM hres h
    obtain ⟨h1, h2⟩ := hM m (List.mem_cons_self _ _)
    have hM' : ∀ x ∈ rest, x.1 ≤ x.2 ∧ x.2 ≤ xored.length :=
      fun x hx => hM x (List.mem_cons_of_mem _ hx)
    rw [xorMatchLoop, slice_nat xored m.1 m.2 h1 h2, Option.bind_eq_bind, Option.some_bind] at h
    split_ifs at h with hc
    · exact ih results out hM' hres h
    · refine ih _ out hM' ?_ h
      intro r hr
      rw [List.mem_append, List.mem_singleton] at hr
      rcases hr with hr | rfl
      · exact hres r hr
      · show 0 ≤ (m.1 : Int) ∧
          (m.1 : Int) + (((xored.drop m.1).take (m.2 - m.1)).length : Int) ≤ _
        rw [length_take_drop xored m.1 m.2 h1 h2]
        omega

theorem xorKeyLoop_bound (data : List Byte) (asciiPat : Re) (sections : List SectionInfo) :
    ∀ (k key : Nat) (results out : List StringResult),
      (∀ r ∈ results, 0 ≤ r.Offset ∧ r.Offset + (r.Length : Int) ≤ (data.length : Int)) →
      xorKeyLoop data asciiPat sections k key results = some out →
      ∀ r ∈ out, 0 ≤ r.Offset ∧ r.Offset + (r.Length : Int) ≤ (data.length : Int) := by
  intro k
  induction k with
  | zero =>
    intro key results out hres h
    rw [xorKeyLoop] at h
    cases h
    exact hres
  | succ k ih =>
    intro key results out hres h
    rw [xorKeyLoop] at h
    cases hm : xorMatchLoop (xorBuffer data key) key sections
        (asciiPat.FindAllIndex (xorBuffer data key)) results with
    | none => rw [hm] at h; cases h
    | some mid =>
      rw [hm, Option.bind_eq_bind, Option.some_bind] at h
      refine ih (key + 1) mid out ?_ h
      have := xorMatchLoop_bound (xorBuffer data key) key sections _ results mid
        (FindAllIndex_bound _ asciiPat) (by rw [xorBuffer_length]; exact hres) hm
      rw [xorBuffer_length] at this
      exact this

theorem b64Loop_bound (data : List Byte) (minLen : Int) (sections : List SectionInfo) :
    ∀ (M : List (Nat × Nat)) (out : List StringResult),
      (∀ m ∈ M, m.1 ≤ m.2 ∧ m.2 ≤ data.length) →
      b64Loop data minLen sections M = some out →
      ∀ r ∈ out, ∃ m ∈ M, r.Offset = (m.1 : Int) ∧ m.1 ≤ m.2 ∧ m.2 ≤ data.length := by
  intro M
  induction M with
  | nil =>
    intro out _ h
    rw [b64Loop] at h
    cases h
    intro r hr
    cases hr
  | cons m rest ih =>
    intro out hM h
    obtain ⟨h1, h2⟩ := hM m (List.mem_cons_self _ _)
    have hM' : ∀ x ∈ rest, x.1 ≤ x.2 ∧ x.2 ≤ data.length :=
      fun x hx => hM x (List.mem_cons_of_mem _ hx)
    have lift : ∀ out', b64Loop data minLen sections rest = some out' →
        ∀ r ∈ out', ∃ m' ∈ m :: rest, r.Offset = (m'.1 : Int) ∧ m'.1 ≤ m'.2 ∧
          m'.2 ≤ data.length := by
      intro out' h' r hr
      obtain ⟨m', hm', hx⟩ := ih out' hM' h' r hr
      exact ⟨m', List.mem_cons_of_mem _ hm', hx⟩
    rw [b64Loop, slice_nat data m.1 m.2 h1 h2, Option.bind_eq_bind, Option.some_bind] at h
    dsimp only at h
    split at h
    · exact lift out h
    · split_ifs at h with hc1 hc2
      · exact lift out h
      · exact lift out h
      · cases ht : b64Loop data minLen sections rest with
        | none => rw [ht] at h; cases h
        | some tail =>
          rw [ht, Option.bind_eq_bind, Option.some_bind] at h
          cases h
          intro r hr
          rcases List.mem_cons.1 hr with rfl | hr
          · exact ⟨m, List.mem_cons_self _ _, rfl, h1, h2⟩
          · exact lift tail ht r hr

/-- C9: every Candidate that `scanner.Extract`, `xor.Bruteforce` or
`base64dec.Extract` produces lies inside the buffer: `0 ≤ Offset` and `Offset`
plus the raw match length is at most `len(buffer)`, the raw length being
`Length` for ascii, utf-8 and xor Candidates, `2 × Length` for the utf-16
encodings, and the length of the matched region for base64 Candidates. -/
theorem candidate_offsets_in_buffer (data : List Byte) (minLen : Int)
    (sections : List SectionInfo) :
    (∀ (enc : Encoding) (filterPat : Option Re) (showContext : Bool) (res : List StringResult),
      scanner.Extract data minLen enc sections filterPat showContext = some res →
      ∀ r ∈ res, 0 ≤ r.Offset ∧
        r.Offset + ((enc.rawWidth * r.Length : Nat) : Int) ≤ (data.length : Int)) ∧
    (∀ res : List StringResult, Bruteforce data minLen sections = some res →
      ∀ r ∈ res, 0 ≤ r.Offset ∧ r.Offset + (r.Length : Int) ≤ (data.length : Int)) ∧
    (∀ res : List StringResult, base64dec.Extract data minLen sections = some res →
      ∀ r ∈ res, ∃ m ∈ b64Pattern.FindAllIndex data, r.Offset = (m.1 : Int) ∧
        0 ≤ r.Offset ∧ r.Offset + ((m.2 - m.1 : Nat) : Int) ≤ (data.length : Int)) := by
  refine ⟨?_, ?_, ?_⟩
  · intro enc filterPat showContext res h r hr
    rw [Extract_eq] at h
    cases hc : compileScan enc minLen with
    | none => rw [hc] at h; cases h
    | some pat =>
      rw [hc, Option.map_some'] at h
      cases h
      rw [List.mem_map] at hr
      obtain ⟨m, hm, rfl⟩ := hr
      obtain ⟨h1, h2⟩ := FindAllIndex_bound data pat m (List.mem_of_mem_filter hm)
      have hd := decodeBytes_length ((data.drop m.1).take (m.2 - m.1)) enc
      rw [length_take_drop data m.1 m.2 h1 h2] at hd
      show 0 ≤ (m.1 : Int) ∧ (m.1 : Int) + ((enc.rawWidth *
        (decodeBytes ((data.drop m.1).take (m.2 - m.1)) enc).length : Nat) : Int) ≤ _
      omega
  · intro res h r hr
    unfold Bruteforce at h
    cases hc : compileScan .ascii minLen with
    | none => rw [hc] at h; cases h
    | some pat =>
      rw [hc, Option.bind_eq_bind, Option.some_bind] at h
      exact xorKeyLoop_bound data pat sections 255 1 [] res (fun _ hx => by cases hx) h r hr
  · intro res h r hr
    obtain ⟨m, hm, ho, h1, h2⟩ := b64Loop_bound data minLen sections _ res
      (FindAllIndex_bound data b64Pattern) h r hr
    refine ⟨m, hm, ho, ?_, ?_⟩
    · rw [ho]; omega
    · rw [ho]; omega

set_option maxRecDepth 100000 in
/-- C9, an instance: the utf-16-le Candidate `AB` of a 7-byte buffer. -/
theorem candidate_offsets_in_buffer_witness :
    ∃ res, scanner.Extract [0, 0x41, 0, 0x42, 0, 0, 0] 2 .utf16le [] none false = some res ∧
      res.map (fun r => (r.Offset, r.Length)) = [(1, 2)] ∧
      ∀ r ∈ res, 0 ≤ r.Offset ∧
        r.Offset + ((Encoding.utf16le.rawWidth * r.Length : Nat) : Int) ≤ ((7 : Nat) : Int) :=
  ⟨_, rfl, by decide,
    (candidate_offsets_in_buffer [0, 0x41, 0, 0x42, 0, 0, 0] 2 []).1 .utf16le none false _ rfl⟩

set_option maxRecDepth 100000 in
/-- C10: scanning the 64-byte zero-filled buffer that holds `http://evil.test/a`
at offset 16, with encoding ascii, minimum length 4 and no filter, yields exactly
one Candidate; its value is `http://evil.test/a`, its offset 16, its source
`raw`, and its categories include `url`. -/
theorem Extract_evilBuf :
    evilBuf.length = 64 ∧
    ∃ r, scanner.Extract evilBuf 4 .ascii [] none false = some [r] ∧
      r.Value = str "http://evil.test/a" ∧ r.Offset = 16 ∧ r.Source = "raw" ∧
      "url" ∈ r.Categories :=
  ⟨by decide, candidateOf evilBuf .ascii [] false (16, 34), rfl, by decide, by decide,
    by decide, by decide⟩

/-! ## Matches are matches of the expression -/

theorem findFrom_mem_ends (data : List Byte) (r : Re) :
    ∀ (fuel pos s e : Nat), r.findFrom data fuel pos = some (s, e) → e ∈ r.ends data s := by
  intro fuel
  induction fuel with
  | zero => intro pos s e h; simp [Re.findFrom] at h
  | succ fuel ih =>
    intro pos s e h
    rw [Re.findFrom] at h
    cases hm : r.matchAt data pos with
    | some x =>
      rw [hm] at h
      simp only [Option.some.injEq, Prod.mk.injEq] at h
      obtain ⟨rfl, rfl⟩ := h
      unfold Re.matchAt at hm
      exact List.mem_of_mem_head? hm
    | none =>
      rw [hm] at h
      dsimp only at h
      split_ifs at h with hw
      exact ih _ s e h

theorem allMatchesLoop_mem_ends (data : List Byte) (r : Re) :
    ∀ (fuel pos : Nat) (prev : Option Nat),
      ∀ m ∈ r.allMatchesLoop data fuel pos prev, m.2 ∈ r.ends data m.1 := by
  intro fuel
  induction fuel with
  | zero => intro pos prev m hm; simp [Re.allMatchesLoop] at hm
  | succ fuel ih =>
    intro pos prev m hm
    rw [Re.allMatchesLoop] at hm
    split_ifs at hm with hlen
    · cases hm
    · cases hfind : r.find data pos with
      | none => rw [hfind] at hm; cases hm
      | some x =>
        obtain ⟨s, e⟩ := x
        rw [hfind] at hm
        dsimp only at hm
        have g := findFrom_mem_ends data r _ pos s e hfind
        split_ifs at hm with h1 h2 h3
        · exact ih _ _ m hm
        · exact ih _ _ m hm
        · rcases List.mem_cons.1 hm with rfl | hm
          · exact g
          · exact ih _ _ m hm
        · rcases List.mem_cons.1 hm with rfl | hm
          · exact g
          · exact ih _ _ m hm
        · rcases List.mem_cons.1 hm with rfl | hm
          · exact g
          · exact ih _ _ m hm

/-- Every match of `FindAllIndex` is a match of the expression. -/
theorem FindAllIndex_mem_ends (data : List Byte) (r : Re) :
    ∀ m ∈ r.FindAllIndex data, m.2 ∈ r.ends data m.1 :=
  fun m hm => allMatchesLoop_mem_ends data r _ 0 none m hm

/-- A class of runes below `0x80` matches one byte of the class. -/
theorem cls_ends_low (data : List Byte) (p : Nat → Bool) (hp : ∀ r, p r = true → r < 0x80)
    (pos e : Nat) (he : e ∈ (Re.cls p).ends data pos) :
    e = pos + 1 ∧ ∃ b, (data.drop pos).head? = some b ∧ p b.val = true := by
  rw [Re.ends] at he
  by_cases hc : (decodeRune data pos).2 ≠ 0 ∧ p (decodeRune data pos).1 = true
  swap
  · rw [if_neg hc] at he; cases he
  rw [if_pos hc, List.mem_singleton] at he
  obtain ⟨hw, hpr⟩ := hc
  have hlt : pos < data.length := by
    by_contra hge
    rw [decodeRune_of_ge data pos (by omega)] at hw
    exact hw rfl
  have hhead : (data.drop pos).head? = some (data.get ⟨pos, hlt⟩) := by
    rw [drop_eq_cons_of_lt hlt]; rfl
  by_cases hb : (data.get ⟨pos, hlt⟩).val < 0x80
  · rw [decodeRune_ascii data pos hlt hb] at he hpr
    exact ⟨he, _, hhead, hpr⟩
  · have := (decodeRune_high data pos hlt (by omega)).1
    have := hp _ hpr
    omega

/-! ## The utf-16 grammar -/

theorem take_drop_append (data : List Byte) (s a b : Nat) :
    (data.drop s).take (a + b) = (data.drop s).take a ++ (data.drop (s + a)).take b := by
  rw [List.take_add, List.drop_drop]

theorem drop_of_head? (data : List Byte) (pos : Nat) (b : Byte)
    (h : (data.drop pos).head? = some b) : data.drop pos = b :: data.drop (pos + 1) := by
  have hlt : pos < data.length := by
    by_contra hge
    rw [List.drop_eq_nil_of_le (by omega)] at h
    cases h
  rw [drop_eq_cons_of_lt hlt] at h ⊢
  cases h
  rfl

theorem utf16Raw_cons (first : Bool) (c : Byte) (cs : List Byte) :
    utf16Raw first (c :: cs) = (if first then [c, 0] else [0, c]) ++ utf16Raw first cs := by
  unfold utf16Raw
  rw [List.flatMap_cons]

theorem utf16Raw_append (first : Bool) (xs ys : List Byte) :
    utf16Raw first (xs ++ ys) = utf16Raw first xs ++ utf16Raw first ys := by
  unfold utf16Raw
  rw [List.flatMap_append]

theorem utf16Raw_length (first : Bool) (cs : List Byte) :
    (utf16Raw first cs).length = 2 * cs.length := by
  induction cs with
  | nil => rfl
  | cons c cs ih =>
    rw [utf16Raw_cons, List.length_append, ih, List.length_cons]
    cases first <;> simp <;> omega

theorem pairBytes_utf16Raw (first : Bool) (cs : List Byte) :
    pairBytes first (utf16Raw first cs) = cs := by
  induction cs with
  | nil => rfl
  | cons c cs ih =>
    rw [utf16Raw_cons]
    cases first
    · show (if false = true then (0 : Byte) else c) :: pairBytes false (utf16Raw false cs) = _
      rw [ih]; rfl
    · show (if true = true then c else (0 : Byte)) :: pairBytes true (utf16Raw true cs) = _
      rw [ih]; rfl

theorem unit_utf16le_ends (data : List Byte) (pos e : Nat)
    (he : e ∈ Encoding.utf16le.unit.ends data pos) :
    ∃ c : Byte, printable c.val = true ∧ e = pos + 2 ∧
      (data.drop pos).take 2 = utf16Raw true [c] := by
  have hu : Encoding.utf16le.unit = .cat (.cls printable) (.cls (fun r => r = 0)) := rfl
  rw [hu, Re.ends, List.mem_flatMap] at he
  obtain ⟨e1, h1, h2⟩ := he
  obtain ⟨rfl, b, hb, hpb⟩ := cls_ends_low data printable printable_lt pos e1 h1
  obtain ⟨rfl, z, hz, hpz⟩ := cls_ends_low data (fun r => r = 0)
    (fun r hr => by have := of_decide_eq_true hr; omega) (pos + 1) e h2
  have hz0 : z = 0 := Fin.ext (of_decide_eq_true hpz)
  refine ⟨b, hpb, rfl, ?_⟩
  rw [drop_of_head? data pos b hb, drop_of_head? data (pos + 1) z hz, hz0]
  rfl

theorem unit_utf16be_ends (data : List Byte) (pos e : Nat)
    (he : e ∈ Encoding.utf16be.unit.ends data pos) :
    ∃ c : Byte, printable c.val = true ∧ e = pos + 2 ∧
      (data.drop pos).take 2 = utf16Raw false [c] := by
  have hu : Encoding.utf16be.unit = .cat (.cls (fun r => r = 0)) (.cls printable) := rfl
  rw [hu, Re.ends, List.mem_flatMap] at he
  obtain ⟨e1, h1, h2⟩ := he
  obtain ⟨rfl, z, hz, hpz⟩ := cls_ends_low data (fun r => r = 0)
    (fun r hr => by have := of_decide_eq_true hr; omega) pos e1 h1
  obtain ⟨rfl, b, hb, hpb⟩ := cls_ends_low data printable printable_lt (pos + 1) e h2
  have hz0 : z = 0 := Fin.ext (of_decide_eq_true hpz)
  refine ⟨b, hpb, rfl, ?_⟩
  rw [drop_of_head? data pos z hz, drop_of_head? data (pos + 1) b hb, hz0]
  rfl

theorem pairs_step (first : Bool) (data : List Byte) (pos : Nat) (c : Byte) (cs : List Byte)
    (h1 : (data.drop pos).take 2 = utf16Raw first [c])
    (h2 : (data.drop (pos + 2)).take (2 * cs.length) = utf16Raw first cs) :
    (data.drop pos).take (2 * (c :: cs).length) = utf16Raw first (c :: cs) := by
  have e : 2 * (c :: cs).length = 2 + 2 * cs.length := by rw [List.length_cons]; omega
  rw [e, take_drop_append, h1, h2]
  exact (utf16Raw_append first [c] cs).symm

theorem starEnds_pairs (first : Bool) (data : List Byte) (f : Nat → List Nat)
    (hf : ∀ pos e, e ∈ f pos → ∃ c : Byte, printable c.val = true ∧ e = pos + 2 ∧
      (data.drop pos).take 2 = utf16Raw first [c]) :
    ∀ (fuel pos e : Nat), e ∈ starEnds f fuel pos →
      ∃ cs : List Byte, (∀ c ∈ cs, printable c.val = true) ∧ e = pos + 2 * cs.length ∧
        (data.drop pos).take (2 * cs.length) = utf16Raw first cs := by
  intro fuel
  induction fuel with
  | zero =>
    intro pos e he
    rw [starEnds, List.mem_singleton] at he
    exact ⟨[], fun _ h => (by cases h), he, rfl⟩
  | succ fuel ih =>
    intro pos e he
    rw [starEnds, List.mem_append, List.mem_flatMap, List.mem_singleton] at he
    rcases he with ⟨e1, h1, h2⟩ | he
    · obtain ⟨c, hc, rfl, hseg⟩ := hf pos e1 (List.mem_of_mem_filter h1)
      obtain ⟨cs, hcs, rfl, hseg'⟩ := ih _ e h2
      refine ⟨c :: cs, ?_, ?_, pairs_step first data pos c cs hseg hseg'⟩
      · intro x hx
        rcases List.mem_cons.1 hx with rfl | hx
        · exact hc
        · exact hcs x hx
      · rw [List.length_cons]; omega
    · exact ⟨[], fun _ h => (by cases h), he, rfl⟩

theorem rep_pairs (first : Bool) (data : List Byte) (r : Re)
    (hf : ∀ pos e, e ∈ r.ends data pos → ∃ c : Byte, printable c.val = true ∧ e = pos + 2 ∧
      (data.drop pos).take 2 = utf16Raw first [c]) :
    ∀ (n pos e : Nat), e ∈ (Re.rep r n).ends data pos →
      ∃ cs : List Byte, cs.length = n ∧ (∀ c ∈ cs, printable c.val = true) ∧
        e = pos + 2 * cs.length ∧ (data.drop pos).take (2 * cs.length) = utf16Raw first cs := by
  intro n
  induction n with
  | zero =>
    intro pos e he
    rw [Re.rep, Re.ends, List.mem_singleton] at he
    exact ⟨[], rfl, fun _ h => (by cases h), he, rfl⟩
  | succ n ih =>
    intro pos e he
    rw [Re.rep, Re.ends, List.mem_flatMap] at he
    obtain ⟨e1, h1, h2⟩ := he
    obtain ⟨c, hc, rfl, hseg⟩ := hf pos e1 h1
    obtain ⟨cs, hlen, hcs, rfl, hseg'⟩ := ih _ e h2
    refine ⟨c :: cs, by rw [List.length_cons, hlen], ?_, ?_,
      pairs_step first data pos c cs hseg hseg'⟩
    · intro x hx
      rcases List.mem_cons.1 hx with rfl | hx
      · exact hc
      · exact hcs x hx
    · rw [List.length_cons]; omega

/-- A match of `r{n,}`, for a unit `r` that matches one utf-16 pair, is the raw
form of a text of at least `n` printable bytes. -/
theorem atLeast_pairs (first : Bool) (data : List Byte) (r : Re)
    (hf : ∀ pos e, e ∈ r.ends data pos → ∃ c : Byte, printable c.val = true ∧ e = pos + 2 ∧
      (data.drop pos).take 2 = utf16Raw first [c])
    (n s e : Nat) (he : e ∈ (Re.atLeast n r).ends data s) :
    ∃ cs : List Byte, n ≤ cs.length ∧ (∀ c ∈ cs, printable c.val = true) ∧
      (data.drop s).take (e - s) = utf16Raw first cs := by
  unfold Re.atLeast at he
  rw [Re.ends, List.mem_flatMap] at he
  obtain ⟨e1, h1, h2⟩ := he
  obtain ⟨xs, hlen, hxs, rfl, hseg⟩ := rep_pairs first data r hf n s e1 h1
  rw [Re.ends] at h2
  obtain ⟨ys, hys, rfl, hseg'⟩ := starEnds_pairs first data _ hf _ _ e h2
  refine ⟨xs ++ ys, by rw [List.length_append]; omega, ?_, ?_⟩
  · intro c hc
    rcases List.mem_append.1 hc with hc | hc
    · exact hxs c hc
    · exact hys c hc
  · have e0 : s + 2 * xs.length + 2 * ys.length - s = 2 * xs.length + 2 * ys.length := by omega
    rw [e0, take_drop_append, hseg, hseg', utf16Raw_append]

theorem pairBytes_get? (first : Bool) :
    ∀ (n : Nat) (l : List Byte) (i : Nat), l.length ≤ n → i < l.length / 2 →
      (pairBytes first l).get? i = l.get? (2 * i + (if first then 0 else 1)) := by
  intro n
  induction n using Nat.strong_induction_on with
  | _ n ih =>
    intro l i hl hi
    match l, hl, hi with
    | [], _, hi => simp at hi
    | [_], _, hi => rw [List.length_singleton] at hi; omega
    | a :: b :: rest, hl, hi =>
      have hl' : rest.length + 2 ≤ n := hl
      have hi' : i < (rest.length + 2) / 2 := hi
      cases i with
      | zero => cases first <;> rfl
      | succ i =>
        have := ih rest.length (by omega) rest i (le_refl _) (by omega)
        show (pairBytes first rest).get? i = _
        rw [this]
        have e : 2 * (i + 1) + (if first = true then 0 else 1)
            = (2 * i + (if first = true then 0 else 1)) + 1 + 1 := by omega
        rw [e]
        rfl

theorem printable_ne_zero (c : Byte) (h : printable c.val = true) : c ≠ 0 := by
  rintro rfl
  revert h
  decide

theorem utf16_match_pairs (first : Bool) (data : List Byte) (r : Re)
    (hf : ∀ pos e, e ∈ r.ends data pos → ∃ c : Byte, printable c.val = true ∧ e = pos + 2 ∧
      (data.drop pos).take 2 = utf16Raw first [c])
    (n : Nat) (m : Nat × Nat) (hm : m ∈ (Re.atLeast n r).FindAllIndex data) :
    ∃ cs : List Byte, n ≤ cs.length ∧ (∀ c ∈ cs, printable c.val = true ∧ c ≠ 0) ∧
      (data.drop m.1).take (m.2 - m.1) = utf16Raw first cs ∧
      pairBytes first ((data.drop m.1).take (m.2 - m.1)) = cs := by
  obtain ⟨cs, hn, hcs, hseg⟩ := atLeast_pairs first data r hf n m.1 m.2
    (FindAllIndex_mem_ends data _ m hm)
  refine ⟨cs, hn, fun c hc => ⟨hcs c hc, printable_ne_zero c (hcs c hc)⟩, hseg, ?_⟩
  rw [hseg, pairBytes_utf16Raw]

/-- C11: `decodeBytes` returns the raw match verbatim for ascii and utf-8; for
utf-16-le it returns the bytes at the positions 0, 2, 4, … and for utf-16-be the
bytes at the positions 1, 3, 5, … of the `⌊len/2⌋` complete pairs of the raw
match; and every match of the utf-16 grammar with threshold `n` is the raw form
of a text of at least `n` non-zero bytes, which is the decoded value. -/
theorem decodeBytes_spec (raw data : List Byte) (n : Nat) :
    decodeBytes raw .ascii = raw ∧ decodeBytes raw .utf8 = raw ∧
    (decodeBytes raw .utf16le).length = raw.length / 2 ∧
    (decodeBytes raw .utf16be).length = raw.length / 2 ∧
    (∀ i, i < raw.length / 2 →
      (decodeBytes raw .utf16le).get? i = raw.get? (2 * i) ∧
      (decodeBytes raw .utf16be).get? i = raw.get? (2 * i + 1)) ∧
    (∀ m ∈ (Re.atLeast n Encoding.utf16le.unit).FindAllIndex data,
      ∃ cs : List Byte, n ≤ cs.length ∧ (∀ c ∈ cs, printable c.val = true ∧ c ≠ 0) ∧
        (data.drop m.1).take (m.2 - m.1) = utf16Raw true cs ∧
        decodeBytes ((data.drop m.1).take (m.2 - m.1)) .utf16le = cs) ∧
    (∀ m ∈ (Re.atLeast n Encoding.utf16be.unit).FindAllIndex data,
      ∃ cs : List Byte, n ≤ cs.length ∧ (∀ c ∈ cs, printable c.val = true ∧ c ≠ 0) ∧
        (data.drop m.1).take (m.2 - m.1) = utf16Raw false cs ∧
        decodeBytes ((data.drop m.1).take (m.2 - m.1)) .utf16be = cs) := by
  refine ⟨rfl, rfl, pairBytes_length true _ raw (le_refl _),
    pairBytes_length false _ raw (le_refl _), ?_, ?_, ?_⟩
  · intro i hi
    exact ⟨pairBytes_get? true _ raw i (le_refl _) hi, pairBytes_get? false _ raw i (le_refl _) hi⟩
  · intro m hm
    exact utf16_match_pairs true data _ (unit_utf16le_ends data) n m hm
  · intro m hm
    exact utf16_match_pairs false data _ (unit_utf16be_ends data) n m hm

set_option maxRecDepth 100000 in
/-- C11, an instance: the utf-16-le match of `AB` in a 7-byte buffer. -/
theorem decodeBytes_spec_witness :
    ((1, 5) : Nat × Nat) ∈
      (Re.atLeast 2 Encoding.utf16le.unit).FindAllIndex [0, 0x41, 0, 0x42, 0, 0, 0] ∧
    ∃ cs : List Byte, 2 ≤ cs.length ∧ (∀ c ∈ cs, printable c.val = true ∧ c ≠ 0) ∧
      (([0, 0x41, 0, 0x42, 0, 0, 0] : List Byte).drop 1).take (5 - 1) = utf16Raw true cs ∧
      decodeBytes ((([0, 0x41, 0, 0x42, 0, 0, 0] : List Byte).drop 1).take (5 - 1)) .utf16le
        = cs :=
  ⟨by decide, (decodeBytes_spec [] [0, 0x41, 0, 0x42, 0, 0, 0] 2).2.2.2.2.2.1 (1, 5) (by decide)⟩

set_option maxRecDepth 100000 in
/-- C12 fails in the code: the Candidates of two calls of `scanner.Extract` need
not carry the same metadata, since `Extract` calls `Categorize` and
`GetSuspiciousGroup` for every Candidate and both range over a Go map, in an
order that Go leaves open and changes from call to call.  On the buffer
`CreateRemoteThread` the call with the filter `Create`, with the maps traversed
in the order of the source, and the call without filter, with the maps
traversed in the reverse order, return the same value at the same offset, the
first with the API group `process` and the second with the API group
`injection`.  When the two calls traverse the maps in the same orders, the call
with the filter returns the Candidates of the call without filter whose value
the filter matches, in the same order and with the same fields, and panics
exactly when that call does. -/
theorem Extract_filter_order_dependent :
    reverseOrders.bank.Perm sourceOrders.bank ∧
    reverseOrders.table.Perm sourceOrders.table ∧
    (scanner.ExtractIn (fun _ => sourceOrders) (str "CreateRemoteThread") 4 .ascii []
        (some (lit "Create")) false).map
      (fun res => res.map (fun r => (r.Value, r.Offset))) =
        some [(str "CreateRemoteThread", 0)] ∧
    (scanner.ExtractIn (fun _ => reverseOrders) (str "CreateRemoteThread") 4 .ascii []
        none false).map
      (fun res => res.map (fun r => (r.Value, r.Offset))) =
        some [(str "CreateRemoteThread", 0)] ∧
    (scanner.ExtractIn (fun _ => sourceOrders) (str "CreateRemoteThread") 4 .ascii []
        (some (lit "Create")) false).map
      (fun res => res.map (fun r => r.SuspiciousGroup)) = some ["process"] ∧
    (scanner.ExtractIn (fun _ => reverseOrders) (str "CreateRemoteThread") 4 .ascii []
        none false).map
      (fun res => res.map (fun r => r.SuspiciousGroup)) = some ["injection"] ∧
    (∀ (trav : Nat × Nat → MapOrders) (data : List Byte) (minLen : Int) (enc : Encoding)
        (sections : List SectionInfo) (f : Re) (showContext : Bool),
      scanner.ExtractIn trav data minLen enc sections (some f) showContext =
        (scanner.ExtractIn trav data minLen enc sections none showContext).map
          (fun res => res.filter (fun r => f.MatchString r.Value))) := by
  refine ⟨List.reverse_perm _, List.reverse_perm _, by decide, by decide, by decide, by decide,
    ?_⟩
  intro trav data minLen enc sections f showContext
  rw [ExtractIn_eq, ExtractIn_eq, Option.map_map]
  congr 1
  funext pat
  show _ = List.filter _ (List.map _ (List.filter _ _))
  rw [filter_keptBy_none, List.filter_map]
  rfl

theorem hexDigit_table (n : Fin 16) :
    (str "0123456789ABCDEF").get? n.val = some (hexDigit n.val) := by
  revert n
  decide

/-- C13, amended: when context is requested, every Candidate of
`scanner.Extract` belongs to a match `[o, e)` of the scan pattern and carries in
`HexBefore` the hex dump of the bytes `[o - 16, o)`, cut at the start of the
buffer, and in `HexAfter` the hex dump of the bytes `[e, e + 16)`, cut at the end
of the buffer; a dump is the bytes written as two uppercase hex digits each and
joined by single spaces.  When context is not requested both fields are
empty. -/
theorem Extract_hex_context (data : List Byte) (minLen : Int) (enc : Encoding)
    (sections : List SectionInfo) (filterPat : Option Re) :
    (∀ res : List StringResult,
      scanner.Extract data minLen enc sections filterPat true = some res →
      ∀ r ∈ res, ∃ (pat : Re) (o e : Nat), compileScan enc minLen = some pat ∧
        (o, e) ∈ pat.FindAllIndex data ∧ o ≤ e ∧ e ≤ data.length ∧ r.Offset = (o : Int) ∧
        r.Value = decodeBytes ((data.drop o).take (e - o)) enc ∧
        r.HexBefore = formatHex ((data.drop (o - 16)).take (min 16 o)) ∧
        r.HexAfter = formatHex ((data.drop e).take 16)) ∧
    (∀ res : List StringResult,
      scanner.Extract data minLen enc sections filterPat false = some res →
      ∀ r ∈ res, r.HexBefore = [] ∧ r.HexAfter = []) ∧
    (∀ b : List Byte, formatHex b = List.intercalate [0x20]
      (b.map (fun v => [hexDigit (v.val / 16), hexDigit (v.val % 16)]))) ∧
    (∀ n : Fin 16, (str "0123456789ABCDEF").get? n.val = some (hexDigit n.val)) := by
  refine ⟨?_, ?_, fun _ => rfl, hexDigit_table⟩
  · intro res h r hr
    rw [Extract_eq] at h
    cases hc : compileScan enc minLen with
    | none => rw [hc] at h; cases h
    | some pat =>
      rw [hc, Option.map_some'] at h
      cases h
      rw [List.mem_map] at hr
      obtain ⟨m, hm, rfl⟩ := hr
      have hm' := List.mem_of_mem_filter hm
      obtain ⟨h1, h2⟩ := FindAllIndex_bound data pat m hm'
      refine ⟨pat, m.1, m.2, rfl, hm', h1, h2, rfl, rfl, ?_, rfl⟩
      show formatHex (contextBefore data m.1) = _
      unfold contextBefore
      have e : m.1 - (m.1 - 16) = min 16 m.1 := by omega
      rw [e]
  · intro res h r hr
    rw [Extract_eq] at h
    cases hc : compileScan enc minLen with
    | none => rw [hc] at h; cases h
    | some pat =>
      rw [hc, Option.map_some'] at h
      cases h
      rw [List.mem_map] at hr
      obtain ⟨m, hm, rfl⟩ := hr
      exact ⟨rfl, rfl⟩

set_option maxRecDepth 100000 in
/-- C13, an instance: the context of `abcd` between the bytes `01` and `02`. -/
theorem Extract_hex_context_witness :
    ∃ r, scanner.Extract [1, 0x61, 0x62, 0x63, 0x64, 2] 4 .ascii [] none true = some [r] ∧
      r.HexBefore = str "01" ∧ r.HexAfter = str "02" ∧
      ∃ (pat : Re) (o e : Nat), compileScan .ascii 4 = some pat ∧
        (o, e) ∈ pat.FindAllIndex [1, 0x61, 0x62, 0x63, 0x64, 2] ∧ o ≤ e ∧
        e ≤ ([1, 0x61, 0x62, 0x63, 0x64, 2] : List Byte).length ∧ r.Offset = (o : Int) ∧
        r.Value = decodeBytes ((([1, 0x61, 0x62, 0x63, 0x64, 2] : List Byte).drop o).take (e - o))
          .ascii ∧
        r.HexBefore = formatHex ((([1, 0x61, 0x62, 0x63, 0x64, 2] : List Byte).drop
          (o - 16)).take (min 16 o)) ∧
        r.HexAfter = formatHex ((([1, 0x61, 0x62, 0x63, 0x64, 2] : List Byte).drop e).take 16) :=
  ⟨candidateOf [1, 0x61, 0x62, 0x63, 0x64, 2] .ascii [] true (1, 5), rfl, by decide, by decide,
    (Extract_hex_context [1, 0x61, 0x62, 0x63, 0x64, 2] 4 .ascii [] none).1 _ rfl _
      (List.mem_singleton.2 rfl)⟩

set_option maxRecDepth 100000 in
/-- C13, counterexample: the only Candidate of the 4-byte buffer `abcd` has no
byte before it and none after it, and both dumps are empty although context is
requested. -/
theorem Extract_hex_context_counterexample :
    ∃ r, scanner.Extract (str "abcd") 4 .ascii [] none true = some [r] ∧
      r.Value = str "abcd" ∧ r.HexBefore = [] ∧ r.HexAfter = [] :=
  ⟨candidateOf (str "abcd") .ascii [] true (0, 4), rfl, by decide, by decide, by decide⟩

/-! ## The categorizer -/

theorem patterns_names_nodup : (patterns.map (fun e => e.1)).Nodup := by decide

theorem general_not_name : "general" ∉ patterns.map (fun e => e.1) := by decide

theorem CategorizeIn_of_match (bank : List (String × Re)) (s : List Byte)
    (h : ∃ e ∈ bank, e.2.MatchString s = true) :
    CategorizeIn bank s = (bank.filter (fun e => e.2.MatchString s)).map (fun e => e.1) := by
  obtain ⟨e, he, hm⟩ := h
  have hmem : e ∈ bank.filter (fun e => e.2.MatchString s) := List.mem_filter.2 ⟨he, hm⟩
  have hlen : ((bank.filter (fun e => e.2.MatchString s)).map (fun e => e.1)).length ≠ 0 := by
    rw [List.length_map]
    exact fun h0 => List.not_mem_nil e (List.length_eq_zero.1 h0 ▸ hmem)
  unfold CategorizeIn
  exact if_neg hlen

theorem CategorizeIn_of_no_match (bank : List (String × Re)) (s : List Byte)
    (h : ∀ e ∈ bank, e.2.MatchString s = false) : CategorizeIn bank s = ["general"] := by
  have hnil : bank.filter (fun e => e.2.MatchString s) = [] := by
    rw [List.filter_eq_nil_iff]
    intro e he
    rw [h e he]
    exact Bool.false_ne_true
  unfold CategorizeIn
  rw [hnil]
  rfl

/-- C17: whatever the order in which the bank `patterns` is traversed,
`Categorize` returns a non-empty list without duplicates; when a detector
matches, its members are exactly the names of the matching detectors; when none
matches it is `["general"]`; `general` is a member if and only if no detector
matches; and two traversal orders give the same names up to their order. -/
theorem Categorize_spec (bank : List (String × Re)) (s : List Byte)
    (hb : bank.Perm patterns) :
    CategorizeIn bank s ≠ [] ∧ (CategorizeIn bank s).Nodup ∧
    ((∃ e ∈ patterns, e.2.MatchString s = true) →
      ∀ name, name ∈ CategorizeIn bank s ↔
        ∃ e ∈ patterns, e.1 = name ∧ e.2.MatchString s = true) ∧
    ((∀ e ∈ patterns, e.2.MatchString s = false) → CategorizeIn bank s = ["general"]) ∧
    ("general" ∈ CategorizeIn bank s ↔ ∀ e ∈ patterns, e.2.MatchString s = false) ∧
    (CategorizeIn bank s).Perm (Categorize s) := by
  have hnames : (bank.map (fun e => e.1)).Nodup :=
    (hb.map (fun e => e.1)).nodup_iff.2 patterns_names_nodup
  have hmemIff : ∀ e, e ∈ bank ↔ e ∈ patterns := fun e => hb.mem_iff
  have hfilt : ((bank.filter (fun e => e.2.MatchString s)).map (fun e => e.1)).Nodup :=
    hnames.sublist (List.Sublist.map _ (List.filter_sublist bank))
  have hmem : ∀ name, name ∈ (bank.filter (fun e => e.2.MatchString s)).map (fun e => e.1) ↔
      ∃ e ∈ patterns, e.1 = name ∧ e.2.MatchString s = true := by
    intro name
    rw [List.mem_map]
    constructor
    · rintro ⟨e, he, rfl⟩
      obtain ⟨h1, h2⟩ := List.mem_filter.1 he
      exact ⟨e, (hmemIff e).1 h1, rfl, h2⟩
    · rintro ⟨e, he, rfl, h2⟩
      exact ⟨e, List.mem_filter.2 ⟨(hmemIff e).2 he, h2⟩, rfl⟩
  have hperm : ((bank.filter (fun e => e.2.MatchString s)).map (fun e => e.1)).Perm
      ((patterns.filter (fun e => e.2.MatchString s)).map (fun e => e.1)) :=
    (hb.filter _).map _
  by_cases hany : ∃ e ∈ patterns, e.2.MatchString s = true
  · have hany' : ∃ e ∈ bank, e.2.MatchString s = true := by
      obtain ⟨e, he, hm⟩ := hany
      exact ⟨e, (hmemIff e).2 he, hm⟩
    have hc := CategorizeIn_of_match bank s hany'
    have hc' : Categorize s = _ := CategorizeIn_of_match patterns s hany
    obtain ⟨e, he, hm⟩ := hany
    refine ⟨?_, ?_, ?_, ?_, ?_, ?_⟩
    · rw [hc]
      intro h0
      have : e.1 ∈ (bank.filter (fun e => e.2.MatchString s)).map (fun e => e.1) :=
        (hmem e.1).2 ⟨e, he, rfl, hm⟩
      rw [h0] at this
      cases this
    · rw [hc]; exact hfilt
    · intro _ name
      rw [hc]; exact hmem name
    · intro hno
      rw [hno e he] at hm
      cases hm
    · rw [hc, hmem]
      constructor
      · rintro ⟨e', he', hname, _⟩
        exact absurd (hname ▸ List.mem_map_of_mem (fun e => e.1) he') general_not_name
      · intro hno
        rw [hno e he] at hm
        cases hm
    · rw [hc, hc']; exact hperm
  · have hno : ∀ e ∈ patterns, e.2.MatchString s = false := by
      intro e he
      cases hm : e.2.MatchString s with
      | false => rfl
      | true => exact absurd ⟨e, he, hm⟩ hany
    have hc := CategorizeIn_of_no_match bank s (fun e he => hno e ((hmemIff e).1 he))
    have hc' : Categorize s = _ := CategorizeIn_of_no_match patterns s hno
    refine ⟨?_, ?_, fun h => absurd h hany, fun _ => hc, ?_, ?_⟩
    · rw [hc]; exact List.cons_ne_nil _ _
    · rw [hc]; exact List.nodup_singleton _
    · rw [hc]
      exact ⟨fun _ => hno, fun _ => List.mem_singleton.2 rfl⟩
    · rw [hc, hc']

/-- C17, an instance: the bank traversed in the reverse of the source order, on
the text `http://evil.test/a`. -/
theorem Categorize_spec_witness :
    patterns.reverse.Perm patterns ∧
    CategorizeIn patterns.reverse (str "http://evil.test/a") ≠ [] ∧
    (CategorizeIn patterns.reverse (str "http://evil.test/a")).Nodup ∧
    ((∃ e ∈ patterns, e.2.MatchString (str "http://evil.test/a") = true) →
      ∀ name, name ∈ CategorizeIn patterns.reverse (str "http://evil.test/a") ↔
        ∃ e ∈ patterns, e.1 = name ∧ e.2.MatchString (str "http://evil.test/a") = true) ∧
    ((∀ e ∈ patterns, e.2.MatchString (str "http://evil.test/a") = false) →
      CategorizeIn patterns.reverse (str "http://evil.test/a") = ["general"]) ∧
    ("general" ∈ CategorizeIn patterns.reverse (str "http://evil.test/a") ↔
      ∀ e ∈ patterns, e.2.MatchString (str "http://evil.test/a") = false) ∧
    (CategorizeIn patterns.reverse (str "http://evil.test/a")).Perm
      (Categorize (str "http://evil.test/a")) :=
  ⟨List.reverse_perm patterns,
    Categorize_spec patterns.reverse (str "http://evil.test/a") (List.reverse_perm patterns)⟩

theorem containsLowerLoop_iff (s substr : List Byte) :
    ∀ (k i : Nat), containsLowerLoop s substr k i = true ↔
      ∃ j, i ≤ j ∧ j < i + k ∧ (s.drop j).take substr.length = substr := by
  intro k
  induction k with
  | zero =>
    intro i
    rw [containsLowerLoop]
    constructor
    · intro h; cases h
    · rintro ⟨j, h1, h2, _⟩; omega
  | succ k ih =>
    intro i
    rw [containsLowerLoop]
    by_cases hc : (s.drop i).take substr.length = substr
    · rw [if_pos hc]
      exact ⟨fun _ => ⟨i, le_refl _, by omega, hc⟩, fun _ => rfl⟩
    · rw [if_neg hc, ih]
      constructor
      · rintro ⟨j, h1, h2, h3⟩
        exact ⟨j, by omega, by omega, h3⟩
      · rintro ⟨j, h1, h2, h3⟩
        have hne : j ≠ i := fun h => hc (h ▸ h3)
        exact ⟨j, by omega, by omega, h3⟩

/-- `containsLower` is the substring test. -/
theorem containsLower_iff (s substr : List Byte) :
    containsLower s substr = true ↔ substr <:+: s := by
  unfold containsLower
  by_cases hlen : substr.length > s.length
  · rw [if_pos hlen]
    constructor
    · intro h; cases h
    · intro h
      have := h.length_le
      omega
  · rw [if_neg hlen, containsLowerLoop_iff]
    constructor
    · rintro ⟨j, _, _, h3⟩
      refine ⟨s.take j, (s.drop j).drop substr.length, ?_⟩
      have e1 : s.take j ++ s.drop j = s := List.take_append_drop j s
      have e2 : (s.drop j).take substr.length ++ (s.drop j).drop substr.length = s.drop j :=
        List.take_append_drop _ _
      rw [h3] at e2
      rw [List.append_assoc, e2, e1]
    · rintro ⟨a, b, hab⟩
      have hl : a.length + substr.length + b.length = s.length := by
        rw [← hab, List.length_append, List.length_append]
      refine ⟨a.length, Nat.zero_le _, by omega, ?_⟩
      rw [← hab, List.append_assoc, List.drop_left, List.take_left]

theorem toLower_length (s : List Byte) : (toLower s).length = s.length := by
  unfold toLower
  rw [List.length_map]

theorem toLower_append (a b : List Byte) : toLower (a ++ b) = toLower a ++ toLower b := by
  unfold toLower
  rw [List.map_append]

theorem toLower_infix_iff (api s : List Byte) :
    toLower api <:+: toLower s ↔ OccursFold api s := by
  constructor
  · rintro ⟨a, b, hab⟩
    refine ⟨s.take a.length, (s.drop a.length).take api.length,
      (s.drop a.length).drop api.length, ?_, ?_⟩
    · rw [List.append_assoc, List.take_append_drop, List.take_append_drop]
    · have h1 : toLower ((s.drop a.length).take api.length)
          = ((toLower s).drop a.length).take api.length := by
        unfold toLower
        rw [List.map_take, List.map_drop]
      rw [h1, ← hab, List.append_assoc, List.drop_left, ← toLower_length api, List.take_left]
  · rintro ⟨pre, frag, suf, rfl, hf⟩
    refine ⟨toLower pre, toLower suf, ?_⟩
    rw [toLower_append, toLower_append, hf]

theorem group_names_ne_empty : ∀ g ∈ suspiciousAPIs, g.1 ≠ "" := by decide

/-- C18: whatever the order in which the table `suspiciousAPIs` is traversed,
`GetSuspiciousGroup` returns the empty name if and only if no fragment of any
group occurs in `s` under ASCII case-insensitive comparison, and a name it
returns otherwise is the name of a group one of whose fragments occurs in `s`
so. -/
theorem GetSuspiciousGroup_spec (table : List (String × List String)) (s : List Byte)
    (ht : table.Perm suspiciousAPIs) :
    (GetSuspiciousGroupIn table s = "" ↔
      ∀ g ∈ suspiciousAPIs, ∀ api ∈ g.2, ¬ OccursFold (str api) s) ∧
    (GetSuspiciousGroupIn table s ≠ "" →
      ∃ g ∈ suspiciousAPIs, g.1 = GetSuspiciousGroupIn table s ∧
        ∃ api ∈ g.2, OccursFold (str api) s) := by
  have hany : ∀ g : String × List String,
      g.2.any (fun api => containsLower (toLower s) (toLower (str api))) = true ↔
        ∃ api ∈ g.2, OccursFold (str api) s := by
    intro g
    rw [List.any_eq_true]
    constructor
    · rintro ⟨api, h1, h2⟩
      exact ⟨api, h1, (toLower_infix_iff _ _).1 ((containsLower_iff _ _).1 h2)⟩
    · rintro ⟨api, h1, h2⟩
      exact ⟨api, h1, (containsLower_iff _ _).2 ((toLower_infix_iff _ _).2 h2)⟩
  unfold GetSuspiciousGroupIn
  cases hf : table.find?
      (fun g => g.2.any (fun api => containsLower (toLower s) (toLower (str api)))) with
  | none =>
    rw [List.find?_eq_none] at hf
    refine ⟨⟨fun _ g hg api hapi hocc => ?_, fun _ => rfl⟩, fun h => absurd rfl h⟩
    exact hf g (ht.mem_iff.2 hg) ((hany g).2 ⟨api, hapi, hocc⟩)
  | some g =>
    have hg : g ∈ table := List.mem_of_find?_eq_some hf
    have hp := List.find?_some hf
    have hg' : g ∈ suspiciousAPIs := ht.mem_iff.1 hg
    obtain ⟨api, hapi, hocc⟩ := (hany g).1 hp
    refine ⟨⟨fun h => absurd h (group_names_ne_empty g hg'), fun h => ?_⟩,
      fun _ => ⟨g, hg', rfl, api, hapi, hocc⟩⟩
    exact absurd hocc (h g hg' api hapi)

/-- C18, an instance: the table traversed in the reverse of the source order,
on the text `CreateRemoteThread`. -/
theorem GetSuspiciousGroup_spec_witness :
    suspiciousAPIs.reverse.Perm suspiciousAPIs ∧
    (GetSuspiciousGroupIn suspiciousAPIs.reverse (str "CreateRemoteThread") = "" ↔
      ∀ g ∈ suspiciousAPIs, ∀ api ∈ g.2, ¬ OccursFold (str api) (str "CreateRemoteThread")) ∧
    (GetSuspiciousGroupIn suspiciousAPIs.reverse (str "CreateRemoteThread") ≠ "" →
      ∃ g ∈ suspiciousAPIs,
        g.1 = GetSuspiciousGroupIn suspiciousAPIs.reverse (str "CreateRemoteThread") ∧
        ∃ api ∈ g.2, OccursFold (str api) (str "CreateRemoteThread")) :=
  ⟨List.reverse_perm suspiciousAPIs,
    GetSuspiciousGroup_spec suspiciousAPIs.reverse (str "CreateRemoteThread")
      (List.reverse_perm suspiciousAPIs)⟩

set_option maxRecDepth 100000 in
/-- C19: the group returned depends on the order in which the table is
traversed.  Traversed in the order of the source the text `CreateRemoteThread`
is put in the group `process`, and `OpenProcessToken` too; traversed in the
reverse order the same texts are put in the groups `injection` and
`privilege`. -/
theorem GetSuspiciousGroup_order_dependent :
    suspiciousAPIs.reverse.Perm suspiciousAPIs ∧
    GetSuspiciousGroupIn suspiciousAPIs (str "CreateRemoteThread") = "process" ∧
    GetSuspiciousGroupIn suspiciousAPIs.reverse (str "CreateRemoteThread") = "injection" ∧
    GetSuspiciousGroupIn suspiciousAPIs (str "OpenProcessToken") = "process" ∧
    GetSuspiciousGroupIn suspiciousAPIs.reverse (str "OpenProcessToken") = "privilege" :=
  ⟨List.reverse_perm suspiciousAPIs, by decide, by decide, by decide, by decide⟩

/-! ## Entropy labels -/

theorem labelRank_Label (e : ℚ) :
    labelRank (Label e) =
      if e < 5 / 2 then 0 else if e < 4 then 1 else if e < 5 then 2
      else if e < 11 / 2 then 3 else 4 := by
  unfold Label
  split_ifs <;> decide

/-- C16: `Label` maps every entropy value to one of the five labels by
lower-inclusive bands: below 2.5 `low`, from 2.5 below 4.0 `normal`, from 4.0
below 5.0 `elevated`, from 5.0 below 5.5 `high`, from 5.5 on `very high`; the
five labels are distinct, and the mapping is monotone for the order
low < normal < elevated < high < very high. -/
theorem Label_bands (e : ℚ) :
    (e < 5 / 2 → Label e = "low") ∧
    (5 / 2 ≤ e → e < 4 → Label e = "normal") ∧
    (4 ≤ e → e < 5 → Label e = "elevated") ∧
    (5 ≤ e → e < 11 / 2 → Label e = "high") ∧
    (11 / 2 ≤ e → Label e = "very high") ∧
    Label e ∈ ["low", "normal", "elevated", "high", "very high"] ∧
    (["low", "normal", "elevated", "high", "very high"].map labelRank = [0, 1, 2, 3, 4]) ∧
    (∀ e' : ℚ, e ≤ e' → labelRank (Label e) ≤ labelRank (Label e')) := by
  refine ⟨?_, ?_, ?_, ?_, ?_, ?_, by decide, ?_⟩
  · intro h
    unfold Label
    rw [if_pos h]
  · intro h1 h2
    unfold Label
    rw [if_neg (not_lt.2 h1), if_pos h2]
  · intro h1 h2
    unfold Label
    rw [if_neg (not_lt.2 (by linarith)), if_neg (not_lt.2 h1), if_pos h2]
  · intro h1 h2
    unfold Label
    rw [if_neg (not_lt.2 (by linarith)), if_neg (not_lt.2 (by linarith)),
      if_neg (not_lt.2 h1), if_pos h2]
  · intro h1
    unfold Label
    rw [if_neg (not_lt.2 (by linarith)), if_neg (not_lt.2 (by linarith)),
      if_neg (not_lt.2 (by linarith)), if_neg (not_lt.2 h1)]
  · unfold Label
    split_ifs <;> decide
  · intro e' h
    rw [labelRank_Label, labelRank_Label]
    split_ifs <;> first | omega | (exfalso; linarith)

/-- C16, an instance: the entropy 5.0 is in the band `high`, and so is every
value from 5.0 below 5.5. -/
theorem Label_bands_witness :
    (5 : ℚ) ≤ 5 ∧ (5 : ℚ) < 11 / 2 ∧ Label 5 = "high" :=
  ⟨le_refl _, by norm_num, (Label_bands 5).2.2.2.1 (le_refl _) (by norm_num)⟩

/-! ## The only-list -/

theorem lookup_of_mem {β : Type} (k : String) (v : β) :
    ∀ (l : List (String × β)), (l.map (fun e => e.1)).Nodup → (k, v) ∈ l →
      l.lookup k = some v := by
  intro l
  induction l with
  | nil => intro _ h; cases h
  | cons e rest ih =>
    intro hnd hmem
    obtain ⟨k', v'⟩ := e
    rw [List.map_cons, List.nodup_cons] at hnd
    rcases List.mem_cons.1 hmem with h | h
    · cases h
      rw [List.lookup_cons]
      simp
    · have hne : k ≠ k' := by
        rintro rfl
        exact hnd.1 (List.mem_map_of_mem (fun e => e.1) h)
      rw [List.lookup_cons]
      have hb : (k == k') = false := by simpa using hne
      rw [hb]
      exact ih hnd.2 h

theorem lookup_of_not_mem {β : Type} (k : String) :
    ∀ (l : List (String × β)), (∀ e ∈ l, e.1 ≠ k) → l.lookup k = none := by
  intro l
  induction l with
  | nil => intro _; rfl
  | cons e rest ih =>
    intro h
    obtain ⟨k', v'⟩ := e
    have hne : k' ≠ k := h (k', v') (List.mem_cons_self _ _)
    rw [List.lookup_cons]
    have hb : (k == k') = false := by simpa using fun h' : k = k' => hne h'.symm
    rw [hb]
    exact ih (fun e he => h e (List.mem_cons_of_mem _ he))

theorem OnlyPresets_keys_nodup : (OnlyPresets.map (fun e => e.1)).Nodup := by decide

/-- C20, amended: every name of the only-list is first lower-cased and trimmed
of surrounding white space.  If the result is a preset mnemonic, the name
contributes exactly the category names of the table entry; otherwise it
contributes the lower-cased, trimmed name itself.  Each mnemonic of the table,
written as in the table, contributes its entry (`passwords` gives credential,
basic_auth, bearer_token), and the expanded set is the union of the
contributions. -/
theorem expandPreset_spec (lowerRune : Char → Char) (isSpace : Char → Bool) (name : String) :
    (∀ cats, (TrimSpace isSpace (ToLower lowerRune name), cats) ∈ OnlyPresets →
      expandPreset lowerRune isSpace name = cats) ∧
    ((∀ e ∈ OnlyPresets, e.1 ≠ TrimSpace isSpace (ToLower lowerRune name)) →
      expandPreset lowerRune isSpace name = [TrimSpace isSpace (ToLower lowerRune name)]) ∧
    (∀ e ∈ OnlyPresets, expandPreset lowerRune isSpace e.1 = e.2) ∧
    expandPreset lowerRune isSpace "passwords" = ["credential", "basic_auth", "bearer_token"] ∧
    (∀ (names : List String) (c : String), c ∈ onlyCats lowerRune isSpace names ↔
      ∃ n ∈ names, c ∈ expandPreset lowerRune isSpace n) := by
  refine ⟨?_, ?_, ?_, rfl, ?_⟩
  · intro cats h
    unfold expandPreset
    dsimp only
    rw [lookup_of_mem _ cats OnlyPresets OnlyPresets_keys_nodup h]
  · intro h
    unfold expandPreset
    dsimp only
    rw [lookup_of_not_mem _ OnlyPresets h]
  · intro e he
    simp only [OnlyPresets, List.mem_cons, List.mem_singleton, List.not_mem_nil, or_false] at he
    rcases he with rfl | rfl | rfl | rfl | rfl | rfl | rfl | rfl | rfl <;> rfl
  · intro names c
    unfold onlyCats
    rw [List.mem_flatMap]

/-- C20, an instance: the name ` URLS` is the mnemonic `urls` once lower-cased
and trimmed, and contributes the entry of `urls`. -/
theorem expandPreset_spec_witness :
    (TrimSpace (fun _ => false) (ToLower id " URLS"), ["url"]) ∈ OnlyPresets ∧
    expandPreset id (fun _ => false) " URLS" = ["url"] :=
  ⟨by decide, (expandPreset_spec id (fun _ => false) " URLS").1 ["url"] (by decide)⟩

/-- C20, counterexample: the name `Foo` is no mnemonic of the table, lower-cased
or not, and it is not passed through unchanged: the category name added is
`foo`. -/
theorem expandPreset_counterexample :
    OnlyPresets.lookup "Foo" = none ∧ OnlyPresets.lookup "foo" = none ∧
    ∀ (lowerRune : Char → Char) (isSpace : Char → Bool),
      expandPreset lowerRune isSpace "Foo" = ["foo"] ∧
      expandPreset lowerRune isSpace "Foo" ≠ ["Foo"] :=
  ⟨by decide, by decide, fun lowerRune isSpace =>
    ⟨rfl, by rw [show expandPreset lowerRune isSpace "Foo" = ["foo"] from rfl]; decide⟩⟩

/-! ## Entropy -/

theorem logb_two_three : (3 : ℝ) / 2 < Real.logb 2 3 := by
  have h9 : Real.logb 2 9 = 2 * Real.logb 2 3 := by
    rw [show (9 : ℝ) = 3 ^ 2 by norm_num, Real.logb_pow]
    norm_num
  have h8 : Real.logb 2 8 = 3 := by
    rw [show (8 : ℝ) = 2 ^ 3 by norm_num, Real.logb_pow, Real.logb_self_eq_one (by norm_num)]
    norm_num
  have hlt : Real.logb 2 8 < Real.logb 2 9 :=
    Real.logb_lt_logb (by norm_num) (by norm_num) (by norm_num)
  linarith

set_option maxRecDepth 100000 in
/-- C14: for the three bytes of the UTF-8 text `aé` the loop of `Calculate`
counts two runes, once each, and divides by the three bytes: the values `p` are
1/3 and 1/3, their sum is 2/3 and not 1, and the value returned is above
`log2 2`, the bound for two distinct symbols. -/
theorem Calculate_accented :
    accented.length = 3 ∧ runes accented = [0x61, 0xE9] ∧
    freq accented = [(0x61, 1), (0xE9, 1)] ∧
    probabilities accented = [1 / 3, 1 / 3] ∧ (probabilities accented).sum = 2 / 3 ∧
    ∃ H : ℝ, Calculate accented H ∧ Real.logb 2 ((freq accented).length : ℝ) < H := by
  have hr : runes accented = [0x61, 0xE9] := by decide
  have hf : freq accented = [(0x61, 1), (0xE9, 1)] := by decide
  have hp : probabilities accented = [1 / 3, 1 / 3] := by
    unfold probabilities
    rw [hf]
    norm_num [accented]
  refine ⟨rfl, hr, hf, hp, by rw [hp]; norm_num, _, rfl, ?_⟩
  have hl : ¬ accented.length ≤ 1 := by decide
  rw [if_neg hl, hp, hf]
  have h3 : Real.logb 2 ((1 : ℝ) / 3) = - Real.logb 2 3 := by
    rw [one_div, Real.logb_inv]
  have := logb_two_three
  simp only [List.foldl, List.length]
  push_cast
  rw [h3]
  norm_num
  linarith

theorem runesFrom_length_le (s : List Byte) :
    ∀ (fuel pos : Nat), pos ≤ s.length → (runesFrom s fuel pos).length ≤ s.length - pos := by
  intro fuel
  induction fuel with
  | zero => intro pos _; exact Nat.zero_le _
  | succ fuel ih =>
    intro pos hp
    rw [runesFrom]
    by_cases hw : (decodeRune s pos).2 = 0
    · dsimp only
      rw [if_pos hw]
      exact Nat.zero_le _
    · dsimp only
      rw [if_neg hw, List.length_cons]
      have hle := decodeRune_width_le s pos hp
      have := ih (pos + (decodeRune s pos).2) hle
      omega

theorem runes_length_le (s : List Byte) : (runes s).length ≤ s.length :=
  runesFrom_length_le s s.length 0 (Nat.zero_le _)

theorem runes_ne_nil (s : List Byte) (h : 1 ≤ s.length) : runes s ≠ [] := by
  unfold runes
  obtain ⟨n, hn⟩ : ∃ n, s.length = n + 1 := ⟨s.length - 1, by omega⟩
  rw [hn, runesFrom]
  have hw : (decodeRune s 0).2 ≠ 0 := by
    intro h0
    have := decodeRune_width_zero h0
    omega
  rw [if_neg hw]
  exact List.cons_ne_nil _ _

theorem bump_sum (c : Nat) : ∀ (m : List (Nat × Nat)),
    ((bump c m).map (fun e => e.2)).sum = (m.map (fun e => e.2)).sum + 1 := by
  intro m
  induction m with
  | nil => rfl
  | cons e rest ih =>
    obtain ⟨k, n⟩ := e
    rw [bump]
    by_cases hk : k = c
    · rw [if_pos hk]
      simp only [List.map_cons, List.sum_cons]
      omega
    · rw [if_neg hk]
      simp only [List.map_cons, List.sum_cons]
      rw [ih]
      omega

theorem bump_pos (c : Nat) : ∀ (m : List (Nat × Nat)), (∀ e ∈ m, 1 ≤ e.2) →
    ∀ e ∈ bump c m, 1 ≤ e.2 := by
  intro m
  induction m with
  | nil =>
    intro _ e he
    rw [bump, List.mem_singleton] at he
    rw [he]
  | cons x rest ih =>
    obtain ⟨k, n⟩ := x
    intro h e he
    rw [bump] at he
    by_cases hk : k = c
    · rw [if_pos hk] at he
      rcases List.mem_cons.1 he with rfl | he
      · exact Nat.succ_pos _
      · exact h e (List.mem_cons_of_mem _ he)
    · rw [if_neg hk] at he
      rcases List.mem_cons.1 he with rfl | he
      · exact h _ (List.mem_cons_self _ _)
      · exact ih (fun e he => h e (List.mem_cons_of_mem _ he)) e he

theorem bump_key (c : Nat) : ∀ (m : List (Nat × Nat)), c ∈ (bump c m).map (fun e => e.1) := by
  intro m
  induction m with
  | nil => exact List.mem_singleton.2 rfl
  | cons x rest ih =>
    obtain ⟨k, n⟩ := x
    rw [bump]
    by_cases hk : k = c
    · rw [if_pos hk, List.map_cons]
      exact List.mem_cons.2 (Or.inl hk.symm)
    · rw [if_neg hk, List.map_cons]
      exact List.mem_cons_of_mem _ ih

theorem bump_keys_keep (c k : Nat) : ∀ (m : List (Nat × Nat)),
    k ∈ m.map (fun e => e.1) → k ∈ (bump c m).map (fun e => e.1) := by
  intro m
  induction m with
  | nil => intro h; cases h
  | cons x rest ih =>
    obtain ⟨k', n⟩ := x
    intro h
    rw [bump]
    by_cases hk : k' = c
    · rw [if_pos hk]
      exact h
    · rw [if_neg hk, List.map_cons]
      rw [List.map_cons] at h
      rcases List.mem_cons.1 h with h | h
      · exact List.mem_cons.2 (Or.inl h)
      · exact List.mem_cons_of_mem _ (ih h)

theorem bump_ne_nil (c : Nat) (m : List (Nat × Nat)) : bump c m ≠ [] := by
  cases m with
  | nil => exact List.cons_ne_nil _ _
  | cons x rest =>
    obtain ⟨k, n⟩ := x
    rw [bump]
    split_ifs <;> exact List.cons_ne_nil _ _

/-- The invariants of the first loop of `Calculate`. -/
theorem foldl_bump (l : List Nat) : ∀ (m : List (Nat × Nat)), (∀ e ∈ m, 1 ≤ e.2) →
    ((l.foldl (fun m c => bump c m) m).map (fun e => e.2)).sum
        = (m.map (fun e => e.2)).sum + l.length ∧
    (∀ e ∈ l.foldl (fun m c => bump c m) m, 1 ≤ e.2) ∧
    (∀ k, k ∈ l ∨ k ∈ m.map (fun e => e.1) →
      k ∈ (l.foldl (fun m c => bump c m) m).map (fun e => e.1)) ∧
    (l ≠ [] → l.foldl (fun m c => bump c m) m ≠ []) := by
  induction l with
  | nil =>
    intro m hm
    refine ⟨rfl, hm, ?_, fun h => absurd rfl h⟩
    rintro k (h | h)
    · cases h
    · exact h
  | cons c rest ih =>
    intro m hm
    obtain ⟨h1, h2, h3, _⟩ := ih (bump c m) (bump_pos c m hm)
    rw [List.foldl_cons]
    refine ⟨?_, h2, ?_, ?_⟩
    · rw [h1, bump_sum, List.length_cons]
      omega
    · rintro k (h | h)
      · rcases List.mem_cons.1 h with rfl | h
        · exact h3 _ (Or.inr (bump_key _ m))
        · exact h3 _ (Or.inl h)
      · exact h3 _ (Or.inr (bump_keys_keep c k m h))
    · intro _
      cases rest with
      | nil => exact bump_ne_nil c m
      | cons d rest' =>
        exact (ih (bump c m) (bump_pos c m hm)).2.2.2 (List.cons_ne_nil _ _)

theorem freq_facts (s : List Byte) :
    ((freq s).map (fun e => e.2)).sum = (runes s).length ∧
    (∀ e ∈ freq s, 1 ≤ e.2) ∧
    (∀ k ∈ runes s, k ∈ (freq s).map (fun e => e.1)) ∧
    (1 ≤ s.length → freq s ≠ []) := by
  obtain ⟨h1, h2, h3, h4⟩ := foldl_bump (runes s) [] (fun _ h => by cases h)
  refine ⟨?_, h2, fun k hk => h3 k (Or.inl hk), fun h => h4 (runes_ne_nil s h)⟩
  rw [freq, h1]
  simp

theorem foldl_bump_replicate (r : Nat) : ∀ (n k : Nat),
    (List.replicate n r).foldl (fun m c => bump c m) [(r, k)] = [(r, k + n)] := by
  intro n
  induction n with
  | zero => intro k; rfl
  | succ n ih =>
    intro k
    rw [List.replicate_succ, List.foldl_cons]
    have : bump r [(r, k)] = [(r, k + 1)] := by
      rw [bump, if_pos rfl]
    rw [this, ih]
    congr 2
    omega

theorem foldl_bump_replicate_nil (r : Nat) (n : Nat) (h : 1 ≤ n) :
    (List.replicate n r).foldl (fun m c => bump c m) [] = [(r, n)] := by
  obtain ⟨k, rfl⟩ : ∃ k, n = k + 1 := ⟨n - 1, by omega⟩
  rw [List.replicate_succ, List.foldl_cons]
  have : bump r [] = [(r, 1)] := rfl
  rw [this, foldl_bump_replicate]
  congr 2
  omega

theorem foldl_entropy (l : List ℚ) : ∀ (a : ℝ),
    l.foldl (fun (result : ℝ) (p : ℚ) => result - (p : ℝ) * Real.logb 2 (p : ℝ)) a
      = a - (l.map (fun p : ℚ => (p : ℝ) * Real.logb 2 (p : ℝ))).sum := by
  induction l with
  | nil => intro a; simp
  | cons p rest ih =>
    intro a
    rw [List.foldl_cons, ih, List.map_cons, List.sum_cons]
    ring

theorem sum_nonpos : ∀ (l : List ℝ), (∀ x ∈ l, x ≤ 0) → l.sum ≤ 0 := by
  intro l
  induction l with
  | nil => intro _; simp
  | cons y rest ih =>
    intro hle
    rw [List.sum_cons]
    have := hle y (List.mem_cons_self _ _)
    have := ih (fun z hz => hle z (List.mem_cons_of_mem _ hz))
    linarith

theorem sum_nonpos_eq_zero : ∀ (l : List ℝ), (∀ x ∈ l, x ≤ 0) → l.sum = 0 → ∀ x ∈ l, x = 0 := by
  intro l
  induction l with
  | nil => intro _ _ x hx; cases hx
  | cons y rest ih =>
    intro hle hsum x hx
    rw [List.sum_cons] at hsum
    have hy : y ≤ 0 := hle y (List.mem_cons_self _ _)
    have hrest : rest.sum ≤ 0 :=
      sum_nonpos rest (fun z hz => hle z (List.mem_cons_of_mem _ hz))
    have hy0 : y = 0 := by linarith
    have hr0 : rest.sum = 0 := by linarith
    rcases List.mem_cons.1 hx with rfl | hx
    · exact hy0
    · exact ih (fun z hz => hle z (List.mem_cons_of_mem _ hz)) hr0 x hx

theorem term_nonpos (p : ℝ) (h0 : 0 < p) (h1 : p ≤ 1) : p * Real.logb 2 p ≤ 0 :=
  mul_nonpos_of_nonneg_of_nonpos h0.le (Real.logb_nonpos (by norm_num) h0.le h1)

theorem term_eq_zero (p : ℝ) (h0 : 0 < p) (h : p * Real.logb 2 p = 0) : p = 1 := by
  rcases mul_eq_zero.1 h with h | h
  · linarith
  · rw [Real.logb_eq_zero] at h
    rcases h with h | h | h | h | h | h <;> linarith

theorem mem_le_sum : ∀ (l : List Nat) (x : Nat), x ∈ l → x ≤ l.sum := by
  intro l
  induction l with
  | nil => intro x hx; cases hx
  | cons y rest ih =>
    intro x hx
    rw [List.sum_cons]
    rcases List.mem_cons.1 hx with rfl | hx
    · omega
    · have := ih x hx
      omega

theorem sum_const : ∀ (l : List Nat) (c : Nat), (∀ x ∈ l, x = c) → l.sum = l.length * c := by
  intro l
  induction l with
  | nil => intro c _; simp
  | cons y rest ih =>
    intro c h
    rw [List.sum_cons, List.length_cons, h y (List.mem_cons_self _ _),
      ih c (fun x hx => h x (List.mem_cons_of_mem _ hx))]
    ring

/-- The value of `Calculate` for a string of at least two bytes is 0 exactly
when every entry of `freq` counts as many runes as the string has bytes. -/
theorem entropy_zero_iff_counts (s : List Byte) (hl : 2 ≤ s.length) :
    (probabilities s).foldl
        (fun (result : ℝ) (p : ℚ) => result - (p : ℝ) * Real.logb 2 (p : ℝ)) 0 = 0 ↔
      ∀ e ∈ freq s, e.2 = s.length := by
  obtain ⟨hsum, hpos, _, _⟩ := freq_facts s
  have hL : (0 : ℝ) < (s.length : ℝ) := by
    have : 0 < s.length := by omega
    exact_mod_cast this
  have hcount : ∀ e ∈ freq s, e.2 ≤ s.length := by
    intro e he
    have h1 := mem_le_sum _ e.2 (List.mem_map_of_mem (fun e => e.2) he)
    have h2 := runes_length_le s
    omega
  have hcast : ∀ e : Nat × Nat, (((e.2 : ℚ) / (s.length : ℚ) : ℚ) : ℝ)
      = (e.2 : ℝ) / (s.length : ℝ) := by
    intro e
    push_cast
    rfl
  have hp0 : ∀ e ∈ freq s, (0 : ℝ) < (e.2 : ℝ) / (s.length : ℝ) := by
    intro e he
    have : (0 : ℝ) < (e.2 : ℝ) := by
      have := hpos e he
      exact_mod_cast this
    exact div_pos this hL
  have hp1 : ∀ e ∈ freq s, (e.2 : ℝ) / (s.length : ℝ) ≤ 1 := by
    intro e he
    rw [div_le_one hL]
    exact_mod_cast hcount e he
  rw [foldl_entropy, zero_sub, neg_eq_zero]
  unfold probabilities
  rw [List.map_map]
  constructor
  · intro h e he
    have hall := sum_nonpos_eq_zero _ (by
      intro x hx
      rw [List.mem_map] at hx
      obtain ⟨e', he', rfl⟩ := hx
      show (((e'.2 : ℚ) / (s.length : ℚ) : ℚ) : ℝ) * Real.logb 2 _ ≤ 0
      rw [hcast]
      exact term_nonpos _ (hp0 e' he') (hp1 e' he')) h
    have hz := hall _ (List.mem_map_of_mem _ he)
    have hz' : (e.2 : ℝ) / (s.length : ℝ) * Real.logb 2 ((e.2 : ℝ) / (s.length : ℝ)) = 0 := by
      rw [← hcast]
      exact hz
    have h1 := term_eq_zero _ (hp0 e he) hz'
    rw [div_eq_one_iff_eq hL.ne'] at h1
    exact_mod_cast h1
  · intro h
    apply List.sum_eq_zero
    intro x hx
    rw [List.mem_map] at hx
    obtain ⟨e, he, rfl⟩ := hx
    show (((e.2 : ℚ) / (s.length : ℚ) : ℚ) : ℝ) * Real.logb 2 _ = 0
    rw [hcast, h e he, div_self hL.ne', Real.logb_one, mul_zero]

theorem counts_iff_replicate (s : List Byte) (hl : 1 ≤ s.length) :
    (∀ e ∈ freq s, e.2 = s.length) ↔ ∃ r, runes s = List.replicate s.length r := by
  obtain ⟨hsum, hpos, hkeys, hne⟩ := freq_facts s
  constructor
  · intro h
    have hs := sum_const ((freq s).map (fun e => e.2)) s.length (by
      intro x hx
      rw [List.mem_map] at hx
      obtain ⟨e, he, rfl⟩ := hx
      exact h e he)
    rw [hsum, List.length_map] at hs
    have hle := runes_length_le s
    have hfl : (freq s).length = 1 := by
      have h0 : (freq s).length ≠ 0 := fun h0 => hne hl (List.length_eq_zero.1 h0)
      by_contra hne1
      have h2 : 2 ≤ (freq s).length := by omega
      have : 2 * s.length ≤ (freq s).length * s.length := Nat.mul_le_mul_right _ h2
      omega
    obtain ⟨e, he⟩ := List.length_eq_one.1 hfl
    refine ⟨e.1, List.eq_replicate_iff.2 ⟨?_, ?_⟩⟩
    · rw [hs, hfl, one_mul]
    · intro k hk
      have := hkeys k hk
      rw [he, List.map_singleton, List.mem_singleton] at this
      exact this
  · rintro ⟨r, hr⟩ e he
    rw [freq, hr, foldl_bump_replicate_nil r s.length hl, List.mem_singleton] at he
    rw [he]

/-- The strings for which `Calculate` returns 0. -/
theorem Calculate_zero_aux (s : List Byte) :
    Calculate s 0 ↔ s.length ≤ 1 ∨ ∃ r, runes s = List.replicate s.length r := by
  unfold Calculate
  by_cases hl : s.length ≤ 1
  · rw [if_pos hl]
    exact ⟨fun _ => Or.inl hl, fun _ => rfl⟩
  · rw [if_neg hl, eq_comm, entropy_zero_iff_counts s (by omega),
      counts_iff_replicate s (by omega)]
    exact ⟨fun h => Or.inr h, fun h => h.resolve_left hl⟩

/-- C15, amended: `Calculate` returns a value for every string, and the value
is 0 if and only if the string has at most one byte or is one single-byte
symbol repeated, that is, it has as many runes as bytes and they are all the
same; in particular the value is 0 for every string of at most one byte. -/
theorem Calculate_zero_iff (s : List Byte) :
    (∃ H : ℝ, Calculate s H) ∧
    (Calculate s 0 ↔ s.length ≤ 1 ∨ ∃ r, runes s = List.replicate s.length r) ∧
    (s.length ≤ 1 → Calculate s 0) :=
  ⟨⟨_, rfl⟩, Calculate_zero_aux s, fun h => (Calculate_zero_aux s).2 (Or.inl h)⟩

/-- C15, an instance: the one-byte string `a`. -/
theorem Calculate_zero_iff_witness :
    (str "a").length ≤ 1 ∧ Calculate (str "a") 0 :=
  ⟨by decide, (Calculate_zero_iff (str "a")).2.2 (by decide)⟩

/-- C15, counterexample: the string `aa` has two bytes and `Calculate` returns
0 for it. -/
theorem Calculate_zero_counterexample :
    (str "aa").length = 2 ∧ Calculate (str "aa") 0 :=
  ⟨by decide, (Calculate_zero_aux (str "aa")).2 (Or.inr ⟨0x61, by decide⟩)⟩

/-! ## The XOR recovery -/

theorem xorByte_val (b : Byte) (key : Nat) :
    ((Fin.ofNat (b.val ^^^ (key % 256)) : Byte)).val = b.val ^^^ (key % 256) := by
  have h1 : b.val < 2 ^ 8 := b.isLt
  have h2 : key % 256 < 2 ^ 8 := Nat.mod_lt _ (by norm_num)
  have h3 := Nat.xor_lt_two_pow h1 h2
  show (b.val ^^^ (key % 256)) % 256 = _
  exact Nat.mod_eq_of_lt h3

theorem xorByte_involution (b : Byte) (key : Nat) :
    (Fin.ofNat ((Fin.ofNat (b.val ^^^ (key % 256)) : Byte).val ^^^ (key % 256)) : Byte) = b := by
  apply Fin.ext
  rw [xorByte_val, xorByte_val, Nat.xor_assoc, Nat.xor_self, Nat.xor_zero]

theorem xorBuffer_twice (data : List Byte) (key : Nat) :
    xorBuffer (xorBuffer data key) key = data := by
  unfold xorBuffer
  rw [List.map_map]
  conv_rhs => rw [← List.map_id data]
  apply List.map_congr_left
  intro b _
  exact xorByte_involution b key

/-- C25: XOR-ing a buffer twice with the same key gives the buffer back, for
every buffer and every key (the keys 1..255 among them), and the XOR-ed buffer
has the length of the input. -/
theorem xorBuffer_involution (data : List Byte) (key : Nat) :
    xorBuffer (xorBuffer data key) key = data ∧ (xorBuffer data key).length = data.length :=
  ⟨xorBuffer_twice data key, xorBuffer_length data key⟩

/-- The inner loop of `Bruteforce` never fails on matches inside the buffer: it
appends the Candidates of matches that are interesting and whose text is new,
keeps the texts distinct, and leaves every interesting text of a match among
the results. -/
theorem xorMatchLoop_spec (xored : List Byte) (key : Nat) (sections : List SectionInfo) :
    ∀ (M : List (Nat × Nat)) (results : List StringResult),
      (∀ m ∈ M, m.1 ≤ m.2 ∧ m.2 ≤ xored.length) →
      ∃ added : List StringResult,
        xorMatchLoop xored key sections M results = some (results ++ added) ∧
        (∀ r ∈ added, ∃ m ∈ M, r = xorCandidateOf xored key sections m ∧
          interestingPattern.MatchString r.Value = true ∧
          r.Value ∉ results.map (fun x => x.Value)) ∧
        ((results.map (fun x => x.Value)).Nodup →
          ((results ++ added).map (fun x => x.Value)).Nodup) ∧
        (∀ m ∈ M, interestingPattern.MatchString ((xored.drop m.1).take (m.2 - m.1)) = true →
          (xored.drop m.1).take (m.2 - m.1) ∈ (results ++ added).map (fun x => x.Value)) := by
  intro M
  induction M with
  | nil =>
    intro results _
    refine ⟨[], ?_, fun _ h => (by cases h), ?_, fun _ h => (by cases h)⟩
    · rw [xorMatchLoop, List.append_nil]
    · intro h; rw [List.append_nil]; exact h
  | cons m rest ih =>
    intro results hM
    obtain ⟨h1, h2⟩ := hM m (List.mem_cons_self _ _)
    have hM' : ∀ x ∈ rest, x.1 ≤ x.2 ∧ x.2 ≤ xored.length :=
      fun x hx => hM x (List.mem_cons_of_mem _ hx)
    have hany : ∀ s : List Byte, results.any (fun r => r.Value = s) = true ↔
        s ∈ results.map (fun x => x.Value) := by
      intro s
      rw [List.any_eq_true, List.mem_map]
      constructor
      · rintro ⟨r, hr, he⟩
        exact ⟨r, hr, of_decide_eq_true he⟩
      · rintro ⟨r, hr, he⟩
        exact ⟨r, hr, decide_eq_true he⟩
    rw [xorMatchLoop, slice_nat xored m.1 m.2 h1 h2, Option.bind_eq_bind, Option.some_bind]
    by_cases hc : (!interestingPattern.MatchString ((xored.drop m.1).take (m.2 - m.1)) ||
        results.any (fun r => r.Value = (xored.drop m.1).take (m.2 - m.1))) = true
    · rw [if_pos hc]
      obtain ⟨added, e1, e2, e3, e4⟩ := ih results hM'
      refine ⟨added, e1, ?_, e3, ?_⟩
      · intro r hr
        obtain ⟨m', hm', hx⟩ := e2 r hr
        exact ⟨m', List.mem_cons_of_mem _ hm', hx⟩
      · intro m' hm' hint
        rcases List.mem_cons.1 hm' with rfl | hm'
        · rw [Bool.or_eq_true, Bool.not_eq_true', hint] at hc
          rcases hc with hc | hc
          · cases hc
          · rw [List.map_append]
            exact List.mem_append_left _ ((hany _).1 hc)
        · exact e4 m' hm' hint
    · rw [if_neg hc]
      rw [Bool.or_eq_true, not_or, Bool.not_eq_true', Bool.not_eq_false] at hc
      obtain ⟨hint, hnew⟩ := hc
      have hnew' : (xored.drop m.1).take (m.2 - m.1) ∉ results.map (fun x => x.Value) :=
        fun h => hnew ((hany _).2 h)
      obtain ⟨added, e1, e2, e3, e4⟩ := ih (results ++ [xorCandidateOf xored key sections m]) hM'
      refine ⟨xorCandidateOf xored key sections m :: added, ?_, ?_, ?_, ?_⟩
      · have e : results ++ xorCandidateOf xored key sections m :: added
            = results ++ [xorCandidateOf xored key sections m] ++ added := by
          rw [List.append_assoc]; rfl
        rw [e, ← e1]
        rfl
      · intro r hr
        rcases List.mem_cons.1 hr with rfl | hr
        · exact ⟨m, List.mem_cons_self _ _, rfl, hint, hnew'⟩
        · obtain ⟨m', hm', hx1, hx2, hx3⟩ := e2 r hr
          refine ⟨m', List.mem_cons_of_mem _ hm', hx1, hx2, ?_⟩
          intro h
          apply hx3
          rw [List.map_append]
          exact List.mem_append_left _ h
      · intro hnd
        have e : results ++ xorCandidateOf xored key sections m :: added
            = results ++ [xorCandidateOf xored key sections m] ++ added := by
          rw [List.append_assoc]; rfl
        rw [e]
        apply e3
        rw [List.map_append, List.nodup_append]
        refine ⟨hnd, List.nodup_singleton _, ?_⟩
        intro a ha hb
        rw [List.map_singleton, List.mem_singleton] at hb
        rw [hb] at ha
        exact hnew' ha
      · intro m' hm' hint'
        have e : results ++ xorCandidateOf xored key sections m :: added
            = results ++ [xorCandidateOf xored key sections m] ++ added := by
          rw [List.append_assoc]; rfl
        rw [e]
        rcases List.mem_cons.1 hm' with rfl | hm'
        · rw [List.map_append, List.map_append]
          exact List.mem_append_left _ (List.mem_append_right _ (List.mem_singleton.2 rfl))
        · exact e4 m' hm' hint'

/-- The key loop of `Bruteforce` never fails.  Every Candidate it appends comes
from a match of the scan pattern in the buffer XOR-ed with a key `j` of the
range, its text is interesting, new, and not the interesting text of a match
for an earlier key of the range; texts stay distinct, keys ascend, and every
interesting text of a match for a key of the range is among the results. -/
theorem xorKeyLoop_spec (data : List Byte) (pat : Re) (sections : List SectionInfo) :
    ∀ (k key : Nat) (results : List StringResult), key + k ≤ 256 →
      ∃ added : List StringResult,
        xorKeyLoop data pat sections k key results = some (results ++ added) ∧
        (∀ r ∈ added, ∃ (j : Nat) (m : Nat × Nat), key ≤ j ∧ j < key + k ∧
          m ∈ pat.FindAllIndex (xorBuffer data j) ∧
          r = xorCandidateOf (xorBuffer data j) j sections m ∧
          interestingPattern.MatchString r.Value = true ∧
          r.Value ∉ results.map (fun x => x.Value) ∧
          ∀ (j' : Nat) (m' : Nat × Nat), key ≤ j' → j' < j →
            m' ∈ pat.FindAllIndex (xorBuffer data j') →
            interestingPattern.MatchString
              (((xorBuffer data j').drop m'.1).take (m'.2 - m'.1)) = true →
            ((xorBuffer data j').drop m'.1).take (m'.2 - m'.1) ≠ r.Value) ∧
        ((results.map (fun x => x.Value)).Nodup →
          ((results ++ added).map (fun x => x.Value)).Nodup) ∧
        added.Pairwise (fun a b => a.XorKey ≤ b.XorKey) ∧
        (∀ (j : Nat) (m : Nat × Nat), key ≤ j → j < key + k →
          m ∈ pat.FindAllIndex (xorBuffer data j) →
          interestingPattern.MatchString
            (((xorBuffer data j).drop m.1).take (m.2 - m.1)) = true →
          ((xorBuffer data j).drop m.1).take (m.2 - m.1)
            ∈ (results ++ added).map (fun x => x.Value)) := by
  intro k
  induction k with
  | zero =>
    intro key results _
    refine ⟨[], ?_, fun _ h => (by cases h), ?_, List.Pairwise.nil, ?_⟩
    · rw [xorKeyLoop, List.append_nil]
    · intro h; rw [List.append_nil]; exact h
    · intro j m h1 h2
      omega
  | succ k ih =>
    intro key results hk
    obtain ⟨a1, f1, f2, f3, f4⟩ := xorMatchLoop_spec (xorBuffer data key) key sections
      (pat.FindAllIndex (xorBuffer data key)) results (FindAllIndex_bound _ pat)
    obtain ⟨a2, g1, g2, g3, g4, g5⟩ := ih (key + 1) (results ++ a1) (by omega)
    refine ⟨a1 ++ a2, ?_, ?_, ?_, ?_, ?_⟩
    · rw [xorKeyLoop, f1, Option.bind_eq_bind, Option.some_bind, g1, List.append_assoc]
    · intro r hr
      rcases List.mem_append.1 hr with hr | hr
      · obtain ⟨m, hm, hx1, hx2, hx3⟩ := f2 r hr
        refine ⟨key, m, le_refl _, by omega, hm, hx1, hx2, hx3, ?_⟩
        intro j' m' h1 h2
        omega
      · obtain ⟨j, m, hj1, hj2, hm, hx1, hx2, hx3, hx4⟩ := g2 r hr
        refine ⟨j, m, by omega, by omega, hm, hx1, hx2, ?_, ?_⟩
        · intro h
          apply hx3
          rw [List.map_append]
          exact List.mem_append_left _ h
        · intro j' m' h1 h2 hm' hint heq
          by_cases hjk : j' = key
          · rw [hjk] at hm' hint heq
            have := f4 m' hm' hint
            rw [heq] at this
            exact hx3 this
          · exact hx4 j' m' (by omega) h2 hm' hint heq
    · intro hnd
      rw [← List.append_assoc]
      exact g3 (f3 hnd)
    · rw [List.pairwise_append]
      refine ⟨?_, g4, ?_⟩
      · apply List.pairwise_of_forall_mem_list
        intro a ha b hb
        obtain ⟨_, _, ea, _⟩ := f2 a ha
        obtain ⟨_, _, eb, _⟩ := f2 b hb
        rw [ea, eb]
        exact le_refl _
      · intro a ha b hb
        obtain ⟨_, _, ea, _⟩ := f2 a ha
        obtain ⟨j, m, hj1, hj2, _, eb, _⟩ := g2 b hb
        rw [ea, eb]
        show key % 256 ≤ j % 256
        rw [Nat.mod_eq_of_lt (by omega), Nat.mod_eq_of_lt (by omega)]
        omega
    · intro j m h1 h2 hm hint
      rw [← List.append_assoc]
      by_cases hjk : j = key
      · rw [hjk] at hm hint ⊢
        rw [List.map_append]
        exact List.mem_append_left _ (f4 m hm hint)
      · exact g5 j m (by omega) (by omega) hm hint

/-- `Bruteforce` returns whenever the scan pattern compiles; what it returns. -/
theorem Bruteforce_spec (data : List Byte) (minLen : Int) (sections : List SectionInfo)
    (pat : Re) (hc : compileScan .ascii minLen = some pat) :
    ∃ res : List StringResult, Bruteforce data minLen sections = some res ∧
      (∀ r ∈ res, ∃ (j : Nat) (m : Nat × Nat), 1 ≤ j ∧ j ≤ 255 ∧
        m ∈ pat.FindAllIndex (xorBuffer data j) ∧
        r = xorCandidateOf (xorBuffer data j) j sections m ∧
        interestingPattern.MatchString r.Value = true ∧
        ∀ (j' : Nat) (m' : Nat × Nat), 1 ≤ j' → j' < j →
          m' ∈ pat.FindAllIndex (xorBuffer data j') →
          interestingPattern.MatchString
            (((xorBuffer data j').drop m'.1).take (m'.2 - m'.1)) = true →
          ((xorBuffer data j').drop m'.1).take (m'.2 - m'.1) ≠ r.Value) ∧
      (res.map (fun x => x.Value)).Nodup ∧
      res.Pairwise (fun a b => a.XorKey ≤ b.XorKey) ∧
      (∀ (j : Nat) (m : Nat × Nat), 1 ≤ j → j ≤ 255 →
        m ∈ pat.FindAllIndex (xorBuffer data j) →
        interestingPattern.MatchString
          (((xorBuffer data j).drop m.1).take (m.2 - m.1)) = true →
        ((xorBuffer data j).drop m.1).take (m.2 - m.1) ∈ res.map (fun x => x.Value)) := by
  obtain ⟨added, h1, h2, h3, h4, h5⟩ := xorKeyLoop_spec data pat sections 255 1 [] (by norm_num)
  rw [List.nil_append] at h1 h3 h5
  refine ⟨added, ?_, ?_, h3 List.nodup_nil, h4, ?_⟩
  · unfold Bruteforce
    rw [hc, Option.bind_eq_bind, Option.some_bind, h1]
  · intro r hr
    obtain ⟨j, m, hj1, hj2, hm, e1, e2, _, e4⟩ := h2 r hr
    exact ⟨j, m, hj1, by omega, hm, e1, e2, e4⟩
  · intro j m hj1 hj2 hm hint
    exact h5 j m hj1 (by omega) hm hint

theorem Bruteforce_some (data : List Byte) (minLen : Int) (sections : List SectionInfo)
    (res : List StringResult) (h : Bruteforce data minLen sections = some res) :
    ∃ pat, compileScan .ascii minLen = some pat := by
  cases hc : compileScan .ascii minLen with
  | some pat => exact ⟨pat, rfl⟩
  | none =>
    unfold Bruteforce at h
    rw [hc] at h
    cases h

/-- C21: when the scan pattern compiles `xor.Bruteforce` returns a list in which
no two Candidates have the same `Value` and the keys do not decrease; for every
Candidate in it no key from 1 below its key decodes the buffer to an
interesting match of the scan pattern with the same text; and the interesting
text of a match for a key `k` of 1..255 is the `Value` of a Candidate whose key
is at most `k`. -/
theorem Bruteforce_first_key_wins (data : List Byte) (minLen : Int)
    (sections : List SectionInfo) (pat : Re) (hc : compileScan .ascii minLen = some pat) :
    ∃ res : List StringResult, Bruteforce data minLen sections = some res ∧
      (res.map (fun x => x.Value)).Nodup ∧
      res.Pairwise (fun a b => a.XorKey ≤ b.XorKey) ∧
      (∀ r ∈ res, 1 ≤ r.XorKey ∧ r.XorKey ≤ 255 ∧
        (∃ m ∈ pat.FindAllIndex (xorBuffer data r.XorKey),
          r.Value = ((xorBuffer data r.XorKey).drop m.1).take (m.2 - m.1) ∧
          interestingPattern.MatchString r.Value = true) ∧
        ∀ (k' : Nat) (m' : Nat × Nat), 1 ≤ k' → k' < r.XorKey →
          m' ∈ pat.FindAllIndex (xorBuffer data k') →
          interestingPattern.MatchString
            (((xorBuffer data k').drop m'.1).take (m'.2 - m'.1)) = true →
          ((xorBuffer data k').drop m'.1).take (m'.2 - m'.1) ≠ r.Value) ∧
      (∀ (k : Nat) (m : Nat × Nat), 1 ≤ k → k ≤ 255 →
        m ∈ pat.FindAllIndex (xorBuffer data k) →
        interestingPattern.MatchString
          (((xorBuffer data k).drop m.1).take (m.2 - m.1)) = true →
        ∃ r ∈ res, r.Value = ((xorBuffer data k).drop m.1).take (m.2 - m.1) ∧
          r.XorKey ≤ k) := by
  obtain ⟨res, h1, h2, h3, h4, h5⟩ := Bruteforce_spec data minLen sections pat hc
  have hkey : ∀ r ∈ res, ∀ (j : Nat) (m : Nat × Nat), 1 ≤ j → j ≤ 255 →
      r = xorCandidateOf (xorBuffer data j) j sections m → r.XorKey = j := by
    intro r _ j m _ hj e
    rw [e]
    show j % 256 = j
    exact Nat.mod_eq_of_lt (by omega)
  refine ⟨res, h1, h3, h4, ?_, ?_⟩
  · intro r hr
    obtain ⟨j, m, hj1, hj2, hm, e1, e2, e3⟩ := h2 r hr
    have hk := hkey r hr j m hj1 hj2 e1
    rw [hk]
    refine ⟨hj1, hj2, ⟨m, hm, ?_, e2⟩, e3⟩
    rw [e1]
    rfl
  · intro k m hk1 hk2 hm hint
    have hmem := h5 k m hk1 hk2 hm hint
    rw [List.mem_map] at hmem
    obtain ⟨r, hr, hv⟩ := hmem
    refine ⟨r, hr, hv, ?_⟩
    obtain ⟨j, m', hj1, hj2, _, e1, _, e3⟩ := h2 r hr
    rw [hkey r hr j m' hj1 hj2 e1]
    by_contra hlt
    exact e3 k m hk1 (by omega) hm hint hv.symm

/-- C21, an instance: the sweep over the text `password=admin123` XOR-ed with
the key 0x42, with threshold 6. -/
theorem Bruteforce_first_key_wins_witness :
    ∃ res : List StringResult,
      Bruteforce (xorBuffer (str "password=admin123") 0x42) 6 [] = some res ∧
      (res.map (fun x => x.Value)).Nodup ∧
      res.Pairwise (fun a b => a.XorKey ≤ b.XorKey) ∧
      (∀ r ∈ res, 1 ≤ r.XorKey ∧ r.XorKey ≤ 255 ∧
        (∃ m ∈ (Re.atLeast 6 (Re.cls printable)).FindAllIndex
            (xorBuffer (xorBuffer (str "password=admin123") 0x42) r.XorKey),
          r.Value = ((xorBuffer (xorBuffer (str "password=admin123") 0x42) r.XorKey).drop
            m.1).take (m.2 - m.1) ∧
          interestingPattern.MatchString r.Value = true) ∧
        ∀ (k' : Nat) (m' : Nat × Nat), 1 ≤ k' → k' < r.XorKey →
          m' ∈ (Re.atLeast 6 (Re.cls printable)).FindAllIndex
            (xorBuffer (xorBuffer (str "password=admin123") 0x42) k') →
          interestingPattern.MatchString
            (((xorBuffer (xorBuffer (str "password=admin123") 0x42) k').drop m'.1).take
              (m'.2 - m'.1)) = true →
          ((xorBuffer (xorBuffer (str "password=admin123") 0x42) k').drop m'.1).take
            (m'.2 - m'.1) ≠ r.Value) ∧
      (∀ (k : Nat) (m : Nat × Nat), 1 ≤ k → k ≤ 255 →
        m ∈ (Re.atLeast 6 (Re.cls printable)).FindAllIndex
          (xorBuffer (xorBuffer (str "password=admin123") 0x42) k) →
        interestingPattern.MatchString
          (((xorBuffer (xorBuffer (str "password=admin123") 0x42) k).drop m.1).take
            (m.2 - m.1)) = true →
        ∃ r ∈ res,
          r.Value = ((xorBuffer (xorBuffer (str "password=admin123") 0x42) k).drop m.1).take
            (m.2 - m.1) ∧
          r.XorKey ≤ k) :=
  Bruteforce_first_key_wins (xorBuffer (str "password=admin123") 0x42) 6 []
    (Re.atLeast 6 (Re.cls printable)) rfl

/-! ## The Base64 recovery -/

/-- On matches inside the buffer the loop of `base64dec.Extract` never fails:
it returns the Candidates of the matches that decode and are accepted. -/
theorem b64Loop_eq (data : List Byte) (minLen : Int) (sections : List SectionInfo) :
    ∀ (M : List (Nat × Nat)), (∀ m ∈ M, m.1 ≤ m.2 ∧ m.2 ≤ data.length) →
      b64Loop data minLen sections M = some (M.filterMap (b64Keep data minLen sections)) := by
  intro M
  induction M with
  | nil => intro _; rfl
  | cons m rest ih =>
    intro hM
    obtain ⟨h1, h2⟩ := hM m (List.mem_cons_self _ _)
    have ih' := ih (fun x hx => hM x (List.mem_cons_of_mem _ hx))
    rw [b64Loop, slice_nat data m.1 m.2 h1 h2, Option.bind_eq_bind, Option.some_bind]
    dsimp only
    rw [ih']
    cases hd : b64Decode (b64Padded ((data.drop m.1).take (m.2 - m.1))) with
    | none =>
      have hk : b64Keep data minLen sections m = none := by
        unfold b64Keep
        rw [hd]
      rw [List.filterMap_cons_none hk]
      unfold b64Padded at hd
      rw [hd]
    | some decoded =>
      have hd' := hd
      unfold b64Padded at hd'
      rw [hd']
      dsimp only
      by_cases hacc : b64Accepts minLen decoded
      · have hk : b64Keep data minLen sections m = some (b64CandidateOf sections m.1 decoded) := by
          unfold b64Keep
          rw [hd]
          exact if_pos hacc
        rw [List.filterMap_cons_some hk]
        obtain ⟨a1, a2⟩ := hacc
        rw [if_neg (by omega), if_neg (by omega)]
        rfl
      · have hk : b64Keep data minLen sections m = none := by
          unfold b64Keep
          rw [hd]
          exact if_neg hacc
        rw [List.filterMap_cons_none hk]
        unfold b64Accepts at hacc
        by_cases hl : (decoded.length : Int) < minLen
        · rw [if_pos hl]
        · rw [if_neg hl, if_pos (by omega)]

theorem b64Extract_eq (data : List Byte) (minLen : Int) (sections : List SectionInfo) :
    base64dec.Extract data minLen sections =
      some ((b64Pattern.FindAllIndex data).filterMap (b64Keep data minLen sections)) :=
  b64Loop_eq data minLen sections _ (FindAllIndex_bound data b64Pattern)

theorem b64Keep_some (data : List Byte) (minLen : Int) (sections : List SectionInfo)
    (m : Nat × Nat) (r : StringResult) :
    b64Keep data minLen sections m = some r ↔
      ∃ decoded, b64Decode (b64Padded ((data.drop m.1).take (m.2 - m.1))) = some decoded ∧
        b64Accepts minLen decoded ∧ r = b64CandidateOf sections m.1 decoded := by
  unfold b64Keep
  cases hd : b64Decode (b64Padded ((data.drop m.1).take (m.2 - m.1))) with
  | none =>
    constructor
    · intro h; cases h
    · rintro ⟨d, h, _⟩; cases h
  | some decoded =>
    dsimp only
    by_cases hacc : b64Accepts minLen decoded
    · rw [if_pos hacc]
      constructor
      · intro h
        cases h
        exact ⟨decoded, rfl, hacc, rfl⟩
      · rintro ⟨d, h, _, e⟩
        cases h
        rw [e]
    · rw [if_neg hacc]
      constructor
      · intro h; cases h
      · rintro ⟨d, h, ha, _⟩
        cases h
        exact absurd ha hacc

/-- C27: `base64dec.Extract` always returns, and what it returns are the
Candidates, in order, of the matched regions that decode and whose decoded
bytes are accepted: decoded length at least the threshold and
`10 × printable ≥ 7 × decoded length`.  Every Candidate returned satisfies both
conditions, and every matched, decodable region that satisfies both has its
Candidate returned. -/
theorem b64Extract_accepts (data : List Byte) (minLen : Int) (sections : List SectionInfo) :
    ∃ res : List StringResult, base64dec.Extract data minLen sections = some res ∧
      res = (b64Pattern.FindAllIndex data).filterMap (b64Keep data minLen sections) ∧
      (∀ (m : Nat × Nat) (r : StringResult), b64Keep data minLen sections m = some r ↔
        ∃ decoded, b64Decode (b64Padded ((data.drop m.1).take (m.2 - m.1))) = some decoded ∧
          (minLen ≤ (decoded.length : Int) ∧
            7 * decoded.length ≤ 10 * printableCount decoded) ∧
          r = b64CandidateOf sections m.1 decoded) ∧
      (∀ r ∈ res, minLen ≤ (r.Value.length : Int) ∧
        7 * r.Value.length ≤ 10 * printableCount r.Value ∧
        ∃ m ∈ b64Pattern.FindAllIndex data, r.Offset = (m.1 : Int) ∧
          b64Decode (b64Padded ((data.drop m.1).take (m.2 - m.1))) = some r.Value) ∧
      (∀ m ∈ b64Pattern.FindAllIndex data, ∀ decoded : List Byte,
        b64Decode (b64Padded ((data.drop m.1).take (m.2 - m.1))) = some decoded →
        minLen ≤ (decoded.length : Int) → 7 * decoded.length ≤ 10 * printableCount decoded →
        b64CandidateOf sections m.1 decoded ∈ res) := by
  refine ⟨_, b64Extract_eq data minLen sections, rfl, b64Keep_some data minLen sections, ?_, ?_⟩
  · intro r hr
    rw [List.mem_filterMap] at hr
    obtain ⟨m, hm, hk⟩ := hr
    obtain ⟨d, hd, ⟨a1, a2⟩, rfl⟩ := (b64Keep_some data minLen sections m r).1 hk
    exact ⟨a1, a2, m, hm, rfl, hd⟩
  · intro m hm d hd a1 a2
    rw [List.mem_filterMap]
    exact ⟨m, hm, (b64Keep_some data minLen sections m _).2 ⟨d, hd, ⟨a1, a2⟩, rfl⟩⟩

theorem compileScan_ascii_int (n : Int) (h0 : 0 ≤ n) (h2 : n ≤ 1000) :
    compileScan .ascii n = some (Re.atLeast n.toNat (Re.cls printable)) := by
  have e : n = ((n.toNat : Nat) : Int) := (Int.toNat_of_nonneg h0).symm
  have := compileScan_ascii n.toNat (by omega)
  rw [← e] at this
  exact this

theorem compileScan_ascii_none (n : Int) (h : 1000 < n) : compileScan .ascii n = none := by
  unfold compileScan
  rw [if_neg (by omega), if_pos h]

theorem xorStage_eq (data : List Byte) (minLength : Int) (sections : List SectionInfo) :
    xorStage data minLength sections = Bruteforce data (max minLength 6) sections := by
  have hml : (if minLength < 6 then 6 else minLength) = max minLength 6 := by
    split_ifs <;> omega
  unfold xorStage
  dsimp only
  rw [hml]

/-- C23: the XOR step of `processFile` calls `Bruteforce` with the threshold
`max(m, 6)` for the caller's minimum length `m`; it returns when `m ≤ 1000`, and
every Candidate it returns has `Length`, the length of its value, at least
`max(m, 6)`. -/
theorem xorStage_min_length (data : List Byte) (minLength : Int)
    (sections : List SectionInfo) :
    xorStage data minLength sections = Bruteforce data (max minLength 6) sections ∧
    (minLength ≤ 1000 → ∃ res, xorStage data minLength sections = some res) ∧
    (∀ res : List StringResult, xorStage data minLength sections = some res →
      ∀ r ∈ res, max minLength 6 ≤ (r.Length : Int) ∧ r.Length = r.Value.length) := by
  have hstage := xorStage_eq data minLength sections
  refine ⟨hstage, ?_, ?_⟩
  · intro hle
    obtain ⟨res, h, _⟩ := Bruteforce_spec data (max minLength 6) sections _
      (compileScan_ascii_int (max minLength 6) (by omega) (by omega))
    exact ⟨res, by rw [hstage, h]⟩
  · intro res h r hr
    rw [hstage] at h
    by_cases hle : minLength ≤ 1000
    · obtain ⟨res', h', hall, _⟩ := Bruteforce_spec data (max minLength 6) sections _
        (compileScan_ascii_int (max minLength 6) (by omega) (by omega))
      rw [h] at h'
      cases h'
      obtain ⟨j, m, _, _, hm, e, _⟩ := hall r hr
      obtain ⟨hn, he, _⟩ := (FindAllIndex_printable (xorBuffer data j)
        (max minLength 6).toNat (by omega)).1 m hm
      have hlen : r.Length = runLen (xorBuffer data j) m.1 := by
        rw [e]
        show (((xorBuffer data j).drop m.1).take (m.2 - m.1)).length = _
        have e' : m.2 - m.1 = runLen (xorBuffer data j) m.1 := by omega
        rw [e', length_take_drop_run]
      refine ⟨?_, by rw [e]; rfl⟩
      rw [hlen]
      omega
    · obtain ⟨pat, hp⟩ := Bruteforce_some data _ sections res h
      rw [compileScan_ascii_none _ (by omega)] at hp
      cases hp

/-- C23, an instance: with the default minimum length 4 the Candidates of the
XOR step have at least 6 bytes. -/
theorem xorStage_min_length_witness :
    ∃ res : List StringResult,
      xorStage (xorBuffer (str "password=admin123") 0x42) 4 [] = some res ∧
      ∀ r ∈ res, (6 : Int) ≤ (r.Length : Int) ∧ r.Length = r.Value.length :=
  (xorStage_min_length (xorBuffer (str "password=admin123") 0x42) 4 []).2.1 (by decide) |>.elim
    (fun res h => ⟨res, h,
      (xorStage_min_length (xorBuffer (str "password=admin123") 0x42) 4 []).2.2 res h⟩)

/-- C24: every Candidate of `xor.Bruteforce` has `Source = "xor"` and a key in
1..255; every Candidate of `scanner.Extract` has `Source = "raw"` and every
Candidate of `base64dec.Extract` has `Source = "base64"`, both with the key
unset (0). -/
theorem XorKey_iff_xor (data : List Byte) (minLen : Int) (sections : List SectionInfo) :
    (∀ res : List StringResult, Bruteforce data minLen sections = some res →
      ∀ r ∈ res, r.Source = "xor" ∧ 1 ≤ r.XorKey ∧ r.XorKey ≤ 255) ∧
    (∀ (enc : Encoding) (filterPat : Option Re) (showContext : Bool) (res : List StringResult),
      scanner.Extract data minLen enc sections filterPat showContext = some res →
      ∀ r ∈ res, r.Source = "raw" ∧ r.XorKey = 0) ∧
    (∀ res : List StringResult, base64dec.Extract data minLen sections = some res →
      ∀ r ∈ res, r.Source = "base64" ∧ r.XorKey = 0) := by
  refine ⟨?_, ?_, ?_⟩
  · intro res h r hr
    obtain ⟨pat, hp⟩ := Bruteforce_some data minLen sections res h
    obtain ⟨res', h', hall, _⟩ := Bruteforce_spec data minLen sections pat hp
    rw [h] at h'
    cases h'
    obtain ⟨j, m, hj1, hj2, _, e, _⟩ := hall r hr
    rw [e]
    refine ⟨rfl, ?_, ?_⟩
    · show 1 ≤ j % 256
      rw [Nat.mod_eq_of_lt (by omega)]
      exact hj1
    · show j % 256 ≤ 255
      rw [Nat.mod_eq_of_lt (by omega)]
      exact hj2
  · intro enc filterPat showContext res h r hr
    rw [Extract_eq] at h
    cases hc : compileScan enc minLen with
    | none => rw [hc] at h; cases h
    | some pat =>
      rw [hc, Option.map_some'] at h
      cases h
      rw [List.mem_map] at hr
      obtain ⟨m, _, rfl⟩ := hr
      exact ⟨rfl, rfl⟩
  · intro res h r hr
    rw [b64Extract_eq] at h
    cases h
    rw [List.mem_filterMap] at hr
    obtain ⟨m, _, hk⟩ := hr
    obtain ⟨d, _, _, rfl⟩ := (b64Keep_some data minLen sections m r).1 hk
    exact ⟨rfl, rfl⟩

/-- C24, an instance: the Candidates of the sweep over the text
`password=admin123` XOR-ed with the key 0x42. -/
theorem XorKey_iff_xor_witness :
    ∃ res : List StringResult,
      Bruteforce (xorBuffer (str "password=admin123") 0x42) 6 [] = some res ∧
      ∀ r ∈ res, r.Source = "xor" ∧ 1 ≤ r.XorKey ∧ r.XorKey ≤ 255 :=
  (Bruteforce_spec (xorBuffer (str "password=admin123") 0x42) 6 []
    (Re.atLeast 6 (Re.cls printable)) rfl).elim
    (fun res h => ⟨res, h.1,
      (XorKey_iff_xor (xorBuffer (str "password=admin123") 0x42) 6 []).1 res h.1⟩)

theorem xorBuffer_append (a b : List Byte) (key : Nat) :
    xorBuffer (a ++ b) key = xorBuffer a key ++ xorBuffer b key := by
  unfold xorBuffer
  rw [List.map_append]

theorem xorBuffer_seg (data : List Byte) (key o l : Nat) :
    ((xorBuffer data key).drop o).take l = xorBuffer ((data.drop o).take l) key := by
  unfold xorBuffer
  rw [List.map_take, List.map_drop]

theorem seg_infix (data : List Byte) (o l : Nat) : (data.drop o).take l <:+: data :=
  ⟨data.take o, (data.drop o).drop l, by
    rw [List.append_assoc, List.take_append_drop, List.take_append_drop]⟩

/-- The run that starts after a prefix `a` whose last byte is outside the set,
consists of `t`, and stops before a byte outside the set or at the end. -/
theorem runLen_embedded (a t b : List Byte)
    (ht : ∀ x ∈ t, printable x.val = true)
    (hb : ∀ x, b.head? = some x → printable x.val = false)
    (ha : ∀ x, a.getLast? = some x → printable x.val = false) :
    runLen (a ++ t ++ b) a.length = t.length ∧
      (a.length = 0 ∨ runLen (a ++ t ++ b) (a.length - 1) = 0) := by
  constructor
  · unfold runLen
    rw [List.append_assoc, List.drop_left]
    have h1 : (t ++ b).takeWhile (fun x => printable x.val) = t := by
      rw [List.takeWhile_append_of_pos ht]
      cases b with
      | nil => simp
      | cons x rest =>
        have := hb x rfl
        rw [List.takeWhile_cons_of_neg (by rw [this]; exact Bool.false_ne_true)]
        simp
    rw [h1]
  · rcases List.eq_nil_or_concat a with h | ⟨a', x, h⟩
    · left; rw [h]; rfl
    · right
      have hx : printable x.val = false := ha x (by rw [h]; simp)
      have hl : a.length - 1 = a'.length := by rw [h]; simp
      unfold runLen
      rw [hl, h, List.concat_eq_append, List.append_assoc, List.append_assoc, List.drop_left]
      show ((x :: (t ++ b)).takeWhile _).length = 0
      rw [List.takeWhile_cons_of_neg (by rw [hx]; exact Bool.false_ne_true)]
      rfl

set_option maxRecDepth 100000 in
theorem secretText_facts :
    secretText.length = 17 ∧ (∀ x ∈ secretText, printable x.val = true) ∧
    interestingPattern.MatchString secretText = true ∧
    "credential" ∈ Categorize secretText ∧ xorBuffer secretXored 0x42 = secretText := by
  refine ⟨by decide, by decide, by decide, by decide, ?_⟩
  exact xorBuffer_twice secretText 0x42

/-- The XOR step finds the embedded text under the key 0x42 when it is a run of
its own and no smaller key gives the same text. -/
theorem xorStage_secret_aux (pre post : List Byte) (minLength : Int)
    (sections : List SectionInfo) (hmin : minLength ≤ 17)
    (hpre : ∀ x, pre.getLast? = some x → printable (x.val ^^^ 0x42) = false)
    (hpost : ∀ x, post.head? = some x → printable (x.val ^^^ 0x42) = false)
    (hno : ∀ k', k' < 0x42 → 1 ≤ k' →
      ¬ (xorBuffer secretText k' <:+: pre ++ secretXored ++ post)) :
    ∃ res : List StringResult,
      xorStage (pre ++ secretXored ++ post) minLength sections = some res ∧
      ∃ r ∈ res, r.Source = "xor" ∧ r.XorKey = 0x42 ∧ r.Value = secretText ∧
        "credential" ∈ r.Categories := by
  obtain ⟨hlen, hprint, hint, hcat, hinv⟩ := secretText_facts
  have hstage := xorStage_eq (pre ++ secretXored ++ post) minLength sections
  have hn0 : (0 : Int) ≤ max minLength 6 := by omega
  have hn1 : max minLength 6 ≤ 1000 := by omega
  obtain ⟨res, h1, h2, h3, h4, h5⟩ := Bruteforce_spec (pre ++ secretXored ++ post)
    (max minLength 6) sections _ (compileScan_ascii_int _ hn0 hn1)
  have hx : xorBuffer (pre ++ secretXored ++ post) 0x42
      = xorBuffer pre 0x42 ++ secretText ++ xorBuffer post 0x42 := by
    rw [xorBuffer_append, xorBuffer_append, hinv]
  have hlast : ∀ x, (xorBuffer pre 0x42).getLast? = some x → printable x.val = false := by
    intro x hxl
    unfold xorBuffer at hxl
    rw [List.getLast?_map] at hxl
    cases hp : pre.getLast? with
    | none => rw [hp] at hxl; cases hxl
    | some y =>
      rw [hp] at hxl
      cases hxl
      rw [xorByte_val]
      exact hpre y hp
  have hhead : ∀ x, (xorBuffer post 0x42).head? = some x → printable x.val = false := by
    intro x hxl
    unfold xorBuffer at hxl
    rw [List.head?_map] at hxl
    cases hp : post.head? with
    | none => rw [hp] at hxl; cases hxl
    | some y =>
      rw [hp] at hxl
      cases hxl
      rw [xorByte_val]
      exact hpost y hp
  obtain ⟨hrun, hbefore⟩ := runLen_embedded (xorBuffer pre 0x42) secretText
    (xorBuffer post 0x42) hprint hhead hlast
  rw [← hx, xorBuffer_length pre] at hrun hbefore
  have hmem := (FindAllIndex_printable (xorBuffer (pre ++ secretXored ++ post) 0x42)
    (max minLength 6).toNat (by omega)).2.2 pre.length (by rw [hrun, hlen]; omega) hbefore
  have hseg : ((xorBuffer (pre ++ secretXored ++ post) 0x42).drop pre.length).take
      (pre.length + runLen (xorBuffer (pre ++ secretXored ++ post) 0x42) pre.length
        - pre.length) = secretText := by
    rw [hrun, hx, List.append_assoc, ← xorBuffer_length pre 0x42, List.drop_left,
      Nat.add_sub_cancel_left, List.take_left]
  have hval := h5 0x42 _ (by norm_num) (by norm_num) hmem (by
    show interestingPattern.MatchString (List.take _ (List.drop _ _)) = true
    rw [hseg]; exact hint)
  rw [show (List.take _ (List.drop _ _)) = secretText from hseg, List.mem_map] at hval
  obtain ⟨r, hr, hv⟩ := hval
  refine ⟨res, by rw [hstage, h1], r, hr, ?_⟩
  obtain ⟨j, m, hj1, hj2, hm, e1, e2, e3⟩ := h2 r hr
  have hvalue : r.Value = ((xorBuffer (pre ++ secretXored ++ post) j).drop m.1).take
      (m.2 - m.1) := by rw [e1]; rfl
  have hj : j = 0x42 := by
    by_contra hne
    rcases Nat.lt_or_gt_of_ne hne with hlt | hgt
    · apply hno j hlt hj1
      have : xorBuffer secretText j
          = ((pre ++ secretXored ++ post).drop m.1).take (m.2 - m.1) := by
        rw [← hv, hvalue, xorBuffer_seg, xorBuffer_twice]
      rw [this]
      exact seg_infix _ _ _
    · exact e3 0x42 _ (by norm_num) hgt hmem (by
        show interestingPattern.MatchString (List.take _ (List.drop _ _)) = true
        rw [hseg]; exact hint) (by
        show (List.take _ (List.drop _ _)) = _
        rw [hseg, hv])
  refine ⟨by rw [e1]; rfl, ?_, hv, ?_⟩
  · rw [e1, hj]; rfl
  · have : r.Categories = Categorize r.Value := by rw [e1]; rfl
    rw [this, hv]
    exact hcat

/-- C22, amended: let the 17 bytes of `password=admin123` XOR-ed with the key
0x42 be embedded in a buffer so that the byte before them and the byte after
them, when they exist, do not decode to a byte of `{0x09, 0x20..0x7e}` under
the key 0x42, and so that the buffer does not contain the same text XOR-ed with
a key from 1 below 0x42.  Then the XOR step, for a caller minimum length of at
most 17 (the default 4 among them), returns a Candidate with source `xor`, key
0x42, value exactly `password=admin123` and `credential` among its
categories. -/
theorem xorStage_recovers_secret (pre post : List Byte) (minLength : Int)
    (sections : List SectionInfo) (hmin : minLength ≤ 17)
    (hpre : ∀ x, pre.getLast? = some x → printable (x.val ^^^ 0x42) = false)
    (hpost : ∀ x, post.head? = some x → printable (x.val ^^^ 0x42) = false)
    (hno : ∀ k', k' < 0x42 → 1 ≤ k' →
      ¬ (xorBuffer secretText k' <:+: pre ++ secretXored ++ post)) :
    ∃ res : List StringResult,
      xorStage (pre ++ secretXored ++ post) minLength sections = some res ∧
      ∃ r ∈ res, r.Source = "xor" ∧ r.XorKey = 0x42 ∧ r.Value = secretText ∧
        "credential" ∈ r.Categories :=
  xorStage_secret_aux pre post minLength sections hmin hpre hpost hno

set_option maxRecDepth 100000 in
/-- C22, an instance: the XOR-ed text between two bytes 0x42, which decode to
zero bytes, with the default minimum length 4. -/
theorem xorStage_recovers_secret_witness :
    ∃ res : List StringResult,
      xorStage ([0x42] ++ secretXored ++ [0x42]) 4 [] = some res ∧
      ∃ r ∈ res, r.Source = "xor" ∧ r.XorKey = 0x42 ∧ r.Value = secretText ∧
        "credential" ∈ r.Categories :=
  xorStage_recovers_secret [0x42] [0x42] 4 [] (by decide)
    (fun x h => by cases h; decide) (fun x h => by cases h; decide) (by decide)

set_option maxRecDepth 100000 in
/-- C22, counterexample: in the buffer that holds one zero byte, the XOR-ed text
and one more zero byte, the zero bytes decode to `B` under the key 0x42.  The
XOR step with the default minimum length returns the Candidate
`Bpassword=admin123B`, and no Candidate with the key 0x42 has the value
`password=admin123`. -/
theorem xorStage_secret_counterexample :
    ∃ res : List StringResult,
      xorStage ([0] ++ secretXored ++ [0]) 4 [] = some res ∧
      (∃ r ∈ res, r.Value = str "Bpassword=admin123B") ∧
      (∀ r ∈ res, r.XorKey = 0x42 → r.Value = str "Bpassword=admin123B") ∧
      ¬ ∃ r ∈ res, r.XorKey = 0x42 ∧ r.Value = secretText := by
  obtain ⟨res, h1, h2, _, _, h5⟩ := Bruteforce_spec ([0] ++ secretXored ++ [0]) 6 []
    (Re.atLeast 6 (Re.cls printable)) rfl
  have hM : (Re.atLeast 6 (Re.cls printable)).FindAllIndex
      (xorBuffer ([0] ++ secretXored ++ [0]) 0x42) = [(0, 19)] := by decide
  have hkey : ∀ r ∈ res, r.XorKey = 0x42 → r.Value = str "Bpassword=admin123B" := by
    intro r hr hk
    obtain ⟨j, m, hj1, hj2, hm, e1, _⟩ := h2 r hr
    have hj : j = 0x42 := by
      rw [e1] at hk
      have : j % 256 = 0x42 := hk
      rw [Nat.mod_eq_of_lt (by omega)] at this
      exact this
    rw [hj, hM, List.mem_singleton] at hm
    rw [e1, hj, hm]
    decide
  refine ⟨res, h1, ?_, hkey, ?_⟩
  · have := h5 0x42 (0, 19) (by norm_num) (by norm_num) (by rw [hM]; exact List.mem_singleton.2 rfl)
      (by decide)
    rw [List.mem_map] at this
    obtain ⟨r, hr, hv⟩ := this
    exact ⟨r, hr, by rw [hv]; decide⟩
  · rintro ⟨r, hr, hk, hv⟩
    have := hkey r hr hk
    rw [hv] at this
    revert this
    decide

/-! ## The threat score -/

theorem apiLoop_score : ∀ (order : List (String × Nat)) (st : Nat × List (String × ThreatDetails)),
    (apiLoop order st).1 = st.1 + (order.map (fun e => e.2 * weightOf e.1)).sum := by
  intro order
  induction order with
  | nil => intro st; simp [apiLoop]
  | cons e rest ih =>
    intro st
    obtain ⟨g, c⟩ := e
    rw [apiLoop, ih, List.map_cons, List.sum_cons]
    show st.1 + c * weightOf g + _ = st.1 + (c * weightOf g + _)
    omega

/-- The score of `AssessIn` as a sum. -/
theorem AssessIn_Score (order : List (String × Nat)) (results : List Candidate) :
    (AssessIn order results).Score =
      (order.map (fun e => e.2 * weightOf e.1)).sum +
      2 * results.countP (fun r => decide (5 ≤ r.Entropy)) +
      3 * results.countP hasCredential +
      4 * results.countP (fun r => r.Source = "xor") +
      results.countP (fun r => r.Source = "base64") := by
  have h := apiLoop_score order (0, [])
  unfold AssessIn
  dsimp only
  split_ifs <;> rw [h] <;> omega

theorem AssessIn_Level (order : List (String × Nat)) (results : List Candidate) :
    (AssessIn order results).Level =
      if (AssessIn order results).Score ≥ 70 then "CRITICAL"
      else if (AssessIn order results).Score ≥ 30 then "HIGH"
      else if (AssessIn order results).Score ≥ 10 then "MEDIUM" else "LOW" := rfl

theorem mem_of_lookup {β : Type} (k : String) (v : β) :
    ∀ (l : List (String × β)), l.lookup k = some v → (k, v) ∈ l := by
  intro l
  induction l with
  | nil => intro h; cases h
  | cons e rest ih =>
    obtain ⟨k', v'⟩ := e
    intro h
    rw [List.lookup_cons] at h
    by_cases hk : k = k'
    · have hb : (k == k') = true := by simpa using hk
      rw [hb] at h
      cases h
      rw [hk]
      exact List.mem_cons_self _ _
    · have hb : (k == k') = false := by simpa using hk
      rw [hb] at h
      exact List.mem_cons_of_mem _ (ih h)

theorem bumpGroup_keys (g k : String) : ∀ (m : List (String × Nat)),
    k ∈ (bumpGroup g m).map (fun e => e.1) ↔ k = g ∨ k ∈ m.map (fun e => e.1) := by
  intro m
  induction m with
  | nil =>
    rw [bumpGroup]
    simp
  | cons e rest ih =>
    obtain ⟨k', n⟩ := e
    rw [bumpGroup]
    by_cases hk : k' = g
    · rw [if_pos hk]
      simp only [List.map_cons, List.mem_cons]
      constructor
      · intro h; exact Or.inr h
      · rintro (h | h)
        · left; rw [h, hk]
        · exact h
    · rw [if_neg hk]
      simp only [List.map_cons, List.mem_cons]
      rw [ih]
      tauto

theorem bumpGroup_nodup (g : String) : ∀ (m : List (String × Nat)),
    (m.map (fun e => e.1)).Nodup → ((bumpGroup g m).map (fun e => e.1)).Nodup := by
  intro m
  induction m with
  | nil => intro _; exact List.nodup_singleton _
  | cons e rest ih =>
    obtain ⟨k', n⟩ := e
    intro h
    rw [List.map_cons, List.nodup_cons] at h
    rw [bumpGroup]
    by_cases hk : k' = g
    · rw [if_pos hk, List.map_cons, List.nodup_cons]
      exact h
    · rw [if_neg hk, List.map_cons, List.nodup_cons]
      refine ⟨?_, ih h.2⟩
      intro hmem
      rcases (bumpGroup_keys g k' rest).1 hmem with h' | h'
      · exact hk h'
      · exact h.1 h'

theorem bumpGroup_lookup (g k : String) : ∀ (m : List (String × Nat)),
    ((bumpGroup g m).lookup k).getD 0 = (m.lookup k).getD 0 + (if k = g then 1 else 0) := by
  intro m
  induction m with
  | nil =>
    rw [bumpGroup, List.lookup_cons]
    by_cases hk : k = g
    · have hb : (k == g) = true := by simpa using hk
      rw [hb, if_pos hk]
      rfl
    · have hb : (k == g) = false := by simpa using hk
      rw [hb, if_neg hk]
      rfl
  | cons e rest ih =>
    obtain ⟨k', n⟩ := e
    rw [bumpGroup]
    by_cases hk' : k' = g
    · rw [if_pos hk', List.lookup_cons, List.lookup_cons]
      by_cases hk : k = k'
      · have hb : (k == k') = true := by simpa using hk
        rw [hb, if_pos (hk.trans hk')]
        rfl
      · have hb : (k == k') = false := by simpa using hk
        rw [hb, if_neg (fun h => hk (h.trans hk'.symm))]
        rfl
    · rw [if_neg hk', List.lookup_cons, List.lookup_cons]
      by_cases hk : k = k'
      · have hb : (k == k') = true := by simpa using hk
        rw [hb, if_neg (fun h => hk' (hk.symm.trans h))]
        rfl
      · have hb : (k == k') = false := by simpa using hk
        rw [hb]
        exact ih

theorem bumpGroup_pos (g : String) : ∀ (m : List (String × Nat)), (∀ e ∈ m, 1 ≤ e.2) →
    ∀ e ∈ bumpGroup g m, 1 ≤ e.2 := by
  intro m
  induction m with
  | nil =>
    intro _ e he
    rw [bumpGroup, List.mem_singleton] at he
    rw [he]
  | cons x rest ih =>
    obtain ⟨k, n⟩ := x
    intro h e he
    rw [bumpGroup] at he
    by_cases hk : k = g
    · rw [if_pos hk] at he
      rcases List.mem_cons.1 he with rfl | he
      · exact Nat.succ_pos _
      · exact h e (List.mem_cons_of_mem _ he)
    · rw [if_neg hk] at he
      rcases List.mem_cons.1 he with rfl | he
      · exact h _ (List.mem_cons_self _ _)
      · exact ih (fun e he => h e (List.mem_cons_of_mem _ he)) e he

/-- The invariants of the first loop of `Assess`. -/
theorem foldl_bumpGroup (results : List Candidate) : ∀ (m : List (String × Nat)),
    (m.map (fun e => e.1)).Nodup → (∀ e ∈ m, 1 ≤ e.2) → (∀ e ∈ m, e.1 ≠ "") →
    ((results.foldl (fun m r =>
        if r.SuspiciousGroup ≠ "" then bumpGroup r.SuspiciousGroup m else m) m).map
      (fun e => e.1)).Nodup ∧
    (∀ e ∈ results.foldl (fun m r =>
        if r.SuspiciousGroup ≠ "" then bumpGroup r.SuspiciousGroup m else m) m,
      1 ≤ e.2 ∧ e.1 ≠ "") ∧
    (∀ k : String, k ≠ "" →
      ((results.foldl (fun m r =>
        if r.SuspiciousGroup ≠ "" then bumpGroup r.SuspiciousGroup m else m) m).lookup k).getD 0
        = (m.lookup k).getD 0 + results.countP (fun r => r.SuspiciousGroup = k)) := by
  induction results with
  | nil =>
    intro m h1 h2 h3
    exact ⟨h1, fun e he => ⟨h2 e he, h3 e he⟩, fun k _ => rfl⟩
  | cons r rest ih =>
    intro m h1 h2 h3
    rw [List.foldl_cons]
    by_cases hg : r.SuspiciousGroup ≠ ""
    · rw [if_pos hg]
      have h3' : ∀ e ∈ bumpGroup r.SuspiciousGroup m, e.1 ≠ "" := by
        intro e he
        have hk := (bumpGroup_keys r.SuspiciousGroup e.1 m).1
          (List.mem_map_of_mem (fun e => e.1) he)
        rcases hk with hk | hk
        · rw [hk]; exact hg
        · rw [List.mem_map] at hk
          obtain ⟨e', he', hee⟩ := hk
          rw [← hee]
          exact h3 e' he'
      obtain ⟨g1, g2, g3⟩ := ih (bumpGroup r.SuspiciousGroup m)
        (bumpGroup_nodup _ m h1) (bumpGroup_pos _ m h2) h3'
      refine ⟨g1, g2, ?_⟩
      intro k hk
      rw [g3 k hk, bumpGroup_lookup, List.countP_cons]
      by_cases hkg : k = r.SuspiciousGroup
      · rw [if_pos hkg, if_pos (by simpa using hkg.symm)]
        omega
      · rw [if_neg hkg, if_neg (by simpa using fun h : r.SuspiciousGroup = k => hkg h.symm)]
        omega
    · rw [if_neg hg]
      obtain ⟨g1, g2, g3⟩ := ih m h1 h2 h3
      refine ⟨g1, g2, ?_⟩
      intro k hk
      rw [g3 k hk, List.countP_cons]
      have : r.SuspiciousGroup ≠ k := by
        intro h
        rw [not_not] at hg
        exact hk (h.symm.trans hg)
      rw [if_neg (by simpa using this)]
      omega

/-- The map `apiCounts`: its keys are distinct, and its entries are the
non-empty group names that occur, each with the number of its occurrences. -/
theorem apiCounts_spec (results : List Candidate) :
    ((apiCounts results).map (fun e => e.1)).Nodup ∧
    (∀ (g : String) (c : Nat), (g, c) ∈ apiCounts results ↔
      g ≠ "" ∧ 1 ≤ c ∧ c = results.countP (fun r => r.SuspiciousGroup = g)) := by
  obtain ⟨h1, h2, h3⟩ := foldl_bumpGroup results [] List.nodup_nil
    (fun _ h => by cases h) (fun _ h => by cases h)
  refine ⟨h1, ?_⟩
  intro g c
  constructor
  · intro hmem
    obtain ⟨hc, hg⟩ := h2 (g, c) hmem
    refine ⟨hg, hc, ?_⟩
    have hl := lookup_of_mem g c _ h1 hmem
    have := h3 g hg
    unfold apiCounts at hl
    rw [hl] at this
    simpa using this
  · rintro ⟨hg, hc, hcount⟩
    have := h3 g hg
    cases hl : (apiCounts results).lookup g with
    | none =>
      unfold apiCounts at hl
      rw [hl] at this
      have h0 : 0 = results.countP (fun r => r.SuspiciousGroup = g) := by simpa using this
      omega
    | some c' =>
      have hmem := mem_of_lookup g c' _ hl
      unfold apiCounts at hl
      rw [hl] at this
      have hc' : c' = results.countP (fun r => r.SuspiciousGroup = g) := by simpa using this
      rw [hcount, ← hc']
      exact hmem

theorem weightOf_other (g : String) (h : ∀ e ∈ weights, e.1 ≠ g) : weightOf g = 1 := by
  unfold weightOf
  rw [lookup_of_not_mem g weights h]
  rfl

theorem hasCredential_iff (r : Candidate) :
    hasCredential r = true ↔
      "credential" ∈ r.Categories ∨ "basic_auth" ∈ r.Categories ∨
        "bearer_token" ∈ r.Categories := by
  unfold hasCredential
  rw [List.any_eq_true]
  constructor
  · rintro ⟨c, hc, h⟩
    simp only [Bool.or_eq_true, decide_eq_true_eq] at h
    rcases h with (h | h) | h
    · left; rw [← h]; exact hc
    · right; left; rw [← h]; exact hc
    · right; right; rw [← h]; exact hc
  · rintro (h | h | h)
    · exact ⟨_, h, by simp⟩
    · exact ⟨_, h, by simp⟩
    · exact ⟨_, h, by simp⟩

/-- C29: whatever the order in which the map `apiCounts` is traversed,
`threat.Assess` returns the score: the sum over the API groups present of
occurrence count × weight, plus 2 for every Candidate with `Entropy ≥ 5.0`, plus
3 for every Candidate with at least one of the categories credential,
basic_auth, bearer_token, plus 4 for every Candidate with source `xor`, plus 1
for every Candidate with source `base64`.  The groups present are the non-empty
group names that occur, each once, with the number of their occurrences; the
weights are injection 5, evasion 4, privilege 4, service 3, process 2,
network 2, crypto 2, registry 1, file 1, and 1 for every other name. -/
theorem Assess_Score (order : List (String × Nat)) (results : List Candidate)
    (ho : order.Perm (apiCounts results)) :
    (AssessIn order results).Score =
      ((apiCounts results).map (fun e => e.2 * weightOf e.1)).sum +
      2 * results.countP (fun r => decide (5 ≤ r.Entropy)) +
      3 * results.countP (fun r =>
        decide ("credential" ∈ r.Categories ∨ "basic_auth" ∈ r.Categories ∨
          "bearer_token" ∈ r.Categories)) +
      4 * results.countP (fun r => r.Source = "xor") +
      results.countP (fun r => r.Source = "base64") ∧
    ((apiCounts results).map (fun e => e.1)).Nodup ∧
    (∀ (g : String) (c : Nat), (g, c) ∈ apiCounts results ↔
      g ≠ "" ∧ 1 ≤ c ∧ c = results.countP (fun r => r.SuspiciousGroup = g)) ∧
    (weightOf "injection" = 5 ∧ weightOf "evasion" = 4 ∧ weightOf "privilege" = 4 ∧
      weightOf "service" = 3 ∧ weightOf "process" = 2 ∧ weightOf "network" = 2 ∧
      weightOf "crypto" = 2 ∧ weightOf "registry" = 1 ∧ weightOf "file" = 1) ∧
    (∀ g : String, g ∉ ["injection", "evasion", "privilege", "service", "process", "network",
      "crypto", "registry", "file"] → weightOf g = 1) := by
  obtain ⟨h1, h2⟩ := apiCounts_spec results
  refine ⟨?_, h1, h2, by decide, ?_⟩
  · rw [AssessIn_Score, ((ho.map (fun e => e.2 * weightOf e.1)).sum_eq)]
    have hc : results.countP hasCredential = results.countP (fun r =>
        decide ("credential" ∈ r.Categories ∨ "basic_auth" ∈ r.Categories ∨
          "bearer_token" ∈ r.Categories)) := by
      apply List.countP_congr
      intro r _
      rw [hasCredential_iff]
      simp
    rw [hc]
  · intro g hg
    apply weightOf_other
    intro e he hge
    apply hg
    simp only [weights, List.mem_cons, List.mem_singleton, List.not_mem_nil, or_false] at he
    rcases he with rfl | rfl | rfl | rfl | rfl | rfl | rfl | rfl | rfl <;>
      (rw [← hge]; decide)

/-- C29, an instance: a single Candidate of the group `injection` with no other
indicator gives the score 5 and the level LOW. -/
theorem Assess_Score_witness :
    (apiCounts [injectionOnly]).Perm (apiCounts [injectionOnly]) ∧
    apiCounts [injectionOnly] = [("injection", 1)] ∧
    (Assess [injectionOnly]).Score = 5 ∧ (Assess [injectionOnly]).Level = "LOW" ∧
    (AssessIn (apiCounts [injectionOnly]) [injectionOnly]).Score =
      ((apiCounts [injectionOnly]).map (fun e => e.2 * weightOf e.1)).sum +
      2 * [injectionOnly].countP (fun r => decide (5 ≤ r.Entropy)) +
      3 * [injectionOnly].countP (fun r =>
        decide ("credential" ∈ r.Categories ∨ "basic_auth" ∈ r.Categories ∨
          "bearer_token" ∈ r.Categories)) +
      4 * [injectionOnly].countP (fun r => r.Source = "xor") +
      [injectionOnly].countP (fun r => r.Source = "base64") :=
  ⟨List.Perm.refl _, by decide, by decide, by decide,
    (Assess_Score (apiCounts [injectionOnly]) [injectionOnly] (List.Perm.refl _)).1⟩

/-- C30: whatever the order of the traversal, the level that `threat.Assess`
returns is determined by the score it returns, with inclusive lower bounds:
below 10 LOW, from 10 below 30 MEDIUM, from 30 below 70 HIGH, from 70 on
CRITICAL. -/
theorem Assess_Level (order : List (String × Nat)) (results : List Candidate) :
    ((AssessIn order results).Score < 10 → (AssessIn order results).Level = "LOW") ∧
    (10 ≤ (AssessIn order results).Score → (AssessIn order results).Score < 30 →
      (AssessIn order results).Level = "MEDIUM") ∧
    (30 ≤ (AssessIn order results).Score → (AssessIn order results).Score < 70 →
      (AssessIn order results).Level = "HIGH") ∧
    (70 ≤ (AssessIn order results).Score → (AssessIn order results).Level = "CRITICAL") ∧
    (AssessIn order results).Level ∈ ["LOW", "MEDIUM", "HIGH", "CRITICAL"] := by
  rw [AssessIn_Level]
  refine ⟨fun h => ?_, fun h1 h2 => ?_, fun h1 h2 => ?_, fun h => ?_, ?_⟩
  · rw [if_neg (by omega), if_neg (by omega), if_neg (by omega)]
  · rw [if_neg (by omega), if_neg (by omega), if_pos h1]
  · rw [if_neg (by omega), if_pos h1]
  · rw [if_pos h]
  · split_ifs <;> decide

/-- C30, an instance: ten Candidates of the group `injection` give the score 50
and the level HIGH. -/
theorem Assess_Level_witness :
    (Assess (List.replicate 10 injectionOnly)).Score = 50 ∧
    (Assess (List.replicate 10 injectionOnly)).Level = "HIGH" :=
  ⟨by decide,
    (Assess_Level (apiCounts (List.replicate 10 injectionOnly))
      (List.replicate 10 injectionOnly)).2.2.1 (by decide) (by decide)⟩

/-! ## Runs of a class of ASCII characters -/

theorem clsRun_of_ge (p : Nat → Bool) (data : List Byte) (pos : Nat) (h : data.length ≤ pos) :
    clsRun p data pos = 0 := by
  simp [clsRun, List.drop_eq_nil_of_le h]

theorem clsRun_pos_step (p : Nat → Bool) (data : List Byte) (pos : Nat) (h : pos < data.length)
    (hp : p (data.get ⟨pos, h⟩).val = true) :
    clsRun p data pos = clsRun p data (pos + 1) + 1 := by
  unfold clsRun
  rw [drop_eq_cons_of_lt h, List.takeWhile_cons, if_pos hp, List.length_cons]

theorem clsRun_zero_step (p : Nat → Bool) (data : List Byte) (pos : Nat) (h : pos < data.length)
    (hp : p (data.get ⟨pos, h⟩).val = false) :
    clsRun p data pos = 0 := by
  unfold clsRun
  rw [drop_eq_cons_of_lt h, List.takeWhile_cons, if_neg (by rw [hp]; decide), List.length_nil]

theorem clsRun_pos_iff (p : Nat → Bool) (data : List Byte) (pos : Nat) :
    0 < clsRun p data pos ↔ ∃ h : pos < data.length, p (data.get ⟨pos, h⟩).val = true := by
  constructor
  · intro h0
    by_cases hlt : pos < data.length
    · refine ⟨hlt, ?_⟩
      cases hp : p (data.get ⟨pos, hlt⟩).val with
      | true => rfl
      | false =>
        have := clsRun_zero_step p data pos hlt hp
        omega
    · have := clsRun_of_ge p data pos (by omega)
      omega
  · rintro ⟨hlt, hp⟩
    rw [clsRun_pos_step p data pos hlt hp]
    omega

theorem clsRun_succ_of_pos (p : Nat → Bool) (data : List Byte) (pos : Nat)
    (h : 0 < clsRun p data pos) : clsRun p data pos = clsRun p data (pos + 1) + 1 := by
  obtain ⟨hlt, hp⟩ := (clsRun_pos_iff p data pos).1 h
  exact clsRun_pos_step p data pos hlt hp

theorem clsRun_add (p : Nat → Bool) (data : List Byte) :
    ∀ (n pos : Nat), n ≤ clsRun p data pos →
      clsRun p data (pos + n) + n = clsRun p data pos := by
  intro n
  induction n with
  | zero => intro pos _; rfl
  | succ n ih =>
    intro pos h
    have h1 := clsRun_succ_of_pos p data pos (by omega)
    have h2 := ih (pos + 1) (by omega)
    have e : pos + (n + 1) = pos + 1 + n := by omega
    rw [e]
    omega

theorem clsRun_le_sub (p : Nat → Bool) (data : List Byte) (pos : Nat) :
    clsRun p data pos ≤ data.length - pos := by
  have h1 : clsRun p data pos ≤ (data.drop pos).length := by
    unfold clsRun
    exact (List.takeWhile_sublist _).length_le
  rw [List.length_drop] at h1
  exact h1

/-- A run of a class inside `[\x20-\x7e\x09]` starts only where a run of that
class starts. -/
theorem clsRun_zero_of_runLen (p : Nat → Bool) (hsub : ∀ r, p r = true → printable r = true)
    (data : List Byte) (q : Nat) (h : runLen data q = 0) : clsRun p data q = 0 := by
  by_contra hc
  obtain ⟨hlt, hp⟩ := (clsRun_pos_iff p data q).1 (by omega)
  have := (runLen_pos_iff data q).2 ⟨hlt, hsub _ hp⟩
  omega

/-- The end positions of one character of a class inside
`[\x20-\x7e\x09]`. -/
theorem cls_ends_eq (p : Nat → Bool) (hsub : ∀ r, p r = true → printable r = true)
    (data : List Byte) (pos : Nat) :
    (Re.cls p).ends data pos = if 0 < clsRun p data pos then [pos + 1] else [] := by
  by_cases h0 : 0 < clsRun p data pos
  · obtain ⟨hlt, hp⟩ := (clsRun_pos_iff p data pos).1 h0
    have hb : (data.get ⟨pos, hlt⟩).val < 0x80 := printable_lt _ (hsub _ hp)
    rw [if_pos h0, Re.ends, decodeRune_ascii data pos hlt hb]
    exact if_pos ⟨by norm_num, hp⟩
  · rw [if_neg h0]
    apply List.eq_nil_iff_forall_not_mem.2
    intro e he
    obtain ⟨_, b, hb, hpb⟩ := cls_ends_low data p (fun r hr => printable_lt r (hsub r hr)) pos e he
    apply h0
    have hlt : pos < data.length := by
      by_contra hge
      rw [List.drop_eq_nil_of_le (by omega)] at hb
      cases hb
    rw [drop_eq_cons_of_lt hlt] at hb
    cases hb
    exact (clsRun_pos_iff p data pos).2 ⟨hlt, hpb⟩

/-- Exactly `n` characters of the class match when the run has at least `n`. -/
theorem rep_cls_ends (p : Nat → Bool) (hsub : ∀ r, p r = true → printable r = true)
    (data : List Byte) :
    ∀ (n pos : Nat), (Re.rep (Re.cls p) n).ends data pos
      = if n ≤ clsRun p data pos then [pos + n] else [] := by
  intro n
  induction n with
  | zero => intro pos; simp [Re.rep, Re.ends]
  | succ n ih =>
    intro pos
    rw [Re.rep, Re.ends, cls_ends_eq p hsub]
    by_cases h0 : 0 < clsRun p data pos
    · have h1 := clsRun_succ_of_pos p data pos h0
      rw [if_pos h0, List.flatMap_cons, List.flatMap_nil, List.append_nil, ih (pos + 1)]
      by_cases hn : n ≤ clsRun p data (pos + 1)
      · rw [if_pos hn, if_pos (by omega)]
        congr 1
        omega
      · rw [if_neg hn, if_neg (by omega)]
    · rw [if_neg h0, List.flatMap_nil, if_neg (by omega)]

theorem b64Cls_printable (r : Nat) (h : b64Cls r = true) : printable r = true := by
  simp only [b64Cls, alnumCls, rng, printable, Bool.or_eq_true, Bool.and_eq_true,
    decide_eq_true_eq] at h ⊢
  omega

theorem eqCls_printable (r : Nat) (h : eqCls r = true) : printable r = true := by
  simp only [eqCls, rng, printable, Bool.or_eq_true, Bool.and_eq_true,
    decide_eq_true_eq] at h ⊢
  omega

/-! ## The matches of `b64Pattern` -/

theorem rep_group_ends (data : List Byte) :
    ∀ (n pos : Nat), (Re.rep (Re.rep (Re.cls b64Cls) 4) n).ends data pos
      = if 4 * n ≤ clsRun b64Cls data pos then [pos + 4 * n] else [] := by
  intro n
  induction n with
  | zero => intro pos; simp [Re.rep, Re.ends]
  | succ n ih =>
    intro pos
    rw [Re.rep, Re.ends, rep_cls_ends b64Cls b64Cls_printable]
    by_cases h4 : 4 ≤ clsRun b64Cls data pos
    · have h1 := clsRun_add b64Cls data 4 pos h4
      rw [if_pos h4, List.flatMap_cons, List.flatMap_nil, List.append_nil, ih (pos + 4)]
      by_cases hn : 4 * n ≤ clsRun b64Cls data (pos + 4)
      · rw [if_pos hn, if_pos (by omega)]
        congr 1
        omega
      · rw [if_neg hn, if_neg (by omega)]
    · rw [if_neg h4, List.flatMap_nil, if_neg (by omega)]

/-- The greedy iteration of the group of four prefers all the whole groups of
the run. -/
theorem starEnds_group_head (data : List Byte) :
    ∀ (fuel pos : Nat),
      (starEnds (fun q => (Re.rep (Re.cls b64Cls) 4).ends data q) fuel pos).head?
        = some (pos + 4 * min fuel (clsRun b64Cls data pos / 4)) := by
  intro fuel
  induction fuel with
  | zero => intro pos; simp [starEnds]
  | succ fuel ih =>
    intro pos
    unfold starEnds
    rw [rep_cls_ends b64Cls b64Cls_printable]
    by_cases h4 : 4 ≤ clsRun b64Cls data pos
    · have h1 := clsRun_add b64Cls data 4 pos h4
      rw [if_pos h4]
      have hf : [pos + 4].filter (fun e => decide (pos < e)) = [pos + 4] := by simp
      rw [hf, List.flatMap_cons, List.flatMap_nil, List.append_nil, List.head?_append,
        ih (pos + 4)]
      show some _ = some _
      congr 1
      omega
    · rw [if_neg h4]
      have : clsRun b64Cls data pos / 4 = 0 := by omega
      simp [this]

theorem head?_flatMap_of_head {α β : Type} (l : List α) (f : α → List β) (a : α)
    (h : l.head? = some a) (hne : f a ≠ []) : (l.flatMap f).head? = (f a).head? := by
  cases l with
  | nil => cases h
  | cons x rest =>
    cases h
    rw [List.flatMap_cons, List.head?_append]
    cases hfa : f a with
    | nil => exact absurd hfa hne
    | cons y ys => rfl

/-- The end positions of the optional padded group: the padded group first,
when it is there, and then nothing. -/
theorem pad_ends (data : List Byte) (e : Nat) :
    (Re.opt (.alt (Re.seq [Re.rep (.cls b64Cls) 2, lit "=="])
        (Re.seq [Re.rep (.cls b64Cls) 3, lit "="]))).ends data e ≠ [] ∧
    ((Re.opt (.alt (Re.seq [Re.rep (.cls b64Cls) 2, lit "=="])
        (Re.seq [Re.rep (.cls b64Cls) 3, lit "="]))).ends data e).head?
      = some (if b64PadAt data e then e + 4 else e) := by
  have hX : Re.seq [Re.rep (.cls b64Cls) 2, lit "=="]
      = .cat (Re.rep (.cls b64Cls) 2) (.cat (.cls eqCls) (.cls eqCls)) := rfl
  have hY : Re.seq [Re.rep (.cls b64Cls) 3, lit "="]
      = .cat (Re.rep (.cls b64Cls) 3) (.cls eqCls) := rfl
  have hXe : (Re.cat (Re.rep (.cls b64Cls) 2) (.cat (.cls eqCls) (.cls eqCls))).ends data e
      = if (decide (2 ≤ clsRun b64Cls data e) && decide (0 < clsRun eqCls data (e + 2)) &&
          decide (0 < clsRun eqCls data (e + 3))) = true then [e + 4] else [] := by
    rw [Re.ends, rep_cls_ends b64Cls b64Cls_printable]
    by_cases h2 : 2 ≤ clsRun b64Cls data e
    · rw [if_pos h2, List.flatMap_cons, List.flatMap_nil, List.append_nil, Re.ends,
        cls_ends_eq eqCls eqCls_printable]
      by_cases ha : 0 < clsRun eqCls data (e + 2)
      · rw [if_pos ha, List.flatMap_cons, List.flatMap_nil, List.append_nil,
          cls_ends_eq eqCls eqCls_printable]
        by_cases hb : 0 < clsRun eqCls data (e + 3)
        · rw [if_pos hb, if_pos (by simp [h2, ha, hb])]
        · rw [if_neg hb, if_neg (by simp [hb])]
      · rw [if_neg ha, List.flatMap_nil, if_neg (by simp [ha])]
    · rw [if_neg h2, List.flatMap_nil, if_neg (by simp [h2])]
  have hYe : (Re.cat (Re.rep (.cls b64Cls) 3) (.cls eqCls)).ends data e
      = if (decide (3 ≤ clsRun b64Cls data e) && decide (0 < clsRun eqCls data (e + 3))) = true
        then [e + 4] else [] := by
    rw [Re.ends, rep_cls_ends b64Cls b64Cls_printable]
    by_cases h3 : 3 ≤ clsRun b64Cls data e
    · rw [if_pos h3, List.flatMap_cons, List.flatMap_nil, List.append_nil,
        cls_ends_eq eqCls eqCls_printable]
      by_cases hb : 0 < clsRun eqCls data (e + 3)
      · rw [if_pos hb, if_pos (by simp [h3, hb])]
      · rw [if_neg hb, if_neg (by simp [hb])]
    · rw [if_neg h3, List.flatMap_nil, if_neg (by simp [h3])]
  have hP : (Re.opt (.alt (Re.seq [Re.rep (.cls b64Cls) 2, lit "=="])
        (Re.seq [Re.rep (.cls b64Cls) 3, lit "="]))).ends data e
      = ((Re.cat (Re.rep (.cls b64Cls) 2) (.cat (.cls eqCls) (.cls eqCls))).ends data e ++
          (Re.cat (Re.rep (.cls b64Cls) 3) (.cls eqCls)).ends data e) ++ [e] := by
    rw [hX, hY]
    unfold Re.opt
    rw [Re.ends, Re.ends]
    rfl
  rw [hP, hXe, hYe]
  unfold b64PadAt
  constructor
  · simp
  · by_cases hx : (decide (2 ≤ clsRun b64Cls data e) && decide (0 < clsRun eqCls data (e + 2)) &&
        decide (0 < clsRun eqCls data (e + 3))) = true
    · rw [if_pos hx, hx]
      simp
    · by_cases hy : (decide (3 ≤ clsRun b64Cls data e) &&
          decide (0 < clsRun eqCls data (e + 3))) = true
      · rw [if_neg hx, if_pos hy, hy]
        simp
      · rw [if_neg hx, if_neg hy]
        rw [Bool.not_eq_true] at hx hy
        rw [hx, hy]
        simp

/-- The match of `b64Pattern` at a position: where a run of at least 20
characters of the alphabet starts, the whole groups of four of the run and the
padded last group when it follows them. -/
theorem b64_matchAt (data : List Byte) (pos : Nat) :
    b64Pattern.matchAt data pos
      = if 20 ≤ clsRun b64Cls data pos then some (b64MatchEnd data pos) else none := by
  have hpat : b64Pattern = .cat (.cat (Re.rep (Re.rep (.cls b64Cls) 4) 5)
      (.star (Re.rep (.cls b64Cls) 4)))
      (Re.opt (.alt (Re.seq [Re.rep (.cls b64Cls) 2, lit "=="])
        (Re.seq [Re.rep (.cls b64Cls) 3, lit "="]))) := rfl
  unfold Re.matchAt
  rw [hpat, Re.ends, Re.ends, rep_group_ends]
  by_cases h20 : 20 ≤ clsRun b64Cls data pos
  · rw [if_pos (by omega), if_pos h20, List.flatMap_cons, List.flatMap_nil, List.append_nil,
      Re.ends]
    have hadd := clsRun_add b64Cls data 20 pos h20
    have hle := clsRun_le_sub b64Cls data pos
    have hhead := starEnds_group_head data (data.length - (pos + 4 * 5)) (pos + 4 * 5)
    have he : pos + 4 * 5 + 4 * min (data.length - (pos + 4 * 5))
        (clsRun b64Cls data (pos + 4 * 5) / 4) = pos + 4 * (clsRun b64Cls data pos / 4) := by
      have e20 : pos + 4 * 5 = pos + 20 := by omega
      rw [e20]
      omega
    rw [he] at hhead
    obtain ⟨hne, hph⟩ := pad_ends data (pos + 4 * (clsRun b64Cls data pos / 4))
    rw [head?_flatMap_of_head _ _ _ hhead hne, hph]
    rfl
  · rw [if_neg (by omega), if_neg h20, List.flatMap_nil]
    rfl

theorem b64MatchEnd_facts (data : List Byte) (pos : Nat) (h20 : 20 ≤ clsRun b64Cls data pos) :
    pos + 20 ≤ b64MatchEnd data pos ∧
    (b64MatchEnd data pos - pos) % 4 = 0 ∧
    (b64MatchEnd data pos = 0 ∨ clsRun b64Cls data (b64MatchEnd data pos - 1) = 0 ∨
      clsRun b64Cls data (b64MatchEnd data pos) < 20) := by
  unfold b64MatchEnd
  dsimp only
  have hrest := clsRun_add b64Cls data (4 * (clsRun b64Cls data pos / 4)) pos (by omega)
  by_cases hp : b64PadAt data (pos + 4 * (clsRun b64Cls data pos / 4)) = true
  · rw [if_pos hp]
    refine ⟨by omega, by omega, Or.inr (Or.inl ?_)⟩
    have heq : 0 < clsRun eqCls data (pos + 4 * (clsRun b64Cls data pos / 4) + 3) := by
      unfold b64PadAt at hp
      simp only [Bool.or_eq_true, Bool.and_eq_true, decide_eq_true_eq] at hp
      rcases hp with hp | hp
      · exact hp.2
      · exact hp.2
    obtain ⟨hlt, hb⟩ := (clsRun_pos_iff eqCls data _).1 heq
    have e1 : pos + 4 * (clsRun b64Cls data pos / 4) + 4 - 1
        = pos + 4 * (clsRun b64Cls data pos / 4) + 3 := by omega
    rw [e1]
    apply clsRun_zero_step b64Cls data _ hlt
    have hv : (data.get ⟨_, hlt⟩).val = 0x3D := by
      unfold eqCls at hb
      exact of_decide_eq_true hb
    rw [hv]
    decide
  · rw [if_neg hp]
    refine ⟨by omega, by omega, Or.inr (Or.inr (by omega))⟩

/-- A match found by the search for `b64Pattern` starts at the first position,
at or after the start of the search, where a run of at least 20 characters of
the alphabet starts. -/
theorem findFrom_b64_some (data : List Byte) :
    ∀ (fuel pos s e : Nat), b64Pattern.findFrom data fuel pos = some (s, e) →
      pos ≤ s ∧ 20 ≤ clsRun b64Cls data s ∧ e = b64MatchEnd data s ∧
        ∀ q, pos ≤ q → q < s → clsRun b64Cls data q < 20 := by
  intro fuel
  induction fuel with
  | zero => intro pos s e h; simp [Re.findFrom] at h
  | succ fuel ih =>
    intro pos s e h
    rw [Re.findFrom, b64_matchAt] at h
    by_cases hn : 20 ≤ clsRun b64Cls data pos
    · rw [if_pos hn] at h
      simp only [Option.some.injEq, Prod.mk.injEq] at h
      obtain ⟨rfl, rfl⟩ := h
      exact ⟨le_refl _, hn, rfl, fun q h1 h2 => by omega⟩
    · rw [if_neg hn] at h
      dsimp only at h
      by_cases hw : (decodeRune data pos).2 = 0
      · rw [if_pos hw] at h
        cases h
      · rw [if_neg hw] at h
        obtain ⟨g1, g2, g3, g4⟩ := ih _ s e h
        refine ⟨by omega, g2, g3, ?_⟩
        intro q hq1 hq2
        by_cases hq : q = pos
        · rw [hq]; omega
        · by_cases hq3 : q < pos + (decodeRune data pos).2
          · rw [clsRun_zero_of_runLen b64Cls b64Cls_printable data q
              (decodeRune_interior data pos q (by omega) hq3)]
            omega
          · exact g4 q (by omega) hq2

/-- The matches of `b64Pattern` from a search position before which no
character of the alphabet lies, or at which fewer than 20 follow: each starts
where a run of at least 20 characters of the alphabet starts, with no character
of the alphabet before it, and ends as `b64MatchEnd` says. -/
theorem allMatchesLoop_b64 (data : List Byte) :
    ∀ (fuel pos : Nat) (prev : Option Nat),
      (pos = 0 ∨ clsRun b64Cls data (pos - 1) = 0 ∨ clsRun b64Cls data pos < 20) →
      ∀ m ∈ b64Pattern.allMatchesLoop data fuel pos prev,
        20 ≤ clsRun b64Cls data m.1 ∧ m.2 = b64MatchEnd data m.1 ∧
        (m.1 = 0 ∨ clsRun b64Cls data (m.1 - 1) = 0) := by
  intro fuel
  induction fuel with
  | zero => intro pos prev _ m hm; simp [Re.allMatchesLoop] at hm
  | succ fuel ih =>
    intro pos prev hinv m hm
    rw [Re.allMatchesLoop] at hm
    by_cases hlen : data.length < pos
    · rw [if_pos hlen] at hm
      cases hm
    rw [if_neg hlen] at hm
    cases hfind : b64Pattern.find data pos with
    | none => rw [hfind] at hm; cases hm
    | some x =>
      obtain ⟨s, e⟩ := x
      rw [hfind] at hm
      dsimp only at hm
      obtain ⟨g1, g2, g3, g4⟩ := findFrom_b64_some data _ pos s e hfind
      obtain ⟨f1, f2, f3⟩ := b64MatchEnd_facts data s g2
      rw [← g3] at f1 f2 f3
      have hne : ¬ e = pos := by omega
      rw [if_neg hne] at hm
      rcases List.mem_cons.1 hm with rfl | hm
      · refine ⟨g2, g3, ?_⟩
        show s = 0 ∨ clsRun b64Cls data (s - 1) = 0
        by_cases hs0 : s = 0
        · exact Or.inl hs0
        · right
          by_cases hsp : s = pos
          · rcases hinv with h0 | h0 | h0
            · omega
            · rw [hsp]; exact h0
            · rw [hsp] at g2; omega
          · have hlt := g4 (s - 1) (by omega) (by omega)
            by_contra hc
            have hpos : 0 < clsRun b64Cls data (s - 1) := by omega
            have := clsRun_succ_of_pos b64Cls data (s - 1) hpos
            have e1 : s - 1 + 1 = s := by omega
            rw [e1] at this
            omega
      · exact ih e (some e) f3 m hm

/-- Every match of `b64Pattern` in a buffer. -/
theorem FindAllIndex_b64 (data : List Byte) :
    ∀ m ∈ b64Pattern.FindAllIndex data,
      20 ≤ clsRun b64Cls data m.1 ∧ m.2 = b64MatchEnd data m.1 ∧
      (m.1 = 0 ∨ clsRun b64Cls data (m.1 - 1) = 0) :=
  allMatchesLoop_b64 data _ 0 none (Or.inl rfl)

theorem eqRun_pos_iff (data : List Byte) (q : Nat) :
    0 < clsRun eqCls data q ↔ data.get? q = some 0x3D := by
  rw [clsRun_pos_iff]
  constructor
  · rintro ⟨hlt, hb⟩
    rw [List.get?_eq_get hlt]
    congr 1
    apply Fin.ext
    unfold eqCls at hb
    exact of_decide_eq_true hb
  · intro h
    rw [List.get?_eq_some] at h
    obtain ⟨hlt, hb⟩ := h
    refine ⟨hlt, ?_⟩
    rw [hb]
    decide

theorem B64Run_of_clsRun (data : List Byte) (o : Nat)
    (hleft : o = 0 ∨ clsRun b64Cls data (o - 1) = 0) (hpos : 0 < clsRun b64Cls data o) :
    B64Run data o (clsRun b64Cls data o) := by
  have hle := clsRun_le_sub b64Cls data o
  have hend := clsRun_add b64Cls data (clsRun b64Cls data o) o (le_refl _)
  obtain ⟨hlt, _⟩ := (clsRun_pos_iff b64Cls data o).1 hpos
  refine ⟨by omega, ?_, ?_, ?_⟩
  · intro i h1 h2
    have hadd := clsRun_add b64Cls data (i - o) o (by omega)
    have e : o + (i - o) = i := by omega
    rw [e] at hadd
    obtain ⟨hi, hp⟩ := (clsRun_pos_iff b64Cls data i).1 (by omega)
    exact ⟨_, List.get?_eq_get hi, hp⟩
  · rcases hleft with h | h
    · exact Or.inl h
    · by_cases h0 : o = 0
      · exact Or.inl h0
      · right
        have hlt' : o - 1 < data.length := by omega
        refine ⟨_, List.get?_eq_get hlt', ?_⟩
        cases hp : b64Cls (data.get ⟨o - 1, hlt'⟩).val with
        | false => rfl
        | true =>
          have := (clsRun_pos_iff b64Cls data (o - 1)).2 ⟨hlt', hp⟩
          omega
  · by_cases he : o + clsRun b64Cls data o = data.length
    · exact Or.inl he
    · right
      have hlt' : o + clsRun b64Cls data o < data.length := by omega
      refine ⟨_, List.get?_eq_get hlt', ?_⟩
      cases hp : b64Cls (data.get ⟨_, hlt'⟩).val with
      | false => rfl
      | true =>
        have := (clsRun_pos_iff b64Cls data _).2 ⟨hlt', hp⟩
        omega

theorem b64PadAt_iff (data : List Byte) (o : Nat) :
    b64PadAt data (o + 4 * (clsRun b64Cls data o / 4)) = true ↔
      B64PadFollows data o (clsRun b64Cls data o) := by
  have hrest := clsRun_add b64Cls data (4 * (clsRun b64Cls data o / 4)) o (by omega)
  have hend := clsRun_add b64Cls data (clsRun b64Cls data o) o (le_refl _)
  have e2 : clsRun b64Cls data o % 4 = 2 →
      o + 4 * (clsRun b64Cls data o / 4) + 2 = o + clsRun b64Cls data o := by omega
  have e3 : clsRun b64Cls data o % 4 = 3 →
      o + 4 * (clsRun b64Cls data o / 4) + 3 = o + clsRun b64Cls data o := by omega
  unfold b64PadAt B64PadFollows
  simp only [Bool.or_eq_true, Bool.and_eq_true, decide_eq_true_eq]
  rw [eqRun_pos_iff, eqRun_pos_iff]
  constructor
  · rintro (⟨⟨h1, h2⟩, h3⟩ | ⟨h1, h3⟩)
    · by_cases hr : clsRun b64Cls data o % 4 = 2
      · left
        have e4 : o + 4 * (clsRun b64Cls data o / 4) + 3 = o + clsRun b64Cls data o + 1 := by
          omega
        rw [e2 hr] at h2
        rw [e4] at h3
        exact ⟨hr, h2, h3⟩
      · exfalso
        have hr3 : clsRun b64Cls data o % 4 = 3 := by omega
        have hadd := clsRun_add b64Cls data 2 (o + 4 * (clsRun b64Cls data o / 4)) (by omega)
        have hp : 0 < clsRun b64Cls data (o + 4 * (clsRun b64Cls data o / 4) + 2) := by omega
        obtain ⟨hlt, hb⟩ := (clsRun_pos_iff b64Cls data _).1 hp
        rw [List.get?_eq_get hlt] at h2
        have hv := Option.some.inj h2
        rw [hv] at hb
        revert hb
        decide
    · right
      have hr3 : clsRun b64Cls data o % 4 = 3 := by omega
      rw [e3 hr3] at h3
      exact ⟨hr3, h3⟩
  · rintro (⟨hr, h2, h3⟩ | ⟨hr, h3⟩)
    · left
      have e4 : o + 4 * (clsRun b64Cls data o / 4) + 3 = o + clsRun b64Cls data o + 1 := by
        omega
      rw [e2 hr, e4]
      exact ⟨⟨by omega, h2⟩, h3⟩
    · right
      rw [e3 hr]
      exact ⟨by omega, h3⟩

theorem b64Padded_of_mod (raw : List Byte) (h : raw.length % 4 = 0) : b64Padded raw = raw := by
  unfold b64Padded
  rw [h]
  simp

/-- C28, amended: the regions that `base64dec.Extract` decodes are the matches
of `b64Pattern`.  Every one starts at the start of a maximal run of `l ≥ 20`
characters of the Base64 alphabet, so that the byte before it, when it exists,
is not a character of the alphabet.  When the run ends in an incomplete group
that `=` characters complete, the region is the whole run and that padding;
otherwise it is the first `4⌊l/4⌋` characters of the run, and the `l mod 4`
characters left follow it.  Its length is a multiple of 4, so padding it with
`=` to a multiple of 4 adds nothing. -/
theorem b64_regions (data : List Byte) (minLen : Int) (sections : List SectionInfo) :
    base64dec.Extract data minLen sections =
      some ((b64Pattern.FindAllIndex data).filterMap (b64Keep data minLen sections)) ∧
    ∀ m ∈ b64Pattern.FindAllIndex data, ∃ l : Nat, B64Run data m.1 l ∧ 20 ≤ l ∧
      ((B64PadFollows data m.1 l ∧ m.2 = m.1 + l + (4 - l % 4)) ∨
        (¬ B64PadFollows data m.1 l ∧ m.2 = m.1 + 4 * (l / 4))) ∧
      (m.2 - m.1) % 4 = 0 ∧
      b64Padded ((data.drop m.1).take (m.2 - m.1)) = (data.drop m.1).take (m.2 - m.1) := by
  refine ⟨b64Extract_eq data minLen sections, ?_⟩
  intro m hm
  obtain ⟨h20, he, hleft⟩ := FindAllIndex_b64 data m hm
  obtain ⟨hb1, hb2⟩ := FindAllIndex_bound data b64Pattern m hm
  obtain ⟨_, f2, _⟩ := b64MatchEnd_facts data m.1 h20
  rw [← he] at f2
  refine ⟨clsRun b64Cls data m.1, B64Run_of_clsRun data m.1 hleft (by omega), h20, ?_, f2, ?_⟩
  · by_cases hp : B64PadFollows data m.1 (clsRun b64Cls data m.1)
    · left
      refine ⟨hp, ?_⟩
      have hmod : clsRun b64Cls data m.1 % 4 = 2 ∨ clsRun b64Cls data m.1 % 4 = 3 := by
        rcases hp with ⟨h, _⟩ | ⟨h, _⟩
        · exact Or.inl h
        · exact Or.inr h
      rw [he]
      unfold b64MatchEnd
      dsimp only
      rw [if_pos ((b64PadAt_iff data m.1).2 hp)]
      omega
    · right
      refine ⟨hp, ?_⟩
      rw [he]
      unfold b64MatchEnd
      dsimp only
      rw [if_neg (fun h => hp ((b64PadAt_iff data m.1).1 h))]
  · apply b64Padded_of_mod
    rw [length_take_drop data m.1 m.2 hb1 hb2]
    exact f2

set_option maxRecDepth 100000 in
/-- C28, an instance: the 20 characters that encode `hello world 123`. -/
theorem b64_regions_witness :
    ((0, 20) : Nat × Nat) ∈ b64Pattern.FindAllIndex (str "aGVsbG8gd29ybGQgMTIz") ∧
    ∃ l : Nat, B64Run (str "aGVsbG8gd29ybGQgMTIz") 0 l ∧ 20 ≤ l ∧
      ((B64PadFollows (str "aGVsbG8gd29ybGQgMTIz") 0 l ∧ 20 = 0 + l + (4 - l % 4)) ∨
        (¬ B64PadFollows (str "aGVsbG8gd29ybGQgMTIz") 0 l ∧ 20 = 0 + 4 * (l / 4))) ∧
      (20 - 0) % 4 = 0 ∧
      b64Padded (((str "aGVsbG8gd29ybGQgMTIz").drop 0).take (20 - 0))
        = ((str "aGVsbG8gd29ybGQgMTIz").drop 0).take (20 - 0) :=
  ⟨by decide, (b64_regions (str "aGVsbG8gd29ybGQgMTIz") 4 []).2 (0, 20) (by decide)⟩

set_option maxRecDepth 100000 in
/-- C28, counterexample: in the 21 bytes `aGVsbG8gd29ybGQgMTIzA` the only region
is the first 20 bytes, it decodes to the Candidate `hello world 123`, and the
byte right after it is the character `A` of the alphabet. -/
theorem b64_regions_counterexample :
    b64Pattern.FindAllIndex (str "aGVsbG8gd29ybGQgMTIzA") = [(0, 20)] ∧
    (base64dec.Extract (str "aGVsbG8gd29ybGQgMTIzA") 4 []).map
      (fun res => res.map (fun r => r.Value)) = some [str "hello world 123"] ∧
    (str "aGVsbG8gd29ybGQgMTIzA").get? 20 = some 0x41 ∧ b64Cls 0x41 = true := by
  refine ⟨by decide, ?_, by decide, by decide⟩
  rw [b64Extract_eq]
  decide

/-! ## The Base64 round trip -/

theorem b64Char_facts : ∀ n : Fin 64,
    b64Val (b64Char n.val) = some n.val ∧ b64Cls (b64Char n.val).val = true ∧
      (b64Char n.val).val ≠ 0x3D := by
  decide

theorem b64Char_val (n : Nat) (h : n < 64) : b64Val (b64Char n) = some n :=
  (b64Char_facts ⟨n, h⟩).1

theorem b64Char_cls (n : Nat) (h : n < 64) : b64Cls (b64Char n).val = true :=
  (b64Char_facts ⟨n, h⟩).2.1

theorem b64Char_ne (n : Nat) (h : n < 64) : (b64Char n).val ≠ 0x3D :=
  (b64Char_facts ⟨n, h⟩).2.2

theorem byte_of_val (b : Byte) (n : Nat) (h : n % 256 = b.val) : (Fin.ofNat n : Byte) = b :=
  Fin.ext h

/-- Decoding the encoding of a text gives the text. -/
theorem b64Decode_encode : ∀ (n : Nat) (T : List Byte), T.length ≤ n →
    b64Decode (b64Encode T) = some T := by
  intro n
  induction n using Nat.strong_induction_on with
  | _ n ih =>
    intro T hT
    have h61 : ((0x3D : Byte).val = 0x3D) := rfl
    match T, hT with
    | [], _ => rfl
    | [a], _ =>
      have ha := a.isLt
      rw [b64Encode, b64Decode, b64Char_val _ (by omega), b64Char_val _ (by omega)]
      simp only [Option.bind_eq_bind, Option.some_bind]
      rw [if_pos h61, if_pos ⟨h61, trivial⟩]
      congr 2
      exact byte_of_val a _ (by omega)
    | [a, b], _ =>
      have ha := a.isLt
      have hb := b.isLt
      rw [b64Encode, b64Decode, b64Char_val _ (by omega), b64Char_val _ (by omega)]
      simp only [Option.bind_eq_bind, Option.some_bind]
      rw [if_neg (b64Char_ne _ (by omega)), b64Char_val _ (by omega)]
      simp only [Option.bind_eq_bind, Option.some_bind]
      rw [if_pos h61, if_pos trivial]
      congr 2
      · exact byte_of_val a _ (by omega)
      · congr 1
        exact byte_of_val b _ (by omega)
    | a :: b :: c :: rest, hT =>
      have ha := a.isLt
      have hb := b.isLt
      have hc := c.isLt
      have hl : rest.length + 3 ≤ n := hT
      have := ih rest.length (by omega) rest (le_refl _)
      rw [b64Encode, b64Decode, b64Char_val _ (by omega), b64Char_val _ (by omega)]
      simp only [Option.bind_eq_bind, Option.some_bind]
      rw [if_neg (b64Char_ne _ (by omega)), b64Char_val _ (by omega)]
      simp only [Option.bind_eq_bind, Option.some_bind]
      rw [if_neg (b64Char_ne _ (by omega)), b64Char_val _ (by omega)]
      simp only [Option.bind_eq_bind, Option.some_bind]
      rw [this]
      simp only [Option.bind_eq_bind, Option.some_bind]
      congr 2
      · exact byte_of_val a _ (by omega)
      · congr 1
        · exact byte_of_val b _ (by omega)
        · congr 1
          exact byte_of_val c _ (by omega)

/-- The encoding of a text: characters of the alphabet, four for every three
bytes and two or three for the one or two bytes left, and then `=` up to a
multiple of four. -/
theorem b64Encode_shape : ∀ (n : Nat) (T : List Byte), T.length ≤ n →
    ∃ (A : List Byte) (k : Nat), b64Encode T = A ++ List.replicate k 0x3D ∧
      (∀ x ∈ A, b64Cls x.val = true) ∧
      ((T.length % 3 = 0 ∧ k = 0 ∧ A.length = 4 * (T.length / 3)) ∨
        (T.length % 3 = 1 ∧ k = 2 ∧ A.length = 4 * (T.length / 3) + 2) ∨
        (T.length % 3 = 2 ∧ k = 1 ∧ A.length = 4 * (T.length / 3) + 3)) := by
  intro n
  induction n using Nat.strong_induction_on with
  | _ n ih =>
    intro T hT
    match T, hT with
    | [], _ => exact ⟨[], 0, rfl, fun _ h => (by cases h), Or.inl ⟨rfl, rfl, rfl⟩⟩
    | [a], _ =>
      have ha := a.isLt
      refine ⟨[b64Char (a.val / 4), b64Char (a.val % 4 * 16)], 2, rfl, ?_,
        Or.inr (Or.inl ⟨rfl, rfl, by simp⟩)⟩
      intro x hx
      simp only [List.mem_cons, List.mem_singleton, List.not_mem_nil, or_false] at hx
      rcases hx with rfl | rfl
      · exact b64Char_cls _ (by omega)
      · exact b64Char_cls _ (by omega)
    | [a, b], _ =>
      have ha := a.isLt
      have hb := b.isLt
      refine ⟨[b64Char (a.val / 4), b64Char (a.val % 4 * 16 + b.val / 16),
        b64Char (b.val % 16 * 4)], 1, rfl, ?_, Or.inr (Or.inr ⟨rfl, rfl, by simp⟩)⟩
      intro x hx
      simp only [List.mem_cons, List.mem_singleton, List.not_mem_nil, or_false] at hx
      rcases hx with rfl | rfl | rfl
      · exact b64Char_cls _ (by omega)
      · exact b64Char_cls _ (by omega)
      · exact b64Char_cls _ (by omega)
    | a :: b :: c :: rest, hT =>
      have ha := a.isLt
      have hb := b.isLt
      have hc := c.isLt
      have hl : rest.length + 3 ≤ n := hT
      obtain ⟨A, k, hE, hA, hshape⟩ := ih rest.length (by omega) rest (le_refl _)
      refine ⟨b64Char (a.val / 4) :: b64Char (a.val % 4 * 16 + b.val / 16) ::
        b64Char (b.val % 16 * 4 + c.val / 64) :: b64Char (c.val % 64) :: A, k, ?_, ?_, ?_⟩
      · rw [b64Encode, hE]
        rfl
      · intro x hx
        simp only [List.mem_cons] at hx
        rcases hx with rfl | rfl | rfl | rfl | hx
        · exact b64Char_cls _ (by omega)
        · exact b64Char_cls _ (by omega)
        · exact b64Char_cls _ (by omega)
        · exact b64Char_cls _ (by omega)
        · exact hA x hx
      · have e1 : (a :: b :: c :: rest).length = rest.length + 3 := rfl
        rw [e1]
        simp only [List.length_cons]
        omega

theorem clsRun_prefix (A : List Byte) (k : Nat) (hA : ∀ x ∈ A, b64Cls x.val = true) :
    clsRun b64Cls (A ++ List.replicate k 0x3D) 0 = A.length := by
  unfold clsRun
  rw [List.drop_zero, List.takeWhile_append_of_pos hA]
  cases k with
  | zero => simp
  | succ k =>
    rw [List.replicate_succ, List.takeWhile_cons_of_neg (by decide)]
    simp

theorem find_b64_at (data : List Byte) (pos : Nat) (h : 20 ≤ clsRun b64Cls data pos) :
    b64Pattern.find data pos = some (pos, b64MatchEnd data pos) := by
  unfold Re.find
  rw [Re.findFrom, b64_matchAt, if_pos h]

theorem find_b64_end (data : List Byte) : b64Pattern.find data data.length = none := by
  unfold Re.find
  rw [Nat.sub_self, Re.findFrom, b64_matchAt, clsRun_of_ge b64Cls data _ (le_refl _),
    if_neg (by omega)]
  dsimp only
  rw [decodeRune_of_ge data _ (le_refl _), if_pos rfl]

/-- The only match in a buffer that is one run of the alphabet with its padding
and has the match of that run end at its end. -/
theorem FindAllIndex_b64_whole (data : List Byte) (h20 : 20 ≤ clsRun b64Cls data 0)
    (hend : b64MatchEnd data 0 = data.length) :
    b64Pattern.FindAllIndex data = [(0, data.length)] := by
  have hlen : 20 ≤ data.length := by
    have := clsRun_le_sub b64Cls data 0
    omega
  unfold Re.FindAllIndex
  rw [Re.allMatchesLoop, if_neg (by omega), find_b64_at data 0 h20, hend]
  dsimp only
  rw [if_neg (by omega), Re.allMatchesLoop, if_neg (by omega), find_b64_end]

theorem get?_after (A : List Byte) (k i : Nat) (hi : i < k) :
    (A ++ List.replicate k (0x3D : Byte)).get? (A.length + i) = some 0x3D := by
  rw [List.get?_eq_getElem?, List.getElem?_append_right (by omega), Nat.add_sub_cancel_left,
    List.getElem?_replicate, if_pos hi]

theorem get?_past (A : List Byte) (k i : Nat) (hi : k ≤ i) :
    (A ++ List.replicate k (0x3D : Byte)).get? (A.length + i) = none := by
  rw [List.get?_eq_none]
  rw [List.length_append, List.length_replicate]
  omega

/-- The scan of the encoding of a text of at least 15 bytes finds one region,
the whole text. -/
theorem FindAllIndex_b64Encode (T : List Byte) (h15 : 15 ≤ T.length) :
    b64Pattern.FindAllIndex (b64Encode T) = [(0, (b64Encode T).length)] ∧
      (b64Encode T).length % 4 = 0 := by
  obtain ⟨A, k, hE, hA, hshape⟩ := b64Encode_shape T.length T (le_refl _)
  have hrun := clsRun_prefix A k hA
  have hlen : (A ++ List.replicate k (0x3D : Byte)).length = A.length + k := by
    rw [List.length_append, List.length_replicate]
  rw [hE]
  have h20 : 20 ≤ clsRun b64Cls (A ++ List.replicate k 0x3D) 0 := by
    rw [hrun]
    omega
  have hpad := b64PadAt_iff (A ++ List.replicate k 0x3D) 0
  rw [hrun] at hpad
  have hend : b64MatchEnd (A ++ List.replicate k 0x3D) 0
      = (A ++ List.replicate k (0x3D : Byte)).length := by
    unfold b64MatchEnd
    dsimp only
    rw [hrun, hlen]
    rcases hshape with ⟨_, hk, ha⟩ | ⟨_, hk, ha⟩ | ⟨_, hk, ha⟩
    · have hno : ¬ B64PadFollows (A ++ List.replicate k 0x3D) 0 A.length := by
        rintro (⟨h, _⟩ | ⟨h, _⟩) <;> omega
      rw [if_neg (fun h => hno (hpad.1 h))]
      omega
    · have hyes : B64PadFollows (A ++ List.replicate k 0x3D) 0 A.length := by
        left
        refine ⟨by omega, ?_, ?_⟩
        · have := get?_after A k 0 (by omega)
          rw [Nat.zero_add]
          exact this
        · have := get?_after A k 1 (by omega)
          rw [Nat.zero_add]
          exact this
      rw [if_pos (hpad.2 hyes)]
      omega
    · have hyes : B64PadFollows (A ++ List.replicate k 0x3D) 0 A.length := by
        right
        refine ⟨by omega, ?_⟩
        have := get?_after A k 0 (by omega)
        rw [Nat.zero_add]
        exact this
      rw [if_pos (hpad.2 hyes)]
      omega
  refine ⟨FindAllIndex_b64_whole _ h20 hend, ?_⟩
  rw [hlen]
  omega

theorem printableCount_all (T : List Byte)
    (h : ∀ x ∈ T, 0x20 ≤ x.val ∧ x.val ≤ 0x7e) : printableCount T = T.length := by
  unfold printableCount
  rw [List.filter_eq_self.2]
  intro x hx
  have := h x hx
  simp only [decide_eq_true_eq]
  left
  exact this

/-- The Base64 recovery on the encoding of a text of at least 15 bytes that is
accepted. -/
theorem b64Extract_encode (T : List Byte) (minLen : Int) (sections : List SectionInfo)
    (h15 : 15 ≤ T.length) (hacc : b64Accepts minLen T) :
    base64dec.Extract (b64Encode T) minLen sections = some [b64CandidateOf sections 0 T] := by
  obtain ⟨hM, hmod⟩ := FindAllIndex_b64Encode T h15
  rw [b64Extract_eq, hM]
  have hseg : ((b64Encode T).drop 0).take ((b64Encode T).length - 0) = b64Encode T := by
    rw [List.drop_zero, Nat.sub_zero, List.take_length]
  have hk : b64Keep (b64Encode T) minLen sections (0, (b64Encode T).length)
      = some (b64CandidateOf sections 0 T) := by
    unfold b64Keep
    dsimp only
    rw [hseg, b64Padded_of_mod _ hmod, b64Decode_encode T.length T (le_refl _)]
    exact if_pos hacc
  rw [List.filterMap_cons_some hk]
  rfl

/-- C26, amended: for every text `T` of printable ASCII characters that has at
least 15 bytes and at least as many as the minimum threshold,
`base64dec.Extract` over the standard Base64 encoding of `T` returns exactly
one Candidate, with value `T`, source `base64` and offset 0. -/
theorem b64_round_trip (T : List Byte) (minLen : Int) (sections : List SectionInfo)
    (h15 : 15 ≤ T.length) (hmin : minLen ≤ (T.length : Int))
    (hT : ∀ x ∈ T, 0x20 ≤ x.val ∧ x.val ≤ 0x7e) :
    ∃ r : StringResult, base64dec.Extract (b64Encode T) minLen sections = some [r] ∧
      r.Value = T ∧ r.Source = "base64" ∧ r.Offset = 0 :=
  ⟨b64CandidateOf sections 0 T,
    b64Extract_encode T minLen sections h15
      ⟨hmin, by rw [printableCount_all T hT]; omega⟩,
    rfl, rfl, rfl⟩

set_option maxRecDepth 100000 in
/-- C26, an instance: the text `hello world 123` with the threshold 4. -/
theorem b64_round_trip_witness :
    b64Encode (str "hello world 123") = str "aGVsbG8gd29ybGQgMTIz" ∧
    ∃ r : StringResult,
      base64dec.Extract (b64Encode (str "hello world 123")) 4 [] = some [r] ∧
      r.Value = str "hello world 123" ∧ r.Source = "base64" ∧ r.Offset = 0 :=
  ⟨by decide, b64_round_trip (str "hello world 123") 4 [] (by decide) (by decide) (by decide)⟩

set_option maxRecDepth 100000 in
/-- C26, counterexample: the text `hello world` has 11 printable ASCII
characters, more than the threshold 4; its encoding `aGVsbG8gd29ybGQ=` has 15
characters of the alphabet, too few for `b64Pattern`, and `base64dec.Extract`
returns no Candidate. -/
theorem b64_round_trip_counterexample :
    b64Encode (str "hello world") = str "aGVsbG8gd29ybGQ=" ∧
    (∀ x ∈ str "hello world", 0x20 ≤ x.val ∧ x.val ≤ 0x7e) ∧
    (4 : Int) ≤ ((str "hello world").length : Int) ∧
    base64dec.Extract (b64Encode (str "hello world")) 4 [] = some [] := by
  refine ⟨by decide, by decide, by decide, ?_⟩
  have hM : b64Pattern.FindAllIndex (b64Encode (str "hello world")) = [] := by decide
  rw [b64Extract_eq, hM]
  rfl

/-! ## The threat score grows with the list -/

theorem bumpGroup_wsum (g : String) : ∀ (m : List (String × Nat)),
    ((bumpGroup g m).map (fun e => e.2 * weightOf e.1)).sum
      = (m.map (fun e => e.2 * weightOf e.1)).sum + weightOf g := by
  intro m
  induction m with
  | nil =>
    rw [bumpGroup]
    simp
  | cons e rest ih =>
    obtain ⟨k, n⟩ := e
    rw [bumpGroup]
    by_cases hk : k = g
    · rw [if_pos hk]
      simp only [List.map_cons, List.sum_cons]
      rw [hk, Nat.add_mul]
      omega
    · rw [if_neg hk]
      simp only [List.map_cons, List.sum_cons]
      rw [ih]
      omega

theorem foldl_bumpGroup_wsum (results : List Candidate) : ∀ (m : List (String × Nat)),
    ((results.foldl (fun m r =>
        if r.SuspiciousGroup ≠ "" then bumpGroup r.SuspiciousGroup m else m) m).map
      (fun e => e.2 * weightOf e.1)).sum
      = (m.map (fun e => e.2 * weightOf e.1)).sum +
        (results.map (fun r =>
          if r.SuspiciousGroup ≠ "" then weightOf r.SuspiciousGroup else 0)).sum := by
  induction results with
  | nil => intro m; simp
  | cons r rest ih =>
    intro m
    rw [List.foldl_cons, ih, List.map_cons, List.sum_cons]
    by_cases hg : r.SuspiciousGroup ≠ ""
    · rw [if_pos hg, if_pos hg, bumpGroup_wsum]
      omega
    · rw [if_neg hg, if_neg hg]
      omega

/-- The part of the score that comes from the API groups, Candidate by
Candidate. -/
theorem apiCounts_wsum (results : List Candidate) :
    ((apiCounts results).map (fun e => e.2 * weightOf e.1)).sum
      = (results.map (fun r =>
          if r.SuspiciousGroup ≠ "" then weightOf r.SuspiciousGroup else 0)).sum := by
  unfold apiCounts
  rw [foldl_bumpGroup_wsum]
  simp

theorem AssessIn_Score_perm (order : List (String × Nat)) (results : List Candidate)
    (ho : order.Perm (apiCounts results)) :
    (AssessIn order results).Score =
      (results.map (fun r =>
        if r.SuspiciousGroup ≠ "" then weightOf r.SuspiciousGroup else 0)).sum +
      2 * results.countP (fun r => decide (5 ≤ r.Entropy)) +
      3 * results.countP hasCredential +
      4 * results.countP (fun r => r.Source = "xor") +
      results.countP (fun r => r.Source = "base64") := by
  rw [AssessIn_Score, (ho.map (fun e => e.2 * weightOf e.1)).sum_eq, apiCounts_wsum]

theorem threatRank_Level (order : List (String × Nat)) (results : List Candidate) :
    threatRank (AssessIn order results).Level =
      if (AssessIn order results).Score ≥ 70 then 3
      else if (AssessIn order results).Score ≥ 30 then 2
      else if (AssessIn order results).Score ≥ 10 then 1 else 0 := by
  rw [AssessIn_Level]
  split_ifs <;> decide

/-- C31: whatever the orders of the traversals, the score that `threat.Assess`
returns for a list with one more Candidate at its end is at least the score
for the list, and the level does not go down in the order
LOW < MEDIUM < HIGH < CRITICAL; for the empty list the score is 0, the level
LOW and the breakdown empty. -/
theorem Assess_monotone (rs : List Candidate) (r : Candidate)
    (o1 o2 : List (String × Nat)) (h1 : o1.Perm (apiCounts rs))
    (h2 : o2.Perm (apiCounts (rs ++ [r]))) :
    (AssessIn o1 rs).Score ≤ (AssessIn o2 (rs ++ [r])).Score ∧
    threatRank (AssessIn o1 rs).Level ≤ threatRank (AssessIn o2 (rs ++ [r])).Level ∧
    (Assess []).Score = 0 ∧ (Assess []).Level = "LOW" ∧ (Assess []).Details = [] := by
  have hs : (AssessIn o1 rs).Score ≤ (AssessIn o2 (rs ++ [r])).Score := by
    rw [AssessIn_Score_perm o1 rs h1, AssessIn_Score_perm o2 (rs ++ [r]) h2]
    simp only [List.map_append, List.sum_append, List.countP_append]
    omega
  refine ⟨hs, ?_, rfl, rfl, rfl⟩
  rw [threatRank_Level, threatRank_Level]
  split_ifs <;> omega

/-- C31, an instance: one Candidate of the group `injection` after nine of
them takes the score from 45 to 50. -/
theorem Assess_monotone_witness :
    (Assess (List.replicate 9 injectionOnly)).Score = 45 ∧
    (Assess (List.replicate 9 injectionOnly ++ [injectionOnly])).Score = 50 ∧
    (AssessIn (apiCounts (List.replicate 9 injectionOnly))
        (List.replicate 9 injectionOnly)).Score ≤
      (AssessIn (apiCounts (List.replicate 9 injectionOnly ++ [injectionOnly]))
        (List.replicate 9 injectionOnly ++ [injectionOnly])).Score :=
  ⟨by decide, by decide,
    (Assess_monotone (List.replicate 9 injectionOnly) injectionOnly _ _
      (List.Perm.refl _) (List.Perm.refl _)).1⟩
/-! ## The breakdown of the threat score -/

theorem setDetail_mem (name : String) (d : ThreatDetails) :
    ∀ (l : List (String × ThreatDetails)) (e : String × ThreatDetails),
      e ∈ setDetail name d l → e ∈ l ∨ e = (name, d) := by
  intro l
  induction l with
  | nil =>
    intro e he
    rw [setDetail] at he
    exact Or.inr (List.mem_singleton.mp he)
  | cons x rest ih =>
    obtain ⟨k, v⟩ := x
    intro e he
    rw [setDetail] at he
    by_cases hk : k = name
    · rw [if_pos hk] at he
      rcases List.mem_cons.mp he with h | h
      · exact Or.inr (by rw [h, hk])
      · exact Or.inl (List.mem_cons_of_mem _ h)
    · rw [if_neg hk] at he
      rcases List.mem_cons.mp he with h | h
      · exact Or.inl (by rw [h]; exact List.mem_cons_self _ _)
      · rcases ih e h with h2 | h2
        · exact Or.inl (List.mem_cons_of_mem _ h2)
        · exact Or.inr h2

theorem setDetail_of_not_mem (name : String) (d : ThreatDetails) :
    ∀ (l : List (String × ThreatDetails)), name ∉ l.map (fun e => e.1) →
      setDetail name d l = l ++ [(name, d)] := by
  intro l
  induction l with
  | nil => intro _; rfl
  | cons x rest ih =>
    obtain ⟨k, v⟩ := x
    intro hn
    rw [List.map_cons, List.mem_cons, not_or] at hn
    rw [setDetail, if_neg (fun h => hn.1 h.symm), ih hn.2]
    rfl

/-- The entries that the loop over `apiCounts` files, when their keys are
distinct and new. -/
theorem apiLoop_details : ∀ (order : List (String × Nat))
    (st : Nat × List (String × ThreatDetails)),
    (order.map (fun e => e.1)).Nodup →
    (∀ k ∈ order.map (fun e => e.1), k ∉ st.2.map (fun e => e.1)) →
    (apiLoop order st).2 = st.2 ++ order.map (fun e =>
      (e.1, { Count := e.2, Weight := weightOf e.1, Score := e.2 * weightOf e.1 })) := by
  intro order
  induction order with
  | nil => intro st _ _; simp [apiLoop]
  | cons e rest ih =>
    obtain ⟨g, c⟩ := e
    intro st hnd hnew
    rw [List.map_cons, List.nodup_cons] at hnd
    have hg : g ∉ st.2.map (fun e => e.1) := hnew g (by simp)
    rw [apiLoop, ih _ hnd.2]
    · show setDetail g _ st.2 ++ _ = _
      rw [setDetail_of_not_mem g _ st.2 hg]
      simp
    · intro k hk
      show k ∉ (setDetail g _ st.2).map (fun e => e.1)
      rw [setDetail_of_not_mem g _ st.2 hg]
      intro hmem
      rw [List.map_append, List.mem_append] at hmem
      rcases hmem with h | h
      · exact hnew k (List.mem_cons_of_mem _ hk) h
      · have hkg : k = g := by simpa using h
        exact hnd.1 (hkg ▸ hk)

theorem apiLoop_good : ∀ (order : List (String × Nat))
    (st : Nat × List (String × ThreatDetails)),
    (∀ e ∈ order, 1 ≤ e.2) →
    (∀ e ∈ st.2, 1 ≤ e.2.Count ∧ e.2.Score = e.2.Count * e.2.Weight) →
    ∀ e ∈ (apiLoop order st).2, 1 ≤ e.2.Count ∧ e.2.Score = e.2.Count * e.2.Weight := by
  intro order
  induction order with
  | nil => intro st _ h; simpa [apiLoop] using h
  | cons x rest ih =>
    obtain ⟨g, c⟩ := x
    intro st hpos hst
    rw [apiLoop]
    refine ih _ (fun e he => hpos e (List.mem_cons_of_mem _ he)) ?_
    intro e he
    rcases setDetail_mem _ _ _ _ he with h | h
    · exact hst e h
    · rw [h]
      exact ⟨hpos (g, c) (List.mem_cons_self _ _), rfl⟩

/-- One of the four indicator blocks keeps the entries well formed. -/
theorem indicator_good (c x w s : Nat) (name : String)
    (st : Nat × List (String × ThreatDetails)) (hs : s = c * w)
    (hst : ∀ e ∈ st.2, 1 ≤ e.2.Count ∧ e.2.Score = e.2.Count * e.2.Weight) :
    ∀ e ∈ (if c > 0 then
        (st.1 + x, setDetail name { Count := c, Weight := w, Score := s } st.2)
      else st).2, 1 ≤ e.2.Count ∧ e.2.Score = e.2.Count * e.2.Weight := by
  intro e he
  by_cases hc : c > 0
  · rw [if_pos hc] at he
    rcases setDetail_mem _ _ _ _ he with h | h
    · exact hst e h
    · rw [h]
      exact ⟨hc, hs⟩
  · rw [if_neg hc] at he
    exact hst e he

/-- One of the four indicator blocks keeps the score equal to the sum of the
entries, when its key is new. -/
theorem indicator_sum (c w s : Nat) (name : String) (K : List String)
    (st : Nat × List (String × ThreatDetails)) (hn : name ∉ K)
    (hst : st.1 = (st.2.map (fun e => e.2.Score)).sum ∧ ∀ k ∈ st.2.map (fun e => e.1), k ∈ K) :
    (if c > 0 then
        (st.1 + s, setDetail name { Count := c, Weight := w, Score := s } st.2)
      else st).1 =
      ((if c > 0 then
        (st.1 + s, setDetail name { Count := c, Weight := w, Score := s } st.2)
      else st).2.map (fun e => e.2.Score)).sum ∧
    ∀ k ∈ (if c > 0 then
        (st.1 + s, setDetail name { Count := c, Weight := w, Score := s } st.2)
      else st).2.map (fun e => e.1), k ∈ name :: K := by
  by_cases hc : c > 0
  · rw [if_pos hc]
    have hnew : name ∉ st.2.map (fun e => e.1) := fun h => hn (hst.2 name h)
    show st.1 + s = ((setDetail name _ st.2).map (fun e => e.2.Score)).sum ∧
      ∀ k ∈ (setDetail name _ st.2).map (fun e => e.1), k ∈ name :: K
    rw [setDetail_of_not_mem name _ st.2 hnew]
    refine ⟨?_, ?_⟩
    · rw [List.map_append, List.sum_append, ← hst.1]
      simp
    · intro k hk
      rw [List.map_append, List.mem_append] at hk
      rcases hk with h | h
      · exact List.mem_cons_of_mem _ (hst.2 k h)
      · have hkn : k = name := by simpa using h
        rw [hkn]
        exact List.mem_cons_self _ _
  · rw [if_neg hc]
    exact ⟨hst.1, fun k hk => List.mem_cons_of_mem _ (hst.2 k hk)⟩

/-- C34, amended: every entry of the breakdown that `threat.Assess` returns has
a count of at least 1 and a score equal to its count times its weight,
whatever the names of the API groups; the total score is the sum of the
scores of the entries when no Candidate has an API group named like the key
of one of the four other indicators. -/
theorem Assess_breakdown (order : List (String × Nat)) (results : List Candidate)
    (ho : order.Perm (apiCounts results)) :
    (∀ e ∈ (AssessIn order results).Details,
      1 ≤ e.2.Count ∧ e.2.Score = e.2.Count * e.2.Weight) ∧
    ((∀ r ∈ results, r.SuspiciousGroup ∉ indicatorKeys) →
      (AssessIn order results).Score =
        ((AssessIn order results).Details.map (fun e => e.2.Score)).sum) := by
  have hspec := apiCounts_spec results
  have hpos : ∀ e ∈ order, 1 ≤ e.2 := by
    intro e he
    exact ((hspec.2 e.1 e.2).mp (ho.mem_iff.mp he)).2.1
  have hnd : (order.map (fun e => e.1)).Nodup :=
    (ho.map (fun e => e.1)).nodup_iff.mpr hspec.1
  refine ⟨?_, ?_⟩
  · have h0 := apiLoop_good order (0, []) hpos (fun e he => by cases he)
    exact indicator_good _ _ 1 _ "base64_decoded" _ (Nat.mul_one _).symm
      (indicator_good _ _ 4 _ "xor_obfuscated" _ rfl
        (indicator_good _ _ 3 _ "credentials" _ rfl
          (indicator_good _ _ 2 _ "high_entropy_strings" _ rfl h0)))
  · intro hnames
    have hkeys : ∀ k ∈ indicatorKeys, k ∉ order.map (fun e => e.1) := by
      intro k hk hmem
      obtain ⟨e, he, hek⟩ := List.mem_map.mp hmem
      have hc := (hspec.2 e.1 e.2).mp (ho.mem_iff.mp he)
      have hcnt : 0 < results.countP (fun r => decide (r.SuspiciousGroup = e.1)) := by
        rw [← hc.2.2]; exact hc.2.1
      obtain ⟨r, hr, hrg⟩ := List.countP_pos_iff.mp hcnt
      have hrg2 : r.SuspiciousGroup = e.1 := by simpa using hrg
      exact hnames r hr (by rw [hrg2, hek]; exact hk)
    have hd := apiLoop_details order (0, []) hnd (fun k _ h => by cases h)
    have hsc := apiLoop_score order (0, [])
    have h0 : (apiLoop order (0, [])).1 =
          ((apiLoop order (0, [])).2.map (fun e => e.2.Score)).sum ∧
        ∀ k ∈ (apiLoop order (0, [])).2.map (fun e => e.1), k ∈ order.map (fun e => e.1) := by
      rw [hd, hsc]
      refine ⟨by simp [Function.comp_def], ?_⟩
      intro k hk
      simpa [Function.comp_def] using hk
    have h1 := indicator_sum (results.countP (fun r => decide (5 ≤ r.Entropy))) 2
      (results.countP (fun r => decide (5 ≤ r.Entropy)) * 2) "high_entropy_strings" _ _
      (hkeys _ (by decide)) h0
    have h2 := indicator_sum (results.countP hasCredential) 3
      (results.countP hasCredential * 3) "credentials" _ _
      (by
        intro h
        rcases List.mem_cons.mp h with h | h
        · exact absurd h (by decide)
        · exact hkeys _ (by decide) h) h1
    have h3 := indicator_sum (results.countP (fun r => r.Source = "xor")) 4
      (results.countP (fun r => r.Source = "xor") * 4) "xor_obfuscated" _ _
      (by
        intro h
        rcases List.mem_cons.mp h with h | h
        · exact absurd h (by decide)
        · rcases List.mem_cons.mp h with h | h
          · exact absurd h (by decide)
          · exact hkeys _ (by decide) h) h2
    have h4 := indicator_sum (results.countP (fun r => r.Source = "base64")) 1
      (results.countP (fun r => r.Source = "base64")) "base64_decoded" _ _
      (by
        intro h
        rcases List.mem_cons.mp h with h | h
        · exact absurd h (by decide)
        · rcases List.mem_cons.mp h with h | h
          · exact absurd h (by decide)
          · rcases List.mem_cons.mp h with h | h
            · exact absurd h (by decide)
            · exact hkeys _ (by decide) h) h3
    exact h4.1

/-- C34, an instance: for nine Candidates of the group `injection` the one
entry of the breakdown has count 9, weight 5 and score 45, which is the
total. -/
theorem Assess_breakdown_witness :
    (Assess (List.replicate 9 injectionOnly)).Details =
      [("injection", { Count := 9, Weight := 5, Score := 45 })] ∧
    (Assess (List.replicate 9 injectionOnly)).Score = 45 ∧
    (∀ e ∈ (AssessIn (apiCounts (List.replicate 9 injectionOnly))
        (List.replicate 9 injectionOnly)).Details,
      1 ≤ e.2.Count ∧ e.2.Score = e.2.Count * e.2.Weight) :=
  ⟨by decide, by decide,
    (Assess_breakdown (apiCounts (List.replicate 9 injectionOnly))
      (List.replicate 9 injectionOnly) (List.Perm.refl _)).1⟩

/-- C34 as stated fails: for one Candidate of the XOR scan whose API group is
named `xor_obfuscated` the score is 5, and the breakdown has the single entry
of the XOR indicator, of score 4, the entry of the group having been
overwritten. -/
theorem Assess_breakdown_counterexample :
    (Assess [xorNamed]).Score = 5 ∧
    (Assess [xorNamed]).Details =
      [("xor_obfuscated", { Count := 1, Weight := 4, Score := 4 })] ∧
    ((Assess [xorNamed]).Details.map (fun e => e.2.Score)).sum = 4 ∧
    (Assess [xorNamed]).Score ≠ ((Assess [xorNamed]).Details.map (fun e => e.2.Score)).sum := by
  refine ⟨by decide, by decide, by decide, by decide⟩
/-! ## What the candidates of the XOR scan consist of -/

theorem spans_empty (data : List Byte) : Re.SpansPrintable data .empty := by
  intro pos e he i h1 h2
  rw [Re.ends, List.mem_singleton] at he
  omega

theorem spans_cls (data : List Byte) (p : Nat → Bool)
    (hp : ∀ r, p r = true → printable r = true) : Re.SpansPrintable data (.cls p) := by
  intro pos e he i h1 h2 b hb
  obtain ⟨he1, b', hb', hpb⟩ :=
    cls_ends_low data p (fun r hr => printable_lt r (hp r hr)) pos e he
  have hi : i = pos := by omega
  rw [hi] at hb
  have hlt : pos < data.length := by
    by_contra hge
    rw [List.drop_eq_nil_of_le (by omega)] at hb'
    cases hb'
  rw [drop_eq_cons_of_lt hlt] at hb'
  rw [List.get?_eq_get hlt] at hb
  have e1 : data.get ⟨pos, hlt⟩ = b' := Option.some.inj hb'
  have e2 : data.get ⟨pos, hlt⟩ = b := Option.some.inj hb
  rw [← e2, e1]
  exact hp _ hpb

theorem spans_cat (data : List Byte) (a b : Re) (ha : Re.SpansPrintable data a)
    (hb : Re.SpansPrintable data b) : Re.SpansPrintable data (.cat a b) := by
  intro pos e he i h1 h2 x hx
  rw [Re.ends, List.mem_flatMap] at he
  obtain ⟨e1, he1, he2⟩ := he
  by_cases hlt : i < e1
  · exact ha pos e1 he1 i h1 hlt x hx
  · exact hb e1 e he2 i (by omega) h2 x hx

theorem spans_alt (data : List Byte) (a b : Re) (ha : Re.SpansPrintable data a)
    (hb : Re.SpansPrintable data b) : Re.SpansPrintable data (.alt a b) := by
  intro pos e he i h1 h2 x hx
  rw [Re.ends, List.mem_append] at he
  rcases he with h | h
  · exact ha pos e h i h1 h2 x hx
  · exact hb pos e h i h1 h2 x hx

theorem spans_starEnds (data : List Byte) (a : Re) (ha : Re.SpansPrintable data a) :
    ∀ (fuel pos e : Nat), e ∈ starEnds (fun q => a.ends data q) fuel pos →
      ∀ i, pos ≤ i → i < e → ∀ b, data.get? i = some b → printable b.val = true := by
  intro fuel
  induction fuel with
  | zero =>
    intro pos e he i h1 h2
    rw [starEnds, List.mem_singleton] at he
    omega
  | succ n ih =>
    intro pos e he i h1 h2 b hb
    rw [starEnds, List.mem_append, List.mem_flatMap] at he
    rcases he with ⟨e1, he1, he2⟩ | h
    · by_cases hlt : i < e1
      · exact ha pos e1 (List.mem_filter.mp he1).1 i h1 hlt b hb
      · exact ih e1 e he2 i (by omega) h2 b hb
    · rw [List.mem_singleton] at h
      omega

theorem spans_star (data : List Byte) (a : Re) (ha : Re.SpansPrintable data a) :
    Re.SpansPrintable data (.star a) := by
  intro pos e he
  rw [Re.ends] at he
  exact spans_starEnds data a ha _ pos e he

theorem spans_rep (data : List Byte) (a : Re) (ha : Re.SpansPrintable data a) :
    ∀ n, Re.SpansPrintable data (Re.rep a n) := by
  intro n
  induction n with
  | zero => exact spans_empty data
  | succ k ih => exact spans_cat data a _ ha ih

theorem spans_seq (data : List Byte) :
    ∀ (l : List Re), (∀ r ∈ l, Re.SpansPrintable data r) → Re.SpansPrintable data (Re.seq l) := by
  intro l
  induction l with
  | nil => intro _; exact spans_empty data
  | cons r rest ih =>
    intro h
    cases rest with
    | nil => exact h r (List.mem_cons_self _ _)
    | cons r2 rest2 =>
      exact spans_cat data r _ (h r (List.mem_cons_self _ _))
        (ih (fun x hx => h x (List.mem_cons_of_mem _ hx)))

theorem spans_lit (data : List Byte) (s : String)
    (hs : ∀ c ∈ s.toList, printable c.toNat = true) : Re.SpansPrintable data (lit s) := by
  unfold lit
  apply spans_seq
  intro r hr
  obtain ⟨c, hc, rfl⟩ := List.mem_map.mp hr
  apply spans_cls
  intro x hx
  have : x = c.toNat := by simpa using hx
  rw [this]
  exact hs c hc

theorem digitChar_printable :
    ∀ d, d < 10 → printable (Nat.digitChar d).toNat = true := by
  decide

theorem toDigitsCore_printable : ∀ (fuel n : Nat) (ds : List Char),
    (∀ c ∈ ds, printable c.toNat = true) →
    ∀ c ∈ Nat.toDigitsCore 10 fuel n ds, printable c.toNat = true := by
  intro fuel
  induction fuel with
  | zero => intro n ds h; simpa [Nat.toDigitsCore] using h
  | succ k ih =>
    intro n ds h c hc
    rw [Nat.toDigitsCore] at hc
    have hds : ∀ c ∈ Nat.digitChar (n % 10) :: ds, printable c.toNat = true := by
      intro c hc
      rcases List.mem_cons.mp hc with e | e
      · rw [e]; exact digitChar_printable _ (Nat.mod_lt _ (by norm_num))
      · exact h c e
    by_cases h0 : n / 10 = 0
    · simp only [h0, if_true] at hc
      exact hds c hc
    · simp only [h0, if_false] at hc
      exact ih _ _ hds c hc

theorem toString_nat_printable (n : Nat) :
    ∀ c ∈ (toString n).toList, printable c.toNat = true := by
  intro c hc
  have e : (toString n).toList = Nat.toDigits 10 n := rfl
  rw [e] at hc
  exact toDigitsCore_printable _ _ [] (fun _ h => by cases h) c hc

theorem toString_int_printable (n : Int) :
    ∀ c ∈ (toString n).toList, printable c.toNat = true := by
  intro c hc
  cases n with
  | ofNat m => exact toString_nat_printable m c hc
  | negSucc m =>
    have e : (toString (Int.negSucc m)).toList = '-' :: (toString (m + 1)).toList := rfl
    rw [e] at hc
    rcases List.mem_cons.mp hc with h | h
    · rw [h]; decide
    · exact toString_nat_printable _ c h

/-- Whatever the threshold, the matches of the ascii pattern span bytes of the
set `{0x09, 0x20..0x7e}` only. -/
theorem compileScan_ascii_spans (data : List Byte) (minLen : Int) (pat : Re)
    (hc : compileScan .ascii minLen = some pat) : Re.SpansPrintable data pat := by
  have hunit : Re.SpansPrintable data (Re.cls printable) := spans_cls data _ (fun _ h => h)
  unfold compileScan at hc
  by_cases h0 : minLen < 0
  · rw [if_pos h0] at hc
    cases hc
    refine spans_cat data _ _ hunit (spans_lit data _ ?_)
    intro c hc
    have e : ("\x7b" ++ toString minLen ++ ",\x7d").toList =
        '\x7b' :: ((toString minLen).toList ++ [',', '\x7d']) := by
      simp [String.toList]
    rw [e] at hc
    rcases List.mem_cons.mp hc with h | h
    · rw [h]; decide
    · rcases List.mem_append.mp h with h | h
      · exact toString_int_printable minLen c h
      · rcases List.mem_cons.mp h with h | h
        · rw [h]; decide
        · rw [List.mem_singleton.mp h]; decide
  · rw [if_neg h0] at hc
    split_ifs at hc
    cases hc
    exact spans_cat data _ _ (spans_rep data _ hunit _) (spans_star data _ hunit)

theorem mem_seg_get (data : List Byte) (o l : Nat) (b : Byte)
    (hb : b ∈ (data.drop o).take l) : ∃ i, o ≤ i ∧ i < o + l ∧ data.get? i = some b := by
  obtain ⟨n, hn⟩ := List.mem_iff_get?.mp hb
  rw [List.get?_eq_getElem?, List.getElem?_take] at hn
  by_cases hl : n < l
  · rw [if_pos hl, List.getElem?_drop] at hn
    exact ⟨o + n, by omega, by omega, by rw [List.get?_eq_getElem?]; exact hn⟩
  · rw [if_neg hl] at hn
    cases hn

theorem xorBuffer_mod (data : List Byte) (key : Nat) :
    xorBuffer data (key % 256) = xorBuffer data key := by
  unfold xorBuffer
  rw [Nat.mod_mod]

/-- C35: `xor.Bruteforce` returns for every threshold up to 1000, and for every
Candidate of its result the bytes of the buffer from the offset of the
Candidate, as many as its length, XOR-ed with its key, are its value; every
byte of the value is `0x09` or in `0x20..0x7e`; and the encoding is `ascii`. -/
theorem Bruteforce_candidates (data : List Byte) (minLen : Int) (sections : List SectionInfo) :
    (minLen ≤ 1000 → ∃ res, Bruteforce data minLen sections = some res) ∧
    ∀ res, Bruteforce data minLen sections = some res → ∀ r ∈ res,
      (∃ o : Nat, r.Offset = (o : Int) ∧ o + r.Length ≤ data.length ∧
        xorBuffer ((data.drop o).take r.Length) r.XorKey = r.Value) ∧
      (∀ b ∈ r.Value, b.val = 0x09 ∨ (0x20 ≤ b.val ∧ b.val ≤ 0x7e)) ∧
      r.Encoding = "ascii" := by
  refine ⟨?_, ?_⟩
  · intro hle
    by_cases h0 : minLen < 0
    · obtain ⟨res, h, _⟩ := Bruteforce_spec data minLen sections _
        (by unfold compileScan; rw [if_pos h0])
      exact ⟨res, h⟩
    · obtain ⟨res, h, _⟩ := Bruteforce_spec data minLen sections _
        (compileScan_ascii_int minLen (by omega) hle)
      exact ⟨res, h⟩
  · intro res hres r hmem
    obtain ⟨pat, hc⟩ := Bruteforce_some data minLen sections res hres
    obtain ⟨res', h', hall, _⟩ := Bruteforce_spec data minLen sections pat hc
    rw [hres] at h'
    cases h'
    obtain ⟨j, m, hj1, hj2, hm, hr, _⟩ := hall r hmem
    obtain ⟨hb1, hb2⟩ := FindAllIndex_bound (xorBuffer data j) pat m hm
    rw [xorBuffer_length] at hb2
    have hval : r.Value = xorBuffer ((data.drop m.1).take (m.2 - m.1)) j := by
      rw [hr]
      exact xorBuffer_seg data j m.1 (m.2 - m.1)
    have hlen : r.Length = m.2 - m.1 := by
      rw [hr]
      show (((xorBuffer data j).drop m.1).take (m.2 - m.1)).length = _
      rw [length_take_drop _ _ _ hb1 (by rw [xorBuffer_length]; exact hb2)]
    have hkey : r.XorKey = j % 256 := by rw [hr]; rfl
    refine ⟨⟨m.1, by rw [hr]; rfl, by omega, ?_⟩, ?_, by rw [hr]; rfl⟩
    · rw [hlen, hkey, xorBuffer_mod, hval]
    · intro b hb
      have hsp := compileScan_ascii_spans (xorBuffer data j) minLen pat hc
      have hb' : b ∈ ((xorBuffer data j).drop m.1).take (m.2 - m.1) := by
        rw [hr] at hb; exact hb
      obtain ⟨i, hi1, hi2, hget⟩ := mem_seg_get _ _ _ _ hb'
      have hp := hsp m.1 m.2 (FindAllIndex_mem_ends _ pat m hm) i hi1 (by omega) b hget
      unfold printable rng at hp
      simp only [Bool.or_eq_true, Bool.and_eq_true, decide_eq_true_eq] at hp
      omega

/-- C35, an instance: the text `password=admin123`, XOR-ed with `0x42` and
between two bytes `0x42`, gives a Candidate, and the Candidates of that scan
have the three properties. -/
theorem Bruteforce_candidates_witness :
    ∃ res, Bruteforce ([0x42] ++ secretXored ++ [0x42]) 6 [] = some res ∧
      (∃ r ∈ res, r.Value = secretText) ∧
      ∀ r ∈ res,
        (∃ o : Nat, r.Offset = (o : Int) ∧
          o + r.Length ≤ ([0x42] ++ secretXored ++ [0x42] : List Byte).length ∧
          xorBuffer ((([0x42] ++ secretXored ++ [0x42] : List Byte).drop o).take r.Length)
            r.XorKey = r.Value) ∧
        (∀ b ∈ r.Value, b.val = 0x09 ∨ (0x20 ≤ b.val ∧ b.val ≤ 0x7e)) ∧
        r.Encoding = "ascii" := by
  obtain ⟨res, h, r, hr, _, _, hv, _⟩ := xorStage_secret_aux [0x42] [0x42] 6 [] (by decide)
    (fun x h => by cases h; decide) (fun x h => by cases h; decide) (by decide)
  rw [xorStage_eq] at h
  exact ⟨res, h, ⟨r, hr, hv⟩,
    (Bruteforce_candidates ([0x42] ++ secretXored ++ [0x42]) 6 []).2 res h⟩
/-! ## The comparison of two results -/

theorem strLess_irrefl : ∀ a : List Byte, strLess a a = false := by
  intro a
  induction a with
  | nil => rfl
  | cons x rest ih => simp [strLess, ih]

theorem strLess_trans : ∀ a b c : List Byte,
    strLess a b = true → strLess b c = true → strLess a c = true := by
  intro a
  induction a with
  | nil =>
    intro b c h1 h2
    cases b with
    | nil => simp [strLess] at h1
    | cons y bs =>
      cases c with
      | nil => simp [strLess] at h2
      | cons z cs => rfl
  | cons x as ih =>
    intro b c h1 h2
    cases b with
    | nil => simp [strLess] at h1
    | cons y bs =>
      cases c with
      | nil => simp [strLess] at h2
      | cons z cs =>
        simp only [strLess, Bool.or_eq_true, Bool.and_eq_true, decide_eq_true_eq] at h1 h2 ⊢
        rcases h1 with h1 | ⟨e1, l1⟩
        · rcases h2 with h2 | ⟨e2, _⟩
          · exact Or.inl (by omega)
          · exact Or.inl (by omega)
        · rcases h2 with h2 | ⟨e2, l2⟩
          · exact Or.inl (by omega)
          · exact Or.inr ⟨by omega, ih bs cs l1 l2⟩

theorem strLess_total : ∀ a b : List Byte,
    strLess a b = true ∨ a = b ∨ strLess b a = true := by
  intro a
  induction a with
  | nil =>
    intro b
    cases b with
    | nil => exact Or.inr (Or.inl rfl)
    | cons y bs => exact Or.inl rfl
  | cons x as ih =>
    intro b
    cases b with
    | nil => exact Or.inr (Or.inr rfl)
    | cons y bs =>
      simp only [strLess, Bool.or_eq_true, Bool.and_eq_true, decide_eq_true_eq]
      rcases Nat.lt_trichotomy x.val y.val with h | h | h
      · exact Or.inl (Or.inl h)
      · rcases ih bs with h2 | h2 | h2
        · exact Or.inl (Or.inr ⟨h, h2⟩)
        · exact Or.inr (Or.inl (by rw [Fin.ext h, h2]))
        · exact Or.inr (Or.inr (Or.inr ⟨h.symm, h2⟩))
      · exact Or.inr (Or.inr (Or.inl h))

theorem strLess_asymm (a b : List Byte) (h : strLess a b = true) : strLess b a = false := by
  cases hb : strLess b a with
  | false => rfl
  | true =>
    have := strLess_trans a b a h hb
    rw [strLess_irrefl] at this
    cases this

theorem strLe_total (a b : List Byte) : strLess b a = false ∨ strLess a b = false := by
  cases h : strLess b a with
  | false => exact Or.inl rfl
  | true => exact Or.inr (strLess_asymm b a h)

theorem strLe_trans (a b c : List Byte) (h1 : strLess b a = false) (h2 : strLess c b = false) :
    strLess c a = false := by
  cases h : strLess c a with
  | false => rfl
  | true =>
    rcases strLess_total a b with h3 | h3 | h3
    · rw [strLess_trans c a b h h3] at h2; cases h2
    · rw [← h3, h] at h2; cases h2
    · rw [h3] at h1; cases h1

theorem strLe_antisymm (a b : List Byte) (h1 : strLess b a = false) (h2 : strLess a b = false) :
    a = b := by
  rcases strLess_total a b with h3 | h3 | h3
  · rw [h3] at h2; cases h2
  · exact h3
  · rw [h3] at h1; cases h1

theorem sortStrings_perm (l : List (List Byte)) : (sortStrings l).Perm l :=
  List.perm_insertionSort _ l

theorem sortStrings_sorted (l : List (List Byte)) :
    (sortStrings l).Pairwise (fun a b => strLess b a = false) :=
  @List.sorted_insertionSort _ (fun a b => strLess b a = false) _
    ⟨strLe_total⟩ ⟨strLe_trans⟩ l

/-- A duplicate-free list, sorted, is strictly ascending. -/
theorem sortStrings_strict (l : List (List Byte)) (hl : l.Nodup) :
    (sortStrings l).Pairwise (fun a b => strLess a b = true) := by
  have h1 := sortStrings_sorted l
  have h2 : (sortStrings l).Pairwise (fun a b => a ≠ b) := (sortStrings_perm l).nodup_iff.mpr hl
  refine (h1.and h2).imp ?_
  intro a b h
  rcases strLess_total a b with h3 | h3 | h3
  · exact h3
  · exact absurd h3 h.2
  · rw [h3] at h; cases h.1

/-- The sorted list is the same for the lists with the same elements. -/
theorem sortStrings_congr (l1 l2 : List (List Byte)) (h : l1.Perm l2) :
    sortStrings l1 = sortStrings l2 :=
  @List.eq_of_perm_of_sorted _ (fun a b => strLess b a = false) ⟨strLe_antisymm⟩ _ _
    (((sortStrings_perm l1).trans h).trans (sortStrings_perm l2).symm)
    (sortStrings_sorted l1) (sortStrings_sorted l2)

theorem setKey_spec (v : List Byte) (m : List (List Byte)) (hm : m.Nodup) :
    (setKey v m).Nodup ∧ ∀ s, s ∈ setKey v m ↔ s ∈ m ∨ s = v := by
  unfold setKey
  by_cases h : v ∈ m
  · rw [if_pos h]
    refine ⟨hm, fun s => ⟨Or.inl, ?_⟩⟩
    rintro (h2 | h2)
    · exact h2
    · rw [h2]; exact h
  · rw [if_neg h]
    refine ⟨?_, fun s => by simp⟩
    rw [List.nodup_append]
    refine ⟨hm, List.nodup_singleton _, ?_⟩
    intro x hx hx2
    rw [List.mem_singleton] at hx2
    exact h (hx2 ▸ hx)

theorem foldl_setKey (rs : List StringResult) : ∀ (m : List (List Byte)), m.Nodup →
    (rs.foldl (fun m r => setKey r.Value m) m).Nodup ∧
    ∀ s, s ∈ rs.foldl (fun m r => setKey r.Value m) m ↔
      s ∈ m ∨ s ∈ rs.map (fun r => r.Value) := by
  induction rs with
  | nil => intro m hm; simp [hm]
  | cons r rest ih =>
    intro m hm
    obtain ⟨h1, h2⟩ := setKey_spec r.Value m hm
    obtain ⟨h3, h4⟩ := ih _ h1
    rw [List.foldl_cons]
    refine ⟨h3, fun s => ?_⟩
    rw [h4, h2, List.map_cons, List.mem_cons]
    tauto

/-- The set of the values: its keys are distinct and are the values. -/
theorem valueSet_spec (rs : List StringResult) :
    (valueSet rs).Nodup ∧ ∀ s, s ∈ valueSet rs ↔ s ∈ rs.map (fun r => r.Value) := by
  obtain ⟨h1, h2⟩ := foldl_setKey rs [] List.nodup_nil
  exact ⟨h1, fun s => by rw [valueSet, h2]; simp⟩

theorem countP_mem_card (l m : List (List Byte)) (hl : l.Nodup) :
    l.countP (fun s => decide (s ∈ m)) = (l.toFinset ∩ m.toFinset).card := by
  rw [List.countP_eq_length_filter, ← List.toFinset_card_of_nodup (hl.filter _)]
  congr 1
  ext s
  simp

theorem filter_not_mem_card (l m : List (List Byte)) (hl : l.Nodup) :
    (l.filter (fun s => decide (s ∉ m))).length = (l.toFinset \ m.toFinset).card := by
  rw [← List.toFinset_card_of_nodup (hl.filter _)]
  congr 1
  ext s
  simp

theorem CompareIn_congr (a1 a2 b1 b2 : List (List Byte)) (ha : a1.Perm a2) (hb : b1.Perm b2) :
    CompareIn a1 b1 = CompareIn a2 b2 := by
  unfold CompareIn
  have e1 : (fun s => decide (s ∉ b1)) = (fun s => decide (s ∉ b2)) := by
    funext s; exact decide_eq_decide.mpr (by rw [hb.mem_iff])
  have e2 : (fun s => decide (s ∉ a1)) = (fun s => decide (s ∉ a2)) := by
    funext s; exact decide_eq_decide.mpr (by rw [ha.mem_iff])
  have e3 : (fun s => decide (s ∈ b1)) = (fun s => decide (s ∈ b2)) := by
    funext s; exact decide_eq_decide.mpr (by rw [hb.mem_iff])
  rw [e1, e2, e3, sortStrings_congr _ _ (ha.filter _), sortStrings_congr _ _ (hb.filter _),
    ha.countP_eq]

/-- C32: whatever the orders in which the two sets are traversed, `diff.Compare`
returns as `OnlyA` the strictly ascending list of the values of `a` that are
not values of `b`, as `OnlyB` the same with the roles exchanged, and as
`Common` the number of distinct values that are in both; the length of `OnlyA`
plus `Common` is the number of distinct values of `a`; and exchanging the
arguments exchanges `OnlyA` and `OnlyB` and keeps `Common`. -/
theorem Compare_spec (a b : List StringResult) (travA travB : List (List Byte))
    (hA : travA.Perm (valueSet a)) (hB : travB.Perm (valueSet b)) :
    CompareIn travA travB = Compare a b ∧
    (Compare a b).OnlyA.Pairwise (fun x y => strLess x y = true) ∧
    (∀ s, s ∈ (Compare a b).OnlyA ↔
      s ∈ a.map (fun r => r.Value) ∧ s ∉ b.map (fun r => r.Value)) ∧
    (Compare a b).OnlyB.Pairwise (fun x y => strLess x y = true) ∧
    (∀ s, s ∈ (Compare a b).OnlyB ↔
      s ∈ b.map (fun r => r.Value) ∧ s ∉ a.map (fun r => r.Value)) ∧
    (Compare a b).Common =
      ((a.map (fun r => r.Value)).toFinset ∩ (b.map (fun r => r.Value)).toFinset).card ∧
    (Compare a b).OnlyA.length + (Compare a b).Common =
      (a.map (fun r => r.Value)).toFinset.card ∧
    CompareIn travB travA =
      { OnlyA := (Compare a b).OnlyB, OnlyB := (Compare a b).OnlyA,
        Common := (Compare a b).Common } := by
  obtain ⟨na, ma⟩ := valueSet_spec a
  obtain ⟨nb, mb⟩ := valueSet_spec b
  have fa : (valueSet a).toFinset = (a.map (fun r => r.Value)).toFinset := by
    ext s; simp only [List.mem_toFinset]; exact ma s
  have fb : (valueSet b).toFinset = (b.map (fun r => r.Value)).toFinset := by
    ext s; simp only [List.mem_toFinset]; exact mb s
  have hcommon : (Compare a b).Common =
      ((a.map (fun r => r.Value)).toFinset ∩ (b.map (fun r => r.Value)).toFinset).card := by
    show (valueSet a).countP (fun s => decide (s ∈ valueSet b)) = _
    rw [countP_mem_card _ _ na, fa, fb]
  have hmemA : ∀ s, s ∈ (Compare a b).OnlyA ↔
      s ∈ a.map (fun r => r.Value) ∧ s ∉ b.map (fun r => r.Value) := by
    intro s
    show s ∈ sortStrings _ ↔ _
    rw [(sortStrings_perm _).mem_iff, List.mem_filter, ma, decide_eq_true_eq, mb]
  have hmemB : ∀ s, s ∈ (Compare a b).OnlyB ↔
      s ∈ b.map (fun r => r.Value) ∧ s ∉ a.map (fun r => r.Value) := by
    intro s
    show s ∈ sortStrings _ ↔ _
    rw [(sortStrings_perm _).mem_iff, List.mem_filter, mb, decide_eq_true_eq, ma]
  refine ⟨CompareIn_congr _ _ _ _ hA hB, sortStrings_strict _ (na.filter _), hmemA,
    sortStrings_strict _ (nb.filter _), hmemB, hcommon, ?_, ?_⟩
  · rw [hcommon]
    show (sortStrings _).length + _ = _
    rw [(sortStrings_perm _).length_eq, filter_not_mem_card _ _ na, fa, fb,
      Finset.card_sdiff_add_card_inter]
  · rw [CompareIn_congr _ _ _ _ hB hA]
    have hc : (valueSet b).countP (fun s => decide (s ∈ valueSet a)) =
        (valueSet a).countP (fun s => decide (s ∈ valueSet b)) := by
      rw [countP_mem_card _ _ nb, countP_mem_card _ _ na, Finset.inter_comm]
    unfold Compare CompareIn
    dsimp only
    rw [hc]

/-- C32, an instance: for the values `b a b c` and `c d` the result is
`OnlyA = [a, b]`, `OnlyB = [d]`, `Common = 1`, in both orders of traversal of
the first set. -/
theorem Compare_spec_witness :
    Compare [rawResult "b", rawResult "a", rawResult "b", rawResult "c"]
        [rawResult "c", rawResult "d"] =
      { OnlyA := [str "a", str "b"], OnlyB := [str "d"], Common := 1 } ∧
    CompareIn [str "c", str "a", str "b"] [str "d", str "c"] =
      Compare [rawResult "b", rawResult "a", rawResult "b", rawResult "c"]
        [rawResult "c", rawResult "d"] :=
  ⟨by decide,
    (Compare_spec [rawResult "b", rawResult "a", rawResult "b", rawResult "c"]
      [rawResult "c", rawResult "d"] [str "c", str "a", str "b"] [str "d", str "c"]
      (by decide) (by decide)).1⟩
/-! ## The printing of a comparison -/

/-- C37 fails in the code: `diff.Print` panics for every result, every pair of
file names and both colour settings, since its first call, `fmt.Fprintf` with a
nil writer, panics, before anything is written. -/
theorem Print_panics (d : DiffResult) (fileA fileB : List Byte) (color : Bool) :
    Print d fileA fileB color = none := rfl

set_option maxRecDepth 100000 in
/-- C37, the failing input: the empty result, the file names `a` and `b`, no
colour; the statements after the call would have written the table. -/
theorem Print_failing_input :
    Print { OnlyA := [], OnlyB := [], Common := 0 } (str "a") (str "b") false = none ∧
    printBody { OnlyA := [], OnlyB := [], Common := 0 } (Base (str "a")) (Base (str "b")) false =
      str ("\n  DIFF RESULTS\n  ======================================================\n" ++
        "  Common:                      0\n  Only in a           :      0\n" ++
        "  Only in b           :      0\n" ++
        "  ======================================================\n") := by
  refine ⟨rfl, by decide⟩
/-! ## The merging of the scans -/

theorem mergeScan_cons (dedup : Bool) (only : Option (List String)) (r : StringResult)
    (rest : List StringResult) (st : List StringResult × List (List Byte)) :
    mergeScan dedup only (r :: rest) st =
      if dedup = true ∧ r.Value ∈ st.2 then mergeScan dedup only rest st
      else if accepted only r = true then
        mergeScan dedup only rest (st.1 ++ [r], setKey r.Value st.2)
      else mergeScan dedup only rest st := by
  cases only with
  | none => simp [mergeScan, accepted]
  | some cats =>
    cases h : matchOnly r cats <;> simp [mergeScan, accepted, h]

theorem mergeScan_eq (dedup : Bool) (only : Option (List String)) :
    ∀ (rs : List StringResult) (st : List StringResult × List (List Byte)),
      mergeScan dedup only rs st = mergeDecoded dedup (rs.filter (accepted only)) st := by
  intro rs
  induction rs with
  | nil => intro st; rfl
  | cons r rest ih =>
    intro st
    rw [mergeScan_cons]
    by_cases hacc : accepted only r = true
    · rw [List.filter_cons_of_pos hacc, mergeDecoded, if_pos hacc, ih, ih]
    · rw [List.filter_cons_of_neg hacc, if_neg hacc, ih]
      simp

theorem mergeDecoded_append (dedup : Bool) :
    ∀ (a b : List StringResult) (st : List StringResult × List (List Byte)),
      mergeDecoded dedup (a ++ b) st = mergeDecoded dedup b (mergeDecoded dedup a st) := by
  intro a
  induction a with
  | nil => intro b st; rfl
  | cons r rest ih =>
    intro b st
    rw [List.cons_append, mergeDecoded, mergeDecoded]
    by_cases hseen : dedup = true ∧ r.Value ∈ st.2
    · rw [if_pos hseen, if_pos hseen, ih]
    · rw [if_neg hseen, if_neg hseen, ih]

theorem mergeDecoded_false :
    ∀ (rs : List StringResult) (st : List StringResult × List (List Byte)),
      (mergeDecoded false rs st).1 = st.1 ++ rs := by
  intro rs
  induction rs with
  | nil => intro st; simp [mergeDecoded]
  | cons r rest ih =>
    intro st
    rw [mergeDecoded, if_neg (by simp), ih]
    simp

/-- What the loop with the test of `seen` keeps: it adds a part of the list, in
its order, with values that are new and distinct, and the first Candidate of
each new value is in it. -/
theorem mergeDecoded_true :
    ∀ (rs : List StringResult) (st : List StringResult × List (List Byte)),
      (∀ v, v ∈ st.2 ↔ v ∈ st.1.map (fun r => r.Value)) →
      (st.1.map (fun r => r.Value)).Nodup →
      ∃ kept, (mergeDecoded true rs st).1 = st.1 ++ kept ∧ kept.Sublist rs ∧
        ((st.1 ++ kept).map (fun r => r.Value)).Nodup ∧
        (∀ v, v ∈ (mergeDecoded true rs st).2 ↔ v ∈ (st.1 ++ kept).map (fun r => r.Value)) ∧
        ∀ pre r post, rs = pre ++ r :: post → r.Value ∉ st.1.map (fun r => r.Value) →
          r.Value ∉ pre.map (fun r => r.Value) → r ∈ kept := by
  intro rs
  induction rs with
  | nil =>
    intro st hseen hnd
    refine ⟨[], by simp [mergeDecoded], List.Sublist.refl _, by simpa using hnd,
      by simpa [mergeDecoded] using hseen, ?_⟩
    intro pre r post h
    cases pre <;> cases h
  | cons x rest ih =>
    intro st hseen hnd
    rw [mergeDecoded]
    by_cases hx : x.Value ∈ st.2
    · rw [if_pos ⟨rfl, hx⟩]
      obtain ⟨kept, h1, h2, h3, h4, h5⟩ := ih st hseen hnd
      refine ⟨kept, h1, h2.cons x, h3, h4, ?_⟩
      intro pre r post h hr1 hr2
      cases pre with
      | nil =>
        rw [List.nil_append] at h
        injection h with h h'
        rw [← h] at hr1
        exact absurd ((hseen _).mp hx) hr1
      | cons y pre2 =>
        rw [List.cons_append] at h
        injection h with h h'
        refine h5 pre2 r post h' hr1 ?_
        intro hmem
        exact hr2 (by rw [List.map_cons]; exact List.mem_cons_of_mem _ hmem)
    · rw [if_neg (fun h => hx h.2)]
      have hx2 : x.Value ∉ st.1.map (fun r => r.Value) := fun h => hx ((hseen _).mpr h)
      have hseen2 : ∀ v, v ∈ setKey x.Value st.2 ↔
          v ∈ (st.1 ++ [x]).map (fun r => r.Value) := by
        intro v
        unfold setKey
        rw [if_neg hx, List.mem_append, List.map_append, List.mem_append, hseen v]
        simp
      have hnd2 : ((st.1 ++ [x]).map (fun r => r.Value)).Nodup := by
        rw [List.map_append, List.nodup_append]
        refine ⟨hnd, List.nodup_singleton _, ?_⟩
        intro v hv hv2
        have : v = x.Value := by simpa using hv2
        exact hx2 (this ▸ hv)
      obtain ⟨kept, h1, h2, h3, h4, h5⟩ := ih (st.1 ++ [x], setKey x.Value st.2) hseen2 hnd2
      refine ⟨x :: kept, ?_, h2.cons₂ x, ?_, ?_, ?_⟩
      · rw [h1]; simp
      · have e : st.1 ++ x :: kept = (st.1 ++ [x]) ++ kept := by simp
        rw [e]; exact h3
      · intro v
        have e : st.1 ++ x :: kept = (st.1 ++ [x]) ++ kept := by simp
        rw [e]; exact h4 v
      · intro pre r post h hr1 hr2
        cases pre with
        | nil =>
          rw [List.nil_append] at h
          injection h with h h'
          rw [h]
          exact List.mem_cons_self _ _
        | cons y pre2 =>
          rw [List.cons_append] at h
          injection h with h h'
          rw [List.map_cons, List.mem_cons, not_or] at hr2
          refine List.mem_cons_of_mem _ (h5 pre2 r post h' ?_ hr2.2)
          intro hmem
          rw [List.map_append, List.mem_append] at hmem
          rcases hmem with hm | hm
          · exact hr1 hm
          · have : r.Value = x.Value := by simpa using hm
            exact hr2.1 (h ▸ this)

theorem scanLoop_eq (o : Options) (data : List Byte) (sections : List SectionInfo) :
    ∀ (encs : List Encoding) (st : List StringResult × List (List Byte)),
      scanLoop o data sections encs st =
        (rawAccepted o data sections encs).map (fun raw => mergeDecoded o.dedup raw st) := by
  intro encs
  induction encs with
  | nil => intro st; rfl
  | cons enc rest ih =>
    intro st
    rw [scanLoop, rawAccepted]
    cases scanner.Extract data o.minLength enc sections o.filterPat o.context with
    | none => rfl
    | some results =>
      simp only [Option.bind_eq_bind, Option.some_bind]
      rw [ih, mergeScan_eq]
      cases rawAccepted o data sections rest with
      | none => rfl
      | some tail =>
        simp only [Option.some_bind, Option.map_some']
        rw [mergeDecoded_append]

/-- `processFile` is the loop with the test of `seen` over the Candidates in
pipeline order. -/
theorem processFile_eq (o : Options) (data : List Byte) (sections : List SectionInfo) :
    processFile o data sections =
      (pipelineOrder o data sections).map (fun L => (mergeDecoded o.dedup L ([], [])).1) := by
  unfold processFile pipelineOrder
  rw [scanLoop_eq]
  cases rawAccepted o data sections o.encodings with
  | none => rfl
  | some raw =>
    cases o.base64Flag <;> cases o.xorFlag <;>
      cases base64dec.Extract data o.minLength sections <;>
      cases xorStage data o.minLength sections <;>
      simp [mergeDecoded_append]

/-- C33, amended: `processFile` returns when every requested scan returns, and
its result is made from the Candidates in pipeline order, which are the ones
of the scans of the requested encodings, in order, that pass the only filter
(all of them when there is no only-set), then the ones of the Base64 stage,
then the ones of the XOR stage.  Without dedup the result is that list.  With
dedup it is a part of the list in the same order, no two of its Candidates
have the same value, and the first Candidate of the list with a value is in
it. -/
theorem processFile_merge (o : Options) (data : List Byte) (sections : List SectionInfo) :
    (pipelineOrder o data sections = none → processFile o data sections = none) ∧
    ∀ L, pipelineOrder o data sections = some L →
      ∃ res, processFile o data sections = some res ∧
        (o.dedup = false → res = L) ∧
        (o.dedup = true → res.Sublist L ∧ (res.map (fun r => r.Value)).Nodup ∧
          ∀ pre r post, L = pre ++ r :: post → r.Value ∉ pre.map (fun r => r.Value) →
            r ∈ res) := by
  refine ⟨fun h => by rw [processFile_eq, h]; rfl, ?_⟩
  intro L hL
  refine ⟨(mergeDecoded o.dedup L ([], [])).1, by rw [processFile_eq, hL]; rfl, ?_, ?_⟩
  · intro hd
    rw [hd, mergeDecoded_false]
    rfl
  · intro hd
    rw [hd]
    obtain ⟨kept, h1, h2, h3, _, h5⟩ := mergeDecoded_true L ([], [])
      (fun v => by simp) (by simp)
    rw [h1]
    refine ⟨by simpa using h2, h3, ?_⟩
    intro pre r post h hr
    simpa using h5 pre r post h (by simp) hr

set_option maxRecDepth 100000 in
/-- C33, an instance: for the file `hello` and the four encodings, the ascii and
the utf-8 scan both give the value `hello`; without dedup both Candidates are
in the result, with dedup the one of the ascii scan. -/
theorem processFile_merge_witness :
    (processFile (allEncodings false) (str "hello") []).map
        (fun rs => rs.map (fun r => (r.Value, r.Encoding))) =
      some [(str "hello", "ascii"), (str "hello", "utf-8")] ∧
    (processFile (allEncodings true) (str "hello") []).map
        (fun rs => rs.map (fun r => (r.Value, r.Encoding))) =
      some [(str "hello", "ascii")] ∧
    (pipelineOrder (allEncodings false) (str "hello") [] = none →
      processFile (allEncodings false) (str "hello") [] = none) :=
  ⟨by decide, by decide, (processFile_merge (allEncodings false) (str "hello") []).1⟩

set_option maxRecDepth 100000 in
/-- C33 as stated fails: without dedup and with the only-set `urls`, the ascii
scan of the file `hello world` gives a Candidate and the merged result is
empty (the options are `-n 4 -e ascii -only urls`). -/
theorem processFile_merge_counterexample :
    (scanner.Extract (str "hello world") 4 .ascii [] none false).map
        (fun rs => rs.map (fun r => r.Value)) = some [str "hello world"] ∧
    (processFile { onlyUrlsBase64 with base64Flag := false } (str "hello world") []).map (fun rs => rs.map (fun r => r.Value)) = some [] := by
  refine ⟨by decide, by decide⟩
/-! ## The only filter and the decoded stages -/

theorem rawAccepted_accepted (o : Options) (data : List Byte) (sections : List SectionInfo) :
    ∀ (encs : List Encoding) (raw : List StringResult),
      rawAccepted o data sections encs = some raw →
      ∀ r ∈ raw, accepted o.onlyCats r = true := by
  intro encs
  induction encs with
  | nil =>
    intro raw h r hr
    cases h
    cases hr
  | cons enc rest ih =>
    intro raw h r hr
    rw [rawAccepted] at h
    cases he : scanner.Extract data o.minLength enc sections o.filterPat o.context with
    | none => rw [he] at h; cases h
    | some results =>
      cases ht : rawAccepted o data sections rest with
      | none => rw [he, ht] at h; cases h
      | some tail =>
        rw [he, ht] at h
        cases h
        rcases List.mem_append.mp hr with h1 | h1
        · exact (List.mem_filter.mp h1).2
        · exact ih tail ht r h1

set_option maxRecDepth 100000 in
/-- C36 fails in the code: with the options `-n 4 -e ascii -only urls -base64`
and the file `aGVsbG8gd29ybGQgMTIz`, the result of `processFile` is the one
Candidate `hello world 123` of the Base64 stage, whose one category is
`general` and whose API group is empty, so that `matchOnly` is false for it.
The test of the only-set is made in the loop over the scans of the encodings,
where every Candidate that is kept passes it, and in no other loop. -/
theorem processFile_only_bypassed :
    (processFile onlyUrlsBase64 (str "aGVsbG8gd29ybGQgMTIz") []).map
        (fun rs => rs.map (fun r => (r.Value, r.Source))) =
      some [(str "hello world 123", "base64")] ∧
    (processFile onlyUrlsBase64 (str "aGVsbG8gd29ybGQgMTIz") []).map
        (fun rs => rs.map (fun r => (r.Categories, r.SuspiciousGroup))) =
      some [(["general"], "")] ∧
    (processFile onlyUrlsBase64 (str "aGVsbG8gd29ybGQgMTIz") []).map
        (fun rs => rs.map (fun r => matchOnly r ["url"])) = some [false] ∧
    (∀ (o : Options) (data : List Byte) (sections : List SectionInfo) (cats : List String)
        (raw : List StringResult), o.onlyCats = some cats →
      rawAccepted o data sections o.encodings = some raw →
      ∀ r ∈ raw, matchOnly r cats = true) := by
  refine ⟨by decide, by decide, by decide, ?_⟩
  intro o data sections cats raw hc hraw r hr
  have h := rawAccepted_accepted o data sections o.encodings raw hraw r hr
  rw [hc] at h
  exact h

end Strings
